import Mathlib

/-!
# k8s-promoter: change inference, cluster configuration and promotion

A shallow embedding of the parts of `form3tech-oss/k8s-promoter` that turn a git diff
into workload changes and read the source commits of a commit message (`internal/detect`),
evaluate workload exclusions, group clusters and detect new clusters (`internal/clusterconf`),
apply the changes cluster by cluster and build the pull request (`internal/promoter`,
`internal/promotion`), copy and hash directories of the worktree (`internal/filesystem`) and
write the kustomization of a cluster and the configuration of a new cluster
(`internal/kustomization`). A whole run of `Promoter.Promote` is modelled over a worktree
state together with the trace of the calls that reach the repository and the hosting service;
it reads the commit range (`internal/git`), the workload registry and the assignees of a pull
request (`internal/github`).

Go strings are Lean `String`s; Go `error` values are inductive types whose constructors
are the sentinel errors that the code tests with `errors.Is`; functions returning
`(T, error)` return `Except`. The worktree is the in-memory filesystem of `go-billy`, a
storage of files and directories keyed by their cleaned absolute paths.
-/

namespace K8sPromoter

/-! ## Go standard library: `strings` and `path/filepath` (unix) -/

/-- Go `strings.Split(s, "/")`: the segments between slashes; `[""]` for the empty string. -/
def splitSlash (s : String) : List String :=
  (s.toList.splitOn '/').map String.mk

/-- Go `strings.HasPrefix(s, pre)`. -/
def hasPrefix (s pre : String) : Bool :=
  pre.toList.isPrefixOf s.toList

/-- Go `strings.Join(elems, "/")`. -/
def joinSlash : List String → String
  | [] => ""
  | [a] => a
  | a :: rest => a ++ "/" ++ joinSlash rest

/-- The segment pass of Go `filepath.Clean`: drops empty and `.` segments and resolves `..`
against the segment before it; `acc` is the output so far, last segment first. A leading
`..` is kept on a relative path and dropped on a rooted one. -/
def cleanSegments (rooted : Bool) : List String → List String → List String
  | acc, [] => acc.reverse
  | acc, seg :: rest =>
    if seg = "" ∨ seg = "." then cleanSegments rooted acc rest
    else if seg = ".." then
      match acc with
      | top :: acc' =>
        if top = ".." then cleanSegments rooted (".." :: acc) rest
        else cleanSegments rooted acc' rest
      | [] => if rooted then cleanSegments rooted [] rest else cleanSegments rooted [".."] rest
    else cleanSegments rooted (seg :: acc) rest

/-- Go `filepath.Clean` on a unix path. -/
def filepathClean (path : String) : String :=
  if path = "" then "."
  else
    let rooted := hasPrefix path "/"
    let out := (if rooted then "/" else "") ++ joinSlash (cleanSegments rooted [] (splitSlash path))
    if out = "" then "." else out

/-- Go `filepath.Join`: leading empty elements are skipped, the rest is joined with `/`
and cleaned; the empty string when every element is empty. -/
def filepathJoin : List String → String
  | [] => ""
  | e :: rest => if e = "" then filepathJoin rest else filepathClean (joinSlash (e :: rest))

/-- Equality of `Except` values is decidable when it is for errors and results. -/
instance instDecidableEqExcept {ε α : Type} [DecidableEq ε] [DecidableEq α] :
    DecidableEq (Except ε α)
  | .ok a, .ok b =>
    if h : a = b then isTrue (by rw [h]) else isFalse (by intro h1; cases h1; exact h rfl)
  | .error a, .error b =>
    if h : a = b then isTrue (by rw [h]) else isFalse (by intro h1; cases h1; exact h rfl)
  | .ok _, .error _ => isFalse (by intro h; cases h)
  | .error _, .ok _ => isFalse (by intro h; cases h)

/-! ## Go maps -/

/-- A Go `map[string]β`, as the list of its entries; `get?` and `set` keep the keys distinct. -/
abbrev GoMap (β : Type) := List (String × β)

/-- Go `v, ok := m[k]`. -/
def GoMap.get? {β : Type} (m : GoMap β) (k : String) : Option β :=
  match m with
  | [] => none
  | (k₁, v) :: rest => if k₁ = k then some v else GoMap.get? rest k

/-- Go `m[k] = v`. -/
def GoMap.set {β : Type} (m : GoMap β) (k : String) (v : β) : GoMap β :=
  match m with
  | [] => [(k, v)]
  | (k₁, v₁) :: rest => if k₁ = k then (k, v) :: rest else (k₁, v₁) :: GoMap.set rest k v

/-! ## `internal/environment` -/

namespace environment

/-- Go `type Env string`. -/
abbrev Env := String

def None : Env := "no environment"
def SourceManifest : Env := "manifests"
def Development : Env := "development"
def Test : Env := "test"
def Production : Env := "production"

/-- Go `Env.ManifestSource`; `none` stands for the error wrapping `ErrUnknownEnvironment`. -/
def ManifestSource (e : Env) : Option Env :=
  if e = Production then some Test
  else if e = Test then some Development
  else if e = Development then some SourceManifest
  else none

end environment

/-! ## `internal/clusterconf` -/

namespace clusterconf

/-- Go `type Labels map[string]string`: the entries of the map, no key twice. -/
structure Labels where
  entries : List (String × String)
  nodupKeys : (entries.map Prod.fst).Nodup

/-- Go `v, ok := labels[k]`. -/
def Labels.get? (l : Labels) (k : String) : Option String :=
  GoMap.get? l.entries k

structure ClusterMetadata where
  Name : String
  Description : String
  Labels : Labels

structure ClusterSpec where
  ManifestFolder : String
  ConfigFolder : String

/-- Go `clusterconf.Cluster`. -/
structure Cluster where
  Version : String
  ConfigType : String
  Metadata : ClusterMetadata
  Spec : ClusterSpec

/-- Go `type Operator string`. -/
abbrev Operator := String

def OperatorNotEqual : Operator := "NotEqual"
def OperatorEqual : Operator := "Equal"

/-- Go `clusterconf.Exclusion`. -/
structure Exclusion where
  Key : String
  Operator : Operator
  Value : String
  deriving DecidableEq, Repr

structure WorkloadMetadata where
  Name : String
  Description : String
  deriving DecidableEq, Repr

structure WorkloadSpec where
  Exclusions : List Exclusion
  deriving DecidableEq, Repr

/-- Go `clusterconf.Workload`: the configuration of a workload. -/
structure Workload where
  Version : String
  ConfigType : String
  Metadata : WorkloadMetadata
  Spec : WorkloadSpec
  deriving DecidableEq, Repr

def Workload.Name (w : Workload) : String := w.Metadata.Name

/-- The loop of Go `Exclusion.Excludes` over the entries of the label map. An operator other
than `Equal` and `NotEqual` matches no label. -/
def Exclusion.excludesLoop (e : Exclusion) : List (String × String) → Bool
  | [] => false
  | (key, value) :: rest =>
    if e.Operator = OperatorNotEqual then
      if e.Key = key ∧ e.Value ≠ value then true else e.excludesLoop rest
    else if e.Operator = OperatorEqual then
      if e.Key = key ∧ e.Value = value then true else e.excludesLoop rest
    else e.excludesLoop rest

/-- Go `Exclusion.Excludes`. -/
def Exclusion.Excludes (e : Exclusion) (labels : Labels) : Bool :=
  e.excludesLoop labels.entries

/-- The loop of Go `Cluster.AllowWorkload` over the exclusions. -/
def allowLoop (labels : Labels) : List Exclusion → Bool
  | [] => true
  | exc :: rest => if exc.Excludes labels then false else allowLoop labels rest

/-- Go `Cluster.AllowWorkload`. -/
def Cluster.AllowWorkload (c : Cluster) (wr : Workload) : Bool :=
  allowLoop c.Metadata.Labels wr.Spec.Exclusions

def Cluster.Name (c : Cluster) : String := c.Metadata.Name

def Cluster.ManifestFolder (c : Cluster) : String := c.Spec.ManifestFolder

/-- Go `Cluster.WorkloadPath`. -/
def Cluster.WorkloadPath (c : Cluster) (name : String) : String :=
  filepathJoin [c.Spec.ManifestFolder, name]

/-- Go `type Clusters []Cluster`. -/
abbrev Clusters := List Cluster

/-- Go `ByEnvironment`. -/
def ByEnvironment (env : environment.Env) (c : Cluster) : Bool :=
  match c.Metadata.Labels.get? "environment" with
  | none => false
  | some e => e == env

/-- Go `ByAllowWorkload`. -/
def ByAllowWorkload (workload : Workload) (c : Cluster) : Bool :=
  c.AllowWorkload workload

/-- Go `Clusters.Filter`. -/
def Clusters.Filter (c : Clusters) (predicate : Cluster → Bool) : Clusters :=
  match c with
  | [] => []
  | cluster :: rest =>
    if predicate cluster then cluster :: Clusters.Filter rest predicate
    else Clusters.Filter rest predicate

/-- The first loop of Go `Clusters.Group`: one group per cluster. -/
def groupEach : Clusters → List Clusters
  | [] => []
  | cluster :: rest => [cluster] :: groupEach rest

/-- Go `Clusters.Group`. -/
def Clusters.Group (c : Clusters) (target : environment.Env) : List Clusters :=
  let res : List Clusters := if target ≠ environment.Development then groupEach c else []
  if target = environment.Development then [c] else res

/-- Go `clusterconf.Path`. -/
def Path (path : String) : String := filepathJoin ["/flux", path]

/-- Go `ClusterDetection`. -/
structure ClusterDetection where
  All : Clusters
  New : Clusters
  Existing : Clusters
  PreviousEnv : Clusters

/-! ### Clusters and a workload for the examples -/

/-- The cluster that the tests of the repository build for an environment, a cluster name and
a cloud. -/
def exampleCluster (env name cloud : String) : Cluster where
  Version := "v0.1"
  ConfigType := "Cluster"
  Metadata :=
    { Name := name ++ "-" ++ cloud
      Description := ""
      Labels :=
        { entries := [("environment", env), ("cloud", cloud)]
          nodupKeys := by simp } }
  Spec :=
    { ManifestFolder := "/flux/promoted/" ++ env ++ "/" ++ name ++ "/" ++ cloud
      ConfigFolder := "/flux/config/" ++ env ++ "/" ++ name ++ "/" ++ cloud }

/-- Three development clusters, two in `cloud1` and one in `cloud2`. -/
def exampleClusters : Clusters :=
  [exampleCluster "development" "dev2" "cloud1", exampleCluster "development" "dev3" "cloud1",
   exampleCluster "development" "dev4" "cloud2"]

/-- The workload `foo` of the tests, excluded from every cloud other than `cloud1`. -/
def exampleWorkload : Workload where
  Version := "v0.1"
  ConfigType := "Workload"
  Metadata := { Name := "foo", Description := "" }
  Spec := { Exclusions := [{ Key := "cloud", Operator := OperatorNotEqual, Value := "cloud1" }] }

end clusterconf

/-! ## `internal/detect`: workloads and workload changes -/

namespace detect

/-- Go `type Operation string`. -/
abbrev Operation := String

def OperationCopy : Operation := "Copy"
def OperationRemove : Operation := "Remove"

/-- Go `detect.Workload`: a workload as seen in a source environment. -/
structure Workload where
  SourceEnv : String
  Name : String
  deriving DecidableEq, Repr

/-- Go `detect.WorkloadChange`. -/
structure WorkloadChange where
  Op : Operation
  W : Workload
  deriving DecidableEq, Repr

/-- The two names of a go-git `object.Change` (`From.Name`, `To.Name`); the empty string
stands for the missing side of an addition or a deletion. -/
structure Change where
  From : String
  To : String
  deriving DecidableEq, Repr

/-- Errors of the `detect` package. `errors.Is(err, ErrNotWorkloadManifest)` holds exactly for
`notWorkloadManifest`, `errors.Is(err, ErrUnknownPathConvention)` exactly for
`unknownPathConvention`; both carry the path that the message is formatted with. `repo` is
an error returned by go-git, with the wrapping message. -/
inductive DetectError where
  | notWorkloadManifest (path : String)
  | unknownPathConvention (path : String)
  | repo (msg : String)
  | noChange
  deriving DecidableEq, Repr

def sourceManifestDirLevel : Nat := 4
def promotedDirLevel : Nat := 7
def fluxDir : String := "flux"
def sourceManifestDir : String := "manifests"
def promotedDir : String := "promoted"

/-- Go `Inferer.inferSourceManifestWorkload`. -/
def inferSourceManifestWorkload (path : String) : Except DetectError Workload :=
  let split := splitSlash path
  if split.length < sourceManifestDirLevel then
    .error (.unknownPathConvention path)
  else
    .ok { SourceEnv := split.getD 1 "", Name := split.getD 2 "" }

/-- Go `Inferer.inferPromotedWorkload`. -/
def inferPromotedWorkload (path : String) : Except DetectError Workload :=
  let split := splitSlash path
  if split.length < promotedDirLevel then
    .error (.notWorkloadManifest path)
  else
    .ok { SourceEnv := split.getD 2 "", Name := split.getD 5 "" }

/-- Go `Inferer.workload`. -/
def workload (path : String) : Except DetectError Workload :=
  if hasPrefix path (filepathJoin [fluxDir, sourceManifestDir]) then
    inferSourceManifestWorkload path
  else if hasPrefix path (filepathJoin [fluxDir, promotedDir]) then
    inferPromotedWorkload path
  else
    .error (.notWorkloadManifest path)

/-! ### The target tree -/

/-- Outcome of go-git `Tree.Tree(path)`: the subtree exists, `ErrDirectoryNotFound`, or
another error of the object store. -/
inductive TreeLookup where
  | found
  | errDirectoryNotFound
  | failed (msg : String)
  deriving DecidableEq, Repr

/-- The part of a go-git `*git.Repository` that the inferer reads. Commits and trees are
named by numbers. -/
structure Repository where
  /-- `repo.ResolveRevision(rev)`: the commit hash of a revision. -/
  ResolveRevision : String → Except String Nat
  /-- `repo.CommitObject(hash)`. -/
  CommitObject : Nat → Except String Nat
  /-- `commit.Tree()`. -/
  CommitTree : Nat → Except String Nat
  /-- `tree.Tree(path)`. -/
  TreeTree : Nat → String → TreeLookup

/-- Go `detect.Inferer` (the logger left out). -/
structure Inferer where
  repo : Repository
  commitPrefix : String

/-- Go `Inferer.workloadExistsEnv`. -/
def Inferer.workloadExistsEnv (w : Inferer) (workloadName env : String) :
    Except DetectError Bool :=
  match w.repo.ResolveRevision w.commitPrefix with
  | .error e => .error (.repo ("d.Repo.ResolveRevision: " ++ e))
  | .ok toHash =>
    match w.repo.CommitObject toHash with
    | .error e => .error (.repo ("d.Repo.CommitObject: " ++ e))
    | .ok commit =>
      match w.repo.CommitTree commit with
      | .error e => .error (.repo ("commit.Tree: " ++ e))
      | .ok t =>
        let path := filepathJoin [fluxDir, env, workloadName]
        match w.repo.TreeTree t path with
        | .errDirectoryNotFound => .ok false
        | .failed e => .error (.repo ("t.Tree: " ++ path ++ ": " ++ e))
        | .found => .ok true

/-- Go `Inferer.workloadExists`: the workload is looked up under `flux/manifests` only. -/
def Inferer.workloadExists (w : Inferer) (workload : Workload) : Except DetectError Bool :=
  match w.workloadExistsEnv workload.Name sourceManifestDir with
  | .error e => .error e
  | .ok exists_ => if !exists_ then .ok false else .ok true

/-! ### Change inference -/

def isAddition (c : Change) : Bool := c.From == "" && c.To != ""
def isDeletion (c : Change) : Bool := c.From != "" && c.To == ""
def isModification (c : Change) : Bool := c.From != "" && c.To != "" && c.From == c.To
def isRename (c : Change) : Bool := c.From != "" && c.To != "" && c.From != c.To

/-- Go `Inferer.additions`. -/
def Inferer.additions (_w : Inferer) (change : Change) : Except DetectError (List WorkloadChange) :=
  if isAddition change then
    match workload change.To with
    | .error (.notWorkloadManifest _) => .ok []
    | .error e => .error e
    | .ok wl => .ok [{ Op := OperationCopy, W := wl }]
  else .ok []

/-- Go `Inferer.deletions`. -/
def Inferer.deletions (w : Inferer) (change : Change) : Except DetectError (List WorkloadChange) :=
  if isDeletion change then
    match workload change.From with
    | .error (.notWorkloadManifest _) => .ok []
    | .error e => .error e
    | .ok wl =>
      match w.workloadExists wl with
      | .error e => .error e
      | .ok exists_ =>
        let op := if !exists_ then OperationRemove else OperationCopy
        .ok [{ Op := op, W := wl }]
  else .ok []

/-- Go `Inferer.modifications`. -/
def Inferer.modifications (_w : Inferer) (change : Change) :
    Except DetectError (List WorkloadChange) :=
  if isModification change then
    match workload change.From with
    | .error (.notWorkloadManifest _) => .ok []
    | .error e => .error e
    | .ok wl => .ok [{ Op := OperationCopy, W := wl }]
  else .ok []

/-- Go `Inferer.renames`. Both paths are resolved and the source workload is probed in the
target tree before the kind of the entry is looked at. -/
def Inferer.renames (w : Inferer) (change : Change) : Except DetectError (List WorkloadChange) :=
  match workload change.From with
  | .error (.notWorkloadManifest _) => .ok []
  | .error e => .error e
  | .ok fromWorkload =>
    match workload change.To with
    | .error (.notWorkloadManifest _) => .ok []
    | .error e => .error e
    | .ok toWorkload =>
      let renames₁ : List WorkloadChange :=
        if isRename change && fromWorkload == toWorkload then
          [{ Op := OperationCopy, W := toWorkload }]
        else []
      match w.workloadExists fromWorkload with
      | .error e => .error e
      | .ok fromWorkloadExists =>
        let renames₂ :=
          if isRename change && fromWorkload != toWorkload && fromWorkloadExists then
            renames₁ ++ [{ Op := OperationCopy, W := fromWorkload },
                         { Op := OperationCopy, W := toWorkload }]
          else renames₁
        let renames₃ :=
          if isRename change && fromWorkload != toWorkload && !fromWorkloadExists then
            renames₂ ++ [{ Op := OperationRemove, W := fromWorkload },
                         { Op := OperationCopy, W := toWorkload }]
          else renames₂
        .ok renames₃

/-- Go `Inferer.WorkloadChanges`: additions, deletions, modifications and renames of one diff
entry, in this order; the first error is returned. -/
def Inferer.WorkloadChanges (w : Inferer) (change : Change) :
    Except DetectError (List WorkloadChange) :=
  match w.additions change with
  | .error e => .error e
  | .ok additions =>
    match w.deletions change with
    | .error e => .error e
    | .ok deletions =>
      match w.modifications change with
      | .error e => .error e
      | .ok modifications =>
        match w.renames change with
        | .error e => .error e
        | .ok renames => .ok (additions ++ deletions ++ modifications ++ renames)

/-! ### `Distinct` -/

/-- Go `workloadChangeList.Less`: changes are compared by workload name alone. -/
def workloadChangeLess (a b : WorkloadChange) : Bool := decide (a.W.Name < b.W.Name)

/-- The loop of Go `Distinct`: `seen` holds the keys of the map, `distinct` the changes
appended so far. -/
def distinctLoop : List WorkloadChange → List WorkloadChange → List WorkloadChange →
    List WorkloadChange
  | _, distinct, [] => distinct
  | seen, distinct, change :: rest =>
    if change ∈ seen then distinctLoop seen distinct rest
    else distinctLoop (change :: seen) (distinct ++ [change]) rest

/-- Go `Distinct`. `sortSort` stands for `sort.Sort` of the standard library applied to a
`workloadChangeList`; it is a parameter because its result on elements that compare equal
is not fixed by its contract. -/
def Distinct (sortSort : List WorkloadChange → List WorkloadChange)
    (changes : List WorkloadChange) : List WorkloadChange :=
  sortSort (distinctLoop [] [] changes)

/-- The contract of Go `sort.Sort` for `workloadChangeList`: the result is a rearrangement of
the input in which no element is `Less` than an element before it. -/
structure IsSortSort (sortSort : List WorkloadChange → List WorkloadChange) : Prop where
  perm : ∀ l, (sortSort l).Perm l
  sorted : ∀ l, (sortSort l).Pairwise (fun a b => workloadChangeLess b a = false)

/-- The inner loop of Go `insertionSort` (package `sort`): the element `x` is swapped to the
left while it is `Less` than its left neighbour. `before` is the sorted part to the left of
`x`, nearest element first. -/
def insertLeft (x : WorkloadChange) : List WorkloadChange → List WorkloadChange
  | [] => [x]
  | y :: before =>
    if workloadChangeLess x y then y :: insertLeft x before else x :: y :: before

/-- Go `insertionSort` (package `sort`) on a `workloadChangeList`, the algorithm that
`sort.Sort` runs on short slices. -/
def insertionSort (data : List WorkloadChange) : List WorkloadChange :=
  (data.foldl (fun sorted x => insertLeft x sorted) []).reverse

/-- The loop of Go `Detect.processDiffs`. -/
def processDiffsLoop (inferer : Inferer) : List WorkloadChange → List Change →
    Except DetectError (List WorkloadChange)
  | wc, [] => .ok wc
  | wc, gitChange :: rest =>
    match inferer.WorkloadChanges gitChange with
    | .error e => .error e
    | .ok changes => processDiffsLoop inferer (wc ++ changes) rest

/-- Go `Detect.processDiffs`. -/
def processDiffs (sortSort : List WorkloadChange → List WorkloadChange) (inferer : Inferer)
    (diffs : List Change) : Except DetectError (List WorkloadChange) :=
  match processDiffsLoop inferer [] diffs with
  | .error e => .error e
  | .ok wc => .ok (Distinct sortSort wc)

/-! ### A repository for the examples -/

/-- A repository whose revisions all resolve to one commit, in the tree of which
`flux/manifests/foo` is the only directory under `flux/manifests`. -/
def exampleRepository : Repository where
  ResolveRevision := fun _ => .ok 1
  CommitObject := fun _ => .ok 2
  CommitTree := fun _ => .ok 3
  TreeTree := fun _ path => if path = "flux/manifests/foo" then .found else .errDirectoryNotFound

/-- An inferer on `exampleRepository`. -/
def exampleInferer : Inferer := { repo := exampleRepository, commitPrefix := "HEAD" }

end detect

/-! ## `internal/promotion` -/

namespace promotion

/-- Go `type Results map[string]map[string]detect.WorkloadChange`: cluster name, then
workload name. -/
abbrev Results := GoMap (GoMap detect.WorkloadChange)

/-- Go `change, ok := promotions[cluster][workload]`. -/
def Results.lookup (promotions : Results) (cluster workload : String) :
    Option detect.WorkloadChange :=
  match GoMap.get? promotions cluster with
  | none => none
  | some workloadChanges => GoMap.get? workloadChanges workload

end promotion

/-! ## `internal/promoter` -/

namespace promoter

open clusterconf

/-- Errors returned by the promoter. `errors.Is(err, ErrClustersNotInSync)` holds exactly for
`clustersNotInSync`, which carries the workload name and the cluster names of the message;
every other error is `other` with its message. -/
inductive PromoterError where
  | clustersNotInSync (workload : String) (clusterNames : List String)
  | other (msg : String)
  deriving DecidableEq, Repr

/-- Go `fmt.Errorf(msg + ": %w", err)`: the message is extended, the wrapped sentinel stays. -/
def PromoterError.wrap (msg : String) : PromoterError → PromoterError
  | .clustersNotInSync w cs => .clustersNotInSync w cs
  | .other m => .other (msg ++ ": " ++ m)

/-- The collaborators of `Promoter` over a worktree state `σ` (the billy filesystem of the
cloned repository together with the run's context). Reads return a result for a state;
writes return their error, if any, and the state they leave behind. -/
structure Promoter (σ : Type) where
  /-- The `clusters` field (`clusterconf.ClusterDetection`). -/
  clusters : ClusterDetection
  /-- `p.registry.Get(workloadID)`. -/
  registryGet : σ → String → Except String Workload
  /-- `ctx.Err()`: `none` while the context is live. -/
  ctxErr : σ → Option String
  /-- `p.manifestRepo.WorkingTreeFS()`. -/
  WorkingTreeFS : σ → Except String Unit
  /-- `filesystem.DirHash(fs, dir)`. -/
  DirHash : σ → String → Except String String
  /-- `filesystem.Replace(fs, srcDir, targetDir)`. -/
  Replace : σ → String → String → Except String Unit × σ
  /-- `fs.Stat(path)`. -/
  Stat : σ → String → Except String Unit
  /-- `util.RemoveAll(fs, path)`. -/
  RemoveAll : σ → String → Except String Unit × σ
  /-- `p.kustomization.Write(fs, cluster)`. -/
  kustomizationWrite : σ → Cluster → Except String Unit × σ

/-- The loop of Go `Promoter.allowedChanges`. -/
def allowedChangesLoop {σ : Type} (p : Promoter σ) (s : σ) (cluster : Cluster) :
    List detect.WorkloadChange → List detect.WorkloadChange →
    Except PromoterError (List detect.WorkloadChange)
  | perClusterChanges, [] => .ok perClusterChanges
  | perClusterChanges, change :: rest =>
    match p.registryGet s change.W.Name with
    | .error e => .error (.other ("p.registry.Get: " ++ e))
    | .ok workload =>
      if cluster.AllowWorkload workload then
        allowedChangesLoop p s cluster (perClusterChanges ++ [change]) rest
      else
        allowedChangesLoop p s cluster perClusterChanges rest

/-- Go `Promoter.allowedChanges`. -/
def allowedChanges {σ : Type} (p : Promoter σ) (s : σ) (changes : List detect.WorkloadChange)
    (cluster : Cluster) : Except PromoterError (List detect.WorkloadChange) :=
  match p.ctxErr s with
  | some e => .error (.other ("allowedChanges: " ++ e))
  | none => allowedChangesLoop p s cluster [] changes

/-- The loop of Go `Promoter.verifyWorkloadConsistency`: `hashes` maps a directory hash to
the workload directories that have it. -/
def verifyLoop {σ : Type} (p : Promoter σ) (s : σ) (workload : Workload) :
    List String → GoMap (List String) → List Cluster →
    Except PromoterError (List String × GoMap (List String))
  | clusterNames, hashes, [] => .ok (clusterNames, hashes)
  | clusterNames, hashes, c :: rest =>
    let clusterNames₁ := clusterNames ++ [c.Name]
    let workloadDir := c.WorkloadPath workload.Name
    match p.DirHash s workloadDir with
    | .error e => .error (.other ("hash directory " ++ workloadDir ++ ": " ++ e))
    | .ok h =>
      verifyLoop p s workload clusterNames₁
        (hashes.set h ((hashes.get? h).getD [] ++ [workloadDir])) rest

/-- Go `Promoter.verifyWorkloadConsistency`. -/
def verifyWorkloadConsistency {σ : Type} (p : Promoter σ) (s : σ) (workload : Workload)
    (manifestSource : environment.Env) : Except PromoterError Unit :=
  if manifestSource = environment.SourceManifest then .ok ()
  else
    let previousClusters :=
      (p.clusters.All.Filter (ByAllowWorkload workload)).Filter (ByEnvironment manifestSource)
    match p.WorkingTreeFS s with
    | .error e => .error (.other ("p.manifestRepo.CopyRepoFS: " ++ e))
    | .ok _ =>
      match verifyLoop p s workload [] [] previousClusters with
      | .error e => .error e
      | .ok (clusterNames, hashes) =>
        if hashes.length > 1 then .error (.clustersNotInSync workload.Name clusterNames)
        else .ok ()

/-- Go `Promoter.getSourceDir`. -/
def getSourceDir {σ : Type} (p : Promoter σ) (s : σ) (change : detect.WorkloadChange)
    (targetEnv : environment.Env) : Except PromoterError String :=
  match environment.ManifestSource targetEnv with
  | none => .error (.other ("targetEnv.ManifestSource: " ++ targetEnv ++ ": unknown environment"))
  | some manifestsSource =>
    if manifestsSource = environment.SourceManifest then
      .ok (clusterconf.Path (filepathJoin [environment.SourceManifest, change.W.Name]))
    else
      match p.registryGet s change.W.Name with
      | .error e => .error (.other ("registry.Get: " ++ e))
      | .ok workload =>
        let previousClusters :=
          (p.clusters.All.Filter (ByAllowWorkload workload)).Filter (ByEnvironment manifestsSource)
        match previousClusters with
        | [] => .error (.other ("workload: " ++ workload.Name ++ ", env: " ++ manifestsSource ++
            ": filtered clusters are zero, expected at least one"))
        | first :: _ => .ok (first.WorkloadPath change.W.Name)

/-- Go `Promoter.performChange`: replaces or removes `cluster.WorkloadPath(change.W.Name)`,
then rewrites the kustomization of the cluster. -/
def performChange {σ : Type} (p : Promoter σ) (cluster : Cluster) (change : detect.WorkloadChange)
    (targetEnv : environment.Env) (s : σ) : Except PromoterError Unit × σ :=
  match p.ctxErr s with
  | some e => (.error (.other ("performChange: " ++ e)), s)
  | none =>
    match p.WorkingTreeFS s with
    | .error e => (.error (.other e), s)
    | .ok _ =>
      let targetDir := cluster.WorkloadPath change.W.Name
      match getSourceDir p s change targetEnv with
      | .error e => (.error e, s)
      | .ok sourceDir =>
        if change.Op ≠ detect.OperationCopy ∧ change.Op ≠ detect.OperationRemove then
          (.error (.other ("op not known: " ++ change.Op)), s)
        else
          let copied : Except PromoterError Unit × σ :=
            if change.Op = detect.OperationCopy then
              match p.Replace s sourceDir targetDir with
              | (.error e, s₁) => (.error (.other ("replace dir: " ++ e)), s₁)
              | (.ok _, s₁) => (.ok (), s₁)
            else (.ok (), s)
          match copied with
          | (.error e, s₁) => (.error e, s₁)
          | (.ok _, s₁) =>
            let removed : Except PromoterError Unit × σ :=
              if change.Op = detect.OperationRemove then
                match p.Stat s₁ targetDir with
                | .error e => (.error (.other ("stat: " ++ targetDir ++ ": " ++ e)), s₁)
                | .ok _ =>
                  match p.RemoveAll s₁ targetDir with
                  | (.error e, s₂) => (.error (.other e), s₂)
                  | (.ok _, s₂) => (.ok (), s₂)
              else (.ok (), s₁)
            match removed with
            | (.error e, s₂) => (.error e, s₂)
            | (.ok _, s₂) =>
              match p.kustomizationWrite s₂ cluster with
              | (.error e, s₃) => (.error (.other e), s₃)
              | (.ok _, s₃) => (.ok (), s₃)

/-- The statements of Go `Promoter.performChanges` that record a promotion: the inner map of
the cluster is created when missing, then the change is stored under the name of the workload
that the registry returned. -/
def record (promotions : promotion.Results) (clusterName workloadName : String)
    (change : detect.WorkloadChange) : promotion.Results :=
  let promotions₁ :=
    match promotions.get? clusterName with
    | none => promotions.set clusterName []
    | some _ => promotions
  promotions₁.set clusterName (((promotions₁.get? clusterName).getD []).set workloadName change)

/-- The inner loop of Go `Promoter.performChanges`, over the allowed changes of one cluster. -/
def clusterLoop {σ : Type} (p : Promoter σ) (cluster : Cluster) (targetEnv : environment.Env) :
    List detect.WorkloadChange → promotion.Results → σ →
    Except PromoterError promotion.Results × σ
  | [], promotions, s => (.ok promotions, s)
  | clusterWorkloadChange :: rest, promotions, s =>
    match p.registryGet s clusterWorkloadChange.W.Name with
    | .error e => (.error (.other ("registry.Get: " ++ e)), s)
    | .ok workload =>
      match verifyWorkloadConsistency p s workload clusterWorkloadChange.W.SourceEnv with
      | .error e => (.error (e.wrap "verifyWorkloadConsistency"), s)
      | .ok _ =>
        match performChange p cluster clusterWorkloadChange targetEnv s with
        | (.error e, s₁) => (.error (e.wrap "performChange"), s₁)
        | (.ok _, s₁) =>
          clusterLoop p cluster targetEnv rest
            (record promotions cluster.Name workload.Name clusterWorkloadChange) s₁

/-- The outer loop of Go `Promoter.performChanges`, over the clusters of the group. -/
def performChangesLoop {σ : Type} (p : Promoter σ) (changes : List detect.WorkloadChange)
    (targetEnv : environment.Env) :
    List Cluster → promotion.Results → σ → Except PromoterError promotion.Results × σ
  | [], promotions, s => (.ok promotions, s)
  | cluster :: rest, promotions, s =>
    match allowedChanges p s changes cluster with
    | .error e => (.error e, s)
    | .ok clusterChanges =>
      match clusterLoop p cluster targetEnv clusterChanges promotions s with
      | (.error e, s₁) => (.error e, s₁)
      | (.ok promotions₁, s₁) => performChangesLoop p changes targetEnv rest promotions₁ s₁

/-- Go `Promoter.performChanges`: the promotions recorded, or the first error, and the
worktree state that the call leaves behind. -/
def performChanges {σ : Type} (p : Promoter σ) (changes : List detect.WorkloadChange)
    (clusters : Clusters) (targetEnv : environment.Env) (s : σ) :
    Except PromoterError promotion.Results × σ :=
  performChangesLoop p changes targetEnv clusters [] s

/-! ### A promoter for the examples -/

/-- A registry that knows the configuration of `foo` and, as `FSWorkloadRegistry.Get` does
for a workload without `workload.yaml`, returns a configuration without exclusions for every
other workload. -/
def exampleRegistryGet (workloadID : String) : Except String Workload :=
  if workloadID = "foo" then .ok exampleWorkload
  else .ok
    { Version := "v0.1"
      ConfigType := "Workload"
      Metadata := { Name := workloadID, Description := "" }
      Spec := { Exclusions := [] } }

/-- A promoter whose collaborators always succeed and whose worktree state is the list of
the writes requested so far, each with its operation, its target path and, for `Replace`, its
source directory; `hash` gives the hash of each directory. -/
def recordingPromoter (all : Clusters) (hash : String → String) :
    Promoter (List (String × String × String)) where
  clusters := { All := all, New := [], Existing := all, PreviousEnv := [] }
  registryGet := fun _ workloadID => exampleRegistryGet workloadID
  ctxErr := fun _ => none
  WorkingTreeFS := fun _ => .ok ()
  DirHash := fun _ dir => .ok (hash dir)
  Replace := fun s srcDir targetDir => (.ok (), s ++ [("Replace", targetDir, srcDir)])
  Stat := fun _ _ => .ok ()
  RemoveAll := fun s path => (.ok (), s ++ [("RemoveAll", path, "")])
  kustomizationWrite := fun s cluster =>
    (.ok (), s ++ [("Kust.Write", filepathJoin [cluster.ManifestFolder, "kustomization.yaml"], "")])

/-- The change `Copy foo` detected in the source manifests. -/
def exampleCopyFoo : detect.WorkloadChange :=
  { Op := detect.OperationCopy, W := { SourceEnv := "manifests", Name := "foo" } }

/-- The recording promoter on three test clusters, with the directory hashes of scenario 5:
`foo` holds `inconsistent` on `test1` and `old` elsewhere. -/
def exampleTestPromoter : Promoter (List (String × String × String)) :=
  recordingPromoter
    [exampleCluster "test" "test1" "cloud1", exampleCluster "test" "test2" "cloud1",
     exampleCluster "test" "test3" "cloud2"]
    (fun dir => if dir = "/flux/promoted/test/test1/cloud1/foo" then "inconsistent" else "old")

/-- The recording promoter on the three development clusters of the examples. -/
def exampleDevPromoter : Promoter (List (String × String × String)) :=
  recordingPromoter exampleClusters (fun _ => "old")

/-- The `dev2` cluster of `cloud1` declared a second time, under the same name and manifest
folder, with the label `cloud: cloud2`. -/
def exampleDuplicate : Cluster :=
  { exampleCluster "development" "dev2" "cloud1" with
    Metadata :=
      { Name := "dev2-cloud1"
        Description := ""
        Labels :=
          { entries := [("environment", "development"), ("cloud", "cloud2")]
            nodupKeys := by simp } } }

end promoter

/-! ## Go standard library: `sort.Strings` and `strings.Join` -/

/-- Go `sort.Strings`: the strings in increasing order (Go compares strings byte by byte,
which on UTF-8 is the order of the character lists). -/
def sortStrings (x : List String) : List String :=
  List.insertionSort (fun a b => a.toList ≤ b.toList) x

/-- Go `strings.Join(elems, sep)`. -/
def stringsJoin : List String → String → String
  | [], _ => ""
  | [a], _ => a
  | a :: rest, sep => a ++ sep ++ stringsJoin rest sep

/-! ## `internal/clusterconf`: cluster detection -/

namespace clusterconf

/-- Go `Clusters.Contains`: some cluster of the list has the name of `pretender`. -/
def Clusters.Contains (c : Clusters) (pretender : Cluster) : Bool :=
  match c with
  | [] => false
  | cluster :: rest =>
    if cluster.Name = pretender.Name then true else Clusters.Contains rest pretender

/-- Go `Without`. -/
def Without (clusters : Clusters) (c : Cluster) : Bool :=
  !clusters.Contains c

/-- The error of `wt.Filesystem.Stat`, as `newClusters` tells them apart: the value
`os.ErrNotExist` itself, or any other error. -/
inductive StatError where
  | errNotExist
  | other (msg : String)
  deriving DecidableEq, Repr

/-- The error of `ClusterInspecter.Detect`. -/
inductive InspectError where
  | worktree (msg : String)
  | stat (msg : String)
  deriving DecidableEq, Repr

/-- Go `ClusterInspecter`: what `Detect` reads of the repository, namely whether
`Repo.Worktree()` succeeds and the answer of `wt.Filesystem.Stat` for a path. -/
structure ClusterInspecter where
  Worktree : Except String Unit
  Stat : String → Except StatError Unit

/-- The loop of Go `ClusterInspecter.newClusters`. -/
def ClusterInspecter.newClustersLoop (c : ClusterInspecter) :
    Clusters → Clusters → Except InspectError Clusters
  | missingOnDisk, [] => .ok missingOnDisk
  | missingOnDisk, cluster :: rest =>
    match c.Stat cluster.ManifestFolder with
    | .ok _ => c.newClustersLoop missingOnDisk rest
    | .error .errNotExist => c.newClustersLoop (missingOnDisk ++ [cluster]) rest
    | .error (.other msg) => .error (.stat msg)

/-- Go `ClusterInspecter.newClusters`. -/
def ClusterInspecter.newClusters (c : ClusterInspecter) (all : Clusters) :
    Except InspectError Clusters :=
  match c.Worktree with
  | .error e => .error (.worktree ("worktree: " ++ e))
  | .ok _ => c.newClustersLoop [] all

/-- Go `ClusterInspecter.existingClusters`. -/
def ClusterInspecter.existingClusters (_c : ClusterInspecter) (all new : Clusters) : Clusters :=
  all.Filter (Without new)

/-- Go `ClusterInspecter.fromPreviousEnv`. -/
def ClusterInspecter.fromPreviousEnv (_c : ClusterInspecter) (all : Clusters)
    (targetEnv : environment.Env) : Clusters :=
  match environment.ManifestSource targetEnv with
  | none => []
  | some source => all.Filter (ByEnvironment source)

/-- Go `ClusterInspecter.Detect`. -/
def ClusterInspecter.Detect (c : ClusterInspecter) (all : Clusters)
    (targetEnv : environment.Env) : Except InspectError ClusterDetection :=
  let inEnvironment := all.Filter (ByEnvironment targetEnv)
  match c.newClusters inEnvironment with
  | .error e => .error e
  | .ok new =>
    let existing := c.existingClusters inEnvironment new
    let previous := c.fromPreviousEnv all targetEnv
    .ok { All := all, New := new, Existing := existing, PreviousEnv := previous }

/-- An inspecter on a worktree in which, of the manifest folders of the example clusters,
only that of `dev2` exists. -/
def exampleInspecter : ClusterInspecter where
  Worktree := .ok ()
  Stat := fun path =>
    if path = "/flux/promoted/development/dev2/cloud1" then .ok () else .error .errNotExist

end clusterconf

/-! ## `internal/promotion`: names of a result -/

namespace promotion

/-- Go `type Kind string`. -/
abbrev Kind := String

def ManifestUpdate : Kind := "manifests_updated"
def NewCluster : Kind := "new_cluster_detected"

/-- Go `Results.ClusterNames`: the keys of the outer map, sorted. -/
def Results.ClusterNames (promotions : Results) : List String :=
  sortStrings (promotions.map Prod.fst)

/-- The inner loop of Go `Results.WorkloadNames`: `namesMap[w.W.Name] = true` for every
change of one cluster. -/
def namesInnerLoop : GoMap Bool → GoMap detect.WorkloadChange → GoMap Bool
  | namesMap, [] => namesMap
  | namesMap, (_, w) :: rest => namesInnerLoop (GoMap.set namesMap w.W.Name true) rest

/-- The outer loop of Go `Results.WorkloadNames`. -/
def namesOuterLoop : GoMap Bool → Results → GoMap Bool
  | namesMap, [] => namesMap
  | namesMap, (_, workloadChanges) :: rest =>
    namesOuterLoop (namesInnerLoop namesMap workloadChanges) rest

/-- Go `Results.WorkloadNames`: the `W.Name` of every stored change, once each, sorted. -/
def Results.WorkloadNames (promotions : Results) : List String :=
  sortStrings ((namesOuterLoop [] promotions).map Prod.fst)

/-- A result that promotes `foo` to two clusters and `bar` to one of them. -/
def exampleResults : Results :=
  [("test2-cloud1",
      [("foo", { Op := detect.OperationCopy, W := { SourceEnv := "development", Name := "foo" } })]),
   ("test1-cloud1",
      [("foo", { Op := detect.OperationCopy, W := { SourceEnv := "development", Name := "foo" } }),
       ("bar", { Op := detect.OperationCopy, W := { SourceEnv := "development", Name := "bar" } })])]

end promotion

/-! ## `internal/github`: values exchanged with the pull request builder -/

namespace github

/-- Go `github.Commit`. -/
structure Commit where
  Hash : String
  AuthorLogin : String
  CommitterLogin : String
  deriving DecidableEq, Repr

/-- Go `github.PromotionPullRequest`. -/
structure PromotionPullRequest where
  Title : String
  Description : String
  CommitMessage : String
  deriving DecidableEq, Repr

end github

/-! ## `internal/promoter`: the pull request builder -/

namespace promoter

/-- Go `type tableView [][]string`. -/
abbrev tableView := List (List String)

/-- Go `type sourceManifestListView []string`. -/
abbrev sourceManifestListView := List String

/-- Go `descriptionView`. -/
structure descriptionView where
  SourceManifestListView : sourceManifestListView
  Description : String
  TableView : tableView
  NewClusterPromotion : Bool

/-- Go `PullRequestBuilder`: the environment, the pull request template read from the
worktree, and the execution of the parsed `PromotionsSectionTemplate` on a view. -/
structure PullRequestBuilder where
  env : environment.Env
  pullRequestTemplate : String
  promotionsTemplate : descriptionView → String

/-- Go `PullRequestBuilder.buildTitle`. -/
def PullRequestBuilder.buildTitle (p : PullRequestBuilder) (promotions : promotion.Results) :
    String :=
  let title := "Promote " ++ stringsJoin promotions.WorkloadNames ", " ++ " to " ++ p.env
  if p.env ≠ environment.Development then
    title ++ (" (" ++ stringsJoin promotions.ClusterNames ", " ++ ")")
  else title

/-- The loop of Go `PullRequestBuilder.buildCommitMessage`. -/
def commitMessageLoop : String → List github.Commit → String
  | commitMsg, [] => commitMsg
  | commitMsg, c :: rest =>
    commitMessageLoop
      (commitMsg ++ "\nSource-commit: " ++ c.Hash ++ " A:" ++ c.AuthorLogin ++ " C:" ++
        c.CommitterLogin) rest

/-- Go `PullRequestBuilder.buildCommitMessage`. -/
def PullRequestBuilder.buildCommitMessage (p : PullRequestBuilder)
    (promotions : promotion.Results) (sourceCommits : List github.Commit) : String :=
  let prTitle := p.buildTitle promotions
  let commitMsg := prTitle
  if sourceCommits.length > 0 then commitMessageLoop (commitMsg ++ "\n") sourceCommits
  else commitMsg

/-- The loop of Go `buildSourceManifestListView`. -/
def sourceManifestListLoop : sourceManifestListView → List github.Commit → sourceManifestListView
  | list, [] => list
  | list, commit :: rest =>
    let item := commit.Hash ++ " - @" ++ commit.AuthorLogin
    let item :=
      if commit.AuthorLogin ≠ commit.CommitterLogin ∧ commit.CommitterLogin ≠ "web-flow" then
        item ++ (" @" ++ commit.CommitterLogin)
      else item
    sourceManifestListLoop (list ++ [item]) rest

/-- Go `buildSourceManifestListView`. -/
def buildSourceManifestListView (commits : List github.Commit) : sourceManifestListView :=
  sourceManifestListLoop [] commits

/-- The first loop of Go `buildTableView`: one header cell and one divider cell per workload
name. -/
def headersLoop : List String → List String → List String → List String × List String
  | headers, divider, [] => (headers, divider)
  | headers, divider, name :: rest => headersLoop (headers ++ [name]) (divider ++ ["-"]) rest

/-- The inner loop of Go `buildTableView`: one cell per workload name, a check mark when
`promotions[clusterName][workloadName]` exists. -/
def rowLoop (promotions : promotion.Results) (clusterName : String) :
    List String → List String → List String
  | row, [] => row
  | row, workloadName :: rest =>
    match promotions.lookup clusterName workloadName with
    | none => rowLoop promotions clusterName (row ++ ["-"]) rest
    | some _ => rowLoop promotions clusterName (row ++ [":heavy_check_mark:"]) rest

/-- The second loop of Go `buildTableView`: one row per cluster name. -/
def tableLoop (promotions : promotion.Results) (kind : promotion.Kind) :
    tableView → List String → tableView
  | table, [] => table
  | table, clusterName :: rest =>
    let clusterCell := clusterName
    let clusterCell := if kind = promotion.NewCluster then clusterCell ++ " (new)" else clusterCell
    let row := rowLoop promotions clusterName [clusterCell] promotions.WorkloadNames
    tableLoop promotions kind (table ++ [row]) rest

/-- Go `buildTableView`. -/
def buildTableView (promotions : promotion.Results) (kind : promotion.Kind) : tableView :=
  if promotions.length = 0 then []
  else
    let (headers, divider) := headersLoop [""] ["-"] promotions.WorkloadNames
    tableLoop promotions kind [headers, divider] promotions.ClusterNames

/-- Go `PullRequestBuilder.buildDescription`. -/
def PullRequestBuilder.buildDescription (b : PullRequestBuilder)
    (sourceCommits : List github.Commit) (promotions : promotion.Results)
    (promotionType : promotion.Kind) : String :=
  b.promotionsTemplate
    { SourceManifestListView := buildSourceManifestListView sourceCommits
      Description := b.pullRequestTemplate
      TableView := buildTableView promotions promotionType
      NewClusterPromotion := promotionType = promotion.NewCluster }

/-- Go `PullRequestBuilder.Build`. -/
def PullRequestBuilder.Build (p : PullRequestBuilder) (promotions : promotion.Results)
    (commits : List github.Commit) (kind : promotion.Kind) : github.PromotionPullRequest :=
  { CommitMessage := p.buildCommitMessage promotions commits
    Description := p.buildDescription commits promotions kind
    Title := p.buildTitle promotions }

/-- A builder for the test environment whose description states only whether the promotion
is for a new cluster. -/
def exampleBuilder : PullRequestBuilder where
  env := environment.Test
  pullRequestTemplate := ""
  promotionsTemplate := fun v => if v.NewClusterPromotion then "new" else "update"

/-- Two source commits. -/
def exampleCommits : List github.Commit :=
  [{ Hash := "30691ee", AuthorLogin := "user1", CommitterLogin := "user2" },
   { Hash := "d535711", AuthorLogin := "user1", CommitterLogin := "web-flow" }]

end promoter

/-! ## Go standard library: `filepath.Dir`, `strings.TrimPrefix`, `strings.Contains` -/

/-- Go `filepath.Dir`: the path up to and including its last slash, cleaned. -/
def filepathDir (path : String) : String :=
  filepathClean (String.mk (path.toList.reverse.dropWhile (fun c => c != '/')).reverse)

/-- Go `strings.TrimPrefix(s, pre)`. -/
def stringsTrimPrefix (s pre : String) : String :=
  if hasPrefix s pre then String.mk (s.toList.drop pre.toList.length) else s

/-- A path segment that names a directory entry: not empty, not `.` or `..`, without a
slash. -/
def properSegment (seg : String) : Prop :=
  seg ≠ "" ∧ seg ≠ "." ∧ seg ≠ ".." ∧ '/' ∉ seg.toList

instance instDecidableProperSegment (seg : String) : Decidable (properSegment seg) := by
  unfold properSegment
  exact inferInstance

/-- The path that `WalkFiles` builds for the entry at the relative position `rel` below
`base`, one `filepath.Join(base, f.Name())` per level. -/
def walkPath (base : String) (rel : List String) : String :=
  rel.foldl (fun b name => filepathJoin [b, name]) base

/-! ## `go-billy`: the in-memory filesystem of the worktree

`memfs.New()` is a `Memory` storage behind the chroot helper at the root `/`: every path is
joined to the root and cleaned, and the storage keeps one entry per cleaned absolute path,
directories included. The key of an entry is the list of the segments of that path, so the
root has the key `[]`.

The model covers regular files and directories at paths that stay within the root. Symbolic
links are left out. For a relative path that leads out of the root (`isCrossBoundaries`) the
chroot helper answers `ErrCrossedBoundary` in `Stat`, `ReadDir`, `MkdirAll`, `Open` and
`Create`; the model does not have this error and resolves such a path at the root instead, so
what it computes for such a path is not what `memfs` does. -/

namespace billy

/-- The key of a storage entry: the segments of its cleaned absolute path. -/
abbrev Key := List String

/-- An entry of the storage: a regular file with its content, or a directory. -/
inductive Node where
  | file (content : String)
  | dir
  deriving DecidableEq, Repr

def Node.IsDir : Node → Bool
  | .file _ => false
  | .dir => true

/-- What the code reads of an `os.FileInfo`. -/
structure FileInfo where
  Name : String
  IsDir : Bool
  deriving DecidableEq, Repr

/-- The errors of the filesystem layer: `os.ErrNotExist`, the two sentinels of
`internal/filesystem` (which `fmt.Errorf` with `%w` keeps recognisable), any other error with
its message, and the exhaustion of the recursion bound of `WalkFiles`. -/
inductive FsError where
  | errNotExist
  | errSourceDirNotExists
  | errSourceDirEmpty
  | other (msg : String)
  | recursionBound
  deriving DecidableEq, Repr

/-- Go `fmt.Errorf(msg + ": %w", err)`. -/
def FsError.wrap (msg : String) : FsError → FsError
  | .other m => .other (msg ++ ": " ++ m)
  | e => e

/-- The storage of `memfs`: its entries, in the order in which a `range` over the Go map
visits them. -/
structure Memory where
  files : List (Key × Node)
  deriving DecidableEq, Repr

/-- The key under which a path is stored: the segments of `filepath.Clean("/" + path)`, in
which `..` does not lead above the root. -/
def resolve (path : String) : Key :=
  cleanSegments true [] (splitSlash path)

/-- Go `isCrossBoundaries` of the chroot helper of go-billy:
`strings.HasPrefix(filepath.Clean(path), "../")`, the paths that the helper rejects with
`ErrCrossedBoundary`. -/
def isCrossBoundaries (path : String) : Bool :=
  hasPrefix (filepathClean path) "../"

/-- The lookup of `storage.Get` by key. -/
def lookupEntry : List (Key × Node) → Key → Option Node
  | [], _ => none
  | (k₁, n) :: rest, k => if k₁ = k then some n else lookupEntry rest k

/-- Go `storage.Get`. -/
def Memory.get (fs : Memory) (k : Key) : Option Node :=
  lookupEntry fs.files k

/-- The update `s.files[path] = f` by key. -/
def storeEntry : List (Key × Node) → Key → Node → List (Key × Node)
  | [], k, n => [(k, n)]
  | (k₁, n₁) :: rest, k, n => if k₁ = k then (k, n) :: rest else (k₁, n₁) :: storeEntry rest k n

/-- Go `s.files[path] = f`. -/
def Memory.put (fs : Memory) (k : Key) (n : Node) : Memory :=
  { files := storeEntry fs.files k n }

/-- Go `storage.createParent` for a new entry, given by its key in reverse: the parent
directory is created unless it exists, and then its parent in turn. -/
def Memory.createParent (fs : Memory) : List String → Memory
  | [] => fs
  | _ :: baseRev =>
    match fs.get baseRev.reverse with
    | some _ => fs
    | none => Memory.createParent (fs.put baseRev.reverse .dir) baseRev

/-- Go `storage.New`: nothing happens for an existing directory, an existing file is an
error, and a new entry is stored together with its missing parents. -/
def Memory.New (fs : Memory) (k : Key) (n : Node) : Except FsError Unit × Memory :=
  match fs.get k with
  | some (.file _) => (.error (.other "file already exists"), fs)
  | some .dir => (.ok (), fs)
  | none => (.ok (), (fs.put k n).createParent k.reverse)

/-- Go `Memory.Stat`. -/
def Memory.Stat (fs : Memory) (filename : String) : Except FsError FileInfo :=
  match fs.get (resolve filename) with
  | none => .error .errNotExist
  | some n => .ok { Name := (resolve filename).getLast?.getD "/", IsDir := n.IsDir }

/-- Go `storage.Children`: the entries directly below a key. -/
def Memory.Children (fs : Memory) (k : Key) : List FileInfo :=
  fs.files.filterMap (fun e =>
    match e.1.getLast? with
    | none => none
    | some name => if e.1.dropLast = k then some { Name := name, IsDir := e.2.IsDir } else none)

/-- Go `Memory.ReadDir`: the entries directly below the path; none for a missing path. -/
def Memory.ReadDir (fs : Memory) (path : String) : Except FsError (List FileInfo) :=
  .ok (fs.Children (resolve path))

/-- Go `Memory.MkdirAll`. -/
def Memory.MkdirAll (fs : Memory) (path : String) : Except FsError Unit × Memory :=
  fs.New (resolve path) .dir

/-- Go `Memory.Open`: the content of a regular file. -/
def Memory.Open (fs : Memory) (filename : String) : Except FsError String :=
  match fs.get (resolve filename) with
  | none => .error .errNotExist
  | some .dir => .error (.other ("cannot open directory: " ++ filename))
  | some (.file content) => .ok content

/-- Go `Memory.Create`: a new empty file, or an existing file truncated. -/
def Memory.Create (fs : Memory) (filename : String) : Except FsError Unit × Memory :=
  match fs.get (resolve filename) with
  | none => fs.New (resolve filename) (.file "")
  | some .dir => (.error (.other ("cannot open directory: " ++ filename)), fs)
  | some (.file _) => (.ok (), fs.put (resolve filename) (.file ""))

/-- Writing `content` to the file just created at `filename` and closing it. -/
def Memory.Write (fs : Memory) (filename : String) (content : String) : Memory :=
  fs.put (resolve filename) (.file content)

/-- Go `Memory.Remove`: removes a file or an empty directory. -/
def Memory.Remove (fs : Memory) (filename : String) : Except FsError Unit × Memory :=
  match fs.get (resolve filename) with
  | none => (.error .errNotExist, fs)
  | some n =>
    if n.IsDir ∧ (fs.Children (resolve filename)).length ≠ 0 then
      (.error (.other ("dir: " ++ filename ++ " contains files")), fs)
    else (.ok (), { files := fs.files.filter (fun e => e.1 ≠ resolve filename) })

/-- Go `util.RemoveAll`: removes the path and any children it contains; no error when the
path does not exist. -/
def Memory.RemoveAll (fs : Memory) (path : String) : Except FsError Unit × Memory :=
  (.ok (), { files := fs.files.filter (fun e => !(resolve path).isPrefixOf e.1) })

/-- The invariant of the storage: one entry per key, every segment of a key names a
directory entry, and the parent of every entry other than the root is a directory. -/
structure Memory.WellFormed (fs : Memory) : Prop where
  nodup : (fs.files.map Prod.fst).Nodup
  proper : ∀ k n, (k, n) ∈ fs.files → ∀ seg ∈ k, properSegment seg
  parent : ∀ k n, (k, n) ∈ fs.files → k ≠ [] → fs.get k.dropLast = some .dir

end billy

/-! ## `internal/filesystem` -/

namespace filesystem

open billy

/-- The loop of Go `WalkFiles` over the entries of one directory; `walkFiles` is the
recursive call for a subdirectory. -/
def walkLoop {σ : Type} (walkFiles : String → σ → Except FsError Unit × σ)
    (walker : String → σ → Except FsError Unit × σ) (base : String) :
    List FileInfo → σ → Except FsError Unit × σ
  | [], s => (.ok (), s)
  | f :: rest, s =>
    let filePath := filepathJoin [base, f.Name]
    if f.IsDir then
      match walkFiles filePath s with
      | (.error e, s₁) => (.error (e.wrap ("walking " ++ base ++ " subdir " ++ f.Name)), s₁)
      | (.ok _, s₁) => walkLoop walkFiles walker base rest s₁
    else
      match walker filePath s with
      | (.error e, s₁) => (.error (e.wrap ("walking " ++ base ++ " file " ++ f.Name)), s₁)
      | (.ok _, s₁) => walkLoop walkFiles walker base rest s₁

/-- Go `WalkFiles`, with the depth of the recursion bounded by `fuel`. The state `σ` is
what the walker may change: the filesystem, as `readDir` sees it, and the variables that the
walker captures. -/
def WalkFiles {σ : Type} (readDir : σ → String → Except FsError (List FileInfo))
    (walker : String → σ → Except FsError Unit × σ) :
    Nat → String → σ → Except FsError Unit × σ
  | 0, _, s => (.error .recursionBound, s)
  | fuel + 1, base, s =>
    match readDir s base with
    | .error e => (.error (e.wrap ("walk directory " ++ base)), s)
    | .ok files => walkLoop (WalkFiles readDir walker fuel) walker base files s

/-- Go `recursiveFilesInDir`: the walker appends every file path to `files`. -/
def recursiveFilesInDir (fuel : Nat) (fs : Memory) (dir : String) :
    Except FsError (List String) :=
  match WalkFiles (fun _ path => fs.ReadDir path)
      (fun filePath (files : List String) => (.ok (), files ++ [filePath])) fuel dir [] with
  | (.error e, _) => .error (e.wrap ("walk directory " ++ dir))
  | (.ok _, files) => .ok files

/-- The walker of Go `Replace`: copies one file of the source directory to the same
relative path below the target directory. -/
def replaceWalker (srcDir targetDir : String) (file : String) (fs : Memory) :
    Except FsError Unit × Memory :=
  let pathFromSrcAsBase := stringsTrimPrefix file srcDir
  let newFilePath := filepathJoin [targetDir, pathFromSrcAsBase]
  match fs.MkdirAll (filepathDir newFilePath) with
  | (.error e, fs₁) => (.error (e.wrap "create subdir in target dir"), fs₁)
  | (.ok _, fs₁) =>
    match fs₁.Open file with
    | .error e => (.error (e.wrap "open source file"), fs₁)
    | .ok sourceFile =>
      match fs₁.Create newFilePath with
      | (.error e, fs₂) => (.error (e.wrap "create file in target dir"), fs₂)
      | (.ok _, fs₂) => (.ok (), fs₂.Write newFilePath sourceFile)

/-- Go `Replace`. -/
def Replace (fuel : Nat) (fs : Memory) (srcDir targetDir : String) :
    Except FsError Unit × Memory :=
  match fs.Stat srcDir with
  | .error _ => (.error .errSourceDirNotExists, fs)
  | .ok src =>
    if !src.IsDir then (.error (.other "source is not a directory"), fs)
    else
      match recursiveFilesInDir fuel fs srcDir with
      | .error e => (.error (e.wrap "list files in source dir"), fs)
      | .ok filesToCopy =>
        if filesToCopy.length = 0 then (.error .errSourceDirEmpty, fs)
        else
          match fs.RemoveAll targetDir with
          | (.error e, fs₁) => (.error e, fs₁)
          | (.ok _, fs₁) =>
            WalkFiles (fun (s : Memory) path => s.ReadDir path) (replaceWalker srcDir targetDir)
              fuel srcDir fs₁

/-- The loop of Go `dirhash.Hash1` over the sorted file names: the summary gets one line
`<hex digest of the content>  <name>` per file. -/
def hashLoop (sha256hex : String → String) (open_ : String → Except FsError String) :
    String → List String → Except FsError String
  | h, [] => .ok h
  | h, file :: rest =>
    if '\n' ∈ file.toList then
      .error (.other "dirhash: filenames with newlines are not supported")
    else
      match open_ file with
      | .error e => .error e
      | .ok content => hashLoop sha256hex open_ (h ++ sha256hex content ++ "  " ++ file ++ "\n") rest

/-- Go `dirhash.Hash1`; `sha256hex` and `sha256base64` are SHA-256 with the hexadecimal and
the base64 encoding of the digest. -/
def Hash1 (sha256hex sha256base64 : String → String) (files : List String)
    (open_ : String → Except FsError String) : Except FsError String :=
  match hashLoop sha256hex open_ "" (sortStrings files) with
  | .error e => .error e
  | .ok h => .ok ("h1:" ++ sha256base64 h)

/-- Go `DirHash`. -/
def DirHash (sha256hex sha256base64 : String → String) (fuel : Nat) (fs : Memory)
    (dir : String) : Except FsError String :=
  match recursiveFilesInDir fuel fs dir with
  | .error e => .error e
  | .ok files =>
    let relativeFilePaths := files.map (fun file => stringsTrimPrefix file dir)
    Hash1 sha256hex sha256base64 relativeFilePaths
      (fun s => fs.Open (filepathJoin [dir, s]))

/-- Go `DirsInDir`. -/
def DirsInDir (fs : Memory) (dir : String) : Except FsError (List String) :=
  match fs.ReadDir dir with
  | .error e => .error (e.wrap "read dir files")
  | .ok files => .ok ((files.filter (fun f => f.IsDir)).map (fun f => f.Name))

/-- A worktree with a source directory of two files, one in a subdirectory, and a target
directory with another file. -/
def exampleFS : Memory where
  files :=
    [([], .dir), (["src"], .dir), (["src", "file"], .file "content"),
     (["src", "sub1"], .dir), (["src", "sub1", "file"], .file "content in subdir"),
     (["target"], .dir), (["target", "anotherFile"], .file "another content"),
     (["empty"], .dir), (["empty", "sub"], .dir)]

end filesystem

/-! ## `internal/kustomization` -/

namespace kustomization

open billy clusterconf

def KustomizationFile : String := "kustomization.yaml"

/-- The `range` action of `kustomizationTemplate`: one line per element. -/
def rangeLoop : String → List String → String
  | out, [] => out
  | out, element :: rest => rangeLoop (out ++ "\n  - ./" ++ element) rest

/-- The execution of `kustomizationTemplate` on the directory names. -/
def kustomizationTemplate (dirNames : List String) : String :=
  rangeLoop "---\napiVersion: kustomize.config.k8s.io/v1beta1\nkind: Kustomization\nresources:"
    dirNames ++ "\n"

/-- Go `Kust.write`. -/
def Kust.write (fs : Memory) (kustomizationPath : String) (dirNames : List String) :
    Except FsError Unit × Memory :=
  match fs.Create kustomizationPath with
  | (.error e, fs₁) => (.error (e.wrap "open kustomization.yaml"), fs₁)
  | (.ok _, fs₁) => (.ok (), fs₁.Write kustomizationPath (kustomizationTemplate dirNames))

/-- Go `Kust.delete`. -/
def Kust.delete (fs : Memory) (kustomizationPath : String) : Except FsError Unit × Memory :=
  fs.Remove kustomizationPath

/-- Go `Kust.Write`. -/
def Kust.Write (fs : Memory) (cluster : Cluster) : Except FsError Unit × Memory :=
  match filesystem.DirsInDir fs cluster.ManifestFolder with
  | .error e => (.error (e.wrap "list workload directories"), fs)
  | .ok dirNames =>
    let dirNames := sortStrings dirNames
    let kustomizationPath := filepathJoin [cluster.ManifestFolder, KustomizationFile]
    if dirNames.length > 0 then Kust.write fs kustomizationPath dirNames
    else Kust.delete fs kustomizationPath

end kustomization

/-! ### The walk of `WalkFiles` as a sequence of walker calls -/

namespace filesystem

open billy

/-- The state after the walker was called, without error, for each path of a list in turn. -/
def runWalker {σ : Type} (walker : String → σ → Except FsError Unit × σ) : List String → σ → σ
  | [], s => s
  | path :: rest, s => runWalker walker rest (walker path s).2

end filesystem

namespace kustomization

open billy

/-- A worktree in which the manifest folder of the `dev2` cluster of `cloud1` holds the
workloads `foo` and `bar`, and that of `dev3` only a `kustomization.yaml`. -/
def exampleWorktree : Memory where
  files :=
    [([], .dir), (["flux"], .dir), (["flux", "promoted"], .dir),
     (["flux", "promoted", "development"], .dir),
     (["flux", "promoted", "development", "dev2"], .dir),
     (["flux", "promoted", "development", "dev2", "cloud1"], .dir),
     (["flux", "promoted", "development", "dev2", "cloud1", "foo"], .dir),
     (["flux", "promoted", "development", "dev2", "cloud1", "foo", "file"], .file "foo"),
     (["flux", "promoted", "development", "dev2", "cloud1", "bar"], .dir),
     (["flux", "promoted", "development", "dev2", "cloud1", "bar", "file"], .file "bar"),
     (["flux", "promoted", "development", "dev3"], .dir),
     (["flux", "promoted", "development", "dev3", "cloud1"], .dir),
     (["flux", "promoted", "development", "dev3", "cloud1", "kustomization.yaml"],
       .file "stale")]

end kustomization

namespace filesystem

open billy

/-- The worktree during the copy loop of `Replace`, for the storage `fs` before the call and
the keys of the source and the target directory: one entry per key, the entries below the
source are those of `fs`, every entry below the target is the copy of the entry at the same
relative position below the source, and the files outside the target are those of `fs`. -/
def ReplaceInv (fs : Memory) (src tgt : Key) (s : Memory) : Prop :=
  (s.files.map Prod.fst).Nodup ∧
  (∀ rel, s.get (src ++ rel) = fs.get (src ++ rel)) ∧
  (∀ rel, (∀ c, s.get (tgt ++ rel) = some (.file c) → fs.get (src ++ rel) = some (.file c)) ∧
    (s.get (tgt ++ rel) = some .dir → fs.get (src ++ rel) = some .dir)) ∧
  (∀ k, ¬ tgt <+: k → ∀ c, s.get k = some (.file c) ↔ fs.get k = some (.file c))

end filesystem

namespace filesystem

open billy

/-- A worktree whose root holds the single file `.keep`. -/
def exampleDotfileFS : Memory where
  files := [([], .dir), ([".keep"], .file "x")]

end filesystem

namespace filesystem

open billy

/-- A worktree with the directory `src` and a copy of it at `copy`, stored in another
order. -/
def exampleCopyFS : Memory where
  files :=
    [([], .dir), (["src"], .dir), (["src", "file"], .file "content"),
     (["src", "sub1"], .dir), (["src", "sub1", "file"], .file "content in subdir"),
     (["copy"], .dir), (["copy", "sub1"], .dir),
     (["copy", "sub1", "file"], .file "content in subdir"),
     (["copy", "file"], .file "content")]

end filesystem

/-! ## Go standard library: `regexp`

The part of the syntax that the trailer pattern uses, with the leftmost-first semantics of Go:
of the matches that begin at the earliest position, the one that a backtracking search finds
first, a greedy `*` trying the longer repetition before the shorter one. -/

namespace regexp

/-- A regular expression: a literal character, a character class (`.` included), the empty
expression, a sequence, a greedy `*` and a capturing group with its number. -/
inductive Regex where
  | lit (c : Char)
  | cls (p : Char → Bool)
  | empty
  | seq (a b : Regex)
  | star (a : Regex)
  | group (i : Nat) (a : Regex)

/-- The text of each capturing group that took part in the match, by group number. -/
abbrev Captures := List (Nat × List Char)

def Captures.set : Captures → Nat → List Char → Captures
  | [], i, v => [(i, v)]
  | (j, w) :: rest, i, v => if j = i then (i, v) :: rest else (j, w) :: Captures.set rest i v

def Captures.get : Captures → Nat → List Char
  | [], _ => []
  | (j, w) :: rest, i => if j = i then w else Captures.get rest i

/-- The iteration of a greedy `*` over the expression matched by `step`: one more
repetition, which has to consume input, is tried before the continuation `k`. -/
def starLoop {α : Type}
    (step : List Char → Captures → (List Char → Captures → Option α) → Option α) :
    Nat → List Char → Captures → (List Char → Captures → Option α) → Option α
  | 0, s, caps, k => k s caps
  | n + 1, s, caps, k =>
    match step s caps (fun s₁ caps₁ =>
        if s₁.length < s.length then starLoop step n s₁ caps₁ k else none) with
    | some r => some r
    | none => k s caps

/-- The backtracking search for a match of the expression at the start of `s`; `k` is tried
on what is left of the input and the captures, and its first success is the result. -/
def Regex.matchK {α : Type} :
    Regex → List Char → Captures → (List Char → Captures → Option α) → Option α
  | .lit c, s, caps, k =>
    match s with
    | [] => none
    | x :: rest => if x = c then k rest caps else none
  | .cls p, s, caps, k =>
    match s with
    | [] => none
    | x :: rest => if p x then k rest caps else none
  | .empty, s, caps, k => k s caps
  | .seq a b, s, caps, k => a.matchK s caps (fun s₁ caps₁ => b.matchK s₁ caps₁ k)
  | .star a, s, caps, k => starLoop (fun s₁ caps₁ k₁ => a.matchK s₁ caps₁ k₁) s.length s caps k
  | .group i a, s, caps, k =>
    a.matchK s caps (fun s₁ caps₁ => k s₁ (caps₁.set i (s.take (s.length - s₁.length))))

/-- The loop of `FindAllStringSubmatch`: the leftmost match from the current position on,
then the search goes on behind it. -/
def findAllLoop (re : Regex) : Nat → List Char → List Captures
  | 0, _ => []
  | fuel + 1, s =>
    match re.matchK s [] (fun rest caps => some (rest, caps)) with
    | some (rest, caps) =>
      if rest.length < s.length then caps :: findAllLoop re fuel rest
      else
        match s with
        | [] => [caps]
        | _ :: t => caps :: findAllLoop re fuel t
    | none =>
      match s with
      | [] => []
      | _ :: t => findAllLoop re fuel t

/-- Go `Regexp.FindAllStringSubmatch(s, -1)`, as the captures of each match. -/
def FindAllStringSubmatch (re : Regex) (s : String) : List Captures :=
  findAllLoop re (s.length + 1) s.toList

/-- The expression for a literal text. -/
def literal : List Char → Regex
  | [] => .empty
  | c :: rest => .seq (.lit c) (literal rest)

/-- The class `.`: any character but the line feed. -/
def dot : Regex := .cls (fun c => c != '\n')

/-- The class `[^\r\n]`. -/
def notLineEnd : Regex := .cls (fun c => c != '\r' && c != '\n')

end regexp

namespace detect

open regexp

/-- The pattern `Source-commit: (.*) A:(.*) C:([^\r\n]*)` of Go `Detect.GetSourceCommits`. -/
def sourceCommitRegex : Regex :=
  .seq (literal "Source-commit: ".toList)
    (.seq (.group 1 (.star dot))
      (.seq (literal " A:".toList)
        (.seq (.group 2 (.star dot))
          (.seq (literal " C:".toList) (.group 3 (.star notLineEnd))))))

/-- The body of the commit loop of Go `Detect.GetSourceCommits`: the source commits that the
pattern finds in one commit message, in the order of the matches. -/
def sourceCommitsOfMessage (message : String) : List github.Commit :=
  (FindAllStringSubmatch sourceCommitRegex message).map (fun match_ =>
    { Hash := String.mk (match_.get 1)
      AuthorLogin := String.mk (match_.get 2)
      CommitterLogin := String.mk (match_.get 3) })

/-- A commit message with every line feed rewritten to carriage return and line feed. -/
def withCRLF (message : String) : String :=
  String.mk (message.toList.flatMap (fun c => if c = '\n' then ['\r', '\n'] else [c]))

end detect

namespace detect

/-- The characters of the trailer line that `buildCommitMessage` writes for a source
commit. -/
def trailerChars (c : github.Commit) : List Char :=
  "Source-commit: ".toList ++ (c.Hash.toList ++ (" A:".toList ++ (c.AuthorLogin.toList ++
    (" C:".toList ++ c.CommitterLogin.toList))))

end detect

/-! ## Go standard library: `strings.Split` -/

/-- The loop of Go `strings.Split(s, sep)` for a non-empty separator: `cur` is the part read
so far, and `skip` counts the characters of a separator found at the previous position that
are still to be dropped. A separator is looked for at every position behind the last one
found, so the occurrences taken are the leftmost ones and do not overlap. -/
def stringsSplitLoop (sep : List Char) : Nat → List Char → List Char → List (List Char)
  | _, cur, [] => [cur]
  | skip + 1, cur, _ :: rest => stringsSplitLoop sep skip cur rest
  | 0, cur, c :: rest =>
    if sep.isPrefixOf (c :: rest) then cur :: stringsSplitLoop sep (sep.length - 1) [] rest
    else stringsSplitLoop sep 0 (cur ++ [c]) rest

/-- Go `strings.Split(s, sep)`; an empty separator splits after each character. -/
def stringsSplit (s sep : String) : List String :=
  if sep = "" then s.toList.map (fun c => String.mk [c])
  else (stringsSplitLoop sep.toList 0 [] s.toList).map String.mk

/-! ## `internal/git`: the commit range -/

namespace git

def sep : String := "..."

/-- Go `git.CommitRange`. -/
structure CommitRange where
  FromPrefix : String
  ToPrefix : String
  deriving DecidableEq, Repr

/-- The error of `NewCommitRange`: it wraps `ErrCommitRangeIncorrect` and is formatted with
the parts that the split found. -/
inductive RangeError where
  | errCommitRangeIncorrect (parts : List String)
  deriving DecidableEq, Repr

/-- Go `NewCommitRange`. -/
def NewCommitRange (r : String) : Except RangeError CommitRange :=
  let s := stringsSplit r sep
  if s.length ≠ 2 then .error (.errCommitRangeIncorrect s)
  else .ok { FromPrefix := s.getD 0 "", ToPrefix := s.getD 1 "" }

end git

/-! ## `internal/clusterconf`: the workload registry -/

namespace billy

/-- The text of an error, as `err.Error()` gives it. -/
def FsError.Error : FsError → String
  | .errNotExist => "file does not exist"
  | .errSourceDirNotExists => "source directory does not exist"
  | .errSourceDirEmpty => "source directory is empty"
  | .other msg => msg
  | .recursionBound => "recursion bound"

end billy

namespace clusterconf

def Cluster.ConfigFolder (c : Cluster) : String := c.Spec.ConfigFolder

/-- Go `Operator.validate`. -/
def Operator.validate (o : Operator) : Except String Unit :=
  if o = OperatorEqual ∨ o = OperatorNotEqual then .ok () else .error ("unknown operator: " ++ o)

/-- Go `Exclusion.validate`. -/
def Exclusion.validate (e : Exclusion) : Except String Unit :=
  if e.Key = "" then .error "Exclusion.Key must not be empty"
  else if e.Value = "" then .error "Exclusion.Value must not be empty"
  else Operator.validate e.Operator

/-- The loop of Go `Workload.Validate` over the exclusions. -/
def validateLoop : List Exclusion → Except String Unit
  | [] => .ok ()
  | exclusion :: rest =>
    match exclusion.validate with
    | .error e => .error e
    | .ok _ => validateLoop rest

/-- Go `Workload.Validate`. -/
def Workload.Validate (w : Workload) : Except String Unit :=
  if w.Name = "" then .error "workload name must not be blank"
  else validateLoop w.Spec.Exclusions

/-- Go `FSWorkloadRegistry` (the logger left out). The filesystem is passed to each call.
`yamlDecode content w` is `yaml.NewDecoder(f).Decode(&workload)` on a file with this content
and a struct that holds `w`: the fields that the document sets replace those of `w`. -/
structure FSWorkloadRegistry where
  rootDir : String
  yamlDecode : String → Workload → Except String Workload

/-- Go `FSWorkloadRegistry.parseWorkload`: the workload, and the error if any. -/
def FSWorkloadRegistry.parseWorkload (r : FSWorkloadRegistry) (fs : billy.Memory)
    (workloadID : String) : Workload × Option billy.FsError :=
  let workload : Workload :=
    { Version := "v0.1"
      ConfigType := "Workload"
      Metadata := { Name := workloadID, Description := "" }
      Spec := { Exclusions := [] } }
  let path := filepathJoin [r.rootDir, workloadID, "workload.yaml"]
  match fs.Open path with
  | .error e => (workload, some e)
  | .ok content =>
    match r.yamlDecode content workload with
    | .error e => (workload, some (.other ("could not decode workload config file: " ++ e)))
    | .ok workload₁ =>
      match workload₁.Validate with
      | .error e => (workload₁, some (.other e))
      | .ok _ => (workload₁, none)

/-- Go `FSWorkloadRegistry.Get`: a missing file is no error. -/
def FSWorkloadRegistry.Get (r : FSWorkloadRegistry) (fs : billy.Memory) (workloadID : String) :
    Except String Workload :=
  match r.parseWorkload fs workloadID with
  | (workload, none) => .ok workload
  | (workload, some .errNotExist) => .ok workload
  | (_, some e) => .error ("error loading workload " ++ workloadID ++ ": " ++ e.Error)

/-- A worktree in which the directory of the workload `foo` holds a `workload.yaml` that
declares the name `bar`. -/
def exampleRenamedFS : billy.Memory where
  files :=
    [([], .dir), (["flux"], .dir), (["flux", "manifests"], .dir),
     (["flux", "manifests", "foo"], .dir),
     (["flux", "manifests", "foo", "workload.yaml"], .file "metadata:\n  name: bar\n"),
     (["flux", "manifests", "foo", "deploy.yaml"], .file "kind: Deployment\n")]

/-- The registry of the promoter, with a decoder that knows the one document of
`exampleRenamedFS`: it sets `metadata.name` and leaves the other fields as they are. -/
def exampleRenamedRegistry : FSWorkloadRegistry where
  rootDir := "flux/manifests"
  yamlDecode := fun content w =>
    if content = "metadata:\n  name: bar\n" then
      .ok { w with Metadata := { w.Metadata with Name := "bar" } }
    else .error "cannot unmarshal"

end clusterconf

/-! ## `internal/kustomization`: the configuration of a new cluster -/

namespace kustomization

open billy clusterconf

def ConfigContent : String := "# Please add tenant configuration\n"

def ClusterKustomization : String :=
  "---\napiVersion: kustomize.config.k8s.io/v1beta1\nkind: Kustomization\ngeneratorOptions:\n    disableNameSuffixHash: true\n"

/-- Go `ConfigKust` (the logger left out). -/
structure ConfigKust where
  clusters : Clusters

/-- Go `ConfigKust.save`. -/
def ConfigKust.save (fs : Memory) (path content : String) : Except FsError Unit × Memory :=
  match fs.Create path with
  | (.error e, fs₁) => (.error e, fs₁)
  | (.ok _, fs₁) => (.ok (), fs₁.Write path content)

/-- Go `ConfigKust.writeWorkloadConfig`: at the first workload whose file exists the
function returns. -/
def ConfigKust.writeWorkloadConfig (cluster : Cluster) :
    List String → Memory → Except FsError Unit × Memory
  | [], fs => (.ok (), fs)
  | workload :: rest, fs =>
    let configPath := filepathJoin [cluster.ConfigFolder, workload ++ "-config.yaml"]
    match fs.Stat configPath with
    | .ok _ => (.ok (), fs)
    | .error _ =>
      match ConfigKust.save fs configPath ConfigContent with
      | (.error e, fs₁) => (.error e, fs₁)
      | (.ok _, fs₁) => ConfigKust.writeWorkloadConfig cluster rest fs₁

/-- Go `ConfigKust.writeKustomization`. -/
def ConfigKust.writeKustomization (fs : Memory) (kustomizationPath : String) :
    Except FsError Unit × Memory :=
  match fs.Stat kustomizationPath with
  | .ok _ => (.ok (), fs)
  | .error _ => ConfigKust.save fs kustomizationPath ClusterKustomization

/-- The loop of Go `ConfigKust.Write` over the clusters. -/
def ConfigKust.writeLoop (perCluster : GoMap (List String)) :
    List Cluster → Memory → Except FsError Unit × Memory
  | [], fs => (.ok (), fs)
  | cluster :: rest, fs =>
    match perCluster.get? cluster.Name with
    | none => ConfigKust.writeLoop perCluster rest fs
    | some workloads =>
      match ConfigKust.writeWorkloadConfig cluster workloads fs with
      | (.error e, fs₁) => (.error e, fs₁)
      | (.ok _, fs₁) =>
        let kustomizationPath := filepathJoin [cluster.ConfigFolder, KustomizationFile]
        match ConfigKust.writeKustomization fs₁ kustomizationPath with
        | (.error e, fs₂) => (.error e, fs₂)
        | (.ok _, fs₂) => ConfigKust.writeLoop perCluster rest fs₂

/-- Go `ConfigKust.Write`: the error, if any, and the filesystem that the call leaves
behind. -/
def ConfigKust.Write (k : ConfigKust) (fs : Memory) (perCluster : GoMap (List String)) :
    Except FsError Unit × Memory :=
  ConfigKust.writeLoop perCluster k.clusters fs

/-- The cluster of `TestNewConfigKust`. -/
def exampleConfigCluster : Cluster where
  Version := ""
  ConfigType := ""
  Metadata :=
    { Name := "dev1"
      Description := ""
      Labels :=
        { entries := [("environment", "development"), ("cloud", "cloud1")]
          nodupKeys := by simp } }
  Spec := { ManifestFolder := "", ConfigFolder := "/config/development/dev1/cloud1" }

/-- A worktree in which the config folder of `exampleConfigCluster` holds the configuration
of `foo` and nothing else. -/
def exampleConfigFS : Memory where
  files :=
    [([], .dir), (["config"], .dir), (["config", "development"], .dir),
     (["config", "development", "dev1"], .dir),
     (["config", "development", "dev1", "cloud1"], .dir),
     (["config", "development", "dev1", "cloud1", "foo-config.yaml"], .file "don't change me")]

end kustomization

namespace billy

/-- The storage `fs₁` extends `fs` within the keys `A`: it has one entry per key, every entry
of `fs` is an entry of `fs₁`, and a file of `fs₁` that is not a file of `fs` has its key
in `A`. -/
def Memory.ExtendedWithin (A : Key → Prop) (fs fs₁ : Memory) : Prop :=
  (fs₁.files.map Prod.fst).Nodup ∧
  (∀ key n, fs.get key = some n → fs₁.get key = some n) ∧
  (∀ key c, fs₁.get key = some (.file c) → fs.get key = some (.file c) ∨ A key)

end billy

namespace promotion

/-- The loop of Go `Results.WorkloadsPerCluster` over the sorted cluster names: the keys of
the inner map of each cluster, sorted. -/
def workloadsPerClusterLoop (promotions : Results) :
    GoMap (List String) → List String → GoMap (List String)
  | workloadsPerCluster, [] => workloadsPerCluster
  | workloadsPerCluster, cluster :: rest =>
    let workloads := sortStrings (((GoMap.get? promotions cluster).getD []).map Prod.fst)
    workloadsPerClusterLoop promotions
      (GoMap.set workloadsPerCluster cluster
        ((GoMap.get? workloadsPerCluster cluster).getD [] ++ workloads)) rest

/-- Go `Results.WorkloadsPerCluster`. -/
def Results.WorkloadsPerCluster (promotions : Results) : GoMap (List String) :=
  workloadsPerClusterLoop promotions [] promotions.ClusterNames

end promotion

namespace promoter

open clusterconf

/-- The recording promoter on the `dev2` cluster of `cloud1`, with the registry
`exampleRenamedRegistry` reading the worktree `exampleRenamedFS`. -/
def exampleRenamedPromoter : Promoter (List (String × String × String)) :=
  { recordingPromoter [exampleCluster "development" "dev2" "cloud1"] (fun _ => "old") with
    registryGet := fun _ workloadID => exampleRenamedRegistry.Get exampleRenamedFS workloadID }

end promoter

/-! ## `internal/github`: the assignees of a pull request -/

namespace github

def webFlowUser : String := "web-flow"
def prLabel : String := "k8s-promoter/automated-promotion"
def maxAssignees : Nat := 10

/-- What the reads of Go `ManifestRepository` use: the `noIssueUsers`, the answer of the
hosted check `client.Issues.IsAssignee` for a login, the commits that
`client.Repositories.CompareCommits` lists between a base and a head, and the order in which
the `range` statement visits the keys of the assignee map, which Go does not fix. -/
structure ManifestRepository where
  noIssueUsers : List String
  IssuesIsAssignee : String → Except String Bool
  CompareCommits : String → String → Except String (List Commit)
  rangeOrder : List String → List String

/-- Go `ManifestRepository.GetCommits`. -/
def ManifestRepository.GetCommits (r : ManifestRepository) (base head : String) :
    Except String (List Commit) :=
  match r.CompareCommits base head with
  | .error e => .error ("CompareCommits: " ++ e)
  | .ok commits => .ok commits

/-- The loop of Go `ManifestRepository.isAssignee` over the `noIssueUsers`, then the hosted
check. -/
def ManifestRepository.isAssigneeLoop (r : ManifestRepository) (assignee : String) :
    List String → Except String Bool
  | [] => r.IssuesIsAssignee assignee
  | noIssueUser :: rest =>
    if assignee = noIssueUser then .ok false else r.isAssigneeLoop assignee rest

/-- Go `ManifestRepository.isAssignee`. -/
def ManifestRepository.isAssignee (r : ManifestRepository) (assignee : String) :
    Except String Bool :=
  if assignee = webFlowUser then .ok false
  else r.isAssigneeLoop assignee r.noIssueUsers

/-- The first loop of Go `GetPullRequestAssignees`: the author and the committer of every
source commit become keys of the map. -/
def assigneeMapLoop : GoMap Bool → List Commit → GoMap Bool
  | assigneeMap, [] => assigneeMap
  | assigneeMap, sourceCommit :: rest =>
    assigneeMapLoop
      (GoMap.set (GoMap.set assigneeMap sourceCommit.AuthorLogin true)
        sourceCommit.CommitterLogin true) rest

/-- The second loop of Go `GetPullRequestAssignees`, over the keys of the map in the order of
the `range`: it ends at the first error of the check, and at the first accepted login that
finds `maxAssignees` logins collected. -/
def ManifestRepository.assigneesLoop (r : ManifestRepository) :
    List String → List String → Except String (List String)
  | assignees, [] => .ok assignees
  | assignees, assignee :: rest =>
    match r.isAssignee assignee with
    | .error e => .error ("isAssignee: " ++ e)
    | .ok ok_ =>
      if ok_ then
        if assignees.length = maxAssignees then .ok assignees
        else r.assigneesLoop (assignees ++ [assignee]) rest
      else r.assigneesLoop assignees rest

/-- Go `ManifestRepository.GetPullRequestAssignees`. -/
def ManifestRepository.GetPullRequestAssignees (r : ManifestRepository)
    (sourceCommits : List Commit) : Except String (List String) :=
  let assigneeMap := assigneeMapLoop [] sourceCommits
  match r.assigneesLoop [] (r.rangeOrder (assigneeMap.map Prod.fst)) with
  | .error e => .error e
  | .ok assignees => .ok (sortStrings assignees)

/-- A repository whose hosted check accepts every login but `stranger`, with `bot` among the
`noIssueUsers`, and a `range` that visits the keys in reverse. -/
def exampleManifestRepository : ManifestRepository where
  noIssueUsers := ["bot"]
  IssuesIsAssignee := fun login => .ok (login != "stranger")
  CompareCommits := fun _ _ => .ok []
  rangeOrder := List.reverse

/-- Source commits by `user2`, `user1`, `bot`, `stranger` and GitHub's `web-flow`. -/
def exampleSourceCommits : List Commit :=
  [{ Hash := "30691ee", AuthorLogin := "user2", CommitterLogin := "web-flow" },
   { Hash := "d535711", AuthorLogin := "user1", CommitterLogin := "bot" },
   { Hash := "7c1d0aa", AuthorLogin := "stranger", CommitterLogin := "user2" }]

end github

namespace regexp

/-- The expression `a+`: one `a`, then a greedy `a*`. -/
def plus (a : Regex) : Regex := .seq a (.star a)

/-- The class `\S`: any character but the blank, the tab, the line feed, the form feed and
the carriage return. -/
def nonSpace : Regex :=
  .cls (fun c => !(c == ' ' || c == '\t' || c == '\n' || c == '\x0c' || c == '\r'))

end regexp

namespace detect

open regexp

/-- The pattern of the specification, `Source-commit: (\S+) A:(\S+) C:([^\r\n]+)`, to be
compared with `sourceCommitRegex`, the pattern of the code. -/
def specSourceCommitRegex : Regex :=
  .seq (literal "Source-commit: ".toList)
    (.seq (.group 1 (plus nonSpace))
      (.seq (literal " A:".toList)
        (.seq (.group 2 (plus nonSpace))
          (.seq (literal " C:".toList) (.group 3 (plus notLineEnd))))))

end detect

/-! ## `internal/environment`, `internal/detect`: what a run of the promoter reads -/

namespace environment

/-- Go `Env.Validate`. -/
def Validate (e : Env) : Except String Unit :=
  if e ≠ Development ∧ e ≠ Test ∧ e ≠ Production then
    .error ("env " ++ e ++ " is not one of development, test, production")
  else .ok ()

end environment

namespace detect

open clusterconf

/-- Go `detect.Detect` over a worktree state `σ`. `TreeDiff` is `fromTree.Diff(toTree)` of
go-git on two trees, `FilterCommitIter` gives the messages of the commits that the filtered
iterator of `GetSourceCommits` visits between two commits, `RegistryGetAll` is
`Registry.GetAll()`, `Worktree` and `ReadDir` are `Repo.Worktree()` and
`wt.Filesystem.ReadDir`, `sortSort` is `sort.Sort` and `rangeOrder` the order in which a
`range` visits the keys of a map. -/
structure Detect (σ : Type) where
  Repo : Repository
  Inferer : Inferer
  CR : git.CommitRange
  TreeDiff : Nat → Nat → Except String (List Change)
  FilterCommitIter : Nat → Nat → Except String (List String)
  RegistryGetAll : σ → Except String (List clusterconf.Workload)
  Worktree : σ → Except String Unit
  ReadDir : σ → String → Except String (List billy.FileInfo)
  sortSort : List WorkloadChange → List WorkloadChange
  rangeOrder : List String → List String

/-- Go `tree`. -/
def tree (repo : Repository) (hash : Nat) : Except DetectError Nat :=
  match repo.CommitObject hash with
  | .error e => .error (.repo ("repo.CommitObject: " ++ e))
  | .ok commit =>
    match repo.CommitTree commit with
    | .error e => .error (.repo ("commit.Tree: " ++ e))
    | .ok t => .ok t

/-- Go `diffTree`. -/
def Detect.diffTree {σ : Type} (d : Detect σ) (from_ to_ : Nat) :
    Except DetectError (List Change) :=
  match tree d.Repo from_ with
  | .error e => .error e
  | .ok fromTree =>
    match tree d.Repo to_ with
    | .error e => .error e
    | .ok toTree =>
      match d.TreeDiff fromTree toTree with
      | .error e => .error (.repo e)
      | .ok c => .ok c

/-- Go `Detect.WorkloadChange`. -/
def Detect.WorkloadChange {σ : Type} (d : Detect σ) : Except DetectError (List WorkloadChange) :=
  match d.Repo.ResolveRevision d.CR.FromPrefix with
  | .error e => .error (.repo ("repo.ResolveRevision: " ++ e))
  | .ok from_ =>
    match d.Repo.ResolveRevision d.CR.ToPrefix with
    | .error e => .error (.repo ("repo.ResolveRevision: " ++ e))
    | .ok to_ =>
      match d.diffTree from_ to_ with
      | .error e => .error e
      | .ok diffs =>
        match processDiffs d.sortSort d.Inferer diffs with
        | .error e => .error e
        | .ok changes => if changes.length = 0 then .error .noChange else .ok changes

/-- Go `Detect.fromManifestSource`. -/
def Detect.fromManifestSource {σ : Type} (d : Detect σ) (s : σ) (sourceEnv : environment.Env) :
    Except String (List detect.WorkloadChange) :=
  match d.RegistryGetAll s with
  | .error e => .error e
  | .ok workloads =>
    .ok (workloads.map (fun workload =>
      { Op := OperationCopy, W := { Name := workload.Name, SourceEnv := sourceEnv } }))

/-- The inner loop of Go `Detect.fromClustersInPreviousEnv`: the directories become keys of
the map. -/
def promotedWorkloadsLoop : GoMap Unit → List billy.FileInfo → GoMap Unit
  | promotedWorkloads, [] => promotedWorkloads
  | promotedWorkloads, fileInfo :: rest =>
    if !fileInfo.IsDir then promotedWorkloadsLoop promotedWorkloads rest
    else promotedWorkloadsLoop (GoMap.set promotedWorkloads fileInfo.Name ()) rest

/-- The outer loop of Go `Detect.fromClustersInPreviousEnv`, over the clusters. -/
def Detect.previousClustersLoop {σ : Type} (d : Detect σ) (s : σ) :
    GoMap Unit → List Cluster → Except String (GoMap Unit)
  | promotedWorkloads, [] => .ok promotedWorkloads
  | promotedWorkloads, cluster :: rest =>
    match d.ReadDir s cluster.ManifestFolder with
    | .error e => .error e
    | .ok fileInfos =>
      d.previousClustersLoop s (promotedWorkloadsLoop promotedWorkloads fileInfos) rest

/-- Go `Detect.fromClustersInPreviousEnv`. -/
def Detect.fromClustersInPreviousEnv {σ : Type} (d : Detect σ) (s : σ)
    (sourceEnv : environment.Env) (previousEnvClusters : Clusters) :
    Except String (List detect.WorkloadChange) :=
  match d.Worktree s with
  | .error e => .error ("NewClusterWorkloads: " ++ e)
  | .ok _ =>
    match d.previousClustersLoop s [] previousEnvClusters with
    | .error e => .error e
    | .ok promotedWorkloads =>
      .ok ((d.rangeOrder (promotedWorkloads.map Prod.fst)).map (fun workload =>
        { Op := OperationCopy, W := { Name := workload, SourceEnv := sourceEnv } }))

/-- Go `Detect.NewClusterWorkloads`. -/
def Detect.NewClusterWorkloads {σ : Type} (d : Detect σ) (s : σ) (targetEnv : environment.Env)
    (previousEnvClusters : Clusters) : Except String (List detect.WorkloadChange) :=
  match environment.ManifestSource targetEnv with
  | none => .error (targetEnv ++ ": unknown environment")
  | some source =>
    if targetEnv = environment.Development then d.fromManifestSource s source
    else d.fromClustersInPreviousEnv s source previousEnvClusters

/-- Go `Detect.GetSourceCommits`: the source commits of the messages of the visited commits,
in the order of the visit. -/
def Detect.GetSourceCommits {σ : Type} (d : Detect σ) : Except String (List github.Commit) :=
  match d.Repo.ResolveRevision d.CR.FromPrefix with
  | .error e => .error ("repo.ResolveRevision: " ++ e)
  | .ok from_ =>
    match d.Repo.ResolveRevision d.CR.ToPrefix with
    | .error e => .error ("repo.ResolveRevision: " ++ e)
    | .ok to_ =>
      match d.Repo.CommitObject from_ with
      | .error e => .error ("repo.Log: " ++ e)
      | .ok preCommit =>
        match d.Repo.CommitObject to_ with
        | .error e => .error ("repo.CommitObject: " ++ e)
        | .ok postCommit =>
          match d.FilterCommitIter preCommit postCommit with
          | .error e => .error e
          | .ok messages => .ok (messages.flatMap sourceCommitsOfMessage)

end detect

namespace detect

/-- The text of an error, as `err.Error()` gives it. -/
def DetectError.Error : DetectError → String
  | .notWorkloadManifest path => "path: " ++ path ++ ": not workload manifest"
  | .unknownPathConvention path => "path: " ++ path ++ ": unknown path convention"
  | .repo msg => msg
  | .noChange => "no change detected"

end detect

/-! ## `internal/promotion`: the two kinds of promotion -/

namespace promotion

open clusterconf

/-- Go `PromotionManifestUpdate` (the repository and the logger left out). -/
structure PromotionManifestUpdate (σ : Type) where
  env : environment.Env
  kind : Kind
  sourceCommits : List github.Commit
  assignees : List String
  clusters : ClusterDetection
  detect : detect.Detect σ

/-- Go `NewPromotionManifestUpdate`. -/
def NewPromotionManifestUpdate {σ : Type} (env : environment.Env)
    (r : github.ManifestRepository) (d : detect.Detect σ) (c : ClusterDetection) :
    Except String (PromotionManifestUpdate σ) :=
  let sourceCommits :=
    if env = environment.Development then r.GetCommits d.CR.FromPrefix d.CR.ToPrefix
    else d.GetSourceCommits
  match sourceCommits with
  | .error e => .error e
  | .ok sourceCommits =>
    match r.GetPullRequestAssignees sourceCommits with
    | .error e => .error e
    | .ok assignees =>
      .ok { env := env, kind := ManifestUpdate, assignees := assignees,
            sourceCommits := sourceCommits, detect := d, clusters := c }

/-- The loop of Go `PromotionManifestUpdate.changesFromPreviousEnv`. -/
def changesFromPreviousEnvLoop (manifestSource : environment.Env) :
    List detect.WorkloadChange → List detect.WorkloadChange → List detect.WorkloadChange
  | selected, [] => selected
  | selected, change :: rest =>
    if change.W.SourceEnv = manifestSource then
      changesFromPreviousEnvLoop manifestSource (selected ++ [change]) rest
    else changesFromPreviousEnvLoop manifestSource selected rest

/-- Go `PromotionManifestUpdate.changesFromPreviousEnv`. -/
def PromotionManifestUpdate.changesFromPreviousEnv {σ : Type} (s : PromotionManifestUpdate σ)
    (changes : List detect.WorkloadChange) : Except String (List detect.WorkloadChange) :=
  match environment.ManifestSource s.env with
  | none => .error (s.env ++ ": unknown environment")
  | some manifestSource => .ok (changesFromPreviousEnvLoop manifestSource [] changes)

/-- Go `PromotionManifestUpdate.Changes`: `ErrNoChange` of the detector is no error, the
changes are then none. -/
def PromotionManifestUpdate.Changes {σ : Type} (s : PromotionManifestUpdate σ) :
    Except String (List detect.WorkloadChange × Clusters) :=
  let detected : Except String (List detect.WorkloadChange) :=
    match s.detect.WorkloadChange with
    | .ok workloadChanges => .ok workloadChanges
    | .error .noChange => .ok []
    | .error e => .error ("diff: " ++ e.Error)
  match detected with
  | .error e => .error e
  | .ok workloadChanges =>
    match s.changesFromPreviousEnv workloadChanges with
    | .error e => .error ("promoteAllWorkloadsToNewClusters: " ++ e)
    | .ok selectedChanges =>
      if selectedChanges.length = 0 then .ok ([], [])
      else .ok (selectedChanges, s.clusters.Existing)

/-- Go `PromotionManifestUpdate.AfterChanges`. -/
def PromotionManifestUpdate.AfterChanges {σ : Type} (_s : PromotionManifestUpdate σ)
    (_promotions : Results) (_clusters : Clusters) (wt : σ) : Except String Unit × σ :=
  (.ok (), wt)

/-- Go `PromotionToNewCluster`. `WorkingTreeFS` is `repo.WorkingTreeFS()`, and
`ConfigKustWrite` is `kustomization.NewConfigKust(logger, clusters).Write` on the filesystem
of the worktree. -/
structure PromotionToNewCluster (σ : Type) where
  env : environment.Env
  kind : Kind
  sourceCommits : List github.Commit
  assignees : List String
  clusters : ClusterDetection
  detect : detect.Detect σ
  WorkingTreeFS : σ → Except String Unit
  ConfigKustWrite : σ → Clusters → GoMap (List String) → Except String Unit × σ

/-- Go `NewPromotionToNewCluster`. -/
def NewPromotionToNewCluster {σ : Type} (env : environment.Env)
    (WorkingTreeFS : σ → Except String Unit)
    (ConfigKustWrite : σ → Clusters → GoMap (List String) → Except String Unit × σ)
    (d : detect.Detect σ) (c : ClusterDetection) : Except String (PromotionToNewCluster σ) :=
  .ok { env := env, clusters := c, kind := NewCluster, assignees := [], sourceCommits := [],
        detect := d, WorkingTreeFS := WorkingTreeFS, ConfigKustWrite := ConfigKustWrite }

/-- Go `PromotionToNewCluster.Changes`. -/
def PromotionToNewCluster.Changes {σ : Type} (s : PromotionToNewCluster σ) (wt : σ) :
    Except String (List detect.WorkloadChange × Clusters) :=
  if s.clusters.New.length = 0 then .ok ([], [])
  else
    match s.detect.NewClusterWorkloads wt s.env s.clusters.PreviousEnv with
    | .error e => .error ("promoteAllWorkloadsToNewClusters: " ++ e)
    | .ok changes => .ok (changes, s.clusters.New)

/-- Go `PromotionToNewCluster.addNewClusterConfig`: an error of the write is logged and
dropped. -/
def PromotionToNewCluster.addNewClusterConfig {σ : Type} (s : PromotionToNewCluster σ)
    (promotions : Results) (clusters : Clusters) (wt : σ) : Except String Unit × σ :=
  match s.ConfigKustWrite wt clusters promotions.WorkloadsPerCluster with
  | (_, wt₁) => (.ok (), wt₁)

/-- Go `PromotionToNewCluster.AfterChanges`. -/
def PromotionToNewCluster.AfterChanges {σ : Type} (s : PromotionToNewCluster σ)
    (promotions : Results) (clusters : Clusters) (wt : σ) : Except String Unit × σ :=
  match s.WorkingTreeFS wt with
  | .error e => (.error e, wt)
  | .ok _ => s.addNewClusterConfig promotions clusters wt

end promotion

/-! ## `internal/promoter`: a run of `Promote` -/

namespace promoter

open clusterconf

/-- Go interface `Promotion`, as the values of its methods. -/
structure Promotion (σ : Type) where
  Changes : σ → Except String (List detect.WorkloadChange × Clusters)
  AfterChanges : promotion.Results → Clusters → σ → Except String Unit × σ
  Kind : promotion.Kind
  Assignes : List String
  SourceCommits : List github.Commit

/-- The methods of `PromotionManifestUpdate`. -/
def manifestUpdatePromotion {σ : Type} (s : promotion.PromotionManifestUpdate σ) :
    Promotion σ where
  Changes := fun _ => s.Changes
  AfterChanges := s.AfterChanges
  Kind := s.kind
  Assignes := s.assignees
  SourceCommits := s.sourceCommits

/-- The methods of `PromotionToNewCluster`. -/
def newClusterPromotion {σ : Type} (s : promotion.PromotionToNewCluster σ) : Promotion σ where
  Changes := s.Changes
  AfterChanges := s.AfterChanges
  Kind := s.kind
  Assignes := s.assignees
  SourceCommits := s.sourceCommits

/-- A call that a run makes on the cloned repository or on the hosting service:
`NewPromoteBranch`, `Commit`, the push of a branch, and the three requests of
`raisePullRequest`. The trace of a run lists its calls in order, successful or not. -/
inductive Effect where
  | newPromoteBranch
  | commit (msg : String)
  | push (branchName : String)
  | createPullRequest (branchName : String) (pr : github.PromotionPullRequest)
  | addLabels (number : Nat) (labels : List String)
  | addAssignees (number : Nat) (assignees : List String)
  deriving DecidableEq, Repr

/-- The calls that open a pull request. -/
def Effect.isCreatePullRequest : Effect → Bool
  | .createPullRequest _ _ => true
  | _ => false

/-- Go `Promoter` with all the collaborators of `Promote`: the part that `performChanges`
uses (`promoter`), the builder, the detector, the reads of the manifest repository, and its
operations on the worktree state: `NewPromoteBranch`, `Commit`, `repo.PushContext`, and the
requests `PullRequests.Create` (which answers with the number of the pull request),
`Issues.AddLabelsToIssue` and `Issues.AddAssignees`. `ConfigKustWrite` is the write of the
configuration of new clusters. -/
structure Engine (σ : Type) where
  promoter : Promoter σ
  prBuilder : PullRequestBuilder
  detect : detect.Detect σ
  manifestRepo : github.ManifestRepository
  NewPromoteBranch : σ → Except String String × σ
  Commit : σ → String → Except String Unit × σ
  Push : σ → String → Except String Unit × σ
  PullRequestsCreate : σ → String → github.PromotionPullRequest → Except String Nat × σ
  AddLabelsToIssue : σ → Nat → List String → Except String Unit × σ
  AddAssignees : σ → Nat → List String → Except String Unit × σ
  ConfigKustWrite : σ → Clusters → GoMap (List String) → Except String Unit × σ

/-- Go `ManifestRepository.raisePullRequest`. -/
def Engine.raisePullRequest {σ : Type} (p : Engine σ) (branchName : String)
    (promotionPR : github.PromotionPullRequest) (assignees : List String) (s : σ)
    (trace : List Effect) : Except String Nat × σ × List Effect :=
  let trace₁ := trace ++ [.createPullRequest branchName promotionPR]
  match p.PullRequestsCreate s branchName promotionPR with
  | (.error e, s₁) => (.error ("create PR: " ++ e), s₁, trace₁)
  | (.ok number, s₁) =>
    let labels := [github.prLabel]
    let trace₂ := trace₁ ++ [.addLabels number labels]
    match p.AddLabelsToIssue s₁ number labels with
    | (.error e, s₂) => (.error ("failed to add labels to PR: " ++ e), s₂, trace₂)
    | (.ok _, s₂) =>
      let trace₃ := trace₂ ++ [.addAssignees number assignees]
      match p.AddAssignees s₂ number assignees with
      | (.error e, s₃) => (.error ("failed to add assignees to PR: " ++ e), s₃, trace₃)
      | (.ok _, s₃) => (.ok number, s₃, trace₃)

/-- Go `ManifestRepository.RaisePromotion`. -/
def Engine.RaisePromotion {σ : Type} (p : Engine σ) (branchName : String)
    (pr : github.PromotionPullRequest) (assignees : List String) (s : σ)
    (trace : List Effect) : Except String Unit × σ × List Effect :=
  let trace₁ := trace ++ [.push branchName]
  match p.Push s branchName with
  | (.error e, s₁) => (.error ("push to origin: " ++ e), s₁, trace₁)
  | (.ok _, s₁) =>
    match p.raisePullRequest branchName pr assignees s₁ trace₁ with
    | (.error e, s₂, trace₂) => (.error e, s₂, trace₂)
    | (.ok _, s₂, trace₂) => (.ok (), s₂, trace₂)

/-- The loop of Go `Promoter.promote` over the cluster groups. -/
def Engine.promoteLoop {σ : Type} (p : Engine σ) (promotion : Promotion σ)
    (changes : List detect.WorkloadChange) (targetEnv : environment.Env) :
    List Clusters → σ → List Effect → Except PromoterError Unit × σ × List Effect
  | [], s, trace => (.ok (), s, trace)
  | clustersGroup :: rest, s, trace =>
    let trace₁ := trace ++ [.newPromoteBranch]
    match p.NewPromoteBranch s with
    | (.error e, s₁) => (.error (.other e), s₁, trace₁)
    | (.ok branchName, s₁) =>
      match performChanges p.promoter changes clustersGroup targetEnv s₁ with
      | (.error e, s₂) => (.error e, s₂, trace₁)
      | (.ok results, s₂) =>
        if results.length = 0 then p.promoteLoop promotion changes targetEnv rest s₂ trace₁
        else
          match promotion.AfterChanges results clustersGroup s₂ with
          | (.error e, s₃) => (.error (.other e), s₃, trace₁)
          | (.ok _, s₃) =>
            let pr := p.prBuilder.Build results promotion.SourceCommits promotion.Kind
            let trace₂ := trace₁ ++ [.commit pr.CommitMessage]
            match p.Commit s₃ pr.CommitMessage with
            | (.error e, s₄) => (.error (.other e), s₄, trace₂)
            | (.ok _, s₄) =>
              match p.RaisePromotion branchName pr promotion.Assignes s₄ trace₂ with
              | (.error e, s₅, trace₃) => (.error (.other e), s₅, trace₃)
              | (.ok _, s₅, trace₃) =>
                p.promoteLoop promotion changes targetEnv rest s₅ trace₃

/-- Go `Promoter.promote`. -/
def Engine.promote {σ : Type} (p : Engine σ) (promotion : Promotion σ)
    (targetEnv : environment.Env) (s : σ) (trace : List Effect) :
    Except PromoterError Unit × σ × List Effect :=
  match promotion.Changes s with
  | .error e => (.error (.other e), s, trace)
  | .ok (changes, clusters) =>
    if clusters.length = 0 then (.ok (), s, trace)
    else p.promoteLoop promotion changes targetEnv (clusters.Group targetEnv) s trace

/-- Go `Promoter.Promote`: the error, if any, the worktree state that the run leaves behind
and the trace of its calls. -/
def Engine.Promote {σ : Type} (p : Engine σ) (env : String) (s : σ) :
    Except PromoterError Unit × σ × List Effect :=
  let targetEnv : environment.Env := env
  match environment.Validate targetEnv with
  | .error _ => (.error (.other "invalid environment name"), s, [])
  | .ok _ =>
    match promotion.NewPromotionManifestUpdate targetEnv p.manifestRepo p.detect
        p.promoter.clusters with
    | .error e => (.error (.other e), s, [])
    | .ok promotionManifests =>
      match p.promote (manifestUpdatePromotion promotionManifests) targetEnv s [] with
      | (.error e, s₁, trace₁) => (.error e, s₁, trace₁)
      | (.ok _, s₁, trace₁) =>
        match promotion.NewPromotionToNewCluster targetEnv p.promoter.WorkingTreeFS
            p.ConfigKustWrite p.detect p.promoter.clusters with
        | .error e => (.error (.other e), s₁, trace₁)
        | .ok promotionNewCluster =>
          match p.promote (newClusterPromotion promotionNewCluster) targetEnv s₁ trace₁ with
          | (.error e, s₂, trace₂) => (.error e, s₂, trace₂)
          | (.ok _, s₂, trace₂) => (.ok (), s₂, trace₂)

end promoter

namespace promoter

open clusterconf

/-- A repository in which `from` and `to` resolve to two commits, with the directory
`flux/manifests/bar` in every tree. -/
def exampleRangeRepository : detect.Repository where
  ResolveRevision := fun rev => if rev = "from" then .ok 1 else .ok 2
  CommitObject := fun hash => .ok hash
  CommitTree := fun commit => .ok commit
  TreeTree := fun _ path =>
    if path = "flux/manifests/bar" then .found else .errDirectoryNotFound

/-- A detector on `exampleRangeRepository` for the range `from...to`, in which one manifest
of the workload `bar` was modified; the registry lists `bar`. -/
def exampleDetect : detect.Detect (List (String × String × String)) where
  Repo := exampleRangeRepository
  Inferer := { repo := exampleRangeRepository, commitPrefix := "to" }
  CR := { FromPrefix := "from", ToPrefix := "to" }
  TreeDiff := fun fromTree toTree =>
    if fromTree = toTree then .ok []
    else .ok [{ From := "flux/manifests/bar/deploy.yaml", To := "flux/manifests/bar/deploy.yaml" }]
  FilterCommitIter := fun _ _ => .ok []
  RegistryGetAll := fun _ =>
    match exampleRegistryGet "bar" with
    | .error e => .error e
    | .ok workload => .ok [workload]
  Worktree := fun _ => .ok ()
  ReadDir := fun _ _ => .ok []
  sortSort := detect.insertionSort
  rangeOrder := id

/-- The clusters of `Test_PromotionOfNewDevClusterWithManualManifestsChanges`: the three
development clusters of the examples exist, and `dev1` is new. -/
def exampleDevDetection : ClusterDetection where
  All := exampleCluster "development" "dev1" "cloud1" :: exampleClusters
  New := [exampleCluster "development" "dev1" "cloud1"]
  Existing := exampleClusters
  PreviousEnv := []

/-- An engine for the development environment on these clusters, all of whose operations
succeed and are recorded in the worktree state. -/
def exampleDevEngine : Engine (List (String × String × String)) where
  promoter :=
    { recordingPromoter exampleDevDetection.All (fun _ => "old") with
      clusters := exampleDevDetection }
  prBuilder :=
    { env := environment.Development
      pullRequestTemplate := ""
      promotionsTemplate := fun v => if v.NewClusterPromotion then "new" else "update" }
  detect := exampleDetect
  manifestRepo := github.exampleManifestRepository
  NewPromoteBranch := fun s =>
    (.ok (if s.length = 0 then "k8s-promoter-1" else "k8s-promoter-2"), s)
  Commit := fun s msg => (.ok (), s ++ [("Commit", msg, "")])
  Push := fun s branchName => (.ok (), s ++ [("Push", branchName, "")])
  PullRequestsCreate := fun s branchName pr =>
    (.ok ((s.filter (fun e => e.1 = "PullRequest")).length + 1),
      s ++ [("PullRequest", branchName, pr.Title)])
  AddLabelsToIssue := fun s _ _ => (.ok (), s)
  AddAssignees := fun s _ _ => (.ok (), s)
  ConfigKustWrite := fun s _ _ => (.ok (), s ++ [("ConfigKust.Write", "", "")])

/-- The engine of the examples with no new cluster and the empty range `to...to`. -/
def exampleIdleEngine : Engine (List (String × String × String)) :=
  { exampleDevEngine with
    promoter :=
      { recordingPromoter exampleClusters (fun _ => "old") with
        clusters := { All := exampleClusters, New := [], Existing := exampleClusters,
                      PreviousEnv := [] } }
    detect := { exampleDetect with CR := { FromPrefix := "to", ToPrefix := "to" } } }

end promoter

/-! ## Clusters of two environments for the examples -/

namespace clusterconf

/-- Two development clusters and two test clusters, declared in mixed order; the first
development cluster is in `cloud2`. -/
def exampleMixedClusters : Clusters :=
  [exampleCluster "development" "dev4" "cloud2", exampleCluster "test" "test1" "cloud1",
   exampleCluster "development" "dev2" "cloud1", exampleCluster "test" "test2" "cloud1"]

/-- An inspecter on a worktree in which, of the manifest folders of the mixed example
clusters, those of `dev2`, `dev4` and `test1` exist. -/
def exampleMixedInspecter : ClusterInspecter where
  Worktree := .ok ()
  Stat := fun path =>
    if path = "/flux/promoted/development/dev2/cloud1" then .ok ()
    else if path = "/flux/promoted/development/dev4/cloud2" then .ok ()
    else if path = "/flux/promoted/test/test1/cloud1" then .ok ()
    else .error .errNotExist

end clusterconf

namespace promoter

/-- The recording promoter on the mixed example clusters. -/
def exampleMixedPromoter : Promoter (List (String × String × String)) :=
  recordingPromoter clusterconf.exampleMixedClusters (fun _ => "old")

end promoter

/-! ## Lemmas on `strings.Split` and `strings.HasPrefix` -/

theorem hasPrefix_iff (s pre : String) :
    hasPrefix s pre = true ↔ ∃ t : List Char, s.toList = pre.toList ++ t := by
  unfold hasPrefix
  rw [List.isPrefixOf_iff_prefix]
  constructor
  · rintro ⟨t, ht⟩; exact ⟨t, ht.symm⟩
  · rintro ⟨t, ht⟩; exact ⟨t, ht.symm⟩

theorem splitOn_cons_if (c : Char) (l : List Char) :
    (c :: l).splitOn '/' =
      if c = '/' then [] :: l.splitOn '/' else (l.splitOn '/').modifyHead (List.cons c) := by
  simp [List.splitOn, List.splitOnP_cons]

theorem splitOn_ne_nil (l : List Char) : l.splitOn '/' ≠ [] := by
  simp [List.splitOn, List.splitOnP_ne_nil]

theorem splitSlash_eq (s : String) : splitSlash s = (s.toList.splitOn '/').map String.mk := rfl

theorem splitOn_manifests (t : List Char) :
    ("flux/manifests/".toList ++ t).splitOn '/' =
      "flux".toList :: "manifests".toList :: t.splitOn '/' := by
  show ('f' :: 'l' :: 'u' :: 'x' :: '/' :: 'm' :: 'a' :: 'n' :: 'i' :: 'f' :: 'e' :: 's' :: 't'
    :: 's' :: '/' :: t).splitOn '/' = _
  simp [splitOn_cons_if]

theorem hasPrefix_manifests_of_dir (path : String) (h : hasPrefix path "flux/manifests/" = true) :
    hasPrefix path "flux/manifests" = true := by
  obtain ⟨t, ht⟩ := (hasPrefix_iff _ _).1 h
  exact (hasPrefix_iff _ _).2 ⟨'/' :: t, by rw [ht]; rfl⟩

theorem hasPrefix_promoted_of_dir (path : String) (h : hasPrefix path "flux/promoted/" = true) :
    hasPrefix path "flux/promoted" = true ∧ hasPrefix path "flux/manifests" = false := by
  obtain ⟨t, ht⟩ := (hasPrefix_iff _ _).1 h
  refine ⟨(hasPrefix_iff _ _).2 ⟨'/' :: t, by rw [ht]; rfl⟩, ?_⟩
  unfold hasPrefix
  rw [ht]
  rfl

theorem join_flux_manifests : filepathJoin [detect.fluxDir, detect.sourceManifestDir] = "flux/manifests" := by
  decide

theorem join_flux_promoted : filepathJoin [detect.fluxDir, detect.promotedDir] = "flux/promoted" := by
  decide

theorem splitOn_of_no_slash (l : List Char) (h : '/' ∉ l) : l.splitOn '/' = [l] := by
  induction l with
  | nil => rfl
  | cons c l ih =>
    have hc : c ≠ '/' := fun hc => h (by simp [hc])
    have hl : '/' ∉ l := fun hl => h (by simp [hl])
    rw [splitOn_cons_if, if_neg hc, ih hl]
    rfl

theorem not_mem_of_mem_splitOn (l : List Char) : ∀ seg ∈ l.splitOn '/', '/' ∉ seg := by
  induction l with
  | nil => intro seg hseg; simp [List.splitOn] at hseg; simp [hseg]
  | cons c l ih =>
    intro seg hseg
    rw [splitOn_cons_if] at hseg
    by_cases hc : c = '/'
    · rw [if_pos hc] at hseg
      rcases List.mem_cons.1 hseg with h | h
      · simp [h]
      · exact ih seg h
    · rw [if_neg hc] at hseg
      cases hs : l.splitOn '/' with
      | nil => exact absurd hs (splitOn_ne_nil l)
      | cons a rest =>
        rw [hs] at hseg ih
        simp only [List.modifyHead, List.mem_cons] at hseg
        rcases hseg with h | h
        · subst h
          have := ih a (by simp)
          simp only [List.mem_cons, not_or]
          exact ⟨fun h => hc h.symm, this⟩
        · exact ih seg (by simp [h])

theorem filepathClean_relative (p : String) (segs : List String) (hne : p ≠ "")
    (hroot : hasPrefix p "/" = false) (hsplit : cleanSegments false [] (splitSlash p) = segs)
    (hout : joinSlash segs ≠ "") : filepathClean p = joinSlash segs := by
  have h1 : ("" : String) ++ joinSlash segs = joinSlash segs := by
    apply String.ext; simp [String.data_append]
  simp only [filepathClean, hne, hroot, hsplit, if_false, h1, hout, Bool.false_eq_true]

theorem join_flux_manifests_name (name : String) (hs : '/' ∉ name.toList) (h0 : name ≠ "")
    (h1 : name ≠ ".") (h2 : name ≠ "..") :
    filepathJoin [detect.fluxDir, detect.sourceManifestDir, name] = "flux/manifests/" ++ name := by
  have hdata : ("flux" ++ "/" ++ ("manifests" ++ "/" ++ name)) = "flux/manifests/" ++ name := by
    apply String.ext
    simp [String.data_append]
  have hsplit : splitSlash ("flux/manifests/" ++ name) = ["flux", "manifests", name] := by
    rw [splitSlash_eq]
    have : ("flux/manifests/" ++ name).toList = "flux/manifests/".toList ++ name.toList := by
      simp [String.toList, String.data_append]
    rw [this, splitOn_manifests, splitOn_of_no_slash _ hs]
    rfl
  have hne : ("flux/manifests/" ++ name) ≠ "" := by
    intro h
    have := congrArg String.length h
    simp [String.length_append] at this
    exact absurd this.1 (by decide)
  have hroot : hasPrefix ("flux/manifests/" ++ name) "/" = false := by
    unfold hasPrefix
    simp [String.toList, String.data_append]
    rfl
  have hclean : cleanSegments false [] ["flux", "manifests", name] = ["flux", "manifests", name] := by
    simp [cleanSegments, h0, h1, h2]
  have hjoin : joinSlash ["flux", "manifests", name] = "flux/manifests/" ++ name := hdata
  have hj : filepathJoin [detect.fluxDir, detect.sourceManifestDir, name] =
      filepathClean ("flux/manifests/" ++ name) := by
    show (if "flux" = "" then _ else filepathClean (joinSlash ["flux", "manifests", name])) = _
    rw [if_neg (by decide), hjoin]
  rw [hj, filepathClean_relative _ ["flux", "manifests", name] hne hroot (by rw [hsplit, hclean])
    (by rw [hjoin]; exact hne), hjoin]

namespace detect

/-! ## Path convention (`Inferer.workload`) -/

theorem workload_empty : workload "" = .error (.notWorkloadManifest "") := by decide

theorem workload_ok_ne_empty {x : String} {wl : Workload} (h : workload x = .ok wl) : x ≠ "" := by
  rintro rfl
  rw [workload_empty] at h
  cases h

/-- C6: `Inferer.workload` maps a path that begins with `flux/manifests/` and has at least four
segments to the workload `(manifests, segments[2])`, and a path that begins with
`flux/promoted/` and has at least seven segments to `(segments[2], segments[5])`, in both
cases without error. -/
theorem workload_of_path_convention (path : String) :
    (hasPrefix path "flux/manifests/" = true → 4 ≤ (splitSlash path).length →
      ∃ name, (splitSlash path)[2]? = some name ∧
        workload path = .ok { SourceEnv := "manifests", Name := name }) ∧
    (hasPrefix path "flux/promoted/" = true → 7 ≤ (splitSlash path).length →
      ∃ env name, (splitSlash path)[2]? = some env ∧ (splitSlash path)[5]? = some name ∧
        workload path = .ok { SourceEnv := env, Name := name }) := by
  constructor
  · intro hpre hlen
    have hp := hasPrefix_manifests_of_dir path hpre
    obtain ⟨t, ht⟩ := (hasPrefix_iff _ _).1 hpre
    obtain ⟨name, hname⟩ : ∃ name, (splitSlash path)[2]? = some name :=
      ⟨(splitSlash path)[2], List.getElem?_eq_getElem (by omega)⟩
    refine ⟨name, hname, ?_⟩
    have h1 : (splitSlash path).getD 1 "" = "manifests" := by
      rw [splitSlash_eq, ht, splitOn_manifests]
      rfl
    have h2 : (splitSlash path).getD 2 "" = name := by
      rw [List.getD_eq_getElem?_getD, hname]; rfl
    have hlt : ¬ (splitSlash path).length < sourceManifestDirLevel := by
      simp only [sourceManifestDirLevel]; omega
    simp only [workload, join_flux_manifests, hp, if_true, inferSourceManifestWorkload, hlt,
      if_false, h1, h2]
  · intro hpre hlen
    obtain ⟨hp, hm⟩ := hasPrefix_promoted_of_dir path hpre
    obtain ⟨env, henv⟩ : ∃ env, (splitSlash path)[2]? = some env :=
      ⟨(splitSlash path)[2], List.getElem?_eq_getElem (by omega)⟩
    obtain ⟨name, hname⟩ : ∃ name, (splitSlash path)[5]? = some name :=
      ⟨(splitSlash path)[5], List.getElem?_eq_getElem (by omega)⟩
    refine ⟨env, name, henv, hname, ?_⟩
    have h1 : (splitSlash path).getD 2 "" = env := by
      rw [List.getD_eq_getElem?_getD, henv]; rfl
    have h2 : (splitSlash path).getD 5 "" = name := by
      rw [List.getD_eq_getElem?_getD, hname]; rfl
    have hlt : ¬ (splitSlash path).length < promotedDirLevel := by
      simp only [promotedDirLevel]; omega
    simp only [workload, join_flux_manifests, join_flux_promoted, hp, hm, if_true,
      inferPromotedWorkload, hlt, if_false, h1, h2]
    rfl

/-- C6, at `flux/manifests/foo/a.yaml` and `flux/promoted/development/dev1/cloud1/foo/a.yaml`. -/
theorem workload_of_path_convention_witness :
    (∃ name, (splitSlash "flux/manifests/foo/a.yaml")[2]? = some name ∧
      workload "flux/manifests/foo/a.yaml" = .ok { SourceEnv := "manifests", Name := name }) ∧
    (∃ env name,
      (splitSlash "flux/promoted/development/dev1/cloud1/foo/a.yaml")[2]? = some env ∧
      (splitSlash "flux/promoted/development/dev1/cloud1/foo/a.yaml")[5]? = some name ∧
      workload "flux/promoted/development/dev1/cloud1/foo/a.yaml" =
        .ok { SourceEnv := env, Name := name }) :=
  ⟨(workload_of_path_convention "flux/manifests/foo/a.yaml").1 (by decide) (by decide),
   (workload_of_path_convention "flux/promoted/development/dev1/cloud1/foo/a.yaml").2
     (by decide) (by decide)⟩

theorem workload_manifests_short (x : String) (hx : hasPrefix x "flux/manifests" = true)
    (hlen : (splitSlash x).length < 4) : workload x = .error (.unknownPathConvention x) := by
  have hlt : (splitSlash x).length < sourceManifestDirLevel := hlen
  simp only [workload, join_flux_manifests, hx, if_true, inferSourceManifestWorkload, hlt]

theorem workload_promoted_short (x : String) (hx : hasPrefix x "flux/promoted/" = true)
    (hlen : (splitSlash x).length < 7) : workload x = .error (.notWorkloadManifest x) := by
  obtain ⟨hp, hm⟩ := hasPrefix_promoted_of_dir x hx
  have hlt : (splitSlash x).length < promotedDirLevel := hlen
  simp only [workload, join_flux_manifests, join_flux_promoted, hp, hm, if_true,
    inferPromotedWorkload, hlt]
  rfl

/-! ## Change inference for one diff entry -/

theorem workloadExists_of_tree (inf : Inferer) (wl : Workload) (toHash commit t : Nat)
    (hrev : inf.repo.ResolveRevision inf.commitPrefix = .ok toHash)
    (hcommit : inf.repo.CommitObject toHash = .ok commit)
    (htree : inf.repo.CommitTree commit = .ok t) :
    inf.workloadExists wl =
      match inf.repo.TreeTree t (filepathJoin [fluxDir, sourceManifestDir, wl.Name]) with
      | .found => .ok true
      | .errDirectoryNotFound => .ok false
      | .failed e => .error (.repo ("t.Tree: " ++
          filepathJoin [fluxDir, sourceManifestDir, wl.Name] ++ ": " ++ e)) := by
  simp only [Inferer.workloadExists, Inferer.workloadExistsEnv, hrev, hcommit, htree]
  cases inf.repo.TreeTree t (filepathJoin [fluxDir, sourceManifestDir, wl.Name]) <;> rfl

theorem workloadChanges_addition (inf : Inferer) (x : String) (wl : Workload)
    (hx : workload x = .ok wl) :
    inf.WorkloadChanges { From := "", To := x } = .ok [{ Op := OperationCopy, W := wl }] := by
  have hne := workload_ok_ne_empty hx
  simp [Inferer.WorkloadChanges, Inferer.additions, Inferer.deletions, Inferer.modifications,
    Inferer.renames, isAddition, isDeletion, isModification, hx, hne, workload_empty]

theorem workloadChanges_modification (inf : Inferer) (x : String) (wl : Workload) (b : Bool)
    (hx : workload x = .ok wl) (hb : inf.workloadExists wl = .ok b) :
    inf.WorkloadChanges { From := x, To := x } = .ok [{ Op := OperationCopy, W := wl }] := by
  have hne := workload_ok_ne_empty hx
  simp [Inferer.WorkloadChanges, Inferer.additions, Inferer.deletions, Inferer.modifications,
    Inferer.renames, isAddition, isDeletion, isModification, isRename, hx, hne, hb]

theorem workloadChanges_deletion (inf : Inferer) (x : String) (wl : Workload) (b : Bool)
    (hx : workload x = .ok wl) (hb : inf.workloadExists wl = .ok b) :
    inf.WorkloadChanges { From := x, To := "" } =
      .ok [{ Op := if b then OperationCopy else OperationRemove, W := wl }] := by
  have hne := workload_ok_ne_empty hx
  cases b <;>
  simp [Inferer.WorkloadChanges, Inferer.additions, Inferer.deletions, Inferer.modifications,
    Inferer.renames, isAddition, isDeletion, isModification, hx, hne, hb, workload_empty]

theorem workload_name_no_slash {x : String} {wl : Workload} (h : workload x = .ok wl) :
    '/' ∉ wl.Name.toList := by
  have key : ∀ i, '/' ∉ ((splitSlash x).getD i "").toList := by
    intro i
    rw [List.getD_eq_getElem?_getD]
    cases hi : (splitSlash x)[i]? with
    | none => simp
    | some seg =>
      have hmem : seg ∈ splitSlash x := List.getElem?_mem hi
      rw [splitSlash_eq] at hmem
      obtain ⟨l, hl, rfl⟩ := List.mem_map.1 hmem
      exact not_mem_of_mem_splitOn _ l hl
  unfold workload at h
  split at h
  · unfold inferSourceManifestWorkload at h
    simp only at h
    split at h
    · cases h
    · cases h; exact key 2
  · split at h
    · unfold inferPromotedWorkload at h
      simp only at h
      split at h
      · cases h
      · cases h; exact key 5
    · cases h

theorem workloadChanges_rename (inf : Inferer) (x y : String) (fromWorkload toWorkload : Workload)
    (b : Bool) (hx : workload x = .ok fromWorkload) (hy : workload y = .ok toWorkload)
    (hxy : x ≠ y) (hb : inf.workloadExists fromWorkload = .ok b) :
    inf.WorkloadChanges { From := x, To := y } =
      .ok (if fromWorkload = toWorkload then [{ Op := OperationCopy, W := toWorkload }]
        else if b then
          [{ Op := OperationCopy, W := fromWorkload }, { Op := OperationCopy, W := toWorkload }]
        else
          [{ Op := OperationRemove, W := fromWorkload },
           { Op := OperationCopy, W := toWorkload }]) := by
  have hnx := workload_ok_ne_empty hx
  have hny := workload_ok_ne_empty hy
  by_cases hw : fromWorkload = toWorkload
  · subst hw
    cases b <;>
    simp [Inferer.WorkloadChanges, Inferer.additions, Inferer.deletions, Inferer.modifications,
      Inferer.renames, isAddition, isDeletion, isModification, isRename, hx, hy, hnx, hny, hxy,
      hb]
  cases b <;>
  simp [Inferer.WorkloadChanges, Inferer.additions, Inferer.deletions, Inferer.modifications,
    Inferer.renames, isAddition, isDeletion, isModification, isRename, hx, hy, hnx, hny, hxy,
    hb, hw]

/-- C1: for a workload path `x` with derived workload `wl`, and a target tree `t` that the
commit prefix resolves to, `Inferer.WorkloadChanges` returns exactly one change for `wl`:
`Copy` for the addition `'' -> x`; `Copy` for the modification `x -> x` (the lookup of the
workload directory in `t` not failing); for the deletion `x -> ''`, `Copy` when the directory
`filepath.Join("flux", "manifests", wl.Name)` is found in `t` and `Remove` when it is not
found. The directory probed does not depend on the source environment of `wl`, so it lies
under `flux/manifests` also for a promoted path, and it is `flux/manifests/<name>` for every
name that is a proper path segment. -/
theorem workloadChanges_add_modify_delete (inf : Inferer) (x : String) (wl : Workload)
    (toHash commit t : Nat) (hx : workload x = .ok wl)
    (hrev : inf.repo.ResolveRevision inf.commitPrefix = .ok toHash)
    (hcommit : inf.repo.CommitObject toHash = .ok commit)
    (htree : inf.repo.CommitTree commit = .ok t) :
    inf.WorkloadChanges { From := "", To := x } = .ok [{ Op := OperationCopy, W := wl }] ∧
    ((∀ e, inf.repo.TreeTree t (filepathJoin [fluxDir, sourceManifestDir, wl.Name]) ≠ .failed e) →
      inf.WorkloadChanges { From := x, To := x } = .ok [{ Op := OperationCopy, W := wl }]) ∧
    (inf.repo.TreeTree t (filepathJoin [fluxDir, sourceManifestDir, wl.Name]) = .found →
      inf.WorkloadChanges { From := x, To := "" } = .ok [{ Op := OperationCopy, W := wl }]) ∧
    (inf.repo.TreeTree t (filepathJoin [fluxDir, sourceManifestDir, wl.Name]) =
        .errDirectoryNotFound →
      inf.WorkloadChanges { From := x, To := "" } = .ok [{ Op := OperationRemove, W := wl }]) ∧
    (wl.Name ≠ "" → wl.Name ≠ "." → wl.Name ≠ ".." →
      filepathJoin [fluxDir, sourceManifestDir, wl.Name] = "flux/manifests/" ++ wl.Name) := by
  have hex := workloadExists_of_tree inf wl toHash commit t hrev hcommit htree
  refine ⟨workloadChanges_addition inf x wl hx, ?_, ?_, ?_, ?_⟩
  · intro hnf
    cases hl : inf.repo.TreeTree t (filepathJoin [fluxDir, sourceManifestDir, wl.Name]) with
    | found =>
      rw [hl] at hex
      exact workloadChanges_modification inf x wl true hx hex
    | errDirectoryNotFound =>
      rw [hl] at hex
      exact workloadChanges_modification inf x wl false hx hex
    | failed e => exact absurd hl (hnf e)
  · intro hl
    rw [hl] at hex
    exact workloadChanges_deletion inf x wl true hx hex
  · intro hl
    rw [hl] at hex
    exact workloadChanges_deletion inf x wl false hx hex
  · exact join_flux_manifests_name wl.Name (workload_name_no_slash hx)

/-- C1, on the example repository: `flux/manifests/foo` exists in the target tree, so deleting
`flux/promoted/development/dev1/cloud1/foo/a.yaml` yields `Copy`; `flux/manifests/bar` does
not, so deleting `flux/manifests/bar/a.yaml` yields `Remove`. -/
theorem workloadChanges_add_modify_delete_witness :
    (exampleInferer.WorkloadChanges
        { From := "", To := "flux/promoted/development/dev1/cloud1/foo/a.yaml" } =
      .ok [{ Op := OperationCopy, W := { SourceEnv := "development", Name := "foo" } }]) ∧
    (exampleInferer.WorkloadChanges
        { From := "flux/promoted/development/dev1/cloud1/foo/a.yaml",
          To := "flux/promoted/development/dev1/cloud1/foo/a.yaml" } =
      .ok [{ Op := OperationCopy, W := { SourceEnv := "development", Name := "foo" } }]) ∧
    (exampleInferer.WorkloadChanges
        { From := "flux/promoted/development/dev1/cloud1/foo/a.yaml", To := "" } =
      .ok [{ Op := OperationCopy, W := { SourceEnv := "development", Name := "foo" } }]) ∧
    (exampleInferer.WorkloadChanges { From := "flux/manifests/bar/a.yaml", To := "" } =
      .ok [{ Op := OperationRemove, W := { SourceEnv := "manifests", Name := "bar" } }]) ∧
    filepathJoin [fluxDir, sourceManifestDir, "foo"] = "flux/manifests/" ++ "foo" :=
  have h₁ := workloadChanges_add_modify_delete exampleInferer
    "flux/promoted/development/dev1/cloud1/foo/a.yaml"
    { SourceEnv := "development", Name := "foo" } 1 2 3 (by decide) rfl rfl rfl
  have h₂ := workloadChanges_add_modify_delete exampleInferer "flux/manifests/bar/a.yaml"
    { SourceEnv := "manifests", Name := "bar" } 1 2 3 (by decide) rfl rfl rfl
  ⟨h₁.1, h₁.2.1 (fun e h => by
      have hf : exampleInferer.repo.TreeTree 3
          (filepathJoin [fluxDir, sourceManifestDir, "foo"]) = .found := by decide
      rw [hf] at h; cases h), h₁.2.2.1 (by decide), h₂.2.2.2.1 (by decide),
    h₁.2.2.2.2 (by decide) (by decide) (by decide)⟩

/-- C2: for a rename `x -> y` (`x ≠ y`) between workload paths with derived workloads
`fromWorkload` and `toWorkload`, and a target tree `t` that the commit prefix resolves to,
`Inferer.WorkloadChanges` returns `[Copy to]` when the two workloads are equal (the lookup of
the source workload directory in `t` not failing), `[Copy from, Copy to]` when they differ
and `filepath.Join("flux", "manifests", fromWorkload.Name)` is found in `t`, and
`[Remove from, Copy to]` when they differ and it is not found. -/
theorem workloadChanges_of_rename (inf : Inferer) (x y : String)
    (fromWorkload toWorkload : Workload) (toHash commit t : Nat)
    (hx : workload x = .ok fromWorkload) (hy : workload y = .ok toWorkload) (hxy : x ≠ y)
    (hrev : inf.repo.ResolveRevision inf.commitPrefix = .ok toHash)
    (hcommit : inf.repo.CommitObject toHash = .ok commit)
    (htree : inf.repo.CommitTree commit = .ok t) :
    (fromWorkload = toWorkload →
      (∀ e, inf.repo.TreeTree t (filepathJoin [fluxDir, sourceManifestDir, fromWorkload.Name]) ≠
        .failed e) →
      inf.WorkloadChanges { From := x, To := y } =
        .ok [{ Op := OperationCopy, W := toWorkload }]) ∧
    (fromWorkload ≠ toWorkload →
      inf.repo.TreeTree t (filepathJoin [fluxDir, sourceManifestDir, fromWorkload.Name]) =
        .found →
      inf.WorkloadChanges { From := x, To := y } =
        .ok [{ Op := OperationCopy, W := fromWorkload },
             { Op := OperationCopy, W := toWorkload }]) ∧
    (fromWorkload ≠ toWorkload →
      inf.repo.TreeTree t (filepathJoin [fluxDir, sourceManifestDir, fromWorkload.Name]) =
        .errDirectoryNotFound →
      inf.WorkloadChanges { From := x, To := y } =
        .ok [{ Op := OperationRemove, W := fromWorkload },
             { Op := OperationCopy, W := toWorkload }]) := by
  have hex := workloadExists_of_tree inf fromWorkload toHash commit t hrev hcommit htree
  refine ⟨?_, ?_, ?_⟩
  · intro hw hnf
    cases hl : inf.repo.TreeTree t (filepathJoin [fluxDir, sourceManifestDir, fromWorkload.Name])
      with
    | found =>
      rw [hl] at hex
      rw [workloadChanges_rename inf x y _ _ true hx hy hxy hex, if_pos hw]
    | errDirectoryNotFound =>
      rw [hl] at hex
      rw [workloadChanges_rename inf x y _ _ false hx hy hxy hex, if_pos hw]
    | failed e => exact absurd hl (hnf e)
  · intro hw hl
    rw [hl] at hex
    rw [workloadChanges_rename inf x y _ _ true hx hy hxy hex, if_neg hw]
    rfl
  · intro hw hl
    rw [hl] at hex
    rw [workloadChanges_rename inf x y _ _ false hx hy hxy hex, if_neg hw]
    rfl

/-- C2, on the example repository: a rename inside `foo`, a move from `foo` (still present)
to `w1`, and a rename of the promoted workload `workload2` (absent from `flux/manifests`) to
`tool-echo`. -/
theorem workloadChanges_of_rename_witness :
    (exampleInferer.WorkloadChanges
        { From := "flux/manifests/foo/kustomization.yaml", To := "flux/manifests/foo/kust.yaml" } =
      .ok [{ Op := OperationCopy, W := { SourceEnv := "manifests", Name := "foo" } }]) ∧
    (exampleInferer.WorkloadChanges
        { From := "flux/manifests/foo/kustomization.yaml", To := "flux/manifests/w1/kust.yaml" } =
      .ok [{ Op := OperationCopy, W := { SourceEnv := "manifests", Name := "foo" } },
           { Op := OperationCopy, W := { SourceEnv := "manifests", Name := "w1" } }]) ∧
    (exampleInferer.WorkloadChanges
        { From := "flux/promoted/development/cloud1/dev2/workload2/helm-release.yaml",
          To := "flux/promoted/development/cloud1/dev2/tool-echo/helm-release.yaml" } =
      .ok [{ Op := OperationRemove, W := { SourceEnv := "development", Name := "workload2" } },
           { Op := OperationCopy, W := { SourceEnv := "development", Name := "tool-echo" } }]) :=
  ⟨(workloadChanges_of_rename exampleInferer "flux/manifests/foo/kustomization.yaml"
      "flux/manifests/foo/kust.yaml" { SourceEnv := "manifests", Name := "foo" }
      { SourceEnv := "manifests", Name := "foo" } 1 2 3 (by decide) (by decide) (by decide)
      rfl rfl rfl).1 rfl (fun e h => by
        have hf : exampleInferer.repo.TreeTree 3
            (filepathJoin [fluxDir, sourceManifestDir, "foo"]) = .found := by decide
        rw [hf] at h; cases h),
   (workloadChanges_of_rename exampleInferer "flux/manifests/foo/kustomization.yaml"
      "flux/manifests/w1/kust.yaml" { SourceEnv := "manifests", Name := "foo" }
      { SourceEnv := "manifests", Name := "w1" } 1 2 3 (by decide) (by decide) (by decide)
      rfl rfl rfl).2.1 (by decide) (by decide),
   (workloadChanges_of_rename exampleInferer
      "flux/promoted/development/cloud1/dev2/workload2/helm-release.yaml"
      "flux/promoted/development/cloud1/dev2/tool-echo/helm-release.yaml"
      { SourceEnv := "development", Name := "workload2" }
      { SourceEnv := "development", Name := "tool-echo" } 1 2 3 (by decide) (by decide)
      (by decide) rfl rfl rfl).2.2 (by decide) (by decide)⟩

/-! ## Non-workload paths and path-convention errors -/

theorem workloadChanges_skipped (inf : Inferer) (c : Change)
    (hfrom : c.From = "" ∨ workload c.From = .error (.notWorkloadManifest c.From))
    (hto : c.To = "" ∨ workload c.To = .error (.notWorkloadManifest c.To)) :
    inf.WorkloadChanges c = .ok [] := by
  obtain ⟨x, y⟩ := c
  have hx : workload x = .error (.notWorkloadManifest x) := by
    rcases hfrom with h | h
    · simp only at h; subst h; exact workload_empty
    · exact h
  have hy : workload y = .error (.notWorkloadManifest y) := by
    rcases hto with h | h
    · simp only at h; subst h; exact workload_empty
    · exact h
  simp [Inferer.WorkloadChanges, Inferer.additions, Inferer.deletions,
    Inferer.modifications, Inferer.renames, hx, hy]

theorem workloadChanges_from_error (inf : Inferer) (x y : String) (hne : x ≠ "")
    (hx : workload x = .error (.unknownPathConvention x)) :
    inf.WorkloadChanges { From := x, To := y } = .error (.unknownPathConvention x) := by
  by_cases hy : y = ""
  · subst hy
    simp [Inferer.WorkloadChanges, Inferer.additions, Inferer.deletions, isAddition, isDeletion,
      hx, hne]
  · by_cases hxy : x = y
    · subst hxy
      simp [Inferer.WorkloadChanges, Inferer.additions, Inferer.deletions,
        Inferer.modifications, isAddition, isDeletion, isModification, hx, hne]
    · simp [Inferer.WorkloadChanges, Inferer.additions, Inferer.deletions,
        Inferer.modifications, Inferer.renames, isAddition, isDeletion, isModification, hx, hne,
        hy, hxy]

theorem processDiffsLoop_error (inf : Inferer) (e : DetectError) (d : Change)
    (hd : inf.WorkloadChanges d = .error e) (pre post : List Change)
    (hpre : ∀ c ∈ pre, ∃ r, inf.WorkloadChanges c = .ok r) (wc : List WorkloadChange) :
    processDiffsLoop inf wc (pre ++ d :: post) = .error e := by
  induction pre generalizing wc with
  | nil => simp [processDiffsLoop, hd]
  | cons c pre ih =>
    obtain ⟨r, hr⟩ := hpre c (by simp)
    simp only [List.cons_append, processDiffsLoop, hr]
    exact ih (fun c hc => hpre c (by simp [hc])) _

/-- C7, evaluated where the claim fails: the added file `flux/manifests-old/foo/a.yaml` lies
outside `flux/manifests` and `flux/promoted`, yet `Inferer.WorkloadChanges` returns a `Copy`
of a workload `foo` with source environment `manifests-old`; the added file
`flux/manifests.md` makes it return an error wrapping `ErrUnknownPathConvention`. -/
theorem workloadChanges_sibling_of_manifests :
    hasPrefix "flux/manifests-old/foo/a.yaml" "flux/manifests/" = false ∧
    hasPrefix "flux/manifests-old/foo/a.yaml" "flux/promoted/" = false ∧
    exampleInferer.WorkloadChanges { From := "", To := "flux/manifests-old/foo/a.yaml" } =
      .ok [{ Op := OperationCopy, W := { SourceEnv := "manifests-old", Name := "foo" } }] ∧
    hasPrefix "flux/manifests.md" "flux/manifests/" = false ∧
    hasPrefix "flux/manifests.md" "flux/promoted/" = false ∧
    exampleInferer.WorkloadChanges { From := "", To := "flux/manifests.md" } =
      .error (.unknownPathConvention "flux/manifests.md") := by
  decide

/-- C8, as stated, fails: adding the cluster-level file
`flux/promoted/development/dev1/cloud1/kustomization.yaml`, a path under `flux/promoted`
with six segments, is skipped; inference returns no change and no error. -/
theorem promoted_short_path_not_an_error :
    hasPrefix "flux/promoted/development/dev1/cloud1/kustomization.yaml" "flux/promoted/" = true ∧
    (splitSlash "flux/promoted/development/dev1/cloud1/kustomization.yaml").length < 7 ∧
    exampleInferer.WorkloadChanges
      { From := "", To := "flux/promoted/development/dev1/cloud1/kustomization.yaml" } = .ok [] ∧
    processDiffs insertionSort exampleInferer
      [{ From := "", To := "flux/promoted/development/dev1/cloud1/kustomization.yaml" }] =
        .ok [] := by
  decide

/-- C8, amended: a path `x` that begins with `flux/manifests` and has fewer than four
segments makes `Inferer.WorkloadChanges` fail with the error that wraps
`ErrUnknownPathConvention` and carries `x`, whenever `x` is the from-path of the entry, the
path of an addition, or the to-path of a rename from a workload path, and `processDiffs` then
fails with that error at the first such entry; a rename to `x` from a non-workload path is
skipped. A path under `flux/promoted` with fewer than seven segments is no error: its
addition, deletion and modification yield no change. -/
theorem pathConvention_error (inf : Inferer) (x : String)
    (hx : hasPrefix x "flux/manifests" = true) (hlen : (splitSlash x).length < 4) :
    (∀ y, inf.WorkloadChanges { From := x, To := y } = .error (.unknownPathConvention x)) ∧
    inf.WorkloadChanges { From := "", To := x } = .error (.unknownPathConvention x) ∧
    (∀ y wl, workload y = .ok wl →
      inf.WorkloadChanges { From := y, To := x } = .error (.unknownPathConvention x)) ∧
    (∀ y, y ≠ "" → workload y = .error (.notWorkloadManifest y) →
      inf.WorkloadChanges { From := y, To := x } = .ok []) ∧
    (∀ sortSort pre post y, (∀ c ∈ pre, ∃ r, inf.WorkloadChanges c = .ok r) →
      processDiffs sortSort inf (pre ++ { From := x, To := y } :: post) =
        .error (.unknownPathConvention x)) ∧
    (∀ p, hasPrefix p "flux/promoted/" = true → (splitSlash p).length < 7 →
      inf.WorkloadChanges { From := "", To := p } = .ok [] ∧
      inf.WorkloadChanges { From := p, To := "" } = .ok [] ∧
      inf.WorkloadChanges { From := p, To := p } = .ok []) := by
  have hw := workload_manifests_short x hx hlen
  have hne : x ≠ "" := by
    rintro rfl
    rw [workload_empty] at hw
    cases hw
  refine ⟨fun y => workloadChanges_from_error inf x y hne hw, ?_, ?_, ?_, ?_, ?_⟩
  · simp [Inferer.WorkloadChanges, Inferer.additions, isAddition, hw, hne]
  · intro y wl hy
    have hny := workload_ok_ne_empty hy
    have hyx : y ≠ x := by
      rintro rfl
      rw [hw] at hy
      cases hy
    simp [Inferer.WorkloadChanges, Inferer.additions, Inferer.deletions,
      Inferer.modifications, Inferer.renames, isAddition, isDeletion, isModification, hw, hne,
      hy, hny, hyx]
  · intro y hny hy
    have hyx : y ≠ x := by
      rintro rfl
      rw [hw] at hy
      cases hy
    simp [Inferer.WorkloadChanges, Inferer.additions, Inferer.deletions,
      Inferer.modifications, Inferer.renames, isAddition, isDeletion, isModification, hne,
      hy, hny, hyx]
  · intro sortSort pre post y hpre
    simp only [processDiffs, processDiffsLoop_error inf _ _
      (workloadChanges_from_error inf x y hne hw) pre post hpre []]
  · intro p hp hplen
    have hpw := workload_promoted_short p hp hplen
    exact ⟨workloadChanges_skipped inf _ (Or.inl rfl) (Or.inr hpw),
      workloadChanges_skipped inf _ (Or.inr hpw) (Or.inl rfl),
      workloadChanges_skipped inf _ (Or.inr hpw) (Or.inr hpw)⟩

/-- C8, amended, at `flux/manifests/a.yaml` on the example repository. -/
theorem pathConvention_error_witness :
    exampleInferer.WorkloadChanges { From := "flux/manifests/a.yaml", To := "" } =
      .error (.unknownPathConvention "flux/manifests/a.yaml") ∧
    exampleInferer.WorkloadChanges { From := "", To := "flux/manifests/a.yaml" } =
      .error (.unknownPathConvention "flux/manifests/a.yaml") ∧
    exampleInferer.WorkloadChanges
      { From := "flux/manifests/foo/a.yaml", To := "flux/manifests/a.yaml" } =
      .error (.unknownPathConvention "flux/manifests/a.yaml") ∧
    exampleInferer.WorkloadChanges { From := "README.md", To := "flux/manifests/a.yaml" } =
      .ok [] ∧
    processDiffs insertionSort exampleInferer
      ([{ From := "", To := "flux/manifests/foo/a.yaml" }] ++
        { From := "flux/manifests/a.yaml", To := "" } :: []) =
      .error (.unknownPathConvention "flux/manifests/a.yaml") ∧
    exampleInferer.WorkloadChanges
      { From := "", To := "flux/promoted/development/dev1/cloud1/kustomization.yaml" } =
      .ok [] :=
  have h := pathConvention_error exampleInferer "flux/manifests/a.yaml" (by decide) (by decide)
  ⟨h.1 "", h.2.1, h.2.2.1 "flux/manifests/foo/a.yaml" { SourceEnv := "manifests", Name := "foo" }
      (by decide),
    h.2.2.2.1 "README.md" (by decide) (by decide),
    h.2.2.2.2.1 insertionSort [{ From := "", To := "flux/manifests/foo/a.yaml" }] [] ""
      (fun c hc => by
        rw [List.mem_singleton.1 hc]
        exact ⟨_, workloadChanges_addition exampleInferer _ _
          (by decide : workload "flux/manifests/foo/a.yaml" =
            .ok { SourceEnv := "manifests", Name := "foo" })⟩),
    (h.2.2.2.2.2 "flux/promoted/development/dev1/cloud1/kustomization.yaml" (by decide)
      (by decide)).1⟩

end detect

namespace detect

/-- Entries whose non-empty paths begin with neither `flux/manifests` nor `flux/promoted`, or
lie under `flux/promoted/` with fewer than seven segments, yield no change and no error. -/
theorem workloadChanges_non_workload_paths (inf : Inferer) (c : Change)
    (hfrom : c.From = "" ∨
      (hasPrefix c.From "flux/manifests" = false ∧ hasPrefix c.From "flux/promoted" = false) ∨
      (hasPrefix c.From "flux/promoted/" = true ∧ (splitSlash c.From).length < 7))
    (hto : c.To = "" ∨
      (hasPrefix c.To "flux/manifests" = false ∧ hasPrefix c.To "flux/promoted" = false) ∨
      (hasPrefix c.To "flux/promoted/" = true ∧ (splitSlash c.To).length < 7)) :
    inf.WorkloadChanges c = .ok [] := by
  have key : ∀ p : String, (p = "" ∨
      (hasPrefix p "flux/manifests" = false ∧ hasPrefix p "flux/promoted" = false) ∨
      (hasPrefix p "flux/promoted/" = true ∧ (splitSlash p).length < 7)) →
      p = "" ∨ workload p = .error (.notWorkloadManifest p) := by
    intro p hp
    rcases hp with h | ⟨h1, h2⟩ | ⟨h1, h2⟩
    · exact Or.inl h
    · right
      simp [workload, join_flux_manifests, join_flux_promoted, h1, h2]
    · exact Or.inr (workload_promoted_short p h1 h2)
  exact workloadChanges_skipped inf c (key _ hfrom) (key _ hto)

/-! ## `Distinct` -/

theorem workloadChangeLess_eq_false {a b : WorkloadChange} :
    workloadChangeLess b a = false ↔ a.W.Name ≤ b.W.Name := by
  simp [workloadChangeLess]

theorem distinctLoop_spec (changes seen distinct : List WorkloadChange)
    (hseen : ∀ c, c ∈ seen ↔ c ∈ distinct) (hnodup : distinct.Nodup) :
    (distinctLoop seen distinct changes).Nodup ∧
    ∀ c, c ∈ distinctLoop seen distinct changes ↔ c ∈ distinct ∨ c ∈ changes := by
  induction changes generalizing seen distinct with
  | nil => simp [distinctLoop, hnodup]
  | cons change rest ih =>
    by_cases hmem : change ∈ seen
    · obtain ⟨h1, h2⟩ := ih seen distinct hseen hnodup
      simp only [distinctLoop, hmem, if_true]
      refine ⟨h1, fun c => ?_⟩
      rw [h2 c, List.mem_cons]
      constructor
      · rintro (h | h)
        · exact Or.inl h
        · exact Or.inr (Or.inr h)
      · rintro (h | h | h)
        · exact Or.inl h
        · exact Or.inl (h ▸ (hseen change).1 hmem)
        · exact Or.inr h
    · have hnot : change ∉ distinct := fun h => hmem ((hseen change).2 h)
      obtain ⟨h1, h2⟩ := ih (change :: seen) (distinct ++ [change])
        (fun c => by simp [hseen c, or_comm])
        (by
          rw [List.nodup_append]
          refine ⟨hnodup, List.nodup_singleton _, ?_⟩
          intro a ha hb
          rw [List.mem_singleton] at hb
          exact hnot (hb ▸ ha))
      simp only [distinctLoop, hmem, if_false]
      refine ⟨h1, fun c => ?_⟩
      rw [h2 c]
      simp only [List.mem_append, List.mem_singleton, List.mem_cons]
      tauto

theorem insertLeft_perm (x : WorkloadChange) (before : List WorkloadChange) :
    (insertLeft x before).Perm (x :: before) := by
  induction before with
  | nil => exact List.Perm.refl _
  | cons y before ih =>
    unfold insertLeft
    split
    · exact (List.Perm.cons y ih).trans (List.Perm.swap x y before)
    · exact List.Perm.refl _

theorem insertLeft_pairwise (x : WorkloadChange) (before : List WorkloadChange)
    (h : before.Pairwise (fun a b => workloadChangeLess a b = false)) :
    (insertLeft x before).Pairwise (fun a b => workloadChangeLess a b = false) := by
  induction before with
  | nil => simp [insertLeft]
  | cons y before ih =>
    rw [List.pairwise_cons] at h
    unfold insertLeft
    split
    · rename_i hxy
      rw [List.pairwise_cons]
      refine ⟨fun z hz => ?_, ih h.2⟩
      rcases List.mem_cons.1 ((insertLeft_perm x before).mem_iff.1 hz) with hzx | hzb
      · subst hzx
        have hlt : z.W.Name < y.W.Name := by simpa [workloadChangeLess] using hxy
        exact workloadChangeLess_eq_false.2 (le_of_lt hlt)
      · exact h.1 z hzb
    · rename_i hxy
      have hyx : y.W.Name ≤ x.W.Name := by simpa [workloadChangeLess] using hxy
      rw [List.pairwise_cons]
      refine ⟨fun z hz => ?_, List.pairwise_cons.2 h⟩
      rcases List.mem_cons.1 hz with hzy | hzb
      · subst hzy
        exact workloadChangeLess_eq_false.2 hyx
      · exact workloadChangeLess_eq_false.2
          (le_trans (workloadChangeLess_eq_false.1 (h.1 z hzb)) hyx)

theorem insertionSort_fold (data acc : List WorkloadChange)
    (h : acc.Pairwise (fun a b => workloadChangeLess a b = false)) :
    (data.foldl (fun sorted x => insertLeft x sorted) acc).Pairwise
        (fun a b => workloadChangeLess a b = false) ∧
      (data.foldl (fun sorted x => insertLeft x sorted) acc).Perm (data ++ acc) := by
  induction data generalizing acc with
  | nil => exact ⟨h, List.Perm.refl _⟩
  | cons x data ih =>
    obtain ⟨h1, h2⟩ := ih (insertLeft x acc) (insertLeft_pairwise x acc h)
    refine ⟨h1, h2.trans ?_⟩
    have h3 : (data ++ insertLeft x acc).Perm (data ++ x :: acc) :=
      List.Perm.append_left data (insertLeft_perm x acc)
    exact h3.trans (List.perm_middle)

/-- Go's insertion sort meets the contract of `sort.Sort`. -/
theorem insertionSort_isSortSort : IsSortSort insertionSort := by
  constructor
  · intro l
    have h := (insertionSort_fold l [] List.Pairwise.nil).2
    rw [List.append_nil] at h
    exact (List.reverse_perm _).trans h
  · intro l
    have h := (insertionSort_fold l [] List.Pairwise.nil).1
    unfold insertionSort
    rw [List.pairwise_reverse]
    exact h

/-- C5: for every list of workload changes, `Distinct` (with any `sort.Sort` that meets its
contract) returns a list without two equal elements, with the same set of elements as the
input, ordered by non-decreasing workload name. -/
theorem Distinct_nodup_mem_sorted (sortSort : List WorkloadChange → List WorkloadChange)
    (hsort : IsSortSort sortSort) (changes : List WorkloadChange) :
    (Distinct sortSort changes).Nodup ∧
    (∀ c, c ∈ Distinct sortSort changes ↔ c ∈ changes) ∧
    (Distinct sortSort changes).Sorted (fun a b => a.W.Name ≤ b.W.Name) := by
  obtain ⟨h1, h2⟩ := distinctLoop_spec changes [] [] (fun c => Iff.rfl) List.nodup_nil
  have hperm := hsort.perm (distinctLoop [] [] changes)
  refine ⟨hperm.nodup_iff.2 h1, fun c => ?_, ?_⟩
  · unfold Distinct
    rw [hperm.mem_iff, h2 c]
    simp
  · unfold Distinct List.Sorted
    exact (hsort.sorted (distinctLoop [] [] changes)).imp
      (fun {a b} h => workloadChangeLess_eq_false.1 h)

/-- C5, with Go's insertion sort, on a list with a repeated change. -/
theorem Distinct_nodup_mem_sorted_witness :
    (Distinct insertionSort
      [{ Op := OperationCopy, W := { SourceEnv := "manifests", Name := "workload2" } },
       { Op := OperationCopy, W := { SourceEnv := "manifests", Name := "workload1" } },
       { Op := OperationCopy, W := { SourceEnv := "manifests", Name := "workload2" } }]).Nodup ∧
    (∀ c, c ∈ Distinct insertionSort
      [{ Op := OperationCopy, W := { SourceEnv := "manifests", Name := "workload2" } },
       { Op := OperationCopy, W := { SourceEnv := "manifests", Name := "workload1" } },
       { Op := OperationCopy, W := { SourceEnv := "manifests", Name := "workload2" } }] ↔
      c ∈ [{ Op := OperationCopy, W := { SourceEnv := "manifests", Name := "workload2" } },
       { Op := OperationCopy, W := { SourceEnv := "manifests", Name := "workload1" } },
       ({ Op := OperationCopy, W := { SourceEnv := "manifests", Name := "workload2" } } :
         WorkloadChange)]) ∧
    (Distinct insertionSort
      [{ Op := OperationCopy, W := { SourceEnv := "manifests", Name := "workload2" } },
       { Op := OperationCopy, W := { SourceEnv := "manifests", Name := "workload1" } },
       { Op := OperationCopy, W := { SourceEnv := "manifests", Name := "workload2" } }]).Sorted
      (fun a b => a.W.Name ≤ b.W.Name) :=
  Distinct_nodup_mem_sorted insertionSort insertionSort_isSortSort _

end detect

/-! ## Go maps -/

theorem GoMap.get?_eq_some_iff {β : Type} (m : GoMap β) (hm : (m.map Prod.fst).Nodup)
    (k : String) (v : β) : GoMap.get? m k = some v ↔ (k, v) ∈ m := by
  induction m with
  | nil => simp [GoMap.get?]
  | cons kv rest ih =>
    obtain ⟨k₁, v₁⟩ := kv
    simp only [List.map_cons, List.nodup_cons] at hm
    by_cases hk : k₁ = k
    · subst hk
      simp only [GoMap.get?, if_true, List.mem_cons, Prod.mk.injEq, true_and, Option.some.injEq]
      constructor
      · intro h; exact Or.inl h.symm
      · rintro (h | h)
        · exact h.symm
        · exact absurd (List.mem_map.2 ⟨(k₁, v), h, rfl⟩) hm.1
    · simp only [GoMap.get?, hk, if_false, List.mem_cons, Prod.mk.injEq]
      rw [ih hm.2]
      constructor
      · intro h; exact Or.inr h
      · rintro (⟨h, _⟩ | h)
        · exact absurd h.symm hk
        · exact h

theorem GoMap.get?_eq_none_iff {β : Type} (m : GoMap β) (k : String) :
    GoMap.get? m k = none ↔ ∀ v, (k, v) ∉ m := by
  induction m with
  | nil => simp [GoMap.get?]
  | cons kv rest ih =>
    obtain ⟨k₁, v₁⟩ := kv
    by_cases hk : k₁ = k
    · subst hk
      simp only [GoMap.get?, if_true, List.mem_cons, Prod.mk.injEq, true_and, not_or]
      constructor
      · intro h; cases h
      · intro h; exact absurd rfl (h v₁).1
    · simp only [GoMap.get?, hk, if_false, List.mem_cons, Prod.mk.injEq, not_or]
      rw [ih]
      constructor
      · intro h v; exact ⟨fun h' => hk h'.1.symm, h v⟩
      · intro h v; exact (h v).2

namespace clusterconf

/-! ## Exclusions and `AllowWorkload` -/

theorem excludesLoop_equal (key value : String) (entries : List (String × String)) :
    Exclusion.excludesLoop { Key := key, Operator := OperatorEqual, Value := value } entries =
      true ↔ (key, value) ∈ entries := by
  induction entries with
  | nil => simp [Exclusion.excludesLoop]
  | cons kv rest ih =>
    obtain ⟨k, v⟩ := kv
    have hop : OperatorEqual ≠ OperatorNotEqual := by decide
    simp only [Exclusion.excludesLoop, hop, if_false, if_true, List.mem_cons, Prod.mk.injEq]
    split
    · rename_i h; simp [h.1, h.2]
    · rename_i h
      rw [ih]
      constructor
      · intro h'; exact Or.inr h'
      · rintro (h' | h')
        · exact absurd h' h
        · exact h'

theorem excludesLoop_notEqual (key value : String) (entries : List (String × String)) :
    Exclusion.excludesLoop { Key := key, Operator := OperatorNotEqual, Value := value } entries =
      true ↔ ∃ v, (key, v) ∈ entries ∧ v ≠ value := by
  induction entries with
  | nil => simp [Exclusion.excludesLoop]
  | cons kv rest ih =>
    obtain ⟨k, v⟩ := kv
    simp only [Exclusion.excludesLoop, if_true, List.mem_cons, Prod.mk.injEq]
    split
    · rename_i h
      simp only [true_iff]
      exact ⟨v, Or.inl ⟨h.1, rfl⟩, fun hv => h.2 hv.symm⟩
    · rename_i h
      rw [ih]
      constructor
      · rintro ⟨v', hv', hne⟩; exact ⟨v', Or.inr hv', hne⟩
      · rintro ⟨v', hv' | hv', hne⟩
        · exact absurd ⟨hv'.1, fun hv => hne (hv'.2 ▸ hv.symm)⟩ h
        · exact ⟨v', hv', hne⟩

theorem excludesLoop_no_key (e : Exclusion) (entries : List (String × String))
    (h : ∀ v, (e.Key, v) ∉ entries) : e.excludesLoop entries = false := by
  induction entries with
  | nil => rfl
  | cons kv rest ih =>
    obtain ⟨k, v⟩ := kv
    have hk : e.Key ≠ k := fun hk => h v (by simp [hk])
    have hrest := ih (fun v' hv' => h v' (List.mem_cons_of_mem _ hv'))
    simp [Exclusion.excludesLoop, hk, hrest]

theorem allowLoop_iff (labels : Labels) (exclusions : List Exclusion) :
    allowLoop labels exclusions = true ↔ ∀ e ∈ exclusions, e.Excludes labels = false := by
  induction exclusions with
  | nil => simp [allowLoop]
  | cons exc rest ih =>
    simp only [allowLoop, List.mem_cons, forall_eq_or_imp]
    cases h : exc.Excludes labels
    · simpa using ih
    · simp

/-- C9: `Cluster.AllowWorkload(w)` is true exactly when no exclusion of `w` matches the labels
of the cluster; an exclusion `(key, Equal, value)` matches exactly when the labels hold `key`
with that value, `(key, NotEqual, value)` exactly when they hold `key` with another value. So
a workload without exclusions is allowed on every cluster, and no exclusion on a key that the
labels lack matches. -/
theorem allowWorkload_iff_no_exclusion_matches (c : Cluster) (w : Workload) :
    (c.AllowWorkload w = true ↔
      ∀ e ∈ w.Spec.Exclusions, e.Excludes c.Metadata.Labels = false) ∧
    (∀ (key value : String) (labels : Labels),
      Exclusion.Excludes { Key := key, Operator := OperatorEqual, Value := value } labels = true ↔
        labels.get? key = some value) ∧
    (∀ (key value : String) (labels : Labels),
      Exclusion.Excludes { Key := key, Operator := OperatorNotEqual, Value := value } labels =
        true ↔ ∃ v, labels.get? key = some v ∧ v ≠ value) ∧
    (w.Spec.Exclusions = [] → c.AllowWorkload w = true) ∧
    (∀ e : Exclusion, c.Metadata.Labels.get? e.Key = none →
      e.Excludes c.Metadata.Labels = false) := by
  refine ⟨allowLoop_iff _ _, ?_, ?_, ?_, ?_⟩
  · intro key value labels
    unfold Exclusion.Excludes Labels.get?
    rw [excludesLoop_equal, GoMap.get?_eq_some_iff _ labels.nodupKeys]
  · intro key value labels
    unfold Exclusion.Excludes Labels.get?
    rw [excludesLoop_notEqual]
    constructor
    · rintro ⟨v, hv, hne⟩
      exact ⟨v, (GoMap.get?_eq_some_iff _ labels.nodupKeys _ _).2 hv, hne⟩
    · rintro ⟨v, hv, hne⟩
      exact ⟨v, (GoMap.get?_eq_some_iff _ labels.nodupKeys _ _).1 hv, hne⟩
  · intro h
    simp [Cluster.AllowWorkload, h, allowLoop]
  · intro e h
    exact excludesLoop_no_key e _ ((GoMap.get?_eq_none_iff _ _).1 h)

/-- C9, on the `cloud2` development cluster of the examples: a workload without exclusions is
allowed, and an exclusion on the key `region`, which the cluster has no label for, does not
match. -/
theorem allowWorkload_iff_no_exclusion_matches_witness :
    (exampleCluster "development" "dev4" "cloud2").AllowWorkload
      { exampleWorkload with Spec := { Exclusions := [] } } = true ∧
    Exclusion.Excludes { Key := "region", Operator := OperatorNotEqual, Value := "eu" }
      (exampleCluster "development" "dev4" "cloud2").Metadata.Labels = false :=
  ⟨(allowWorkload_iff_no_exclusion_matches (exampleCluster "development" "dev4" "cloud2")
      { exampleWorkload with Spec := { Exclusions := [] } }).2.2.2.1 rfl,
   (allowWorkload_iff_no_exclusion_matches (exampleCluster "development" "dev4" "cloud2")
      exampleWorkload).2.2.2.2
      { Key := "region", Operator := OperatorNotEqual, Value := "eu" } (by decide)⟩

/-! ## Grouping -/

theorem groupEach_eq_map (c : Clusters) : groupEach c = c.map (fun cluster => [cluster]) := by
  induction c with
  | nil => rfl
  | cons cluster rest ih => simp [groupEach, ih]

theorem flatten_groupEach (c : Clusters) : (groupEach c).flatten = c := by
  induction c with
  | nil => rfl
  | cons cluster rest ih => simp [groupEach, ih]

/-- C10: `Clusters.Group(target)` returns the single group of all clusters when the target is
`development`, and otherwise one single-cluster group per cluster in the original order; in
both cases the concatenation of the groups is the original list. -/
theorem group_development_or_each (c : Clusters) (target : environment.Env) :
    (target = environment.Development → c.Group target = [c]) ∧
    (target ≠ environment.Development →
      c.Group target = c.map (fun cluster => [cluster])) ∧
    (c.Group target).flatten = c := by
  refine ⟨?_, ?_, ?_⟩
  · intro h
    simp [Clusters.Group, h]
  · intro h
    simp [Clusters.Group, h, groupEach_eq_map]
  · by_cases h : target = environment.Development
    · simp [Clusters.Group, h]
    · simp [Clusters.Group, h, flatten_groupEach]

/-- C10, on the three development clusters of the examples, for the targets `development`
and `test`. -/
theorem group_development_or_each_witness :
    exampleClusters.Group "development" = [exampleClusters] ∧
    exampleClusters.Group "test" = exampleClusters.map (fun cluster => [cluster]) :=
  ⟨(group_development_or_each exampleClusters "development").1 rfl,
   (group_development_or_each exampleClusters "test").2.1 (by decide)⟩

end clusterconf

/-! ## More on Go maps -/

theorem GoMap.keys_set {β : Type} (m : GoMap β) (k : String) (v : β) :
    (GoMap.set m k v).map Prod.fst =
      if k ∈ m.map Prod.fst then m.map Prod.fst else m.map Prod.fst ++ [k] := by
  induction m with
  | nil => simp [GoMap.set]
  | cons kv rest ih =>
    obtain ⟨k₁, v₁⟩ := kv
    by_cases hk : k₁ = k
    · subst hk
      simp [GoMap.set]
    · have hk' : ¬ k = k₁ := fun h => hk h.symm
      simp only [GoMap.set, hk, if_false, List.map_cons, ih, List.mem_cons, hk', false_or]
      split <;> simp

theorem GoMap.get?_set {β : Type} (m : GoMap β) (k k₂ : String) (v : β) :
    GoMap.get? (GoMap.set m k v) k₂ = if k = k₂ then some v else GoMap.get? m k₂ := by
  induction m with
  | nil => simp [GoMap.set, GoMap.get?]
  | cons kv rest ih =>
    obtain ⟨k₁, v₁⟩ := kv
    by_cases hk : k₁ = k
    · subst hk
      by_cases hk₂ : k₁ = k₂ <;> simp [GoMap.set, GoMap.get?, hk₂]
    · by_cases hk₂ : k₁ = k₂
      · subst hk₂
        have hk' : ¬ k = k₁ := fun h => hk h.symm
        simp [GoMap.set, GoMap.get?, hk, hk']
      · simp [GoMap.set, GoMap.get?, hk, hk₂, ih]

namespace promoter

open clusterconf

/-! ## Consistency of a workload across the clusters of the source environment -/

theorem filter_eq (c : Clusters) (predicate : Cluster → Bool) :
    Clusters.Filter c predicate = List.filter predicate c := by
  induction c with
  | nil => rfl
  | cons cluster rest ih =>
    by_cases h : predicate cluster = true <;> simp [Clusters.Filter, h, ih]

theorem verifyLoop_ok {σ : Type} (p : Promoter σ) (s : σ) (workload : Workload)
    (previous : List Cluster) (hs : List String)
    (hhash : previous.map (fun c => p.DirHash s (c.WorkloadPath workload.Name)) =
      hs.map Except.ok)
    (clusterNames : List String) (hashes : GoMap (List String))
    (hnodup : (hashes.map Prod.fst).Nodup) :
    ∃ hashes₁ : GoMap (List String),
      verifyLoop p s workload clusterNames hashes previous =
        .ok (clusterNames ++ previous.map Cluster.Name, hashes₁) ∧
      (hashes₁.map Prod.fst).Nodup ∧
      ∀ h, h ∈ hashes₁.map Prod.fst ↔ h ∈ hashes.map Prod.fst ∨ h ∈ hs := by
  induction previous generalizing hs clusterNames hashes with
  | nil =>
    cases hs with
    | nil => exact ⟨hashes, by simp [verifyLoop], hnodup, by simp⟩
    | cons _ _ => simp at hhash
  | cons c rest ih =>
    cases hs with
    | nil => simp at hhash
    | cons h hs =>
      simp only [List.map_cons, List.cons.injEq] at hhash
      obtain ⟨hc, hrest⟩ := hhash
      have hn : ((hashes.set h ((hashes.get? h).getD [] ++ [c.WorkloadPath workload.Name])).map
          Prod.fst).Nodup := by
        rw [GoMap.keys_set]
        split
        · exact hnodup
        · rename_i hmem
          rw [List.nodup_append]
          refine ⟨hnodup, List.nodup_singleton _, ?_⟩
          intro a ha hb
          rw [List.mem_singleton] at hb
          exact hmem (hb ▸ ha)
      obtain ⟨hashes₁, h1, h2, h3⟩ := ih hs hrest (clusterNames ++ [c.Name]) _ hn
      refine ⟨hashes₁, ?_, h2, fun k => ?_⟩
      · simp only [verifyLoop, hc, h1, List.map_cons, List.append_assoc, List.singleton_append]
      · rw [h3 k, GoMap.keys_set]
        split
        · rename_i hmem
          simp only [List.mem_cons]
          constructor
          · rintro (h' | h')
            · exact Or.inl h'
            · exact Or.inr (Or.inr h')
          · rintro (h' | h' | h')
            · exact Or.inl h'
            · exact Or.inl (h' ▸ hmem)
            · exact Or.inr h'
        · simp only [List.mem_append, List.mem_singleton, List.mem_cons]
          tauto

theorem verifyLoop_error {σ : Type} (p : Promoter σ) (s : σ) (workload : Workload)
    (previous : List Cluster)
    (hfail : ∃ c ∈ previous, ∃ e, p.DirHash s (c.WorkloadPath workload.Name) = .error e)
    (clusterNames : List String) (hashes : GoMap (List String)) :
    ∃ msg, verifyLoop p s workload clusterNames hashes previous = .error (.other msg) := by
  induction previous generalizing clusterNames hashes with
  | nil => obtain ⟨c, hc, _⟩ := hfail; simp at hc
  | cons c rest ih =>
    cases hc : p.DirHash s (c.WorkloadPath workload.Name) with
    | error e => exact ⟨_, by simp only [verifyLoop, hc]; rfl⟩
    | ok h =>
      obtain ⟨c', hc', e, he⟩ := hfail
      rcases List.mem_cons.1 hc' with heq | hmem
      · subst heq
        rw [hc] at he
        cases he
      · obtain ⟨msg, hmsg⟩ := ih ⟨c', hmem, e, he⟩ (clusterNames ++ [c.Name])
          (hashes.set h ((hashes.get? h).getD [] ++ [c.WorkloadPath workload.Name]))
        exact ⟨msg, by simp only [verifyLoop, hc, hmsg]⟩

theorem dedup_length_map_ok (hs : List String) :
    ((hs.map (Except.ok : String → Except String String)).dedup).length = hs.dedup.length := by
  rw [List.dedup_map_of_injective (fun a b h => by cases h; rfl), List.length_map]

theorem all_ok_or_some_error {α : Type} (l : List α) (f : α → Except String String) :
    (∃ hs : List String, l.map f = hs.map Except.ok) ∨ ∃ a ∈ l, ∃ e, f a = .error e := by
  induction l with
  | nil => exact Or.inl ⟨[], rfl⟩
  | cons a rest ih =>
    cases ha : f a with
    | error e => exact Or.inr ⟨a, by simp, e, ha⟩
    | ok h =>
      rcases ih with ⟨hs, hhs⟩ | ⟨b, hb, e, he⟩
      · exact Or.inl ⟨h :: hs, by simp [ha, hhs]⟩
      · exact Or.inr ⟨b, List.mem_cons_of_mem _ hb, e, he⟩

/-- The result of `verifyWorkloadConsistency` when the worktree is available and every
workload directory of the previous clusters can be hashed. -/
theorem verifyWorkloadConsistency_of_hashes {σ : Type} (p : Promoter σ) (s : σ)
    (workload : Workload) (manifestSource : environment.Env)
    (hsrc : manifestSource ≠ environment.SourceManifest) (hfs : p.WorkingTreeFS s = .ok ())
    (hs : List String)
    (hhash : (p.clusters.All.filter
        (fun c => c.AllowWorkload workload && ByEnvironment manifestSource c)).map
        (fun c => p.DirHash s (c.WorkloadPath workload.Name)) = hs.map Except.ok) :
    verifyWorkloadConsistency p s workload manifestSource =
      if 1 < hs.dedup.length then
        .error (.clustersNotInSync workload.Name
          ((p.clusters.All.filter
            (fun c => c.AllowWorkload workload && ByEnvironment manifestSource c)).map
            Cluster.Name))
      else .ok () := by
  have hprev : (p.clusters.All.Filter (ByAllowWorkload workload)).Filter
      (ByEnvironment manifestSource) = p.clusters.All.filter
        (fun c => c.AllowWorkload workload && ByEnvironment manifestSource c) := by
    rw [filter_eq, filter_eq, List.filter_filter]
    congr 1
    funext c
    simp [ByAllowWorkload, Bool.and_comm]
  obtain ⟨hashes₁, h1, h2, h3⟩ := verifyLoop_ok p s workload _ hs hhash [] [] List.nodup_nil
  have hlen : hashes₁.length = hs.dedup.length := by
    have hperm : (hashes₁.map Prod.fst).Perm hs.dedup :=
      (List.perm_ext_iff_of_nodup h2 (List.nodup_dedup hs)).2 (fun a => by
        rw [h3 a, List.mem_dedup]; simp)
    rw [← hperm.length_eq, List.length_map]
  simp only [verifyWorkloadConsistency, hsrc, if_false, hprev, hfs, h1, List.nil_append, hlen]

/-! ## `performChanges`: only allowed changes are applied and recorded -/

theorem allowedChangesLoop_mem {σ : Type} (p : Promoter σ) (s : σ) (cluster : Cluster)
    (changes acc out : List detect.WorkloadChange)
    (h : allowedChangesLoop p s cluster acc changes = .ok out) :
    ∀ ch ∈ out, ch ∈ acc ∨ (ch ∈ changes ∧
      ∃ w, p.registryGet s ch.W.Name = .ok w ∧ cluster.AllowWorkload w = true) := by
  induction changes generalizing acc with
  | nil =>
    simp only [allowedChangesLoop, Except.ok.injEq] at h
    subst h
    intro ch hch
    exact Or.inl hch
  | cons change rest ih =>
    cases hw : p.registryGet s change.W.Name with
    | error e => simp [allowedChangesLoop, hw] at h
    | ok w =>
      by_cases ha : cluster.AllowWorkload w = true
      · simp only [allowedChangesLoop, hw, ha, if_true] at h
        intro ch hch
        rcases ih _ h ch hch with h1 | ⟨h1, h2⟩
        · rcases List.mem_append.1 h1 with h3 | h3
          · exact Or.inl h3
          · rw [List.mem_singleton] at h3
            subst h3
            exact Or.inr ⟨by simp, w, hw, ha⟩
        · exact Or.inr ⟨List.mem_cons_of_mem _ h1, h2⟩
      · simp only [allowedChangesLoop, hw, ha] at h
        intro ch hch
        rcases ih _ h ch hch with h1 | ⟨h1, h2⟩
        · exact Or.inl h1
        · exact Or.inr ⟨List.mem_cons_of_mem _ h1, h2⟩

theorem allowedChanges_mem {σ : Type} (p : Promoter σ) (s : σ) (cluster : Cluster)
    (changes out : List detect.WorkloadChange) (h : allowedChanges p s changes cluster = .ok out) :
    ∀ ch ∈ out, ch ∈ changes ∧
      ∃ w, p.registryGet s ch.W.Name = .ok w ∧ cluster.AllowWorkload w = true := by
  unfold allowedChanges at h
  cases hctx : p.ctxErr s with
  | some e => simp [hctx] at h
  | none =>
    simp only [hctx] at h
    intro ch hch
    rcases allowedChangesLoop_mem p s cluster changes [] out h ch hch with h1 | h1
    · simp at h1
    · exact h1

theorem performChange_frame {σ : Type} (p : Promoter σ) (cluster : Cluster)
    (change : detect.WorkloadChange) (targetEnv : environment.Env) (I : σ → Prop)
    (hReplace : ∀ s src, I s → I (p.Replace s src (cluster.WorkloadPath change.W.Name)).2)
    (hRemoveAll : ∀ s, I s → I (p.RemoveAll s (cluster.WorkloadPath change.W.Name)).2)
    (hKust : ∀ s, I s → I (p.kustomizationWrite s cluster).2) (s : σ) (hI : I s) :
    I (performChange p cluster change targetEnv s).2 := by
  unfold performChange
  cases p.ctxErr s with
  | some e => exact hI
  | none =>
    cases p.WorkingTreeFS s with
    | error e => exact hI
    | ok u =>
      cases getSourceDir p s change targetEnv with
      | error e => exact hI
      | ok sourceDir =>
        simp only
        by_cases hop : change.Op ≠ detect.OperationCopy ∧ change.Op ≠ detect.OperationRemove
        · rw [if_pos hop]; exact hI
        · rw [if_neg hop]
          have key : ∀ s₁, I s₁ → I (match p.kustomizationWrite s₁ cluster with
              | (Except.error e, s₃) => ((Except.error (PromoterError.other e) :
                  Except PromoterError Unit), s₃)
              | (Except.ok _, s₃) => (Except.ok (), s₃)).2 := by
            intro s₁ h₁
            have h := hKust s₁ h₁
            rcases hk : p.kustomizationWrite s₁ cluster with ⟨r, s₃⟩
            rw [hk] at h
            cases r <;> exact h
          have keyR : ∀ s₁, I s₁ → I (match (if change.Op = detect.OperationRemove then
                match p.Stat s₁ (cluster.WorkloadPath change.W.Name) with
                | .error e => ((Except.error (PromoterError.other
                    ("stat: " ++ cluster.WorkloadPath change.W.Name ++ ": " ++ e)) :
                    Except PromoterError Unit), s₁)
                | .ok _ =>
                  match p.RemoveAll s₁ (cluster.WorkloadPath change.W.Name) with
                  | (.error e, s₂) => (.error (.other e), s₂)
                  | (.ok _, s₂) => (.ok (), s₂)
              else (.ok (), s₁)) with
              | (Except.error e, s₂) => ((Except.error e : Except PromoterError Unit), s₂)
              | (Except.ok _, s₂) =>
                match p.kustomizationWrite s₂ cluster with
                | (Except.error e, s₃) => (Except.error (PromoterError.other e), s₃)
                | (Except.ok _, s₃) => (Except.ok (), s₃)).2 := by
            intro s₁ h₁
            by_cases hrm : change.Op = detect.OperationRemove
            · rw [if_pos hrm]
              cases p.Stat s₁ (cluster.WorkloadPath change.W.Name) with
              | error e => exact h₁
              | ok u =>
                have h := hRemoveAll s₁ h₁
                rcases hk : p.RemoveAll s₁ (cluster.WorkloadPath change.W.Name) with ⟨r, s₂⟩
                rw [hk] at h
                cases r with
                | error e => exact h
                | ok u => exact key s₂ h
            · rw [if_neg hrm]
              exact key s₁ h₁
          by_cases hcp : change.Op = detect.OperationCopy
          · rw [if_pos hcp]
            have h := hReplace s sourceDir hI
            rcases hk : p.Replace s sourceDir (cluster.WorkloadPath change.W.Name) with ⟨r, s₁⟩
            rw [hk] at h
            cases r with
            | error e => exact h
            | ok u => exact keyR s₁ h
          · rw [if_neg hcp]
            exact keyR s hI

theorem lookup_record (promotions : promotion.Results) (cn wn cn₂ wn₂ : String)
    (ch : detect.WorkloadChange) :
    (record promotions cn wn ch).lookup cn₂ wn₂ =
      if cn₂ = cn ∧ wn₂ = wn then some ch else promotions.lookup cn₂ wn₂ := by
  unfold record promotion.Results.lookup
  cases hget : GoMap.get? promotions cn with
  | none =>
    simp only [GoMap.get?_set, if_true, Option.getD_some]
    by_cases hc : cn = cn₂
    · subst hc
      by_cases hw : wn = wn₂
      · subst hw
        simp [GoMap.set, GoMap.get?]
      · have hw' : ¬ wn₂ = wn := fun h => hw h.symm
        simp [GoMap.set, GoMap.get?, hw, hw', hget]
    · have hc' : ¬ cn₂ = cn := fun h => hc h.symm
      simp [hc, hc']
  | some m =>
    simp only [GoMap.get?_set, hget, Option.getD_some]
    by_cases hc : cn = cn₂
    · subst hc
      by_cases hw : wn = wn₂
      · subst hw
        simp [GoMap.get?_set]
      · have hw' : ¬ wn₂ = wn := fun h => hw h.symm
        simp [hw, hw', hget, GoMap.get?_set]
    · have hc' : ¬ cn₂ = cn := fun h => hc h.symm
      simp [hc, hc']

theorem clusterLoop_spec {σ : Type} (p : Promoter σ) (cluster : Cluster)
    (targetEnv : environment.Env) (I : σ → Prop) (clusterChanges : List detect.WorkloadChange)
    (hstep : ∀ ch ∈ clusterChanges, ∀ s, I s → I (performChange p cluster ch targetEnv s).2)
    (promotions : promotion.Results) (s : σ) (hI : I s) :
    I (clusterLoop p cluster targetEnv clusterChanges promotions s).2 ∧
    ∀ res, (clusterLoop p cluster targetEnv clusterChanges promotions s).1 = .ok res →
      ∀ cn wn ch, res.lookup cn wn = some ch →
        promotions.lookup cn wn = some ch ∨
        (cn = cluster.Name ∧ ch ∈ clusterChanges ∧
          ∃ s₁ w₁, p.registryGet s₁ ch.W.Name = .ok w₁ ∧ w₁.Name = wn) := by
  induction clusterChanges generalizing promotions s with
  | nil =>
    refine ⟨hI, fun res hres cn wn ch hch => ?_⟩
    simp only [clusterLoop, Except.ok.injEq] at hres
    subst hres
    exact Or.inl hch
  | cons change rest ih =>
    cases hw : p.registryGet s change.W.Name with
    | error e =>
      simp only [clusterLoop, hw]
      exact ⟨hI, fun res hres => by simp at hres⟩
    | ok workload =>
      cases hv : verifyWorkloadConsistency p s workload change.W.SourceEnv with
      | error e =>
        simp only [clusterLoop, hw, hv]
        exact ⟨hI, fun res hres => by simp at hres⟩
      | ok u =>
        have h₁ := hstep change (by simp) s hI
        rcases hpc : performChange p cluster change targetEnv s with ⟨r, s₁⟩
        rw [hpc] at h₁
        cases r with
        | error e =>
          simp only [clusterLoop, hw, hv, hpc]
          exact ⟨h₁, fun res hres => by simp at hres⟩
        | ok u₁ =>
          simp only [clusterLoop, hw, hv, hpc]
          obtain ⟨ih1, ih2⟩ := ih (fun ch hch => hstep ch (List.mem_cons_of_mem _ hch))
            (record promotions cluster.Name workload.Name change) s₁ h₁
          refine ⟨ih1, fun res hres cn wn ch hch => ?_⟩
          rcases ih2 res hres cn wn ch hch with h | ⟨h1, h2, h3⟩
          · rw [lookup_record] at h
            by_cases hk : cn = cluster.Name ∧ wn = workload.Name
            · rw [if_pos hk, Option.some.injEq] at h
              subst h
              exact Or.inr ⟨hk.1, by simp, s, workload, hw, hk.2.symm⟩
            · rw [if_neg hk] at h
              exact Or.inl h
          · exact Or.inr ⟨h1, List.mem_cons_of_mem _ h2, h3⟩

theorem performChangesLoop_spec {σ : Type} (p : Promoter σ)
    (changes : List detect.WorkloadChange) (targetEnv : environment.Env) (I : σ → Prop)
    (clusters : List Cluster)
    (hstep : ∀ c ∈ clusters, ∀ ch ∈ changes,
      (∃ s₀ w, p.registryGet s₀ ch.W.Name = .ok w ∧ c.AllowWorkload w = true) →
      ∀ s, I s → I (performChange p c ch targetEnv s).2)
    (promotions : promotion.Results) (s : σ) (hI : I s) :
    I (performChangesLoop p changes targetEnv clusters promotions s).2 ∧
    ∀ res, (performChangesLoop p changes targetEnv clusters promotions s).1 = .ok res →
      ∀ cn wn ch, res.lookup cn wn = some ch →
        promotions.lookup cn wn = some ch ∨
        ∃ c ∈ clusters, c.Name = cn ∧ ch ∈ changes ∧
          (∃ s₀ w, p.registryGet s₀ ch.W.Name = .ok w ∧ c.AllowWorkload w = true) ∧
          ∃ s₁ w₁, p.registryGet s₁ ch.W.Name = .ok w₁ ∧ w₁.Name = wn := by
  induction clusters generalizing promotions s with
  | nil =>
    refine ⟨hI, fun res hres cn wn ch hch => ?_⟩
    simp only [performChangesLoop, Except.ok.injEq] at hres
    subst hres
    exact Or.inl hch
  | cons cluster rest ih =>
    cases ha : allowedChanges p s changes cluster with
    | error e =>
      simp only [performChangesLoop, ha]
      exact ⟨hI, fun res hres => by simp at hres⟩
    | ok clusterChanges =>
      have hmem := allowedChanges_mem p s cluster changes clusterChanges ha
      obtain ⟨h1, h2⟩ := clusterLoop_spec p cluster targetEnv I clusterChanges
        (fun ch hch => hstep cluster (by simp) ch (hmem ch hch).1
          ⟨s, (hmem ch hch).2⟩) promotions s hI
      rcases hcl : clusterLoop p cluster targetEnv clusterChanges promotions s with ⟨r, s₁⟩
      rw [hcl] at h1 h2
      cases r with
      | error e =>
        simp only [performChangesLoop, ha, hcl]
        exact ⟨h1, fun res hres => by simp at hres⟩
      | ok promotions₁ =>
        simp only [performChangesLoop, ha, hcl]
        obtain ⟨ih1, ih2⟩ := ih (fun c hc => hstep c (List.mem_cons_of_mem _ hc)) promotions₁ s₁ h1
        refine ⟨ih1, fun res hres cn wn ch hch => ?_⟩
        rcases ih2 res hres cn wn ch hch with h | ⟨c, hc, hrest⟩
        · rcases h2 promotions₁ rfl cn wn ch h with h' | ⟨h3, h4, h5⟩
          · exact Or.inl h'
          · exact Or.inr ⟨cluster, by simp, h3.symm, (hmem ch h4).1, ⟨s, (hmem ch h4).2⟩, h5⟩
        · exact Or.inr ⟨c, List.mem_cons_of_mem _ hc, hrest⟩

theorem verifyLoop_congr {σ : Type} (p : Promoter σ) (f : σ → String → Except String String)
    (s : σ) (workload : Workload) (previous : List Cluster)
    (hf : ∀ c ∈ previous, f s (c.WorkloadPath workload.Name) =
      p.DirHash s (c.WorkloadPath workload.Name))
    (clusterNames : List String) (hashes : GoMap (List String)) :
    verifyLoop { p with DirHash := f } s workload clusterNames hashes previous =
      verifyLoop p s workload clusterNames hashes previous := by
  induction previous generalizing clusterNames hashes with
  | nil => rfl
  | cons c rest ih =>
    have hc := hf c (by simp)
    simp only [verifyLoop, hc]
    cases p.DirHash s (c.WorkloadPath workload.Name) with
    | error e => rfl
    | ok h => exact ih (fun c₁ hc₁ => hf c₁ (List.mem_cons_of_mem _ hc₁)) _ _

theorem dedup_length_le_one_of_all_eq (hs : List String) (h : ∀ a ∈ hs, ∀ b ∈ hs, a = b) :
    hs.dedup.length ≤ 1 := by
  have hn := List.nodup_dedup hs
  cases hd : hs.dedup with
  | nil => simp
  | cons a rest =>
    cases rest with
    | nil => simp
    | cons b rest₁ =>
      rw [hd] at hn
      have ha : a ∈ hs := List.mem_dedup.1 (by rw [hd]; simp)
      have hb : b ∈ hs := List.mem_dedup.1 (by rw [hd]; simp)
      have hab := h a ha b hb
      subst hab
      simp at hn

/-- C4: `verifyWorkloadConsistency(w, sourceEnv)` returns nil when the source is `manifests`.
Otherwise the clusters it hashes (`previous`) are exactly the declared clusters whose
`environment` label is `sourceEnv` and that allow `w`, and its result depends on `DirHash` only
at their workload paths; with `hs` the hashes of these directories, it returns the error
wrapping `ErrClustersNotInSync` if and only if `hs` holds more than one distinct hash, and nil
if and only if it holds at most one, so nil when there are fewer than two such clusters or all
hashes agree. The error wrapping `ErrClustersNotInSync` is returned in no other case. -/
theorem verifyWorkloadConsistency_spec {σ : Type} (p : Promoter σ) (s : σ) (workload : Workload)
    (manifestSource : environment.Env) (previous : Clusters)
    (hprevious : previous = (p.clusters.All.Filter (ByAllowWorkload workload)).Filter
      (ByEnvironment manifestSource)) :
    (manifestSource = environment.SourceManifest →
      verifyWorkloadConsistency p s workload manifestSource = .ok ()) ∧
    (∀ c, c ∈ previous ↔ c ∈ p.clusters.All ∧
      c.Metadata.Labels.get? "environment" = some manifestSource ∧
      c.AllowWorkload workload = true) ∧
    (∀ f : σ → String → Except String String,
      (∀ c ∈ previous, f s (c.WorkloadPath workload.Name) =
        p.DirHash s (c.WorkloadPath workload.Name)) →
      verifyWorkloadConsistency { p with DirHash := f } s workload manifestSource =
        verifyWorkloadConsistency p s workload manifestSource) ∧
    (∀ hs : List String, manifestSource ≠ environment.SourceManifest →
      p.WorkingTreeFS s = .ok () →
      previous.map (fun c => p.DirHash s (c.WorkloadPath workload.Name)) = hs.map Except.ok →
      ((∃ wn cn, verifyWorkloadConsistency p s workload manifestSource =
          .error (.clustersNotInSync wn cn)) ↔ 1 < hs.dedup.length) ∧
      (verifyWorkloadConsistency p s workload manifestSource = .ok () ↔ hs.dedup.length ≤ 1) ∧
      (previous.length < 2 → verifyWorkloadConsistency p s workload manifestSource = .ok ()) ∧
      ((∀ a ∈ hs, ∀ b ∈ hs, a = b) →
        verifyWorkloadConsistency p s workload manifestSource = .ok ())) ∧
    (∀ wn cn, verifyWorkloadConsistency p s workload manifestSource =
        .error (.clustersNotInSync wn cn) →
      manifestSource ≠ environment.SourceManifest ∧ wn = workload.Name ∧
      cn = previous.map Cluster.Name ∧
      ∃ hs : List String,
        previous.map (fun c => p.DirHash s (c.WorkloadPath workload.Name)) = hs.map Except.ok ∧
        1 < hs.dedup.length) := by
  have hfilter : previous = p.clusters.All.filter
      (fun c => c.AllowWorkload workload && ByEnvironment manifestSource c) := by
    rw [hprevious, filter_eq, filter_eq, List.filter_filter]
    congr 1
    funext c
    simp [ByAllowWorkload, Bool.and_comm]
  have hof : ∀ hs : List String, manifestSource ≠ environment.SourceManifest →
      p.WorkingTreeFS s = .ok () →
      previous.map (fun c => p.DirHash s (c.WorkloadPath workload.Name)) = hs.map Except.ok →
      verifyWorkloadConsistency p s workload manifestSource =
        if 1 < hs.dedup.length then
          .error (.clustersNotInSync workload.Name (previous.map Cluster.Name))
        else .ok () := by
    intro hs hsrc hfs hhash
    rw [hfilter] at hhash ⊢
    exact verifyWorkloadConsistency_of_hashes p s workload manifestSource hsrc hfs hs hhash
  refine ⟨?_, ?_, ?_, ?_, ?_⟩
  · intro h
    simp [verifyWorkloadConsistency, h]
  · intro c
    rw [hfilter, List.mem_filter]
    simp only [Bool.and_eq_true, ByEnvironment]
    constructor
    · rintro ⟨h1, h2, h3⟩
      refine ⟨h1, ?_, h2⟩
      cases hg : c.Metadata.Labels.get? "environment" with
      | none => simp [hg] at h3
      | some e =>
        simp only [hg, beq_iff_eq] at h3
        rw [h3]
    · rintro ⟨h1, h2, h3⟩
      exact ⟨h1, h3, by simp [h2]⟩
  · intro f hf
    simp only [verifyWorkloadConsistency, ← hprevious]
    rw [verifyLoop_congr p f s workload previous hf]
  · intro hs hsrc hfs hhash
    have hv := hof hs hsrc hfs hhash
    refine ⟨?_, ?_, ?_, ?_⟩
    · rw [hv]
      by_cases hlt : 1 < hs.dedup.length
      · simp [hlt]
      · simp [hlt]
    · rw [hv]
      by_cases hlt : 1 < hs.dedup.length
      · simp [hlt]
      · simp [hlt]; omega
    · intro hlen
      have h1 : hs.length = previous.length := by
        have := congrArg List.length hhash
        simpa using this.symm
      have h2 : hs.dedup.length ≤ hs.length := (List.dedup_sublist hs).length_le
      rw [hv, if_neg (by omega)]
    · intro hall
      have := dedup_length_le_one_of_all_eq hs hall
      rw [hv, if_neg (by omega)]
  · intro wn cn hv
    have hsrc : manifestSource ≠ environment.SourceManifest := by
      intro h
      simp [verifyWorkloadConsistency, h] at hv
    cases hfs : p.WorkingTreeFS s with
    | error e => simp [verifyWorkloadConsistency, hsrc, hfs] at hv
    | ok u =>
      rcases all_ok_or_some_error previous
        (fun c => p.DirHash s (c.WorkloadPath workload.Name)) with ⟨hs, hhs⟩ | hfail
      · have hv₁ := hof hs hsrc hfs hhs
        rw [hv₁] at hv
        by_cases hlt : 1 < hs.dedup.length
        · rw [if_pos hlt] at hv
          simp only [Except.error.injEq, PromoterError.clustersNotInSync.injEq] at hv
          exact ⟨hsrc, hv.1.symm, hv.2.symm, hs, hhs, hlt⟩
        · rw [if_neg hlt] at hv
          cases hv
      · obtain ⟨msg, hmsg⟩ := verifyLoop_error p s workload previous hfail [] []
        simp [verifyWorkloadConsistency, hsrc, hfs, ← hprevious, hmsg] at hv

/-- C4, on three test clusters of which `test1` and `test2` (in `cloud1`) allow `foo`: with the
hashes `inconsistent` and `old` of scenario 5 the clusters are not in sync. -/
theorem verifyWorkloadConsistency_spec_witness :
    verifyWorkloadConsistency exampleTestPromoter [] exampleWorkload "manifests" = .ok () ∧
    ∃ wn cn, verifyWorkloadConsistency exampleTestPromoter [] exampleWorkload "test" =
      .error (.clustersNotInSync wn cn) :=
  ⟨(verifyWorkloadConsistency_spec exampleTestPromoter [] exampleWorkload "manifests" _ rfl).1
      rfl,
   ((verifyWorkloadConsistency_spec exampleTestPromoter [] exampleWorkload "test"
      [exampleCluster "test" "test1" "cloud1", exampleCluster "test" "test2" "cloud1"]
      rfl).2.2.2.1 ["inconsistent", "old"] (by decide) rfl (by decide)).1.2 (by decide)⟩

theorem performChanges_frame {σ : Type} (p : Promoter σ) (changes : List detect.WorkloadChange)
    (clusters : Clusters) (targetEnv : environment.Env) (s : σ) (I : σ → Prop)
    (hops : ∀ c ∈ clusters, ∀ ch ∈ changes,
      (∃ s₀ w, p.registryGet s₀ ch.W.Name = .ok w ∧ c.AllowWorkload w = true) →
      (∀ s₁ src, I s₁ → I (p.Replace s₁ src (c.WorkloadPath ch.W.Name)).2) ∧
      (∀ s₁, I s₁ → I (p.RemoveAll s₁ (c.WorkloadPath ch.W.Name)).2) ∧
      (∀ s₁, I s₁ → I (p.kustomizationWrite s₁ c).2))
    (hI : I s) : I (performChanges p changes clusters targetEnv s).2 :=
  (performChangesLoop_spec p changes targetEnv I clusters
    (fun c hc ch hch hallowed s₁ h₁ =>
      performChange_frame p c ch targetEnv I (hops c hc ch hch hallowed).1
        (hops c hc ch hch hallowed).2.1 (hops c hc ch hch hallowed).2.2 s₁ h₁) [] s hI).1

theorem performChanges_recorded {σ : Type} (p : Promoter σ)
    (changes : List detect.WorkloadChange) (clusters : Clusters) (targetEnv : environment.Env)
    (s : σ) (res : promotion.Results)
    (hres : (performChanges p changes clusters targetEnv s).1 = .ok res) (cn wn : String)
    (ch : detect.WorkloadChange) (hch : res.lookup cn wn = some ch) :
    ∃ c ∈ clusters, c.Name = cn ∧ ch ∈ changes ∧
      (∃ s₀ w, p.registryGet s₀ ch.W.Name = .ok w ∧ c.AllowWorkload w = true) ∧
      ∃ s₁ w₁, p.registryGet s₁ ch.W.Name = .ok w₁ ∧ w₁.Name = wn := by
  rcases (performChangesLoop_spec p changes targetEnv (fun _ => True) clusters
    (fun _ _ _ _ _ _ _ => trivial) [] s trivial).2 res hres cn wn ch hch with h | h
  · simp [promotion.Results.lookup, GoMap.get?] at h
  · exact h

/-- C3, as stated, fails when a cluster is declared twice: `exampleDuplicate` is in the group
and the exclusion of `foo` matches its labels, yet `performChanges` replaces the directory that
is its `WorkloadPath("foo")` and its `Results` hold `foo` under its name, both on behalf of the
`cloud1` cluster that shares its name and manifest folder. -/
theorem performChanges_duplicate_cluster :
    exampleDuplicate ∈ [exampleCluster "development" "dev2" "cloud1", exampleDuplicate] ∧
    exampleRegistryGet "foo" = .ok exampleWorkload ∧
    (∃ e ∈ exampleWorkload.Spec.Exclusions,
      e.Excludes exampleDuplicate.Metadata.Labels = true) ∧
    performChanges
      (recordingPromoter [exampleCluster "development" "dev2" "cloud1", exampleDuplicate]
        (fun _ => "old"))
      [exampleCopyFoo]
      [exampleCluster "development" "dev2" "cloud1", exampleDuplicate] "development" [] =
      (.ok [(exampleDuplicate.Name,
          [("foo", exampleCopyFoo)])],
        [("Replace", exampleDuplicate.WorkloadPath "foo", "/flux/manifests/foo"),
         ("Kust.Write", "/flux/promoted/development/dev2/cloud1/kustomization.yaml", "")]) ∧
    promotion.Results.lookup
      [(exampleDuplicate.Name,
          [("foo", exampleCopyFoo)])]
      exampleDuplicate.Name "foo" =
      some exampleCopyFoo :=
  ⟨List.mem_cons_of_mem _ (List.mem_singleton.2 rfl), by decide,
    ⟨{ Key := "cloud", Operator := OperatorNotEqual, Value := "cloud1" },
      List.mem_singleton.2 rfl, by decide⟩,
    by decide, by decide⟩

/-- C3, amended: `performChanges` changes the worktree only through `Replace` onto and
`RemoveAll` of `cluster.WorkloadPath(w)` and through the kustomization write of `cluster`, for
pairs of a cluster of the group and a change of the list such that the cluster allows the
workload that the registry returned for `w`: every property of the worktree that these writes
preserve holds afterwards, also when the call fails. Every entry of its `Results` stems from
such a pair, under the name of the cluster and the name of the workload that the registry
returned. So for a cluster `c` of the group and a workload name for which the registry keeps
returning a workload `w` that an exclusion keeps off `c`, the writes are those of the other
pairs; and `Results` hold no entry for `c`'s name and that workload, provided that no other
cluster of the group bears the name of `c` and that the registry returns every workload under
the name it is asked for. -/
theorem performChanges_only_allowed {σ : Type} (p : Promoter σ)
    (changes : List detect.WorkloadChange) (clusters : Clusters) (targetEnv : environment.Env)
    (s : σ) :
    (∀ I : σ → Prop,
      (∀ c ∈ clusters, ∀ ch ∈ changes,
        (∃ s₀ w, p.registryGet s₀ ch.W.Name = .ok w ∧ c.AllowWorkload w = true) →
        (∀ s₁ src, I s₁ → I (p.Replace s₁ src (c.WorkloadPath ch.W.Name)).2) ∧
        (∀ s₁, I s₁ → I (p.RemoveAll s₁ (c.WorkloadPath ch.W.Name)).2) ∧
        (∀ s₁, I s₁ → I (p.kustomizationWrite s₁ c).2)) →
      I s → I (performChanges p changes clusters targetEnv s).2) ∧
    (∀ res, (performChanges p changes clusters targetEnv s).1 = .ok res →
      ∀ cn wn ch, res.lookup cn wn = some ch →
        ∃ c ∈ clusters, c.Name = cn ∧ ch ∈ changes ∧
          (∃ s₀ w, p.registryGet s₀ ch.W.Name = .ok w ∧ c.AllowWorkload w = true) ∧
          ∃ s₁ w₁, p.registryGet s₁ ch.W.Name = .ok w₁ ∧ w₁.Name = wn) ∧
    (∀ c ∈ clusters, ∀ (name : String) (w : Workload),
      (∀ s₀, p.registryGet s₀ name = .ok w) → c.AllowWorkload w = false →
      (∀ I : σ → Prop,
        (∀ c₁ ∈ clusters, ∀ ch ∈ changes, ¬ (c₁ = c ∧ ch.W.Name = name) →
          (∀ s₁ src, I s₁ → I (p.Replace s₁ src (c₁.WorkloadPath ch.W.Name)).2) ∧
          (∀ s₁, I s₁ → I (p.RemoveAll s₁ (c₁.WorkloadPath ch.W.Name)).2) ∧
          (∀ s₁, I s₁ → I (p.kustomizationWrite s₁ c₁).2)) →
        I s → I (performChanges p changes clusters targetEnv s).2) ∧
      ((∀ c₁ ∈ clusters, c₁.Name = c.Name → c₁ = c) →
        (∀ s₀ workloadID w₁, p.registryGet s₀ workloadID = .ok w₁ → w₁.Name = workloadID) →
        ∀ res, (performChanges p changes clusters targetEnv s).1 = .ok res →
          res.lookup c.Name name = none)) := by
  refine ⟨fun I hops hI => performChanges_frame p changes clusters targetEnv s I hops hI,
    fun res hres cn wn ch hch =>
      performChanges_recorded p changes clusters targetEnv s res hres cn wn ch hch, ?_⟩
  intro c _ name w hstable hexcluded
  refine ⟨fun I hops hI => ?_, fun hunique hnames res hres => ?_⟩
  · refine performChanges_frame p changes clusters targetEnv s I
      (fun c₁ hc₁ ch hch hallowed => hops c₁ hc₁ ch hch ?_) hI
    rintro ⟨rfl, hname⟩
    obtain ⟨s₀, w₀, hw₀, hallow⟩ := hallowed
    rw [hname, hstable s₀] at hw₀
    cases hw₀
    rw [hexcluded] at hallow
    cases hallow
  · cases hl : res.lookup c.Name name with
    | none => rfl
    | some ch =>
      exfalso
      obtain ⟨c₁, hc₁, hcn, _, ⟨s₀, w₀, hw₀, hallow⟩, s₁, w₁, hw₁, hwn⟩ :=
        performChanges_recorded p changes clusters targetEnv s res hres c.Name name ch hl
      have hname : ch.W.Name = name := by
        rw [← hnames s₁ ch.W.Name w₁ hw₁, hwn]
      have hc : c₁ = c := hunique c₁ hc₁ hcn
      rw [hname, hstable s₀] at hw₀
      cases hw₀
      rw [hc, hexcluded] at hallow
      cases hallow

/-! ### The recording promoter -/

theorem recording_writes_elsewhere (all : Clusters) (hash : String → String) (c : Cluster)
    (name forbidden : String) (hpath : c.WorkloadPath name ≠ forbidden)
    (hkust : filepathJoin [c.ManifestFolder, "kustomization.yaml"] ≠ forbidden) :
    (∀ (s₁ : List (String × String × String)) src, (∀ e ∈ s₁, e.2.1 ≠ forbidden) →
      ∀ e ∈ ((recordingPromoter all hash).Replace s₁ src (c.WorkloadPath name)).2,
        e.2.1 ≠ forbidden) ∧
    (∀ s₁ : List (String × String × String), (∀ e ∈ s₁, e.2.1 ≠ forbidden) →
      ∀ e ∈ ((recordingPromoter all hash).RemoveAll s₁ (c.WorkloadPath name)).2,
        e.2.1 ≠ forbidden) ∧
    (∀ s₁ : List (String × String × String), (∀ e ∈ s₁, e.2.1 ≠ forbidden) →
      ∀ e ∈ ((recordingPromoter all hash).kustomizationWrite s₁ c).2, e.2.1 ≠ forbidden) := by
  refine ⟨?_, ?_, ?_⟩
  · intro s₁ src h e he
    rcases List.mem_append.1 he with h₁ | h₁
    · exact h e h₁
    · rw [List.mem_singleton.1 h₁]; exact hpath
  · intro s₁ h e he
    rcases List.mem_append.1 he with h₁ | h₁
    · exact h e h₁
    · rw [List.mem_singleton.1 h₁]; exact hpath
  · intro s₁ h e he
    rcases List.mem_append.1 he with h₁ | h₁
    · exact h e h₁
    · rw [List.mem_singleton.1 h₁]; exact hkust

theorem exampleRegistryGet_name (workloadID : String) (w : Workload)
    (h : exampleRegistryGet workloadID = .ok w) : w.Name = workloadID := by
  unfold exampleRegistryGet at h
  split at h
  · rename_i hid
    cases h
    rw [hid]
    rfl
  · cases h
    rfl

/-- C3, amended, on the three development clusters of the examples and the change `Copy foo`:
the `cloud2` cluster `dev4` is excluded, so no write of the run targets its directory of `foo`,
the recorded entry of `dev2-cloud1` stems from a cluster that allows `foo`, and the `Results`
hold nothing for `dev4-cloud2`. -/
theorem performChanges_only_allowed_witness :
    (∀ e ∈ (performChanges exampleDevPromoter
        [exampleCopyFoo]
        exampleClusters "development" []).2,
      e.2.1 ≠ "/flux/promoted/development/dev4/cloud2/foo") ∧
    (∃ c ∈ exampleClusters, c.Name = "dev2-cloud1" ∧
      ∃ s₀ w, exampleDevPromoter.registryGet s₀ "foo" = .ok w ∧ c.AllowWorkload w = true) ∧
    (∀ res, (performChanges exampleDevPromoter
        [exampleCopyFoo]
        exampleClusters "development" []).1 = .ok res →
      res.lookup "dev4-cloud2" "foo" = none) := by
  have h := performChanges_only_allowed exampleDevPromoter
    [exampleCopyFoo]
    exampleClusters "development" []
  have hdev4 : exampleCluster "development" "dev4" "cloud2" ∈ exampleClusters := by
    simp [exampleClusters]
  have h₃ := h.2.2 (exampleCluster "development" "dev4" "cloud2") hdev4 "foo" exampleWorkload
    (fun _ => rfl) (by decide)
  refine ⟨?_, ?_, ?_⟩
  · refine h₃.1 (fun log => ∀ e ∈ log, e.2.1 ≠ "/flux/promoted/development/dev4/cloud2/foo")
      ?_ (by simp)
    intro c₁ hc₁ ch hch hne
    rw [List.mem_singleton.1 hch] at hne ⊢
    simp only [exampleClusters, List.mem_cons, List.mem_singleton, List.not_mem_nil,
      or_false] at hc₁
    rcases hc₁ with rfl | rfl | rfl
    · exact recording_writes_elsewhere _ _ _ _ _ (by decide) (by decide)
    · exact recording_writes_elsewhere _ _ _ _ _ (by decide) (by decide)
    · exact absurd ⟨rfl, rfl⟩ hne
  · have hres : (performChanges exampleDevPromoter
        [exampleCopyFoo]
        exampleClusters "development" []).1 = .ok
        [("dev2-cloud1", [("foo", exampleCopyFoo)]),
         ("dev3-cloud1", [("foo", exampleCopyFoo)])] := by decide
    obtain ⟨c, hc, hcn, _, ⟨s₀, w, hw, ha⟩, _⟩ := h.2.1 _ hres "dev2-cloud1" "foo"
      exampleCopyFoo
      (by decide)
    exact ⟨c, hc, hcn, s₀, w, hw, ha⟩
  · refine h₃.2 ?_ (fun _ workloadID w₁ hw₁ => exampleRegistryGet_name workloadID w₁ hw₁)
    intro c₁ hc₁ hname
    simp only [exampleClusters, List.mem_cons, List.mem_singleton, List.not_mem_nil,
      or_false] at hc₁
    rcases hc₁ with rfl | rfl | rfl
    · exact absurd hname (by decide)
    · exact absurd hname (by decide)
    · rfl

end promoter

/-! ## Detection of new, existing and previous-environment clusters -/

namespace clusterconf

open environment

theorem contains_iff (c : Clusters) (pretender : Cluster) :
    c.Contains pretender = true ↔ ∃ cluster ∈ c, cluster.Name = pretender.Name := by
  induction c with
  | nil => simp [Clusters.Contains]
  | cons cluster rest ih =>
    by_cases h : cluster.Name = pretender.Name
    · simp [Clusters.Contains, h]
    · simp [Clusters.Contains, h, ih]

theorem newClustersLoop_eq (c : ClusterInspecter) (l : Clusters)
    (hstat : ∀ cluster ∈ l, ∀ msg, c.Stat cluster.ManifestFolder ≠ .error (.other msg))
    (missingOnDisk : Clusters) :
    c.newClustersLoop missingOnDisk l =
      .ok (missingOnDisk ++
        l.filter (fun cluster => decide (c.Stat cluster.ManifestFolder = .error .errNotExist))) := by
  induction l generalizing missingOnDisk with
  | nil => simp [ClusterInspecter.newClustersLoop]
  | cons cluster rest ih =>
    have hrest : ∀ cluster ∈ rest, ∀ msg, c.Stat cluster.ManifestFolder ≠ .error (.other msg) :=
      fun x hx => hstat x (List.mem_cons_of_mem _ hx)
    have hhead := hstat cluster (List.mem_cons_self _ _)
    cases hs : c.Stat cluster.ManifestFolder with
    | ok u => simp [ClusterInspecter.newClustersLoop, hs, ih hrest]
    | error e =>
      cases e with
      | errNotExist => simp [ClusterInspecter.newClustersLoop, hs, ih hrest]
      | other msg => exact absurd hs (hhead msg)

theorem detect_filters (c : ClusterInspecter) (all : Clusters) (targetEnv : Env)
    (hnames : (all.map Cluster.Name).Nodup)
    (hwt : c.Worktree = .ok ())
    (hstat : ∀ cluster ∈ all, ByEnvironment targetEnv cluster = true →
      ∀ msg, c.Stat cluster.ManifestFolder ≠ .error (.other msg)) :
    c.Detect all targetEnv = .ok
      { All := all
        New := all.filter (fun cluster => ByEnvironment targetEnv cluster &&
          decide (c.Stat cluster.ManifestFolder = .error .errNotExist))
        Existing := all.filter (fun cluster => ByEnvironment targetEnv cluster &&
          !decide (c.Stat cluster.ManifestFolder = .error .errNotExist))
        PreviousEnv :=
          match ManifestSource targetEnv with
          | none => []
          | some source => all.filter (ByEnvironment source) } := by
  have hloop := newClustersLoop_eq c (all.filter (ByEnvironment targetEnv))
    (fun cluster hc => hstat cluster (List.mem_filter.1 hc).1 (List.mem_filter.1 hc).2) []
  have hinj : ∀ a ∈ all, ∀ b ∈ all, a.Name = b.Name → a = b :=
    fun a ha b hb hab => List.inj_on_of_nodup_map hnames ha hb hab
  have hexisting : (all.filter (ByEnvironment targetEnv)).filter
      (Without ((all.filter (ByEnvironment targetEnv)).filter
        (fun cluster => decide (c.Stat cluster.ManifestFolder = .error .errNotExist)))) =
      all.filter (fun cluster => ByEnvironment targetEnv cluster &&
          !decide (c.Stat cluster.ManifestFolder = .error .errNotExist)) := by
    rw [List.filter_filter]
    apply List.filter_congr
    intro x hx
    by_cases henv : ByEnvironment targetEnv x = true
    · have hcontains : Clusters.Contains ((all.filter (ByEnvironment targetEnv)).filter
          (fun cluster => decide (c.Stat cluster.ManifestFolder = .error .errNotExist))) x = true ↔
          c.Stat x.ManifestFolder = .error .errNotExist := by
        rw [contains_iff]
        constructor
        · rintro ⟨y, hy, hyx⟩
          have hy1 := List.mem_filter.1 hy
          have hy2 := List.mem_filter.1 hy1.1
          have := hinj y hy2.1 x hx hyx
          subst this
          simpa using hy1.2
        · intro h
          exact ⟨x, List.mem_filter.2 ⟨List.mem_filter.2 ⟨hx, henv⟩, by simpa using h⟩, rfl⟩
      generalize (all.filter (ByEnvironment targetEnv)).filter
          (fun cluster => decide (c.Stat cluster.ManifestFolder = .error .errNotExist)) = new
        at hcontains
      by_cases hne : c.Stat x.ManifestFolder = .error .errNotExist
      · simp [Without, henv, hne, hcontains.2 hne]
      · have : Clusters.Contains new x = false := by
          cases hc : Clusters.Contains new x with
          | false => rfl
          | true => exact absurd (hcontains.1 hc) hne
        simp [Without, henv, hne, this]
    · simp [henv]
  have hnew : (all.filter (ByEnvironment targetEnv)).filter
      (fun cluster => decide (c.Stat cluster.ManifestFolder = .error .errNotExist)) =
      all.filter (fun cluster => ByEnvironment targetEnv cluster &&
          decide (c.Stat cluster.ManifestFolder = .error .errNotExist)) := by
    rw [List.filter_filter]
    apply List.filter_congr
    intro x _
    exact Bool.and_comm _ _
  have hprev : c.fromPreviousEnv all targetEnv =
      (match ManifestSource targetEnv with
        | none => []
        | some source => all.filter (ByEnvironment source)) := by
    unfold ClusterInspecter.fromPreviousEnv
    cases ManifestSource targetEnv with
    | none => rfl
    | some source => simp only [promoter.filter_eq]
  simp only [ClusterInspecter.Detect, ClusterInspecter.newClusters, hwt, promoter.filter_eq, hloop,
    ClusterInspecter.existingClusters, List.nil_append]
  rw [hexisting, hnew, hprev]


theorem byEnvironment_eq (env : Env) (cluster : Cluster) :
    ByEnvironment env cluster =
      decide (("environment", env) ∈ cluster.Metadata.Labels.entries) := by
  have h := GoMap.get?_eq_some_iff cluster.Metadata.Labels.entries
    cluster.Metadata.Labels.nodupKeys "environment"
  unfold ByEnvironment Labels.get?
  cases hg : GoMap.get? cluster.Metadata.Labels.entries "environment" with
  | none =>
    have hn : ("environment", env) ∉ cluster.Metadata.Labels.entries := by
      intro hmem
      rw [(h env).2 hmem] at hg
      cases hg
    simp [hn]
  | some e =>
    have he := (h e).1 hg
    by_cases hee : e = env
    · subst hee
      simp [he]
    · have hn : ("environment", env) ∉ cluster.Metadata.Labels.entries := by
        intro hmem
        rw [(h env).2 hmem] at hg
        exact hee (Option.some.inj hg).symm
      simp [hn, hee]

/-- C11: a cluster is labelled with an environment when its labels hold the entry
`environment` with that value. When the declared clusters have pairwise distinct names and
the worktree answers every `Stat` of a manifest folder of a cluster labelled with the target
environment with success or with `os.ErrNotExist`, `Detect` returns the declared list as
`All`, as `New` the clusters labelled with the target environment whose manifest folder does
not exist, as `Existing` the other clusters labelled with the target environment, both in
declaration order, and as `PreviousEnv` the clusters labelled `test` for the target
`production`, those labelled `development` for the target `test`, those labelled `manifests`
for the target `development`, and none for any other target, which has no source. -/
theorem detect_new_existing_previous (c : ClusterInspecter) (all : Clusters) (targetEnv : Env)
    (hnames : (all.map Cluster.Name).Nodup)
    (hwt : c.Worktree = .ok ())
    (hstat : ∀ cluster ∈ all, ("environment", targetEnv) ∈ cluster.Metadata.Labels.entries →
      ∀ msg, c.Stat cluster.ManifestFolder ≠ .error (.other msg)) :
    c.Detect all targetEnv = .ok
      { All := all
        New := all.filter (fun cluster =>
          decide (("environment", targetEnv) ∈ cluster.Metadata.Labels.entries) &&
          decide (c.Stat cluster.ManifestFolder = .error .errNotExist))
        Existing := all.filter (fun cluster =>
          decide (("environment", targetEnv) ∈ cluster.Metadata.Labels.entries) &&
          !decide (c.Stat cluster.ManifestFolder = .error .errNotExist))
        PreviousEnv :=
          if targetEnv = "production" then
            all.filter (fun cluster =>
              decide (("environment", "test") ∈ cluster.Metadata.Labels.entries))
          else if targetEnv = "test" then
            all.filter (fun cluster =>
              decide (("environment", "development") ∈ cluster.Metadata.Labels.entries))
          else if targetEnv = "development" then
            all.filter (fun cluster =>
              decide (("environment", "manifests") ∈ cluster.Metadata.Labels.entries))
          else [] } := by
  have hfun : ∀ env : Env, ByEnvironment env =
      fun cluster => decide (("environment", env) ∈ cluster.Metadata.Labels.entries) :=
    fun env => funext (byEnvironment_eq env)
  have h := detect_filters c all targetEnv hnames hwt
    (fun cluster hc henv => hstat cluster hc (by simpa [byEnvironment_eq] using henv))
  rw [h]
  simp only [byEnvironment_eq]
  congr 2
  unfold ManifestSource
  by_cases h1 : targetEnv = "production"
  · rw [if_pos h1, if_pos (show targetEnv = Production from h1)]
    show List.filter (ByEnvironment Test) all = _
    rw [hfun]
    rfl
  · rw [if_neg h1, if_neg (show ¬ targetEnv = Production from h1)]
    by_cases h2 : targetEnv = "test"
    · rw [if_pos h2, if_pos (show targetEnv = Test from h2)]
      show List.filter (ByEnvironment Development) all = _
      rw [hfun]
      rfl
    · rw [if_neg h2, if_neg (show ¬ targetEnv = Test from h2)]
      by_cases h3 : targetEnv = "development"
      · rw [if_pos h3, if_pos (show targetEnv = Development from h3)]
        show List.filter (ByEnvironment SourceManifest) all = _
        rw [hfun]
        rfl
      · rw [if_neg h3, if_neg (show ¬ targetEnv = Development from h3)]

/-- C11 on the mixed example clusters with the target `test`: `test2` is new, `test1`
exists, and the previous environment holds the two development clusters. -/
theorem detect_new_existing_previous_witness :
    exampleMixedInspecter.Detect exampleMixedClusters "test" = .ok
      { All := exampleMixedClusters
        New := [exampleCluster "test" "test2" "cloud1"]
        Existing := [exampleCluster "test" "test1" "cloud1"]
        PreviousEnv := [exampleCluster "development" "dev4" "cloud2",
          exampleCluster "development" "dev2" "cloud1"] } := by
  have h := detect_new_existing_previous exampleMixedInspecter exampleMixedClusters "test"
    (by decide) rfl
    (by
      intro cluster _ _ msg
      unfold exampleMixedInspecter
      dsimp only
      split_ifs <;> simp)
  rw [h]
  rfl

end clusterconf

/-! ## `sort.Strings` and the names of a result -/

theorem sortStrings_perm (x : List String) : (sortStrings x).Perm x :=
  List.perm_insertionSort _ x

theorem sortStrings_sorted (x : List String) : (sortStrings x).Sorted (fun a b => a ≤ b) := by
  haveI : IsTotal String (fun a b => a.toList ≤ b.toList) := ⟨fun a b => le_total a.toList b.toList⟩
  haveI : IsTrans String (fun a b => a.toList ≤ b.toList) :=
    ⟨fun a b c hab hbc => le_trans hab hbc⟩
  have h := List.sorted_insertionSort (fun a b : String => a.toList ≤ b.toList) x
  exact List.Pairwise.imp (fun hab => String.le_iff_toList_le.2 hab) h

theorem sortStrings_mem (x : List String) (a : String) : a ∈ sortStrings x ↔ a ∈ x :=
  (sortStrings_perm x).mem_iff

theorem sortStrings_length (x : List String) : (sortStrings x).length = x.length :=
  (sortStrings_perm x).length_eq

theorem sortStrings_sorted_lt (x : List String) (h : x.Nodup) :
    (sortStrings x).Sorted (fun a b => a < b) :=
  (sortStrings_sorted x).lt_of_le ((sortStrings_perm x).nodup_iff.2 h)

/-- The result of `sort.Strings` depends only on the elements, not on their order. -/
theorem sortStrings_eq_of_perm {x y : List String} (h : x.Perm y) :
    sortStrings x = sortStrings y :=
  List.eq_of_perm_of_sorted (((sortStrings_perm x).trans h).trans (sortStrings_perm y).symm)
    (sortStrings_sorted x) (sortStrings_sorted y)

theorem GoMap.keys_set_nodup {β : Type} (m : GoMap β) (k : String) (v : β)
    (h : (m.map Prod.fst).Nodup) : ((GoMap.set m k v).map Prod.fst).Nodup := by
  rw [GoMap.keys_set]
  split
  · exact h
  · rename_i hk
    exact List.Nodup.append h (List.nodup_singleton k) (by simpa using hk)

theorem GoMap.mem_keys_set {β : Type} (m : GoMap β) (k : String) (v : β) (n : String) :
    n ∈ (GoMap.set m k v).map Prod.fst ↔ n ∈ m.map Prod.fst ∨ n = k := by
  rw [GoMap.keys_set]
  split
  · rename_i hk
    constructor
    · exact Or.inl
    · rintro (h | h)
      · exact h
      · rw [h]; exact hk
  · simp

namespace promotion

theorem namesInnerLoop_keys (changes : GoMap detect.WorkloadChange) (namesMap : GoMap Bool)
    (h : (namesMap.map Prod.fst).Nodup) :
    ((namesInnerLoop namesMap changes).map Prod.fst).Nodup ∧
      ∀ n, n ∈ (namesInnerLoop namesMap changes).map Prod.fst ↔
        n ∈ namesMap.map Prod.fst ∨ ∃ key w, (key, w) ∈ changes ∧ w.W.Name = n := by
  induction changes generalizing namesMap with
  | nil => simp [namesInnerLoop, h]
  | cons kw rest ih =>
    obtain ⟨key, w⟩ := kw
    obtain ⟨h1, h2⟩ := ih (GoMap.set namesMap w.W.Name true) (GoMap.keys_set_nodup _ _ _ h)
    refine ⟨h1, fun n => ?_⟩
    simp only [namesInnerLoop]
    rw [h2 n, GoMap.mem_keys_set]
    constructor
    · rintro ((hn | hn) | ⟨key₂, w₂, hmem, hname⟩)
      · exact Or.inl hn
      · exact Or.inr ⟨key, w, List.mem_cons_self _ _, hn.symm⟩
      · exact Or.inr ⟨key₂, w₂, List.mem_cons_of_mem _ hmem, hname⟩
    · rintro (hn | ⟨key₂, w₂, hmem, hname⟩)
      · exact Or.inl (Or.inl hn)
      · rcases List.mem_cons.1 hmem with heq | hmem
        · cases heq
          exact Or.inl (Or.inr hname.symm)
        · exact Or.inr ⟨key₂, w₂, hmem, hname⟩

theorem namesOuterLoop_keys (promotions : Results) (namesMap : GoMap Bool)
    (h : (namesMap.map Prod.fst).Nodup) :
    ((namesOuterLoop namesMap promotions).map Prod.fst).Nodup ∧
      ∀ n, n ∈ (namesOuterLoop namesMap promotions).map Prod.fst ↔
        n ∈ namesMap.map Prod.fst ∨
          ∃ cluster changes key w,
            (cluster, changes) ∈ promotions ∧ (key, w) ∈ changes ∧ w.W.Name = n := by
  induction promotions generalizing namesMap with
  | nil => simp [namesOuterLoop, h]
  | cons cc rest ih =>
    obtain ⟨cluster, changes⟩ := cc
    obtain ⟨hi1, hi2⟩ := namesInnerLoop_keys changes namesMap h
    obtain ⟨h1, h2⟩ := ih (namesInnerLoop namesMap changes) hi1
    refine ⟨h1, fun n => ?_⟩
    simp only [namesOuterLoop]
    rw [h2 n, hi2 n]
    constructor
    · rintro ((hn | ⟨key, w, hmem, hname⟩) | ⟨cluster₂, changes₂, key, w, hc, hmem, hname⟩)
      · exact Or.inl hn
      · exact Or.inr ⟨cluster, changes, key, w, List.mem_cons_self _ _, hmem, hname⟩
      · exact Or.inr ⟨cluster₂, changes₂, key, w, List.mem_cons_of_mem _ hc, hmem, hname⟩
    · rintro (hn | ⟨cluster₂, changes₂, key, w, hc, hmem, hname⟩)
      · exact Or.inl (Or.inl hn)
      · rcases List.mem_cons.1 hc with heq | hc
        · cases heq
          exact Or.inl (Or.inr ⟨key, w, hmem, hname⟩)
        · exact Or.inr ⟨cluster₂, changes₂, key, w, hc, hmem, hname⟩

/-- The workload names of a result are strictly ascending. -/
theorem workloadNames_sorted (promotions : Results) :
    promotions.WorkloadNames.Sorted (fun a b => a < b) :=
  sortStrings_sorted_lt _ (namesOuterLoop_keys promotions [] List.nodup_nil).1

/-- The workload names of a result are the `W.Name` of its stored changes. -/
theorem mem_workloadNames (promotions : Results) (n : String) :
    n ∈ promotions.WorkloadNames ↔
      ∃ cluster changes key w,
        (cluster, changes) ∈ promotions ∧ (key, w) ∈ changes ∧ w.W.Name = n := by
  unfold Results.WorkloadNames
  rw [sortStrings_mem, (namesOuterLoop_keys promotions [] List.nodup_nil).2 n]
  simp

theorem clusterNames_sorted (promotions : Results) :
    promotions.ClusterNames.Sorted (fun a b => a ≤ b) :=
  sortStrings_sorted _

theorem clusterNames_perm (promotions : Results) :
    promotions.ClusterNames.Perm (promotions.map Prod.fst) :=
  sortStrings_perm _

end promotion

namespace promoter

open promotion

/-! ## Title and commit message of a promotion pull request -/

theorem commitMessage_step (commitMsg h a c : String) :
    commitMsg ++ "\nSource-commit: " ++ h ++ " A:" ++ a ++ " C:" ++ c =
      commitMsg ++ "\n" ++ ("Source-commit: " ++ h ++ " A:" ++ a ++ " C:" ++ c) := by
  apply String.ext
  simp [String.data_append]

theorem commitMessageLoop_eq (cs : List github.Commit) (msg : String) (c : github.Commit) :
    commitMessageLoop
        (msg ++ "\n" ++
          ("Source-commit: " ++ c.Hash ++ " A:" ++ c.AuthorLogin ++ " C:" ++ c.CommitterLogin)) cs =
      msg ++ "\n" ++
        stringsJoin ((c :: cs).map (fun c =>
          "Source-commit: " ++ c.Hash ++ " A:" ++ c.AuthorLogin ++ " C:" ++ c.CommitterLogin))
          "\n" := by
  induction cs generalizing msg c with
  | nil => simp [commitMessageLoop, stringsJoin]
  | cons d ds ih =>
    simp only [commitMessageLoop]
    rw [commitMessage_step, ih]
    simp only [List.map_cons, stringsJoin, String.append_assoc]

/-- C19: the title that `Build` sets is `Promote <workload names> to <env>`, where the
workload names are the `W.Name` of the stored changes, each once, in strictly ascending order
and joined by `, `; for the development environment that is the whole title, whatever the
kind, and for every other environment ` (<cluster names>)` follows, the cluster names being
the keys of the result in ascending order joined by `, `. -/
theorem build_title (p : PullRequestBuilder) (promotions : Results)
    (commits : List github.Commit) (kind : Kind) :
    (p.Build promotions commits kind).Title =
        (if p.env = environment.Development then
          "Promote " ++ stringsJoin promotions.WorkloadNames ", " ++ " to " ++ p.env
        else
          "Promote " ++ stringsJoin promotions.WorkloadNames ", " ++ " to " ++ p.env ++
            (" (" ++ stringsJoin promotions.ClusterNames ", " ++ ")")) ∧
      promotions.WorkloadNames.Sorted (fun a b => a < b) ∧
      (∀ n, n ∈ promotions.WorkloadNames ↔
        ∃ cluster changes key w,
          (cluster, changes) ∈ promotions ∧ (key, w) ∈ changes ∧ w.W.Name = n) ∧
      promotions.ClusterNames.Sorted (fun a b => a ≤ b) ∧
      promotions.ClusterNames.Perm (promotions.map Prod.fst) := by
  refine ⟨?_, workloadNames_sorted promotions, mem_workloadNames promotions,
    clusterNames_sorted promotions, clusterNames_perm promotions⟩
  simp only [PullRequestBuilder.Build, PullRequestBuilder.buildTitle]
  by_cases h : p.env = environment.Development <;> simp [h]

/-- C18, counterexample: for an empty list of source commits the commit message is the title
alone; no line break and so no blank line follows the title. -/
theorem build_commitMessage_no_commits :
    (exampleBuilder.Build exampleResults [] ManifestUpdate).CommitMessage =
        "Promote bar, foo to test (test1-cloud1, test2-cloud1)" ∧
      (exampleBuilder.Build exampleResults [] ManifestUpdate).Title =
        "Promote bar, foo to test (test1-cloud1, test2-cloud1)" ∧
      (exampleBuilder.Build exampleResults [] ManifestUpdate).CommitMessage ≠
        stringsJoin
          [(exampleBuilder.Build exampleResults [] ManifestUpdate).Title, ""] "\n" := by
  decide

/-- C18, amended: for a non-empty list of source commits the commit message that `Build` sets
consists of the title, an empty line and one line
`Source-commit: <hash> A:<authorLogin> C:<committerLogin>` per source commit in list order,
the lines joined by `\n` without a trailing newline; for the empty list it is the title. -/
theorem build_commitMessage (p : PullRequestBuilder) (promotions : Results)
    (commits : List github.Commit) (kind : Kind) :
    (p.Build promotions commits kind).CommitMessage =
      if commits = [] then (p.Build promotions commits kind).Title
      else
        stringsJoin
          ((p.Build promotions commits kind).Title :: "" ::
            commits.map (fun c =>
              "Source-commit: " ++ c.Hash ++ " A:" ++ c.AuthorLogin ++ " C:" ++ c.CommitterLogin))
          "\n" := by
  cases commits with
  | nil => simp [PullRequestBuilder.Build, PullRequestBuilder.buildCommitMessage]
  | cons c cs =>
    simp only [PullRequestBuilder.Build, PullRequestBuilder.buildCommitMessage, List.length_cons,
      gt_iff_lt, Nat.zero_lt_succ, if_true, commitMessageLoop, reduceCtorEq, if_false]
    rw [commitMessage_step, commitMessageLoop_eq]
    simp only [List.map_cons, stringsJoin, String.append_assoc, String.empty_append]

theorem build_commitMessage_witness :
    (exampleBuilder.Build exampleResults exampleCommits ManifestUpdate).CommitMessage =
      "Promote bar, foo to test (test1-cloud1, test2-cloud1)\n\n" ++
      "Source-commit: 30691ee A:user1 C:user2\nSource-commit: d535711 A:user1 C:web-flow" := by
  rw [build_commitMessage]
  decide

end promoter

namespace promoter

open promotion

/-! ## The table of promoted workloads per cluster -/

theorem headersLoop_eq (names headers divider : List String) :
    headersLoop headers divider names =
      (headers ++ names, divider ++ List.replicate names.length "-") := by
  induction names generalizing headers divider with
  | nil => simp [headersLoop]
  | cons name rest ih =>
    simp only [headersLoop, ih, List.append_assoc, List.singleton_append, List.length_cons,
      List.replicate_succ]

theorem rowLoop_eq (promotions : Results) (clusterName : String) (names row : List String) :
    rowLoop promotions clusterName row names =
      row ++ names.map (fun workloadName =>
        if (promotions.lookup clusterName workloadName).isSome then ":heavy_check_mark:"
        else "-") := by
  induction names generalizing row with
  | nil => simp [rowLoop]
  | cons name rest ih =>
    cases h : promotions.lookup clusterName name <;>
      simp [rowLoop, h, ih]

theorem tableLoop_eq (promotions : Results) (kind : Kind) (clusterNames : List String)
    (table : tableView) :
    tableLoop promotions kind table clusterNames =
      table ++ clusterNames.map (fun clusterName =>
        (if kind = NewCluster then clusterName ++ " (new)" else clusterName) ::
          promotions.WorkloadNames.map (fun workloadName =>
            if (promotions.lookup clusterName workloadName).isSome then ":heavy_check_mark:"
            else "-")) := by
  induction clusterNames generalizing table with
  | nil => simp [tableLoop]
  | cons name rest ih =>
    simp only [tableLoop, ih, rowLoop_eq, List.map_cons, List.append_assoc,
      List.singleton_append]

/-- C20: for an empty result the table is empty; otherwise it consists of the header row
(an empty cell, then the workload names, which are the `W.Name` of the stored changes in
strictly ascending order), a divider row of `-` cells and one row per cluster name (the keys
of the result in ascending order), which starts with the cluster name, followed by ` (new)`
exactly when the kind is `NewCluster`, and holds for each workload name `:heavy_check_mark:`
when `promotions[cluster][workload]` exists and `-` otherwise; the table has two rows more
than the result has clusters and every row has one cell more than there are workload names. -/
theorem buildTableView_rows (promotions : Results) (kind : Kind) :
    buildTableView promotions kind =
        (if promotions = [] then []
        else
          ("" :: promotions.WorkloadNames) ::
          List.replicate (1 + promotions.WorkloadNames.length) "-" ::
          promotions.ClusterNames.map (fun clusterName =>
            (if kind = NewCluster then clusterName ++ " (new)" else clusterName) ::
              promotions.WorkloadNames.map (fun workloadName =>
                if (promotions.lookup clusterName workloadName).isSome then
                  ":heavy_check_mark:"
                else "-"))) ∧
      (buildTableView promotions kind).length =
        (if promotions = [] then 0 else 2 + promotions.length) ∧
      (∀ row ∈ buildTableView promotions kind,
        row.length = 1 + promotions.WorkloadNames.length) ∧
      promotions.WorkloadNames.Sorted (fun a b => a < b) ∧
      (∀ n, n ∈ promotions.WorkloadNames ↔
        ∃ cluster changes key w,
          (cluster, changes) ∈ promotions ∧ (key, w) ∈ changes ∧ w.W.Name = n) ∧
      promotions.ClusterNames.Sorted (fun a b => a ≤ b) ∧
      promotions.ClusterNames.Perm (promotions.map Prod.fst) := by
  have htable : buildTableView promotions kind =
        (if promotions = [] then []
        else
          ("" :: promotions.WorkloadNames) ::
          List.replicate (1 + promotions.WorkloadNames.length) "-" ::
          promotions.ClusterNames.map (fun clusterName =>
            (if kind = NewCluster then clusterName ++ " (new)" else clusterName) ::
              promotions.WorkloadNames.map (fun workloadName =>
                if (promotions.lookup clusterName workloadName).isSome then
                  ":heavy_check_mark:"
                else "-"))) := by
    cases promotions with
    | nil => simp [buildTableView]
    | cons cc rest =>
      simp only [buildTableView, List.length_cons, Nat.succ_ne_zero, if_false, headersLoop_eq,
        tableLoop_eq, reduceCtorEq, List.singleton_append, List.cons_append, List.nil_append,
        Nat.add_comm 1, List.replicate_succ]
  refine ⟨htable, ?_, ?_, workloadNames_sorted promotions, mem_workloadNames promotions,
    clusterNames_sorted promotions, clusterNames_perm promotions⟩
  · rw [htable]
    cases promotions with
    | nil => simp
    | cons cc rest =>
      simp only [reduceCtorEq, if_false, List.length_cons, List.length_map]
      have := (clusterNames_perm (cc :: rest)).length_eq
      simp only [List.length_map, List.length_cons] at this
      omega
  · rw [htable]
    intro row hrow
    cases promotions with
    | nil => simp at hrow
    | cons cc rest =>
      simp only [reduceCtorEq, if_false, List.mem_cons, List.mem_map] at hrow
      rcases hrow with h | h | ⟨clusterName, _, h⟩
      · rw [h]; simp [Nat.add_comm]
      · rw [h]; simp
      · rw [← h]; simp [Nat.add_comm]

end promoter

/-! ## `filepath.Clean` on lists of segments -/

theorem cleanSegments_append (rooted : Bool) (l m : List String) (acc : List String) :
    cleanSegments rooted acc (l ++ m) =
      cleanSegments rooted (cleanSegments rooted acc l).reverse m := by
  induction l generalizing acc with
  | nil => simp [cleanSegments]
  | cons seg rest ih =>
    simp only [List.cons_append]
    by_cases h1 : seg = "" ∨ seg = "."
    · simp only [cleanSegments, h1, if_true]
      exact ih _
    · by_cases h2 : seg = ".."
      · cases acc with
        | nil =>
          cases rooted
          · simp only [cleanSegments, h1, h2, if_true, if_false, Bool.false_eq_true]
            exact ih _
          · simp only [cleanSegments, h1, h2, if_true, if_false]
            exact ih _
        | cons top acc' =>
          by_cases h3 : top = ".."
          · simp only [cleanSegments, h1, h2, h3, if_true, if_false]
            exact ih _
          · simp only [cleanSegments, h1, h2, h3, if_true, if_false]
            exact ih _
      · simp only [cleanSegments, h1, h2, if_false]
        exact ih _

theorem cleanSegments_plain (rooted : Bool) (m : List String)
    (hm : ∀ s ∈ m, s ≠ "" ∧ s ≠ "." ∧ s ≠ "..") (acc : List String) :
    cleanSegments rooted acc m = acc.reverse ++ m := by
  induction m generalizing acc with
  | nil => simp [cleanSegments]
  | cons seg rest ih =>
    obtain ⟨h0, h1, h2⟩ := hm seg (List.mem_cons_self _ _)
    have hrest : ∀ s ∈ rest, s ≠ "" ∧ s ≠ "." ∧ s ≠ ".." :=
      fun s hs => hm s (List.mem_cons_of_mem _ hs)
    simp only [cleanSegments, h0, h1, h2, or_self, if_false]
    rw [ih hrest]
    simp

theorem properSegment_plain {seg : String} (h : properSegment seg) :
    seg ≠ "" ∧ seg ≠ "." ∧ seg ≠ ".." :=
  ⟨h.1, h.2.1, h.2.2.1⟩

theorem cleanSegments_proper (rooted : Bool) (m : List String)
    (hm : ∀ s ∈ m, properSegment s) (acc : List String) :
    cleanSegments rooted acc m = acc.reverse ++ m :=
  cleanSegments_plain rooted m (fun s hs => properSegment_plain (hm s hs)) acc

/-- Cleaning a rooted path keeps only segments of the input that are neither empty nor
`.` nor `..`. -/
theorem cleanSegments_rooted_mem (P : String → Prop) (l : List String) (hl : ∀ s ∈ l, P s)
    (acc : List String) (hacc : ∀ s ∈ acc, P s ∧ s ≠ "" ∧ s ≠ "." ∧ s ≠ "..") :
    ∀ s ∈ cleanSegments true acc l, P s ∧ s ≠ "" ∧ s ≠ "." ∧ s ≠ ".." := by
  induction l generalizing acc with
  | nil => simpa [cleanSegments] using hacc
  | cons seg rest ih =>
    have hrest : ∀ s ∈ rest, P s := fun s hs => hl s (List.mem_cons_of_mem _ hs)
    by_cases h1 : seg = "" ∨ seg = "."
    · simp only [cleanSegments, h1, if_true]
      exact ih hrest acc hacc
    · by_cases h2 : seg = ".."
      · cases acc with
        | nil =>
          simp only [cleanSegments, h1, h2, if_true, if_false]
          exact ih hrest [] hacc
        | cons top acc' =>
          have htop := (hacc top (List.mem_cons_self _ _)).2.2.2
          simp only [cleanSegments, h1, h2, htop, if_true, if_false]
          exact ih hrest acc' (fun s hs => hacc s (List.mem_cons_of_mem _ hs))
      · simp only [cleanSegments, h1, h2, if_false]
        refine ih hrest (seg :: acc) ?_
        intro s hs
        rcases List.mem_cons.1 hs with h | h
        · subst h
          exact ⟨hl s (List.mem_cons_self _ _), fun h => h1 (Or.inl h), fun h => h1 (Or.inr h), h2⟩
        · exact hacc s h

/-- Cleaning a relative path gives some leading `..` segments followed by what cleaning the
same segments as a rooted path gives. -/
theorem cleanSegments_relative (l : List String) (acc : List String)
    (hacc : ∀ s ∈ acc, s ≠ "..") (k : Nat) :
    ∃ k₂, cleanSegments false (acc ++ List.replicate k "..") l =
      List.replicate k₂ ".." ++ cleanSegments true acc l := by
  induction l generalizing acc k with
  | nil =>
    exact ⟨k, by simp [cleanSegments]⟩
  | cons seg rest ih =>
    by_cases h1 : seg = "" ∨ seg = "."
    · simp only [cleanSegments, h1, if_true]
      exact ih acc hacc k
    · by_cases h2 : seg = ".."
      · cases acc with
        | nil =>
          cases k with
          | zero =>
            simp only [cleanSegments, h1, h2, if_true, if_false, List.replicate_zero,
              List.append_nil, Bool.false_eq_true]
            exact ih [] hacc 1
          | succ k =>
            simp only [cleanSegments, h1, h2, if_true, if_false, List.replicate_succ,
              List.nil_append]
            have := ih [] hacc (k + 2)
            simpa [List.replicate_succ] using this
        | cons top acc' =>
          have htop := hacc top (List.mem_cons_self _ _)
          simp only [cleanSegments, h1, h2, htop, if_true, if_false, List.cons_append]
          exact ih acc' (fun s hs => hacc s (List.mem_cons_of_mem _ hs)) k
      · simp only [cleanSegments, h1, h2, if_false]
        have := ih (seg :: acc) (by
          intro s hs
          rcases List.mem_cons.1 hs with h | h
          · rw [h]; exact h2
          · exact hacc s h) k
        simpa using this

theorem cleanSegments_rooted_dotdot (k : Nat) (l : List String) :
    cleanSegments true [] (List.replicate k ".." ++ l) = cleanSegments true [] l := by
  induction k with
  | zero => simp
  | succ k ih =>
    have h1 : ¬ ((".." : String) = "" ∨ (".." : String) = ".") := by decide
    simp only [List.replicate_succ, List.cons_append, cleanSegments, h1, if_true, if_false]
    exact ih

/-- Cleaning a path that is already clean, as a rooted path, gives the segments that
cleaning the original path as a rooted path gives. -/
theorem cleanSegments_rooted_idem (rooted : Bool) (l : List String) :
    cleanSegments true [] (cleanSegments rooted [] l) = cleanSegments true [] l := by
  have hplain : ∀ s ∈ cleanSegments true [] l, s ≠ "" ∧ s ≠ "." ∧ s ≠ ".." := fun s hs =>
    (cleanSegments_rooted_mem (fun _ => True) l (fun _ _ => trivial) [] (by simp) s hs).2
  cases rooted with
  | true => rw [cleanSegments_plain true _ hplain]; simp
  | false =>
    obtain ⟨k₂, hk⟩ := cleanSegments_relative l [] (by simp) 0
    simp only [List.replicate_zero, List.append_nil] at hk
    rw [hk, cleanSegments_rooted_dotdot, cleanSegments_plain true _ hplain]
    simp

/-! ## `strings.Split` and `strings.Join` with the separator `/` -/

theorem toList_append (a b : String) : (a ++ b).toList = a.toList ++ b.toList :=
  String.data_append a b

theorem splitOn_append_slash (l₁ l₂ : List Char) :
    (l₁ ++ '/' :: l₂).splitOn '/' = l₁.splitOn '/' ++ l₂.splitOn '/' := by
  induction l₁ with
  | nil =>
    rw [List.nil_append, splitOn_cons_if, if_pos rfl]
    rfl
  | cons c l ih =>
    rw [List.cons_append, splitOn_cons_if, splitOn_cons_if, ih]
    by_cases hc : c = '/'
    · simp [hc]
    · simp only [hc, if_false]
      cases hs : l.splitOn '/' with
      | nil => exact absurd hs (splitOn_ne_nil l)
      | cons a rest => rfl

theorem splitSlash_append_slash (a b : String) :
    splitSlash (a ++ "/" ++ b) = splitSlash a ++ splitSlash b := by
  have h : (a ++ "/" ++ b).toList = a.toList ++ '/' :: b.toList := by
    rw [toList_append, toList_append]
    simp [String.toList]
  rw [splitSlash_eq, h, splitOn_append_slash, List.map_append]
  rfl

theorem splitSlash_of_no_slash (a : String) (h : '/' ∉ a.toList) : splitSlash a = [a] := by
  rw [splitSlash_eq, splitOn_of_no_slash _ h]
  rfl

theorem splitSlash_no_slash (s : String) : ∀ seg ∈ splitSlash s, '/' ∉ seg.toList := by
  intro seg hseg
  rw [splitSlash_eq] at hseg
  obtain ⟨l, hl, rfl⟩ := List.mem_map.1 hseg
  exact not_mem_of_mem_splitOn _ l hl

theorem splitSlash_joinSlash (segs : List String) (hne : segs ≠ [])
    (hs : ∀ seg ∈ segs, '/' ∉ seg.toList) : splitSlash (joinSlash segs) = segs := by
  induction segs with
  | nil => exact absurd rfl hne
  | cons a rest ih =>
    cases rest with
    | nil => exact splitSlash_of_no_slash a (hs a (List.mem_cons_self _ _))
    | cons b rest =>
      show splitSlash (a ++ "/" ++ joinSlash (b :: rest)) = _
      rw [splitSlash_append_slash, splitSlash_of_no_slash a (hs a (List.mem_cons_self _ _)),
        ih (by simp) (fun seg hseg => hs seg (List.mem_cons_of_mem _ hseg))]
      rfl

theorem joinSlash_append_single (segs : List String) (hne : segs ≠ []) (last : String) :
    joinSlash (segs ++ [last]) = joinSlash segs ++ "/" ++ last := by
  induction segs with
  | nil => exact absurd rfl hne
  | cons a rest ih =>
    cases rest with
    | nil => rfl
    | cons b rest =>
      show a ++ "/" ++ joinSlash ((b :: rest) ++ [last]) = a ++ "/" ++ joinSlash (b :: rest) ++ "/" ++ last
      rw [ih (by simp)]
      simp only [String.append_assoc]

theorem joinSlash_append (segs rel : List String) (hs : segs ≠ []) (hr : rel ≠ []) :
    joinSlash (segs ++ rel) = joinSlash segs ++ "/" ++ joinSlash rel := by
  induction segs with
  | nil => exact absurd rfl hs
  | cons a rest ih =>
    cases rest with
    | nil =>
      cases rel with
      | nil => exact absurd rfl hr
      | cons r rel => rfl
    | cons b rest =>
      show a ++ "/" ++ joinSlash ((b :: rest) ++ rel) = a ++ "/" ++ joinSlash (b :: rest) ++ "/" ++ joinSlash rel
      rw [ih (by simp)]
      simp only [String.append_assoc]

theorem joinSlash_ne_empty (segs : List String) (hne : segs ≠ [])
    (hs : ∀ seg ∈ segs, seg ≠ "") : joinSlash segs ≠ "" := by
  cases segs with
  | nil => exact absurd rfl hne
  | cons a rest =>
    have ha : a.toList ≠ [] := fun h => hs a (List.mem_cons_self _ _) (String.ext h)
    cases rest with
    | nil => exact hs a (List.mem_cons_self _ _)
    | cons b rest =>
      intro h
      have h2 := congrArg String.toList h
      rw [show joinSlash (a :: b :: rest) = a ++ "/" ++ joinSlash (b :: rest) from rfl,
        toList_append, toList_append] at h2
      simp [String.toList] at h2

theorem hasPrefix_slash_append (s : String) : hasPrefix ("/" ++ s) "/" = true :=
  (hasPrefix_iff _ _).2 ⟨s.toList, toList_append _ _⟩

/-- A string that starts with a segment without a slash, and is not empty, does not start
with a slash. -/
theorem hasPrefix_slash_joinSlash (segs : List String)
    (hs : ∀ seg ∈ segs, seg ≠ "" ∧ '/' ∉ seg.toList) : hasPrefix (joinSlash segs) "/" = false := by
  cases h : hasPrefix (joinSlash segs) "/" with
  | false => rfl
  | true =>
    exfalso
    obtain ⟨t, ht⟩ := (hasPrefix_iff _ _).1 h
    cases segs with
    | nil => simp [joinSlash, String.toList] at ht
    | cons a rest =>
      obtain ⟨ha0, ha⟩ := hs a (List.mem_cons_self _ _)
      have hhead : ∃ u, (joinSlash (a :: rest)).toList = a.toList ++ u := by
        cases rest with
        | nil => exact ⟨[], by simp [joinSlash]⟩
        | cons b rest =>
          exact ⟨("/" ++ joinSlash (b :: rest)).toList, by
            rw [show joinSlash (a :: b :: rest) = a ++ "/" ++ joinSlash (b :: rest) from rfl,
              String.append_assoc, toList_append]⟩
      obtain ⟨u, hu⟩ := hhead
      rw [hu] at ht
      cases hal : a.toList with
      | nil => exact ha0 (String.ext hal)
      | cons c cs =>
        rw [hal] at ht ha
        simp [String.toList] at ht
        exact ha (by rw [ht.1]; exact List.mem_cons_self _ _)

/-! ## `filepath.Clean`, `filepath.Join` and `filepath.Dir` under `resolve` -/

theorem cleanSegments_mem (rooted : Bool) (l : List String) (acc : List String) :
    ∀ s ∈ cleanSegments rooted acc l, s ∈ acc ∨ (s ∈ l ∧ s ≠ "" ∧ s ≠ ".") := by
  induction l generalizing acc with
  | nil => intro s hs; left; simpa [cleanSegments] using hs
  | cons seg rest ih =>
    have hstep : ∀ acc₂ : List String, (∀ s ∈ acc₂, s ∈ acc ∨ (s = seg ∧ s ≠ "" ∧ s ≠ ".")) →
        ∀ s ∈ cleanSegments rooted acc₂ rest,
          s ∈ acc ∨ (s ∈ seg :: rest ∧ s ≠ "" ∧ s ≠ ".") := by
      intro acc₂ h₂ s hs
      rcases ih acc₂ s hs with h | ⟨h, hne⟩
      · rcases h₂ s h with h | ⟨h, hne⟩
        · exact Or.inl h
        · exact Or.inr ⟨by rw [h]; exact List.mem_cons_self _ _, hne⟩
      · exact Or.inr ⟨List.mem_cons_of_mem _ h, hne⟩
    by_cases h1 : seg = "" ∨ seg = "."
    · simp only [cleanSegments, h1, if_true]
      exact hstep acc (fun s hs => Or.inl hs)
    · have h1' : seg ≠ "" ∧ seg ≠ "." := ⟨fun h => h1 (Or.inl h), fun h => h1 (Or.inr h)⟩
      by_cases h2 : seg = ".."
      · have hd : ¬ ((".." : String) = "" ∨ (".." : String) = ".") := by decide
        subst h2
        cases acc with
        | nil =>
          cases rooted
          · simp only [cleanSegments, hd, if_true, if_false, Bool.false_eq_true]
            refine hstep [".."] ?_
            intro s hs
            right
            rw [List.mem_singleton] at hs
            rw [hs]
            exact ⟨rfl, by decide, by decide⟩
          · simp only [cleanSegments, hd, if_true, if_false]
            exact hstep [] (by simp)
        | cons top acc' =>
          by_cases h3 : top = ".."
          · subst h3
            simp only [cleanSegments, hd, if_true, if_false]
            refine hstep (".." :: ".." :: acc') ?_
            intro s hs
            rcases List.mem_cons.1 hs with h | h
            · right
              rw [h]
              exact ⟨rfl, by decide, by decide⟩
            · left; exact h
          · simp only [cleanSegments, hd, h3, if_true, if_false]
            exact hstep acc' (fun s hs => Or.inl (List.mem_cons_of_mem _ hs))
      · simp only [cleanSegments, h1, h2, if_false]
        refine hstep (seg :: acc) ?_
        intro s hs
        rcases List.mem_cons.1 hs with h | h
        · exact Or.inr ⟨h, by rw [h]; exact h1'.1, by rw [h]; exact h1'.2⟩
        · exact Or.inl h

theorem slash_append_ne_empty (s : String) : "/" ++ s ≠ "" := by
  intro h
  have := congrArg String.toList h
  rw [toList_append] at this
  simp [String.toList] at this

theorem hasPrefix_empty_slash : hasPrefix "" "/" = false := by decide

theorem filepathClean_rooted (X : String) (h : hasPrefix X "/" = true) :
    filepathClean X = "/" ++ joinSlash (cleanSegments true [] (splitSlash X)) := by
  have hne : X ≠ "" := by
    intro h0
    rw [h0, hasPrefix_empty_slash] at h
    cases h
  simp only [filepathClean, hne, h, if_true, if_false, slash_append_ne_empty]

theorem filepathClean_unrooted (X : String) (hne : X ≠ "") (h : hasPrefix X "/" = false) :
    filepathClean X =
      if cleanSegments false [] (splitSlash X) = [] then "."
      else joinSlash (cleanSegments false [] (splitSlash X)) := by
  simp only [filepathClean, hne, h, if_false, Bool.false_eq_true, String.empty_append]
  by_cases hcs : cleanSegments false [] (splitSlash X) = []
  · simp [hcs, joinSlash]
  · have : joinSlash (cleanSegments false [] (splitSlash X)) ≠ "" :=
      joinSlash_ne_empty _ hcs (fun seg hseg => by
        rcases cleanSegments_mem false _ [] seg hseg with h | h
        · simp at h
        · exact h.2.1)
    simp only [this, hcs, if_false]

theorem cleanSegments_no_slash (rooted : Bool) (X : String) :
    ∀ seg ∈ cleanSegments rooted [] (splitSlash X), '/' ∉ seg.toList := by
  intro seg hseg
  rcases cleanSegments_mem rooted _ [] seg hseg with h | h
  · simp at h
  · exact splitSlash_no_slash X seg h.1

/-- Every segment of a resolved path names a directory entry. -/
theorem resolve_proper (path : String) : ∀ seg ∈ billy.resolve path, properSegment seg := by
  intro seg hseg
  have h := cleanSegments_rooted_mem (fun s => '/' ∉ s.toList) (splitSlash path)
    (splitSlash_no_slash path) [] (by simp) seg hseg
  exact ⟨h.2.1, h.2.2.1, h.2.2.2, h.1⟩

theorem resolve_slash_append (s : String) : billy.resolve ("/" ++ s) = billy.resolve s := by
  have h : "/" ++ s = "" ++ "/" ++ s := by rw [String.empty_append]
  unfold billy.resolve
  rw [h, splitSlash_append_slash]
  have h1 : splitSlash "" = [""] := by decide
  rw [h1]
  simp [cleanSegments]

theorem resolve_joinSlash (segs : List String) (hs : ∀ seg ∈ segs, '/' ∉ seg.toList) :
    billy.resolve (joinSlash segs) = cleanSegments true [] segs := by
  cases segs with
  | nil => decide
  | cons a rest =>
    unfold billy.resolve
    rw [splitSlash_joinSlash _ (by simp) hs]

/-- Cleaning a path does not change the entry it denotes. -/
theorem resolve_clean (X : String) : billy.resolve (filepathClean X) = billy.resolve X := by
  by_cases h0 : X = ""
  · rw [h0]; decide
  · cases hr : hasPrefix X "/" with
    | true =>
      rw [filepathClean_rooted X hr, resolve_slash_append,
        resolve_joinSlash _ (cleanSegments_no_slash true X)]
      exact cleanSegments_rooted_idem true _
    | false =>
      rw [filepathClean_unrooted X h0 hr]
      by_cases hcs : cleanSegments false [] (splitSlash X) = []
      · rw [if_pos hcs]
        have := cleanSegments_rooted_idem false (splitSlash X)
        rw [hcs] at this
        unfold billy.resolve
        rw [← this]
        decide
      · rw [if_neg hcs, resolve_joinSlash _ (cleanSegments_no_slash false X)]
        exact cleanSegments_rooted_idem false _

/-- The entry that `filepath.Join(A, B)` denotes: the segments of `B` applied to the entry
of `A`. -/
theorem resolve_join (A B : String) :
    billy.resolve (filepathJoin [A, B]) =
      cleanSegments true (billy.resolve A).reverse (splitSlash B) := by
  by_cases hA : A = ""
  · subst hA
    have h1 : billy.resolve "" = [] := by decide
    rw [h1]
    by_cases hB : B = ""
    · subst hB; decide
    · have : filepathJoin ["", B] = filepathClean B := by
        simp [filepathJoin, hB, joinSlash]
      rw [this, resolve_clean]
      rfl
  · have : filepathJoin [A, B] = filepathClean (A ++ "/" ++ B) := by
      simp [filepathJoin, hA, joinSlash]
    rw [this, resolve_clean]
    unfold billy.resolve
    rw [splitSlash_append_slash, cleanSegments_append]

theorem resolve_join_name (A name : String) (h : properSegment name) :
    billy.resolve (filepathJoin [A, name]) = billy.resolve A ++ [name] := by
  rw [resolve_join, splitSlash_of_no_slash name h.2.2.2,
    cleanSegments_proper true [name] (by simpa using h)]
  simp

theorem resolve_join_rel (T : String) (rel : List String) (hne : rel ≠ [])
    (hrel : ∀ seg ∈ rel, properSegment seg) :
    billy.resolve (filepathJoin [T, joinSlash rel]) = billy.resolve T ++ rel ∧
      billy.resolve (filepathJoin [T, "/" ++ joinSlash rel]) = billy.resolve T ++ rel := by
  have hs : ∀ seg ∈ rel, '/' ∉ seg.toList := fun seg hseg => (hrel seg hseg).2.2.2
  constructor
  · rw [resolve_join, splitSlash_joinSlash rel hne hs, cleanSegments_proper true rel hrel]
    simp
  · have h : "/" ++ joinSlash rel = "" ++ "/" ++ joinSlash rel := by rw [String.empty_append]
    have h1 : splitSlash "" = [""] := by decide
    rw [resolve_join, h, splitSlash_append_slash, splitSlash_joinSlash rel hne hs, h1,
      show [""] ++ rel = "" :: rel from rfl]
    simp only [cleanSegments, true_or, if_true]
    rw [cleanSegments_proper true rel hrel]
    simp

theorem walkPath_append (base : String) (rel : List String) (name : String) :
    walkPath base (rel ++ [name]) = filepathJoin [walkPath base rel, name] := by
  simp [walkPath, List.foldl_append]

theorem resolve_walkPath (base : String) (rel : List String)
    (hrel : ∀ seg ∈ rel, properSegment seg) :
    billy.resolve (walkPath base rel) = billy.resolve base ++ rel := by
  induction rel generalizing base with
  | nil => simp [walkPath]
  | cons name rest ih =>
    have h := ih (filepathJoin [base, name]) (fun seg hseg => hrel seg (List.mem_cons_of_mem _ hseg))
    simp only [walkPath, List.foldl_cons] at h ⊢
    rw [h, resolve_join_name base name (hrel name (List.mem_cons_self _ _))]
    simp

theorem dropWhile_append_cons {p : Char → Bool} (a : List Char) (b : Char) (rest : List Char)
    (ha : ∀ c ∈ a, p c = true) (hb : p b = false) :
    (a ++ b :: rest).dropWhile p = b :: rest := by
  induction a with
  | nil => simp [List.dropWhile, hb]
  | cons c a ih =>
    have hc := ha c (List.mem_cons_self _ _)
    simp only [List.cons_append, List.dropWhile, hc]
    exact ih (fun x hx => ha x (List.mem_cons_of_mem _ hx))

theorem filepathDir_append (Q last : String) (h : '/' ∉ last.toList) :
    filepathDir (Q ++ "/" ++ last) = filepathClean (Q ++ "/") := by
  have h1 : (Q ++ "/" ++ last).toList = Q.toList ++ '/' :: last.toList := by
    rw [toList_append, toList_append]
    simp [String.toList]
  have h2 : (Q.toList ++ '/' :: last.toList).reverse =
      last.toList.reverse ++ '/' :: Q.toList.reverse := by simp
  have h3 : (last.toList.reverse ++ '/' :: Q.toList.reverse).dropWhile (fun c => c != '/') =
      '/' :: Q.toList.reverse :=
    dropWhile_append_cons _ _ _ (fun c hc => by
      have : c ≠ '/' := fun hc' => h (by rw [← hc']; exact List.mem_reverse.1 hc)
      simpa using this) (by simp)
  unfold filepathDir
  rw [h1, h2, h3]
  congr 1
  apply String.ext
  simp [String.data_append, String.toList]

theorem filepathDir_segment (last : String) (h : '/' ∉ last.toList) : filepathDir last = "." := by
  have h1 : last.toList.reverse.dropWhile (fun c => c != '/') = [] := by
    rw [List.dropWhile_eq_nil_iff]
    intro c hc
    have : c ≠ '/' := fun hc' => h (by rw [← hc']; exact List.mem_reverse.1 hc)
    simpa using this
  unfold filepathDir
  rw [h1]
  decide

/-- A cleaned path whose last segment names a directory entry ends with that segment. -/
theorem filepathClean_last (Y : String) (init : List String) (last : String)
    (hY : splitSlash Y = init ++ [last]) (hlast : properSegment last) :
    filepathClean Y = last ∨ ∃ Q, filepathClean Y = Q ++ "/" ++ last := by
  have hne : Y ≠ "" := by
    intro h0
    rw [h0] at hY
    have h1 : splitSlash "" = [""] := by decide
    rw [h1] at hY
    have := congrArg List.getLast? hY
    simp at this
    exact hlast.1 this.symm
  have hcs : ∀ rooted, cleanSegments rooted [] (splitSlash Y) =
      cleanSegments rooted [] init ++ [last] := by
    intro rooted
    rw [hY, cleanSegments_append, cleanSegments_proper rooted [last] (by simpa using hlast)]
    simp
  cases hr : hasPrefix Y "/" with
  | true =>
    right
    rw [filepathClean_rooted Y hr, hcs]
    by_cases h0 : cleanSegments true [] init = []
    · exact ⟨"", by rw [h0]; simp [joinSlash]⟩
    · exact ⟨"/" ++ joinSlash (cleanSegments true [] init), by
        rw [joinSlash_append_single _ h0]
        simp only [String.append_assoc]⟩
  | false =>
    rw [filepathClean_unrooted Y hne hr, hcs, if_neg (by simp)]
    by_cases h0 : cleanSegments false [] init = []
    · left; rw [h0]; rfl
    · right
      exact ⟨joinSlash (cleanSegments false [] init), joinSlash_append_single _ h0 last⟩

theorem resolve_append_slash (Q : String) : billy.resolve (Q ++ "/") = billy.resolve Q := by
  have h : Q ++ "/" = Q ++ "/" ++ "" := by rw [String.append_empty]
  have h1 : splitSlash "" = [""] := by decide
  unfold billy.resolve
  rw [h, splitSlash_append_slash, h1, cleanSegments_append]
  simp [cleanSegments]

theorem resolve_append_segment (Q last : String) (hlast : properSegment last) :
    billy.resolve (Q ++ "/" ++ last) = billy.resolve Q ++ [last] := by
  unfold billy.resolve
  rw [splitSlash_append_slash, splitSlash_of_no_slash last hlast.2.2.2, cleanSegments_append,
    cleanSegments_proper true [last] (by simpa using hlast)]
  simp

theorem resolve_segment (last : String) (hlast : properSegment last) :
    billy.resolve last = [last] := by
  unfold billy.resolve
  rw [splitSlash_of_no_slash last hlast.2.2.2,
    cleanSegments_proper true [last] (by simpa using hlast)]
  rfl

/-- The directory of a cleaned path whose last segment names a directory entry denotes the
parent of the entry that the path denotes. -/
theorem resolve_dir_clean (Y : String) (init : List String) (last : String)
    (hY : splitSlash Y = init ++ [last]) (hlast : properSegment last) :
    billy.resolve (filepathDir (filepathClean Y)) = (billy.resolve (filepathClean Y)).dropLast := by
  rcases filepathClean_last Y init last hY hlast with h | ⟨Q, h⟩
  · rw [h, filepathDir_segment last hlast.2.2.2, resolve_segment last hlast]
    have : billy.resolve "." = [] := by decide
    rw [this]
    rfl
  · rw [h, filepathDir_append Q last hlast.2.2.2, resolve_clean, resolve_append_slash,
      resolve_append_segment Q last hlast]
    simp

/-- The directory of `filepath.Join(T, R)`, for `R` a relative position written with or
without a leading slash, denotes the parent of the entry at that position below `T`. -/
theorem resolve_dir_join_rel (T R : String) (rel : List String) (hne : rel ≠ [])
    (hrel : ∀ seg ∈ rel, properSegment seg)
    (hR : R = joinSlash rel ∨ R = "/" ++ joinSlash rel) :
    billy.resolve (filepathJoin [T, R]) = billy.resolve T ++ rel ∧
      billy.resolve (filepathDir (filepathJoin [T, R])) = billy.resolve T ++ rel.dropLast := by
  have hs : ∀ seg ∈ rel, '/' ∉ seg.toList := fun seg hseg => (hrel seg hseg).2.2.2
  have hres : billy.resolve (filepathJoin [T, R]) = billy.resolve T ++ rel := by
    rcases hR with h | h
    · rw [h]; exact (resolve_join_rel T rel hne hrel).1
    · rw [h]; exact (resolve_join_rel T rel hne hrel).2
  refine ⟨hres, ?_⟩
  have hsplitR : ∃ pre, splitSlash R = pre ++ rel := by
    rcases hR with h | h
    · exact ⟨[], by rw [h, splitSlash_joinSlash rel hne hs]; rfl⟩
    · refine ⟨[""], ?_⟩
      have h' : R = "" ++ "/" ++ joinSlash rel := by rw [h, String.empty_append]
      rw [h', splitSlash_append_slash, splitSlash_joinSlash rel hne hs]
      rfl
  obtain ⟨pre, hpre⟩ := hsplitR
  have hlast : rel = rel.dropLast ++ [rel.getLast hne] := (List.dropLast_append_getLast hne).symm
  have hRne : R ≠ "" := by
    intro h0
    rw [h0] at hpre
    have h1 : splitSlash "" = [""] := by decide
    rw [h1, hlast] at hpre
    have := congrArg List.getLast? hpre
    simp at this
    exact (hrel _ (List.getLast_mem hne)).1 this.symm
  have hjoin : ∃ Y init, filepathJoin [T, R] = filepathClean Y ∧
      splitSlash Y = init ++ [rel.getLast hne] := by
    by_cases hT : T = ""
    · refine ⟨R, pre ++ rel.dropLast, by simp [filepathJoin, hT, hRne, joinSlash], ?_⟩
      rw [hpre, List.append_assoc, ← hlast]
    · refine ⟨T ++ "/" ++ R, splitSlash T ++ pre ++ rel.dropLast,
        by simp [filepathJoin, hT, joinSlash], ?_⟩
      rw [splitSlash_append_slash, hpre, List.append_assoc, List.append_assoc, ← hlast]
  obtain ⟨Y, init, hY, hsplit⟩ := hjoin
  have := resolve_dir_clean Y init _ hsplit (hrel _ (List.getLast_mem hne))
  rw [← hY, hres] at this
  rw [this, List.dropLast_append_of_ne_nil _ hne]

/-! ## Clean paths and `strings.TrimPrefix` -/

theorem trimPrefix_append (S t : String) : stringsTrimPrefix (S ++ t) S = t := by
  have h : hasPrefix (S ++ t) S = true := (hasPrefix_iff _ _).2 ⟨t.toList, toList_append _ _⟩
  unfold stringsTrimPrefix
  rw [if_pos h]
  apply String.ext
  simp [toList_append, String.toList]

theorem cleanSegments_relative_eq (l : List String) (h : ".." ∉ l) :
    cleanSegments false [] l = cleanSegments true [] l := by
  obtain ⟨k, hk⟩ := cleanSegments_relative l [] (by simp) 0
  simp only [List.replicate_zero, List.append_nil] at hk
  cases k with
  | zero => simpa using hk
  | succ k =>
    exfalso
    have hmem : ".." ∈ cleanSegments false [] l := by
      rw [hk, List.replicate_succ]
      exact List.mem_append_left _ (List.mem_cons_self _ _)
    rcases cleanSegments_mem false l [] _ hmem with h1 | h1
    · simp at h1
    · exact h h1.1

/-- A clean path other than `.` without a `..` segment is `/` or the segments of its entry
joined by slashes, after a leading slash when it is absolute. -/
theorem clean_form (S : String) (hc : filepathClean S = S) (hdot : S ≠ ".")
    (hdd : ".." ∉ splitSlash S) :
    (S = "/" ++ joinSlash (billy.resolve S)) ∨
      (billy.resolve S ≠ [] ∧ S = joinSlash (billy.resolve S)) := by
  have hne : S ≠ "" := by
    intro h0
    rw [h0] at hc
    exact absurd hc (by decide)
  cases hr : hasPrefix S "/" with
  | true =>
    left
    have := filepathClean_rooted S hr
    rw [hc] at this
    exact this
  | false =>
    right
    have := filepathClean_unrooted S hne hr
    rw [hc, cleanSegments_relative_eq _ hdd] at this
    by_cases h0 : cleanSegments true [] (splitSlash S) = []
    · rw [if_pos h0] at this
      exact absurd this hdot
    · rw [if_neg h0] at this
      exact ⟨h0, this⟩

theorem join_rooted_name (segs : List String) (hsegs : ∀ seg ∈ segs, properSegment seg)
    (name : String) (hname : properSegment name) :
    filepathJoin ["/" ++ joinSlash segs, name] = "/" ++ joinSlash (segs ++ [name]) := by
  have hA : "/" ++ joinSlash segs ≠ "" := slash_append_ne_empty _
  have hj : filepathJoin ["/" ++ joinSlash segs, name] =
      filepathClean ("/" ++ joinSlash segs ++ "/" ++ name) := by
    simp [filepathJoin, hA, joinSlash]
  have hpre : hasPrefix ("/" ++ joinSlash segs ++ "/" ++ name) "/" = true := by
    rw [String.append_assoc, String.append_assoc]
    exact hasPrefix_slash_append _
  have hres : cleanSegments true [] (splitSlash ("/" ++ joinSlash segs ++ "/" ++ name)) =
      segs ++ [name] := by
    have := resolve_append_segment ("/" ++ joinSlash segs) name hname
    unfold billy.resolve at this
    rw [this]
    have h2 := resolve_slash_append (joinSlash segs)
    unfold billy.resolve at h2
    rw [h2]
    have h3 := resolve_joinSlash segs (fun seg hseg => (hsegs seg hseg).2.2.2)
    unfold billy.resolve at h3
    rw [h3, cleanSegments_proper true segs hsegs]
    rfl
  rw [hj, filepathClean_rooted _ hpre, hres]

theorem join_relative_name (segs : List String) (hne : segs ≠ [])
    (hsegs : ∀ seg ∈ segs, properSegment seg) (name : String) (hname : properSegment name) :
    filepathJoin [joinSlash segs, name] = joinSlash (segs ++ [name]) := by
  have hall : ∀ seg ∈ segs ++ [name], properSegment seg := by
    intro seg hseg
    rcases List.mem_append.1 hseg with h | h
    · exact hsegs seg h
    · rw [List.mem_singleton] at h; rw [h]; exact hname
  have hA : joinSlash segs ≠ "" :=
    joinSlash_ne_empty segs hne (fun seg hseg => (hsegs seg hseg).1)
  have hj : filepathJoin [joinSlash segs, name] = filepathClean (joinSlash (segs ++ [name])) := by
    rw [joinSlash_append_single segs hne]
    simp [filepathJoin, hA, joinSlash]
  have hY : joinSlash (segs ++ [name]) ≠ "" :=
    joinSlash_ne_empty _ (by simp) (fun seg hseg => (hall seg hseg).1)
  have hpre : hasPrefix (joinSlash (segs ++ [name])) "/" = false :=
    hasPrefix_slash_joinSlash _ (fun seg hseg => ⟨(hall seg hseg).1, (hall seg hseg).2.2.2⟩)
  have hres : cleanSegments false [] (splitSlash (joinSlash (segs ++ [name]))) =
      segs ++ [name] := by
    rw [splitSlash_joinSlash _ (by simp) (fun seg hseg => (hall seg hseg).2.2.2),
      cleanSegments_proper false _ hall]
    rfl
  rw [hj, filepathClean_unrooted _ hY hpre, hres, if_neg (by simp)]

theorem walkPath_rooted (rel segs : List String) (hsegs : ∀ seg ∈ segs, properSegment seg)
    (hrel : ∀ seg ∈ rel, properSegment seg) :
    walkPath ("/" ++ joinSlash segs) rel = "/" ++ joinSlash (segs ++ rel) := by
  induction rel generalizing segs with
  | nil => simp [walkPath]
  | cons name rest ih =>
    have hname := hrel name (List.mem_cons_self _ _)
    have h := ih (segs ++ [name]) (by
      intro seg hseg
      rcases List.mem_append.1 hseg with h | h
      · exact hsegs seg h
      · rw [List.mem_singleton] at h; rw [h]; exact hname)
      (fun seg hseg => hrel seg (List.mem_cons_of_mem _ hseg))
    simp only [walkPath, List.foldl_cons] at h ⊢
    rw [join_rooted_name segs hsegs name hname, h]
    simp

theorem walkPath_relative (rel segs : List String) (hne : segs ≠ [])
    (hsegs : ∀ seg ∈ segs, properSegment seg) (hrel : ∀ seg ∈ rel, properSegment seg) :
    walkPath (joinSlash segs) rel = joinSlash (segs ++ rel) := by
  induction rel generalizing segs with
  | nil => simp [walkPath]
  | cons name rest ih =>
    have hname := hrel name (List.mem_cons_self _ _)
    have h := ih (segs ++ [name]) (by simp) (by
      intro seg hseg
      rcases List.mem_append.1 hseg with h | h
      · exact hsegs seg h
      · rw [List.mem_singleton] at h; rw [h]; exact hname)
      (fun seg hseg => hrel seg (List.mem_cons_of_mem _ hseg))
    simp only [walkPath, List.foldl_cons] at h ⊢
    rw [join_relative_name segs hne hsegs name hname, h]
    simp

/-- Below a clean directory path, `strings.TrimPrefix` turns the path that `WalkFiles`
builds for a relative position into that position: with a leading slash, except below the
root `/`. -/
theorem trimPrefix_walkPath_clean (S : String) (hc : filepathClean S = S) (hdot : S ≠ ".")
    (hdd : ".." ∉ splitSlash S) (rel : List String) (hne : rel ≠ [])
    (hrel : ∀ seg ∈ rel, properSegment seg) :
    stringsTrimPrefix (walkPath S rel) S =
      if billy.resolve S = [] then joinSlash rel else "/" ++ joinSlash rel := by
  have hsegs := resolve_proper S
  rcases clean_form S hc hdot hdd with h | ⟨h0, h⟩
  · by_cases h0 : billy.resolve S = []
    · rw [if_pos h0]
      have hS : S = "/" := by rw [h, h0]; rfl
      have hw := walkPath_rooted rel [] (by simp) hrel
      rw [show "/" ++ joinSlash [] = "/" from rfl, List.nil_append] at hw
      rw [hS, hw]
      exact trimPrefix_append _ _
    · rw [if_neg h0]
      have hw := walkPath_rooted rel (billy.resolve S) hsegs hrel
      rw [← h, joinSlash_append _ _ h0 hne] at hw
      rw [hw]
      have : "/" ++ (joinSlash (billy.resolve S) ++ "/" ++ joinSlash rel) =
          S ++ ("/" ++ joinSlash rel) := by
        conv_rhs => rw [h]
        simp only [String.append_assoc]
      rw [this]
      exact trimPrefix_append _ _
  · rw [if_neg h0]
    have hw := walkPath_relative rel (billy.resolve S) h0 hsegs hrel
    rw [← h, joinSlash_append _ _ h0 hne] at hw
    rw [hw]
    have : joinSlash (billy.resolve S) ++ "/" ++ joinSlash rel = S ++ ("/" ++ joinSlash rel) := by
      conv_rhs => rw [h]
      simp only [String.append_assoc]
    rw [this]
    exact trimPrefix_append _ _

theorem hasPrefix_append_of_ne (C t : String) (hC : C ≠ "") :
    hasPrefix (C ++ t) "/" = hasPrefix C "/" := by
  unfold hasPrefix
  rw [toList_append]
  cases h : C.toList with
  | nil => exact absurd (String.ext h) hC
  | cons c cs => simp [String.toList, List.isPrefixOf]

theorem append_ne_empty (C t : String) (hC : C ≠ "") : C ++ t ≠ "" := by
  intro h
  have := congrArg String.toList h
  rw [toList_append] at this
  have h2 : C.toList = [] := by
    cases hc : C.toList with
    | nil => rfl
    | cons c cs => rw [hc] at this; simp [String.toList] at this
  exact hC (String.ext h2)

theorem filepathClean_congr (X Y : String) (hX : X ≠ "") (hY : Y ≠ "")
    (hpre : hasPrefix X "/" = hasPrefix Y "/")
    (hseg : ∀ rooted, cleanSegments rooted [] (splitSlash X) =
      cleanSegments rooted [] (splitSlash Y)) :
    filepathClean X = filepathClean Y := by
  simp only [filepathClean, hX, hY, if_false, hpre, hseg]

theorem join_trailing_name (C name : String) (hC : C ≠ "") :
    filepathJoin [C ++ "/", name] = filepathJoin [C, name] := by
  have h1 : filepathJoin [C ++ "/", name] = filepathClean (C ++ "/" ++ "/" ++ name) := by
    simp [filepathJoin, append_ne_empty C "/" hC, joinSlash]
  have h2 : filepathJoin [C, name] = filepathClean (C ++ "/" ++ name) := by
    simp [filepathJoin, hC, joinSlash]
  rw [h1, h2]
  apply filepathClean_congr
  · rw [String.append_assoc, String.append_assoc]; exact append_ne_empty C _ hC
  · rw [String.append_assoc]; exact append_ne_empty C _ hC
  · rw [String.append_assoc, String.append_assoc, hasPrefix_append_of_ne C _ hC,
      String.append_assoc, hasPrefix_append_of_ne C _ hC]
  · intro rooted
    have h4 : splitSlash (C ++ "/") = splitSlash C ++ [""] := by
      have h3 : C ++ "/" = C ++ "/" ++ "" := by rw [String.append_empty]
      have h5 : splitSlash "" = [""] := by decide
      rw [h3, splitSlash_append_slash C "", h5]
    rw [splitSlash_append_slash (C ++ "/") name, h4,
      splitSlash_append_slash C name, List.append_assoc, cleanSegments_append,
      cleanSegments_append rooted (splitSlash C) (splitSlash name)]
    simp [cleanSegments]

theorem walkPath_trailing (C : String) (hC : C ≠ "") (rel : List String) (hne : rel ≠ []) :
    walkPath (C ++ "/") rel = walkPath C rel := by
  cases rel with
  | nil => exact absurd rfl hne
  | cons name rest => simp only [walkPath, List.foldl_cons, join_trailing_name C name hC]

/-- Below a clean directory path other than the root, written with a trailing slash,
`strings.TrimPrefix` turns the path that `WalkFiles` builds for a relative position into that
position without a leading slash. -/
theorem trimPrefix_walkPath_trailing (C : String) (hc : filepathClean C = C) (hdot : C ≠ ".")
    (hdd : ".." ∉ splitSlash C) (hroot : billy.resolve C ≠ []) (rel : List String)
    (hne : rel ≠ []) (hrel : ∀ seg ∈ rel, properSegment seg) :
    stringsTrimPrefix (walkPath (C ++ "/") rel) (C ++ "/") = joinSlash rel := by
  have hC : C ≠ "" := by
    intro h0
    rw [h0] at hc
    exact absurd hc (by decide)
  have hsegs := resolve_proper C
  have hform : walkPath C rel = C ++ "/" ++ joinSlash rel := by
    rcases clean_form C hc hdot hdd with h | ⟨_, h⟩
    · have hw := walkPath_rooted rel (billy.resolve C) hsegs hrel
      rw [← h, joinSlash_append _ _ hroot hne] at hw
      rw [hw]
      conv_rhs => rw [h]
      simp only [String.append_assoc]
    · have hw := walkPath_relative rel (billy.resolve C) hroot hsegs hrel
      rw [← h, joinSlash_append _ _ hroot hne] at hw
      rw [hw]
      conv_rhs => rw [h]
  rw [walkPath_trailing C hC rel hne, hform]
  exact trimPrefix_append _ _

theorem resolve_trailing (C : String) : billy.resolve (C ++ "/") = billy.resolve C :=
  resolve_append_slash C

/-! ## The source directory of a promoted workload -/

theorem join_rooted_rel (T : String) (hT : hasPrefix T "/" = true) (rel : List String)
    (hne : rel ≠ []) (hrel : ∀ seg ∈ rel, properSegment seg) :
    filepathJoin [T, joinSlash rel] = "/" ++ joinSlash (billy.resolve T ++ rel) := by
  have hT0 : T ≠ "" := by
    intro h0
    rw [h0, hasPrefix_empty_slash] at hT
    cases hT
  have hj : filepathJoin [T, joinSlash rel] = filepathClean (T ++ "/" ++ joinSlash rel) := by
    simp [filepathJoin, hT0, joinSlash]
  have hpre : hasPrefix (T ++ "/" ++ joinSlash rel) "/" = true := by
    rw [String.append_assoc, hasPrefix_append_of_ne T _ hT0]
    exact hT
  have hres := (resolve_join_rel T rel hne hrel).1
  rw [hj, resolve_clean] at hres
  unfold billy.resolve at hres
  rw [hj, filepathClean_rooted _ hpre, hres]
  rfl

theorem path_source_manifest (name : String) (hname : properSegment name) :
    clusterconf.Path (filepathJoin [environment.SourceManifest, name]) =
      "/flux/manifests/" ++ name := by
  have h1 : filepathJoin [environment.SourceManifest, name] = joinSlash ["manifests", name] :=
    join_relative_name ["manifests"] (by simp) (by decide) name hname
  have h2 := join_rooted_rel "/flux" (by decide) ["manifests", name] (by simp) (by
    intro seg hseg
    rcases List.mem_cons.1 hseg with h | h
    · rw [h]; decide
    · rw [List.mem_singleton] at h; rw [h]; exact hname)
  have h3 : billy.resolve "/flux" = ["flux"] := by decide
  unfold clusterconf.Path
  rw [h1, h2, h3]
  apply String.ext
  simp [joinSlash, String.data_append]

namespace promoter

open clusterconf environment

theorem head_filter_filter (l : Clusters) (a b : Cluster → Bool) :
    (l.filter a).filter b =
      match l.find? (fun c => b c && a c) with
      | none => []
      | some first => first :: (((l.filter a).filter b).tail) := by
  induction l with
  | nil => rfl
  | cons c rest ih =>
    by_cases ha : a c = true
    · by_cases hb : b c = true
      · simp [List.filter, List.find?, ha, hb]
      · simp only [List.filter, List.find?, ha, hb, Bool.false_and]
        simpa [List.filter, ha, hb] using ih
    · simp only [List.filter, List.find?, ha, Bool.and_false]
      simpa [List.filter, ha] using ih

theorem getSourceDir_find {σ : Type} (p : Promoter σ) (s : σ) (change : detect.WorkloadChange)
    (targetEnv source : Env) (hsource : ManifestSource targetEnv = some source) :
    (source = SourceManifest →
      getSourceDir p s change targetEnv =
          .ok (clusterconf.Path (filepathJoin [SourceManifest, change.W.Name])) ∧
        (properSegment change.W.Name →
          getSourceDir p s change targetEnv = .ok ("/flux/manifests/" ++ change.W.Name) ∧
            billy.resolve ("/flux/manifests/" ++ change.W.Name) =
              billy.resolve ("flux/manifests/" ++ change.W.Name))) ∧
    (source ≠ SourceManifest → ∀ workload, p.registryGet s change.W.Name = .ok workload →
      (∀ first,
        p.clusters.All.find? (fun c => ByEnvironment source c && c.AllowWorkload workload) =
          some first →
        getSourceDir p s change targetEnv = .ok (first.WorkloadPath change.W.Name)) ∧
      (p.clusters.All.find? (fun c => ByEnvironment source c && c.AllowWorkload workload) =
          none →
        ∃ e, getSourceDir p s change targetEnv = .error e)) := by
  constructor
  · intro hs
    have h : getSourceDir p s change targetEnv =
        .ok (clusterconf.Path (filepathJoin [SourceManifest, change.W.Name])) := by
      simp [getSourceDir, hsource, hs]
    exact ⟨h, fun hname => ⟨by rw [h, path_source_manifest _ hname], by
      rw [show "/flux/manifests/" ++ change.W.Name = "/" ++ ("flux/manifests/" ++ change.W.Name)
        from by rw [← String.append_assoc]; rfl]
      exact resolve_slash_append _⟩⟩
  · intro hs workload hreg
    have hfilter := head_filter_filter p.clusters.All (ByAllowWorkload workload)
      (ByEnvironment source)
    constructor
    · intro first hfind
      have hfind' : p.clusters.All.find?
          (fun c => ByEnvironment source c && ByAllowWorkload workload c) = some first := hfind
      rw [hfind'] at hfilter
      simp only [getSourceDir, hsource, hs, if_false, hreg, filter_eq]
      rw [hfilter]
    · intro hfind
      have hfind' : p.clusters.All.find?
          (fun c => ByEnvironment source c && ByAllowWorkload workload c) = none := hfind
      rw [hfind'] at hfilter
      simp only [getSourceDir, hsource, hs, if_false, hreg, filter_eq]
      rw [hfilter]
      exact ⟨_, rfl⟩

theorem byEnvironment_allow_iff (source : Env) (workload : Workload) (c : Cluster) :
    (ByEnvironment source c && c.AllowWorkload workload) = true ↔
      ("environment", source) ∈ c.Metadata.Labels.entries ∧ c.AllowWorkload workload = true := by
  rw [Bool.and_eq_true, clusterconf.byEnvironment_eq, decide_eq_true_eq]

/-- C12: a cluster is labelled with an environment when its labels hold the entry
`environment` with that value. For the target `development`, whose source is `manifests`,
`getSourceDir` returns `clusterconf.Path(filepath.Join("manifests", <workload name>))`, which
for a workload name that is a path segment is `/flux/manifests/<workload name>`, the worktree
directory `flux/manifests/<workload name>`. For the target `test`, whose source is
`development`, and the target `production`, whose source is `test`, and a workload that the
registry knows, it returns `WorkloadPath(<workload name>)` of the first cluster of the
declared list that is labelled with the source and allows the workload (no cluster declared
before it is labelled with the source and allows the workload), and an error when no declared
cluster is labelled with the source and allows the workload. -/
theorem getSourceDir_spec {σ : Type} (p : Promoter σ) (s : σ) (change : detect.WorkloadChange)
    (targetEnv source : Env)
    (hsource : (targetEnv = "development" ∧ source = "manifests") ∨
      (targetEnv = "test" ∧ source = "development") ∨
      (targetEnv = "production" ∧ source = "test")) :
    (source = "manifests" →
      getSourceDir p s change targetEnv =
          .ok (clusterconf.Path (filepathJoin ["manifests", change.W.Name])) ∧
        (properSegment change.W.Name →
          getSourceDir p s change targetEnv = .ok ("/flux/manifests/" ++ change.W.Name) ∧
            billy.resolve ("/flux/manifests/" ++ change.W.Name) =
              billy.resolve ("flux/manifests/" ++ change.W.Name))) ∧
    (source ≠ "manifests" → ∀ workload, p.registryGet s change.W.Name = .ok workload →
      (∀ (pre : Clusters) (first : Cluster) (post : Clusters),
        p.clusters.All = pre ++ first :: post →
        ("environment", source) ∈ first.Metadata.Labels.entries →
        first.AllowWorkload workload = true →
        (∀ c ∈ pre, ¬ (("environment", source) ∈ c.Metadata.Labels.entries ∧
          c.AllowWorkload workload = true)) →
        getSourceDir p s change targetEnv = .ok (first.WorkloadPath change.W.Name)) ∧
      ((∀ c ∈ p.clusters.All, ¬ (("environment", source) ∈ c.Metadata.Labels.entries ∧
          c.AllowWorkload workload = true)) →
        ∃ e, getSourceDir p s change targetEnv = .error e)) := by
  have hms : ManifestSource targetEnv = some source := by
    rcases hsource with ⟨rfl, rfl⟩ | ⟨rfl, rfl⟩ | ⟨rfl, rfl⟩ <;> decide
  have h := getSourceDir_find p s change targetEnv source hms
  refine ⟨h.1, fun hs workload hreg => ?_⟩
  obtain ⟨hsome, hnone⟩ := h.2 hs workload hreg
  constructor
  · intro pre first post hall hlabel hallow hpre
    apply hsome
    rw [List.find?_eq_some]
    refine ⟨(byEnvironment_allow_iff source workload first).2 ⟨hlabel, hallow⟩,
      pre, post, hall, fun c hc => ?_⟩
    have hnot := hpre c hc
    rw [← byEnvironment_allow_iff] at hnot
    cases hb : (ByEnvironment source c && c.AllowWorkload workload) with
    | false => rfl
    | true => exact absurd hb hnot
  · intro hno
    apply hnone
    rw [List.find?_eq_none]
    intro c hc
    rw [byEnvironment_allow_iff]
    exact hno c hc

/-- C12 on the example promoters: for the target `development` the source directory of `foo`
is `/flux/manifests/foo`; for the target `test` on the mixed clusters it is the directory of
`dev2`, the first development cluster that allows `foo`, declared after a development
cluster of `cloud2`, which does not allow `foo`, and after a test cluster, which does; for
the target `production` on the development clusters there is an error. -/
theorem getSourceDir_spec_witness :
    getSourceDir exampleDevPromoter [] exampleCopyFoo "development" =
        .ok "/flux/manifests/foo" ∧
      getSourceDir exampleMixedPromoter [] exampleCopyFoo "test" =
        .ok "/flux/promoted/development/dev2/cloud1/foo" ∧
      ∃ e, getSourceDir exampleDevPromoter [] exampleCopyFoo "production" = .error e := by
  refine ⟨?_, ?_, ?_⟩
  · exact (((getSourceDir_spec exampleDevPromoter [] exampleCopyFoo "development" "manifests"
      (Or.inl ⟨rfl, rfl⟩)).1 rfl).2 (by decide)).1
  · have h := ((getSourceDir_spec exampleMixedPromoter [] exampleCopyFoo "test" "development"
      (Or.inr (Or.inl ⟨rfl, rfl⟩))).2 (by decide) exampleWorkload rfl).1
      [exampleCluster "development" "dev4" "cloud2", exampleCluster "test" "test1" "cloud1"]
      (exampleCluster "development" "dev2" "cloud1")
      [exampleCluster "test" "test2" "cloud1"] rfl (by decide) (by decide)
      (by
        intro c hc
        simp only [List.mem_cons, List.mem_singleton, List.not_mem_nil, or_false] at hc
        rcases hc with rfl | rfl <;> decide)
    rw [h]
    decide
  · exact ((getSourceDir_spec exampleDevPromoter [] exampleCopyFoo "production" "test"
      (Or.inr (Or.inr ⟨rfl, rfl⟩))).2 (by decide) exampleWorkload rfl).2
      (by
        intro c hc
        simp only [exampleDevPromoter, recordingPromoter, exampleClusters, List.mem_cons,
          List.mem_singleton, List.not_mem_nil, or_false] at hc
        rcases hc with rfl | rfl | rfl <;> decide)

end promoter

/-! ## The storage of the in-memory filesystem -/

namespace billy

theorem lookupEntry_storeEntry (l : List (Key × Node)) (k k₂ : Key) (n : Node) :
    lookupEntry (storeEntry l k n) k₂ = if k = k₂ then some n else lookupEntry l k₂ := by
  induction l with
  | nil => simp [storeEntry, lookupEntry]
  | cons e rest ih =>
    obtain ⟨k₁, n₁⟩ := e
    by_cases hk : k₁ = k
    · subst hk
      by_cases hk₂ : k₁ = k₂ <;> simp [storeEntry, lookupEntry, hk₂]
    · by_cases hk₂ : k₁ = k₂
      · subst hk₂
        have hk' : ¬ k = k₁ := fun h => hk h.symm
        simp [storeEntry, lookupEntry, hk, hk']
      · simp [storeEntry, lookupEntry, hk, hk₂, ih]

theorem keys_storeEntry (l : List (Key × Node)) (k : Key) (n : Node) :
    (storeEntry l k n).map Prod.fst =
      if k ∈ l.map Prod.fst then l.map Prod.fst else l.map Prod.fst ++ [k] := by
  induction l with
  | nil => simp [storeEntry]
  | cons e rest ih =>
    obtain ⟨k₁, n₁⟩ := e
    by_cases hk : k₁ = k
    · subst hk
      simp only [storeEntry, if_true, List.map_cons, List.mem_cons, true_or]
    · have hk' : ¬ k = k₁ := fun h => hk h.symm
      simp only [storeEntry, hk, if_false, List.map_cons, ih, List.mem_cons, hk', false_or]
      split
      · rfl
      · rfl

theorem nodup_storeEntry (l : List (Key × Node)) (k : Key) (n : Node)
    (h : (l.map Prod.fst).Nodup) : ((storeEntry l k n).map Prod.fst).Nodup := by
  rw [keys_storeEntry]
  split
  · exact h
  · rename_i hk
    exact List.Nodup.append h (List.nodup_singleton k) (List.disjoint_singleton.2 hk)

theorem lookupEntry_eq_some_iff (l : List (Key × Node)) (h : (l.map Prod.fst).Nodup) (k : Key)
    (n : Node) : lookupEntry l k = some n ↔ (k, n) ∈ l := by
  induction l with
  | nil => simp [lookupEntry]
  | cons e rest ih =>
    obtain ⟨k₁, n₁⟩ := e
    simp only [List.map_cons, List.nodup_cons] at h
    by_cases hk : k₁ = k
    · subst hk
      simp only [lookupEntry, if_true, List.mem_cons, Prod.mk.injEq, true_and, Option.some.injEq]
      constructor
      · intro h1; exact Or.inl h1.symm
      · rintro (h1 | h1)
        · exact h1.symm
        · exact absurd (List.mem_map_of_mem Prod.fst h1) h.1
    · simp only [lookupEntry, hk, if_false, List.mem_cons, Prod.mk.injEq]
      rw [ih h.2]
      constructor
      · exact Or.inr
      · rintro (h1 | h1)
        · exact absurd h1.1.symm hk
        · exact h1

theorem lookupEntry_some_mem (l : List (Key × Node)) (k : Key) (n : Node)
    (h : lookupEntry l k = some n) : (k, n) ∈ l := by
  induction l with
  | nil => simp [lookupEntry] at h
  | cons e rest ih =>
    obtain ⟨k₁, n₁⟩ := e
    by_cases hk : k₁ = k
    · subst hk
      simp only [lookupEntry, if_true, Option.some.injEq] at h
      rw [h]
      exact List.mem_cons_self _ _
    · simp only [lookupEntry, hk, if_false] at h
      exact List.mem_cons_of_mem _ (ih h)

theorem lookupEntry_eq_none_iff (l : List (Key × Node)) (k : Key) :
    lookupEntry l k = none ↔ k ∉ l.map Prod.fst := by
  induction l with
  | nil => simp [lookupEntry]
  | cons e rest ih =>
    obtain ⟨k₁, n₁⟩ := e
    by_cases hk : k₁ = k
    · simp only [lookupEntry, hk, if_true, List.map_cons, List.mem_cons, true_or,
        not_true_eq_false, reduceCtorEq]
    · have hk' : ¬ k = k₁ := fun h => hk h.symm
      simp only [lookupEntry, hk, if_false, ih, List.map_cons, List.mem_cons, hk', false_or]

theorem lookupEntry_filter (l : List (Key × Node)) (q : Key → Bool) (k : Key) :
    lookupEntry (l.filter (fun e => q e.1)) k = if q k = true then lookupEntry l k else none := by
  induction l with
  | nil => simp [lookupEntry]
  | cons e rest ih =>
    obtain ⟨k₁, n₁⟩ := e
    by_cases hq : q k₁ = true
    · by_cases hk : k₁ = k
      · subst hk
        simp [List.filter, hq, lookupEntry]
      · simp [List.filter, hq, lookupEntry, hk, ih]
    · by_cases hk : k₁ = k
      · subst hk
        simp [List.filter, hq, lookupEntry, ih]
      · simp [List.filter, hq, lookupEntry, hk, ih]

theorem nodup_filter (l : List (Key × Node)) (q : Key × Node → Bool)
    (h : (l.map Prod.fst).Nodup) : ((l.filter q).map Prod.fst).Nodup :=
  List.Nodup.sublist (List.Sublist.map _ (List.filter_sublist l)) h

theorem get_put (fs : Memory) (k k₂ : Key) (n : Node) :
    (fs.put k n).get k₂ = if k = k₂ then some n else fs.get k₂ :=
  lookupEntry_storeEntry fs.files k k₂ n

theorem nodup_put (fs : Memory) (k : Key) (n : Node) (h : (fs.files.map Prod.fst).Nodup) :
    ((fs.put k n).files.map Prod.fst).Nodup :=
  nodup_storeEntry fs.files k n h

/-- The effect of `storage.createParent`: existing entries stay, and the only new entries
are directories at prefixes of the key, other than the key itself. -/
theorem createParent_spec (kRev : List String) (fs : Memory)
    (h : (fs.files.map Prod.fst).Nodup) :
    ((fs.createParent kRev).files.map Prod.fst).Nodup ∧
      (∀ k n, fs.get k = some n → (fs.createParent kRev).get k = some n) ∧
      (∀ k n, (fs.createParent kRev).get k = some n →
        fs.get k = some n ∨ (n = .dir ∧ k <+: kRev.reverse ∧ k ≠ kRev.reverse)) := by
  induction kRev generalizing fs with
  | nil => exact ⟨h, fun _ _ h => h, fun _ _ h => Or.inl h⟩
  | cons name baseRev ih =>
    cases hb : fs.get baseRev.reverse with
    | some n₀ =>
      simp only [Memory.createParent, hb]
      exact ⟨h, fun _ _ h => h, fun _ _ h => Or.inl h⟩
    | none =>
      simp only [Memory.createParent, hb]
      obtain ⟨h1, h2, h3⟩ := ih (fs.put baseRev.reverse .dir) (nodup_put _ _ _ h)
      refine ⟨h1, ?_, ?_⟩
      · intro k n hk
        apply h2
        rw [get_put]
        by_cases hkb : baseRev.reverse = k
        · rw [← hkb, hb] at hk
          cases hk
        · rw [if_neg hkb]
          exact hk
      · intro k n hk
        have hpre : baseRev.reverse <+: (name :: baseRev).reverse := by
          rw [List.reverse_cons]
          exact List.prefix_append _ _
        have hne : baseRev.reverse ≠ (name :: baseRev).reverse := by
          intro heq
          have := congrArg List.length heq
          simp at this
        rcases h3 k n hk with h4 | ⟨h4, h5, h6⟩
        · rw [get_put] at h4
          by_cases hkb : baseRev.reverse = k
          · rw [if_pos hkb] at h4
            right
            cases h4
            rw [← hkb]
            exact ⟨rfl, hpre, hne⟩
          · rw [if_neg hkb] at h4
            exact Or.inl h4
        · right
          refine ⟨h4, h5.trans hpre, ?_⟩
          intro heq
          have h7 := List.IsPrefix.length_le h5
          rw [heq] at h7
          simp at h7

/-- The effect of `storage.New` on a key without entry. -/
theorem new_spec (fs : Memory) (k : Key) (n₀ : Node) (h : (fs.files.map Prod.fst).Nodup)
    (hk : fs.get k = none) :
    ∃ fs₁, fs.New k n₀ = (.ok (), fs₁) ∧ (fs₁.files.map Prod.fst).Nodup ∧
      fs₁.get k = some n₀ ∧
      (∀ k₂ n, fs.get k₂ = some n → fs₁.get k₂ = some n) ∧
      (∀ k₂ n, fs₁.get k₂ = some n → k₂ = k ∨ fs.get k₂ = some n ∨
        (n = .dir ∧ k₂ <+: k ∧ k₂ ≠ k)) := by
  obtain ⟨h1, h2, h3⟩ := createParent_spec k.reverse (fs.put k n₀) (nodup_put _ _ _ h)
  refine ⟨(fs.put k n₀).createParent k.reverse, by simp [Memory.New, hk], h1, ?_, ?_, ?_⟩
  · exact h2 k n₀ (by rw [get_put, if_pos rfl])
  · intro k₂ n hk₂
    apply h2
    rw [get_put]
    by_cases hkk : k = k₂
    · rw [← hkk, hk] at hk₂
      cases hk₂
    · rw [if_neg hkk]
      exact hk₂
  · intro k₂ n hk₂
    by_cases hkk : k₂ = k
    · exact Or.inl hkk
    · right
      rcases h3 k₂ n hk₂ with h4 | h4
      · rw [get_put, if_neg (fun h => hkk h.symm)] at h4
        exact Or.inl h4
      · rw [List.reverse_reverse] at h4
        exact Or.inr h4

end billy

namespace billy

theorem get_some_mem (fs : Memory) (k : Key) (n : Node) (h : fs.get k = some n) :
    (k, n) ∈ fs.files :=
  lookupEntry_some_mem fs.files k n h

theorem get_eq_some_iff (fs : Memory) (h : (fs.files.map Prod.fst).Nodup) (k : Key)
    (n : Node) : fs.get k = some n ↔ (k, n) ∈ fs.files :=
  lookupEntry_eq_some_iff fs.files h k n

theorem key_eq_append_last (key k : Key) (name : String) :
    (key.getLast? = some name ∧ key.dropLast = k) ↔ key = k ++ [name] := by
  constructor
  · rintro ⟨h1, h2⟩
    have := List.dropLast_append_getLast? name (by rw [h1]; rfl)
    rw [h2] at this
    exact this.symm
  · intro h
    subst h
    simp

theorem mem_children (fs : Memory) (k : Key) (fi : FileInfo) :
    fi ∈ fs.Children k ↔ ∃ n, (k ++ [fi.Name], n) ∈ fs.files ∧ n.IsDir = fi.IsDir := by
  unfold Memory.Children
  rw [List.mem_filterMap]
  constructor
  · rintro ⟨⟨key, n⟩, hmem, hfi⟩
    cases hl : key.getLast? with
    | none => simp only [hl] at hfi; cases hfi
    | some name =>
      simp only [hl] at hfi
      by_cases hd : key.dropLast = k
      · rw [if_pos hd] at hfi
        cases hfi
        have := (key_eq_append_last key k name).1 ⟨hl, hd⟩
        subst this
        exact ⟨n, hmem, rfl⟩
      · rw [if_neg hd] at hfi
        cases hfi
  · rintro ⟨n, hmem, hdir⟩
    refine ⟨(k ++ [fi.Name], n), hmem, ?_⟩
    have h := (key_eq_append_last (k ++ [fi.Name]) k fi.Name).2 rfl
    simp only [h.1, h.2, if_true, hdir]

theorem children_names_nodup (fs : Memory) (h : (fs.files.map Prod.fst).Nodup) (k : Key) :
    ((fs.Children k).map FileInfo.Name).Nodup := by
  obtain ⟨files⟩ := fs
  induction files with
  | nil => simp [Memory.Children]
  | cons e rest ih =>
    obtain ⟨key, n⟩ := e
    simp only [List.map_cons, List.nodup_cons] at h
    have ih' := ih h.2
    cases hl : key.getLast? with
    | none =>
      simpa [Memory.Children, List.filterMap_cons, hl] using ih'
    | some name =>
      by_cases hd : key.dropLast = k
      · have hkey := (key_eq_append_last key k name).1 ⟨hl, hd⟩
        have hc : Memory.Children { files := (key, n) :: rest } k =
            { Name := name, IsDir := n.IsDir } :: Memory.Children { files := rest } k := by
          simp [Memory.Children, List.filterMap_cons, hl, hd]
        rw [hc, List.map_cons, List.nodup_cons]
        refine ⟨?_, ih'⟩
        intro hmem
        obtain ⟨fi, hfi, hname⟩ := List.mem_map.1 hmem
        obtain ⟨n₂, hmem₂, _⟩ := (mem_children { files := rest } k fi).1 hfi
        rw [hname, ← hkey] at hmem₂
        exact h.1 (List.mem_map_of_mem Prod.fst hmem₂)
      · have hc : Memory.Children { files := (key, n) :: rest } k =
            Memory.Children { files := rest } k := by
          simp [Memory.Children, List.filterMap_cons, hl, hd]
        rw [hc]
        exact ih'

/-- In a well-formed storage every entry lies below directories only. -/
theorem wf_ancestor (fs : Memory) (hwf : fs.WellFormed) (k : Key) (rel : List String) :
    ∀ n, fs.get (k ++ rel) = some n → rel ≠ [] → fs.get k = some .dir := by
  induction rel using List.reverseRecOn with
  | nil => intro n _ hne; exact absurd rfl hne
  | append_singleton rel x ih =>
    intro n h _
    have hmem := get_some_mem fs _ n h
    have hpar := hwf.parent _ n hmem (by simp)
    rw [← List.append_assoc, List.dropLast_concat] at hpar
    by_cases hrel : rel = []
    · subst hrel
      simpa using hpar
    · exact ih .dir hpar hrel

theorem wf_proper (fs : Memory) (hwf : fs.WellFormed) (k : Key) (rel : List String) (n : Node)
    (h : fs.get (k ++ rel) = some n) : ∀ seg ∈ rel, properSegment seg :=
  fun seg hseg => hwf.proper _ n (get_some_mem fs _ n h) seg (List.mem_append_right _ hseg)

theorem node_not_dir {n : Node} (h : n.IsDir = false) : ∃ c, n = .file c := by
  cases n with
  | file c => exact ⟨c, rfl⟩
  | dir => cases h

theorem node_is_dir {n : Node} (h : n.IsDir = true) : n = .dir := by
  cases n with
  | file c => cases h
  | dir => rfl

end billy

/-! ## `WalkFiles` visits every file below a directory once -/

namespace filesystem

open billy

theorem runWalker_append {σ : Type} (walker : String → σ → Except FsError Unit × σ)
    (l₁ l₂ : List String) (s : σ) :
    runWalker walker (l₁ ++ l₂) s = runWalker walker l₂ (runWalker walker l₁ s) := by
  induction l₁ generalizing s with
  | nil => rfl
  | cons p rest ih =>
    show runWalker walker (rest ++ l₂) (walker p s).2 = _
    rw [ih]
    rfl

/-- The loop of `WalkFiles` over the entries `fis` of the directory with key `k`: when the
walker succeeds on the files and the recursive call does what `WalkFiles` is to do on the
subdirectories, the loop calls the walker once for each file below the entries, and keeps the
invariant `Inv`. -/
theorem walkLoop_spec {σ : Type} (walkFiles : String → σ → Except FsError Unit × σ)
    (walker : String → σ → Except FsError Unit × σ) (Inv : σ → Prop) (fs0 : Memory)
    (hwf : fs0.WellFormed) (base : String) (k : Key)
    (hrec : ∀ name s, Inv s → properSegment name → fs0.get (k ++ [name]) = some .dir →
      ∃ rels : List (List String),
        walkFiles (filepathJoin [base, name]) s =
          (.ok (), runWalker walker (rels.map (fun rel => walkPath base (name :: rel))) s) ∧
        Inv (runWalker walker (rels.map (fun rel => walkPath base (name :: rel))) s) ∧
        rels.Nodup ∧ (∀ rel ∈ rels, ∀ seg ∈ rel, properSegment seg) ∧
        (∀ rel, rel ∈ rels ↔ ∃ c, fs0.get (k ++ name :: rel) = some (.file c)))
    (hwalk : ∀ name s c, Inv s → properSegment name → fs0.get (k ++ [name]) = some (.file c) →
      ∃ s₁, walker (filepathJoin [base, name]) s = (.ok (), s₁) ∧ Inv s₁)
    (fis : List FileInfo) (hnodup : (fis.map FileInfo.Name).Nodup)
    (hfis : ∀ fi ∈ fis, properSegment fi.Name ∧
      ∃ n, fs0.get (k ++ [fi.Name]) = some n ∧ n.IsDir = fi.IsDir) :
    ∀ s, Inv s →
      ∃ rels : List (List String),
        walkLoop walkFiles walker base fis s =
          (.ok (), runWalker walker (rels.map (walkPath base)) s) ∧
        Inv (runWalker walker (rels.map (walkPath base)) s) ∧
        rels.Nodup ∧ (∀ rel ∈ rels, ∀ seg ∈ rel, properSegment seg) ∧
        (∀ rel, rel ∈ rels ↔
          ∃ fi ∈ fis, ∃ rest c, rel = fi.Name :: rest ∧ fs0.get (k ++ rel) = some (.file c)) := by
  induction fis with
  | nil =>
    intro s hs
    exact ⟨[], rfl, hs, List.nodup_nil, by simp, by simp⟩
  | cons fi rest ih =>
    intro s hs
    simp only [List.map_cons, List.nodup_cons] at hnodup
    obtain ⟨hproper, n, hn, hdir⟩ := hfis fi (List.mem_cons_self _ _)
    have ih' := ih hnodup.2 (fun fi₂ h₂ => hfis fi₂ (List.mem_cons_of_mem _ h₂))
    have hother : ∀ fi₂ ∈ rest, fi₂.Name ≠ fi.Name := by
      intro fi₂ h₂ heq
      exact hnodup.1 (by rw [← heq]; exact List.mem_map_of_mem _ h₂)
    cases hd : fi.IsDir with
    | true =>
      rw [hd] at hdir
      have hn' : fs0.get (k ++ [fi.Name]) = some .dir := by rw [hn, node_is_dir hdir]
      obtain ⟨rels₁, hw₁, hinv₁, hnd₁, hp₁, hm₁⟩ := hrec fi.Name s hs hproper hn'
      obtain ⟨rels₂, hw₂, hinv₂, hnd₂, hp₂, hm₂⟩ := ih' _ hinv₁
      refine ⟨rels₁.map (fun rel => fi.Name :: rel) ++ rels₂, ?_, ?_, ?_, ?_, ?_⟩
      · simp only [walkLoop, hd, if_true, hw₁, hw₂, List.map_append, List.map_map,
          runWalker_append]
        rfl
      · simp only [List.map_append, List.map_map, runWalker_append]
        exact hinv₂
      · refine List.Nodup.append (hnd₁.map (fun a b h => by simpa using h)) hnd₂ ?_
        intro rel h₁ h₂
        obtain ⟨rel₁, _, hrel₁⟩ := List.mem_map.1 h₁
        obtain ⟨fi₂, hfi₂, rest₂, c, hrel₂, _⟩ := (hm₂ rel).1 h₂
        rw [← hrel₁] at hrel₂
        exact hother fi₂ hfi₂ (List.cons.inj hrel₂).1.symm
      · intro rel hrel seg hseg
        rcases List.mem_append.1 hrel with h | h
        · obtain ⟨rel₁, hmem₁, hrel₁⟩ := List.mem_map.1 h
          rw [← hrel₁] at hseg
          rcases List.mem_cons.1 hseg with h | h
          · rw [h]; exact hproper
          · exact hp₁ rel₁ hmem₁ seg h
        · exact hp₂ rel h seg hseg
      · intro rel
        rw [List.mem_append]
        constructor
        · rintro (h | h)
          · obtain ⟨rel₁, hmem₁, hrel₁⟩ := List.mem_map.1 h
            obtain ⟨c, hc⟩ := (hm₁ rel₁).1 hmem₁
            exact ⟨fi, List.mem_cons_self _ _, rel₁, c, hrel₁.symm, by rw [← hrel₁]; exact hc⟩
          · obtain ⟨fi₂, hfi₂, rest₂, c, hrel₂, hc⟩ := (hm₂ rel).1 h
            exact ⟨fi₂, List.mem_cons_of_mem _ hfi₂, rest₂, c, hrel₂, hc⟩
        · rintro ⟨fi₂, hfi₂, rest₂, c, hrel₂, hc⟩
          rcases List.mem_cons.1 hfi₂ with h | h
          · left
            subst h
            subst hrel₂
            exact List.mem_map.2 ⟨rest₂, (hm₁ rest₂).2 ⟨c, hc⟩, rfl⟩
          · right
            exact (hm₂ rel).2 ⟨fi₂, h, rest₂, c, hrel₂, hc⟩
    | false =>
      rw [hd] at hdir
      obtain ⟨c₀, hc₀⟩ := node_not_dir hdir
      have hn' : fs0.get (k ++ [fi.Name]) = some (.file c₀) := by rw [hn, hc₀]
      obtain ⟨s₁, hw₁, hinv₁⟩ := hwalk fi.Name s c₀ hs hproper hn'
      obtain ⟨rels₂, hw₂, hinv₂, hnd₂, hp₂, hm₂⟩ := ih' s₁ hinv₁
      have hs₁ : s₁ = (walker (filepathJoin [base, fi.Name]) s).2 := by rw [hw₁]
      have hpath : walkPath base [fi.Name] = filepathJoin [base, fi.Name] := rfl
      refine ⟨[fi.Name] :: rels₂, ?_, ?_, ?_, ?_, ?_⟩
      · simp only [walkLoop, hd, Bool.false_eq_true, if_false, hw₁, hw₂, List.map_cons,
          runWalker, hpath]
      · simp only [List.map_cons, runWalker, hpath, ← hs₁]
        exact hinv₂
      · refine List.nodup_cons.2 ⟨?_, hnd₂⟩
        intro hmem
        obtain ⟨fi₂, hfi₂, rest₂, c, hrel₂, _⟩ := (hm₂ _).1 hmem
        exact hother fi₂ hfi₂ (List.cons.inj hrel₂).1.symm
      · intro rel hrel seg hseg
        rcases List.mem_cons.1 hrel with h | h
        · rw [h, List.mem_singleton] at hseg
          rw [hseg]; exact hproper
        · exact hp₂ rel h seg hseg
      · intro rel
        rw [List.mem_cons]
        constructor
        · rintro (h | h)
          · exact ⟨fi, List.mem_cons_self _ _, [], c₀, h, by rw [h]; exact hn'⟩
          · obtain ⟨fi₂, hfi₂, rest₂, c, hrel₂, hc⟩ := (hm₂ rel).1 h
            exact ⟨fi₂, List.mem_cons_of_mem _ hfi₂, rest₂, c, hrel₂, hc⟩
        · rintro ⟨fi₂, hfi₂, rest₂, c, hrel₂, hc⟩
          rcases List.mem_cons.1 hfi₂ with h | h
          · left
            subst h
            subst hrel₂
            by_cases hrest : rest₂ = []
            · rw [hrest]
            · exfalso
              have h1 : fs0.get ((k ++ [fi₂.Name]) ++ rest₂) = some (.file c) := by
                rw [List.append_assoc]; exact hc
              have := wf_ancestor fs0 hwf (k ++ [fi₂.Name]) rest₂ _ h1 hrest
              rw [hn'] at this
              cases this
          · right
            exact (hm₂ rel).2 ⟨fi₂, h, rest₂, c, hrel₂, hc⟩

end filesystem

namespace filesystem

open billy

theorem walkPath_append_rel (base : String) (rel₁ rel₂ : List String) :
    walkPath base (rel₁ ++ rel₂) = walkPath (walkPath base rel₁) rel₂ := by
  simp [walkPath, List.foldl_append]

/-- `WalkFiles` on a directory of a well-formed storage, with enough fuel for the depth of
the storage: while the walker succeeds on every file below the directory and keeps an
invariant under which the entries below the directory stay as they are, the walk succeeds,
and it has called the walker once for each file below the directory, with the path that the
joins of the walk build for it. -/
theorem walkFiles_spec {σ : Type} (view : σ → Memory)
    (walker : String → σ → Except FsError Unit × σ) (Inv : σ → Prop) (fs0 : Memory)
    (hwf : fs0.WellFormed) (base0 : String)
    (hview : ∀ s, Inv s → ((view s).files.map Prod.fst).Nodup ∧
      ∀ rel, (view s).get (resolve base0 ++ rel) = fs0.get (resolve base0 ++ rel))
    (hwalker : ∀ s rel c, Inv s → (∀ seg ∈ rel, properSegment seg) →
      fs0.get (resolve base0 ++ rel) = some (.file c) →
      ∃ s₁, walker (walkPath base0 rel) s = (.ok (), s₁) ∧ Inv s₁) :
    ∀ fuel rel0 s, Inv s → (∀ seg ∈ rel0, properSegment seg) →
      fs0.get (resolve base0 ++ rel0) = some .dir →
      (∀ e ∈ fs0.files, e.1.length < fuel + (resolve base0 ++ rel0).length) →
      ∃ rels : List (List String),
        WalkFiles (fun s path => (view s).ReadDir path) walker fuel (walkPath base0 rel0) s =
          (.ok (), runWalker walker (rels.map (fun rel => walkPath base0 (rel0 ++ rel))) s) ∧
        Inv (runWalker walker (rels.map (fun rel => walkPath base0 (rel0 ++ rel))) s) ∧
        rels.Nodup ∧ (∀ rel ∈ rels, ∀ seg ∈ rel, properSegment seg) ∧
        (∀ rel, rel ∈ rels ↔ ∃ c, fs0.get (resolve base0 ++ rel0 ++ rel) = some (.file c)) := by
  intro fuel
  induction fuel with
  | zero =>
    intro rel0 s _ _ hdir hfuel
    have := hfuel _ (get_some_mem fs0 _ _ hdir)
    simp at this
  | succ fuel ih =>
    intro rel0 s hs hrel0 hdir hfuel
    have hres : resolve (walkPath base0 rel0) = resolve base0 ++ rel0 :=
      resolve_walkPath base0 rel0 hrel0
    obtain ⟨hnd, hsame⟩ := hview s hs
    have hfis : ∀ fi ∈ (view s).Children (resolve base0 ++ rel0), properSegment fi.Name ∧
        ∃ n, fs0.get ((resolve base0 ++ rel0) ++ [fi.Name]) = some n ∧ n.IsDir = fi.IsDir := by
      intro fi hfi
      obtain ⟨n, hmem, hd⟩ := (mem_children _ _ fi).1 hfi
      have hget := (get_eq_some_iff _ hnd _ n).2 hmem
      rw [List.append_assoc, hsame] at hget
      refine ⟨?_, n, by rw [List.append_assoc]; exact hget, hd⟩
      exact wf_proper fs0 hwf (resolve base0) (rel0 ++ [fi.Name]) n hget fi.Name (by simp)
    have hloop := walkLoop_spec (WalkFiles (fun s path => (view s).ReadDir path) walker fuel)
      walker Inv fs0 hwf (walkPath base0 rel0) (resolve base0 ++ rel0)
      (by
        intro name s₂ hs₂ hname hn
        have hrel : ∀ seg ∈ rel0 ++ [name], properSegment seg := by
          intro seg hseg
          rcases List.mem_append.1 hseg with h | h
          · exact hrel0 seg h
          · rw [List.mem_singleton] at h; rw [h]; exact hname
        obtain ⟨rels, h1, h2, h3, h4, h5⟩ := ih (rel0 ++ [name]) s₂ hs₂ hrel
          (by rw [← List.append_assoc]; exact hn)
          (by
            intro e he
            have := hfuel e he
            simp only [List.length_append, List.length_singleton] at this ⊢
            omega)
        have hmap : rels.map (fun rel => walkPath base0 (rel0 ++ [name] ++ rel)) =
            rels.map (fun rel => walkPath (walkPath base0 rel0) (name :: rel)) := by
          apply List.map_congr_left
          intro rel _
          rw [List.append_assoc, walkPath_append_rel]
          rfl
        rw [hmap, walkPath_append] at h1
        rw [hmap] at h2
        refine ⟨rels, h1, h2, h3, h4, fun rel => ?_⟩
        rw [h5 rel]
        simp only [List.append_assoc, List.singleton_append])
      (by
        intro name s₂ c hs₂ hname hn
        have hrel : ∀ seg ∈ rel0 ++ [name], properSegment seg := by
          intro seg hseg
          rcases List.mem_append.1 hseg with h | h
          · exact hrel0 seg h
          · rw [List.mem_singleton] at h; rw [h]; exact hname
        have := hwalker s₂ (rel0 ++ [name]) c hs₂ hrel (by rw [← List.append_assoc]; exact hn)
        rw [walkPath_append] at this
        exact this)
      ((view s).Children (resolve base0 ++ rel0))
      (children_names_nodup _ hnd _) hfis s hs
    obtain ⟨rels, h1, h2, h3, h4, h5⟩ := hloop
    have hmap : rels.map (fun rel => walkPath base0 (rel0 ++ rel)) =
        rels.map (walkPath (walkPath base0 rel0)) := by
      apply List.map_congr_left
      intro rel _
      exact walkPath_append_rel _ _ _
    refine ⟨rels, ?_, ?_, h3, h4, fun rel => ?_⟩
    · rw [hmap]
      simp only [WalkFiles, Memory.ReadDir, hres]
      exact h1
    · rw [hmap]; exact h2
    · rw [h5 rel]
      constructor
      · rintro ⟨_, _, _, c, _, hc⟩
        exact ⟨c, hc⟩
      · rintro ⟨c, hc⟩
        cases rel with
        | nil =>
          rw [List.append_nil, hdir] at hc
          cases hc
        | cons name rest =>
          have h6 : fs0.get (((resolve base0 ++ rel0) ++ [name]) ++ rest) = some (.file c) := by
            rw [List.append_assoc]; exact hc
          have hchild : ∃ n, fs0.get ((resolve base0 ++ rel0) ++ [name]) = some n := by
            by_cases hrest : rest = []
            · rw [hrest, List.append_nil] at h6
              exact ⟨_, h6⟩
            · exact ⟨_, wf_ancestor fs0 hwf _ rest _ h6 hrest⟩
          obtain ⟨n, hn⟩ := hchild
          have hn₂ : (view s).get ((resolve base0 ++ rel0) ++ [name]) = some n := by
            rw [List.append_assoc, hsame, ← List.append_assoc]; exact hn
          have hmem := (get_eq_some_iff _ hnd _ n).1 hn₂
          exact ⟨{ Name := name, IsDir := n.IsDir }, (mem_children _ _ _).2 ⟨n, hmem, rfl⟩,
            rest, c, rfl, hc⟩

end filesystem

namespace filesystem

open billy

/-! ## `recursiveFilesInDir` and the errors of `Replace` -/

theorem runWalker_collect (l files : List String) :
    runWalker (fun filePath (files : List String) => ((Except.ok () : Except FsError Unit),
      files ++ [filePath])) l files = files ++ l := by
  induction l generalizing files with
  | nil => simp [runWalker]
  | cons p rest ih => simp [runWalker, ih]

/-- On a directory of a well-formed storage, with enough fuel for the depth of the storage,
`recursiveFilesInDir` returns one path for each file below the directory. -/
theorem recursiveFilesInDir_spec (fs : Memory) (hwf : fs.WellFormed) (dir : String)
    (hdir : fs.get (resolve dir) = some .dir) (fuel : Nat)
    (hfuel : ∀ e ∈ fs.files, e.1.length < fuel) :
    ∃ rels : List (List String),
      recursiveFilesInDir fuel fs dir = .ok (rels.map (walkPath dir)) ∧
      rels.Nodup ∧ (∀ rel ∈ rels, ∀ seg ∈ rel, properSegment seg) ∧
      (∀ rel, rel ∈ rels ↔ ∃ c, fs.get (resolve dir ++ rel) = some (.file c)) := by
  obtain ⟨rels, h1, _, h3, h4, h5⟩ := walkFiles_spec (fun _ : List String => fs)
    (fun filePath (files : List String) => ((Except.ok () : Except FsError Unit),
      files ++ [filePath]))
    (fun _ => True) fs hwf dir (fun _ _ => ⟨hwf.nodup, fun _ => rfl⟩)
    (fun s rel c _ _ _ => ⟨_, rfl, trivial⟩) fuel [] [] trivial (by simp)
    (by rw [List.append_nil]; exact hdir)
    (fun e he => Nat.lt_of_lt_of_le (hfuel e he) (Nat.le_add_right _ _))
  refine ⟨rels, ?_, h3, h4, fun rel => ?_⟩
  · have h1' : WalkFiles (fun _ path => fs.ReadDir path)
        (fun filePath (files : List String) => ((Except.ok () : Except FsError Unit),
          files ++ [filePath])) fuel dir [] =
        (.ok (), rels.map (walkPath dir)) := by
      have := h1
      simp only [walkPath, List.foldl_nil, List.nil_append, runWalker_collect] at this
      exact this
    unfold recursiveFilesInDir
    rw [h1']
  · rw [h5 rel, List.append_nil]

/-- C14: `Replace` returns `ErrSourceDirNotExists` when the source path has no entry, and
`ErrSourceDirEmpty` when it is a directory without a regular file at any depth (in a
well-formed storage, with enough fuel for its depth); in both cases the storage, the
contents of the target directory included, is the one before the call. -/
theorem replace_errors (fuel : Nat) (fs : Memory) (srcDir targetDir : String) :
    (fs.get (resolve srcDir) = none →
      Replace fuel fs srcDir targetDir = (.error .errSourceDirNotExists, fs)) ∧
    (fs.WellFormed → fs.get (resolve srcDir) = some .dir →
      (∀ rel c, fs.get (resolve srcDir ++ rel) ≠ some (.file c)) →
      (∀ e ∈ fs.files, e.1.length < fuel) →
      Replace fuel fs srcDir targetDir = (.error .errSourceDirEmpty, fs)) := by
  constructor
  · intro h
    simp [Replace, Memory.Stat, h]
  · intro hwf hdir hnone hfuel
    obtain ⟨rels, h1, _, _, h4⟩ := recursiveFilesInDir_spec fs hwf srcDir hdir fuel hfuel
    have hrels : rels = [] := by
      cases rels with
      | nil => rfl
      | cons rel rest =>
        obtain ⟨c, hc⟩ := (h4 rel).1 (List.mem_cons_self _ _)
        exact absurd hc (hnone rel c)
    subst hrels
    simp [Replace, Memory.Stat, hdir, Node.IsDir, h1]

theorem exampleFS_wellFormed : exampleFS.WellFormed := by
  refine ⟨by decide, ?_, ?_⟩
  · intro k n h
    simp only [exampleFS, List.mem_cons, Prod.mk.injEq, List.mem_nil_iff, or_false] at h
    rcases h with h | h | h | h | h | h | h | h | h <;> rw [h.1] <;> decide
  · intro k n h
    simp only [exampleFS, List.mem_cons, Prod.mk.injEq, List.mem_nil_iff, or_false] at h
    rcases h with h | h | h | h | h | h | h | h | h <;> rw [h.1] <;> decide

theorem replace_errors_witness :
    Replace 4 exampleFS "/nothing" "/target" = (.error .errSourceDirNotExists, exampleFS) ∧
      Replace 4 exampleFS "/empty" "/target" = (.error .errSourceDirEmpty, exampleFS) := by
  have h := replace_errors 4 exampleFS "/nothing" "/target"
  have h₂ := replace_errors 4 exampleFS "/empty" "/target"
  refine ⟨h.1 (by decide), h₂.2 exampleFS_wellFormed (by decide) ?_ (by decide)⟩
  intro rel c hc
  have hmem := get_some_mem _ _ _ hc
  have hres : resolve "/empty" = ["empty"] := by decide
  rw [hres] at hmem
  simp only [exampleFS, List.mem_cons, Prod.mk.injEq, List.mem_nil_iff, or_false] at hmem
  rcases hmem with h | h | h | h | h | h | h | h | h <;> simp at h

end filesystem

/-! ## The kustomization of a cluster -/

theorem stringsJoin_append_single (L : List String) (hne : L ≠ []) (x sep : String) :
    stringsJoin (L ++ [x]) sep = stringsJoin L sep ++ sep ++ x := by
  induction L with
  | nil => exact absurd rfl hne
  | cons a rest ih =>
    cases rest with
    | nil => rfl
    | cons b rest =>
      show a ++ sep ++ stringsJoin ((b :: rest) ++ [x]) sep =
        a ++ sep ++ stringsJoin (b :: rest) sep ++ sep ++ x
      rw [ih (by simp)]
      simp only [String.append_assoc]

namespace kustomization

open billy clusterconf

theorem rangeLoop_eq (names : List String) (L : List String) (hne : L ≠ []) :
    rangeLoop (stringsJoin L "\n") names =
      stringsJoin (L ++ names.map (fun name => "  - ./" ++ name)) "\n" := by
  induction names generalizing L with
  | nil => simp [rangeLoop]
  | cons name rest ih =>
    have hstep : stringsJoin L "\n" ++ "\n  - ./" ++ name =
        stringsJoin (L ++ ["  - ./" ++ name]) "\n" := by
      rw [stringsJoin_append_single L hne]
      apply String.ext
      simp [String.data_append]
    simp only [rangeLoop, hstep]
    rw [ih (L ++ ["  - ./" ++ name]) (by simp)]
    simp

theorem kustomizationTemplate_eq (dirNames : List String) :
    kustomizationTemplate dirNames =
      stringsJoin
        (["---", "apiVersion: kustomize.config.k8s.io/v1beta1", "kind: Kustomization",
          "resources:"] ++ dirNames.map (fun name => "  - ./" ++ name)) "\n" ++ "\n" := by
  unfold kustomizationTemplate
  rw [← rangeLoop_eq dirNames _ (by simp)]
  rfl

/-- C15: after `Kust.Write` has succeeded on a storage with one entry per key, let the
directory names be the names of the immediate subdirectories of the manifest folder of the
cluster, in strictly ascending order. If there is one at least,
`<manifestFolder>/kustomization.yaml` holds the lines `---`,
`apiVersion: kustomize.config.k8s.io/v1beta1`, `kind: Kustomization`, `resources:` and one
line `  - ./<name>` per directory name in that order, each line ended by a newline; if there
is none, `<manifestFolder>/kustomization.yaml` does not exist. -/
theorem kustWrite_spec (fs fs₁ : Memory) (cluster : Cluster)
    (hnd : (fs.files.map Prod.fst).Nodup) (h : Kust.Write fs cluster = (.ok (), fs₁)) :
    ∃ dirNames : List String,
      dirNames.Sorted (fun a b => a < b) ∧
      (∀ name, name ∈ dirNames ↔
        fs.get (resolve cluster.ManifestFolder ++ [name]) = some .dir) ∧
      (dirNames ≠ [] →
        fs₁.get (resolve cluster.ManifestFolder ++ ["kustomization.yaml"]) =
          some (.file (stringsJoin
            (["---", "apiVersion: kustomize.config.k8s.io/v1beta1", "kind: Kustomization",
              "resources:"] ++ dirNames.map (fun name => "  - ./" ++ name)) "\n" ++ "\n"))) ∧
      (dirNames = [] →
        fs₁.get (resolve cluster.ManifestFolder ++ ["kustomization.yaml"]) = none) := by
  have hres : resolve (filepathJoin [cluster.ManifestFolder, KustomizationFile]) =
      resolve cluster.ManifestFolder ++ ["kustomization.yaml"] :=
    resolve_join_name _ _ (by decide)
  have hnames : (((fs.Children (resolve cluster.ManifestFolder)).filter
      (fun f => f.IsDir)).map (fun f => f.Name)).Nodup :=
    List.Nodup.sublist (List.Sublist.map _ (List.filter_sublist _))
      (children_names_nodup fs hnd _)
  refine ⟨sortStrings (((fs.Children (resolve cluster.ManifestFolder)).filter
      (fun f => f.IsDir)).map (fun f => f.Name)), sortStrings_sorted_lt _ hnames, ?_, ?_, ?_⟩
  · intro name
    rw [sortStrings_mem, List.mem_map]
    constructor
    · rintro ⟨fi, hfi, hname⟩
      obtain ⟨hmem, hdir⟩ := List.mem_filter.1 hfi
      obtain ⟨n, hn, hnd₂⟩ := (mem_children fs _ fi).1 hmem
      rw [hdir] at hnd₂
      rw [← hname, (get_eq_some_iff fs hnd _ n).2 hn, node_is_dir hnd₂]
    · intro hget
      have hmem := (get_eq_some_iff fs hnd _ _).1 hget
      exact ⟨{ Name := name, IsDir := true },
        List.mem_filter.2 ⟨(mem_children fs _ _).2 ⟨.dir, hmem, rfl⟩, rfl⟩, rfl⟩
  · intro hne
    have hlen : (sortStrings (((fs.Children (resolve cluster.ManifestFolder)).filter
        (fun f => f.IsDir)).map (fun f => f.Name))).length > 0 :=
      List.length_pos.2 hne
    simp only [Kust.Write, filesystem.DirsInDir, Memory.ReadDir, hlen, if_true, Kust.write,
      Memory.Create, hres] at h
    rw [← kustomizationTemplate_eq]
    cases hget : fs.get (resolve cluster.ManifestFolder ++ ["kustomization.yaml"]) with
    | none =>
      rw [hget] at h
      obtain ⟨fs₂, h1, _⟩ := new_spec fs _ (.file "") hnd hget
      rw [h1] at h
      simp only [Memory.Write, hres, Prod.mk.injEq, true_and] at h
      rw [← h, get_put, if_pos rfl]
    | some n =>
      cases n with
      | dir =>
        rw [hget] at h
        simp at h
      | file c =>
        rw [hget] at h
        simp only [Memory.Write, hres, Prod.mk.injEq, true_and] at h
        rw [← h, get_put, if_pos rfl]
  · intro hnil
    have hlen : ¬ (sortStrings (((fs.Children (resolve cluster.ManifestFolder)).filter
        (fun f => f.IsDir)).map (fun f => f.Name))).length > 0 := by
      rw [hnil]; simp
    simp only [Kust.Write, filesystem.DirsInDir, Memory.ReadDir, hlen, if_false, Kust.delete,
      Memory.Remove, hres] at h
    cases hget : fs.get (resolve cluster.ManifestFolder ++ ["kustomization.yaml"]) with
    | none =>
      rw [hget] at h
      simp at h
    | some n =>
      rw [hget] at h
      simp only at h
      split at h
      · simp at h
      · simp only [Prod.mk.injEq, true_and] at h
        rw [← h]
        have := lookupEntry_filter fs.files
          (fun k => decide (k ≠ resolve cluster.ManifestFolder ++ ["kustomization.yaml"]))
          (resolve cluster.ManifestFolder ++ ["kustomization.yaml"])
        simp only [ne_eq, not_true_eq_false, decide_False, Bool.false_eq_true, if_false] at this
        exact this

theorem kustWrite_spec_witness :
    (Kust.Write exampleWorktree (exampleCluster "development" "dev2" "cloud1")).1 = .ok () ∧
    (Kust.Write exampleWorktree (exampleCluster "development" "dev2" "cloud1")).2.get
        ["flux", "promoted", "development", "dev2", "cloud1", "kustomization.yaml"] =
      some (.file ("---\napiVersion: kustomize.config.k8s.io/v1beta1\nkind: Kustomization\n" ++
        "resources:\n  - ./bar\n  - ./foo\n")) ∧
    ∃ dirNames : List String,
      dirNames.Sorted (fun a b => a < b) ∧
      (∀ name, name ∈ dirNames ↔
        exampleWorktree.get (resolve "/flux/promoted/development/dev2/cloud1" ++ [name]) =
          some .dir) ∧
      (dirNames ≠ [] →
        (Kust.Write exampleWorktree (exampleCluster "development" "dev2" "cloud1")).2.get
            (resolve "/flux/promoted/development/dev2/cloud1" ++ ["kustomization.yaml"]) =
          some (.file (stringsJoin
            (["---", "apiVersion: kustomize.config.k8s.io/v1beta1", "kind: Kustomization",
              "resources:"] ++ dirNames.map (fun name => "  - ./" ++ name)) "\n" ++ "\n"))) ∧
      (dirNames = [] →
        (Kust.Write exampleWorktree (exampleCluster "development" "dev2" "cloud1")).2.get
            (resolve "/flux/promoted/development/dev2/cloud1" ++ ["kustomization.yaml"]) =
          none) :=
  ⟨by decide, by decide,
    kustWrite_spec exampleWorktree
      (Kust.Write exampleWorktree (exampleCluster "development" "dev2" "cloud1")).2
      (exampleCluster "development" "dev2" "cloud1") (by decide) (by decide)⟩

end kustomization

namespace filesystem

open billy

/-! ## `Replace` copies the files of the source directory -/

theorem mkdirAll_spec (s : Memory) (D : String) (hnd : (s.files.map Prod.fst).Nodup)
    (hfile : ∀ c, s.get (resolve D) ≠ some (.file c)) :
    ∃ s₂, s.MkdirAll D = (.ok (), s₂) ∧ (s₂.files.map Prod.fst).Nodup ∧
      (∀ k n, s.get k = some n → s₂.get k = some n) ∧
      (∀ k n, s₂.get k = some n → s.get k = some n ∨ (n = .dir ∧ k <+: resolve D)) := by
  cases hget : s.get (resolve D) with
  | none =>
    obtain ⟨s₂, h1, h2, h3, h4, h5⟩ := new_spec s (resolve D) .dir hnd hget
    refine ⟨s₂, by simpa [Memory.MkdirAll] using h1, h2, h4, ?_⟩
    intro k n hk
    rcases h5 k n hk with h | h | h
    · right
      rw [h] at hk
      rw [h3] at hk
      cases hk
      exact ⟨rfl, by rw [h]⟩
    · exact Or.inl h
    · exact Or.inr ⟨h.1, h.2.1⟩
  | some n₀ =>
    cases n₀ with
    | file c => exact absurd hget (hfile c)
    | dir => exact ⟨s, by simp [Memory.MkdirAll, Memory.New, hget], hnd, fun _ _ h => h,
        fun _ _ h => Or.inl h⟩

theorem dropLast_prefix_self (K : Key) : K.dropLast <+: K := by
  rw [List.dropLast_eq_take]
  exact List.take_prefix _ _

theorem not_prefix_dropLast (K : Key) (hK : K ≠ []) : ¬ K <+: K.dropLast := by
  intro h
  have := List.IsPrefix.length_le h
  rw [List.length_dropLast] at this
  have := List.length_pos.2 hK
  omega

/-- One call of the walker of `Replace`, for a file with content `c` whose copy gets the key
`K`: it succeeds when no file stands at the parent of `K` and no directory at `K`, stores the
content at `K`, keeps every other entry and adds only directories above `K`. -/
theorem replaceWalker_spec (s : Memory) (srcDir targetDir file : String) (K : Key) (c : String)
    (hK : K ≠ [])
    (hN : resolve (filepathJoin [targetDir, stringsTrimPrefix file srcDir]) = K)
    (hD : resolve (filepathDir (filepathJoin [targetDir, stringsTrimPrefix file srcDir])) =
      K.dropLast)
    (hnd : (s.files.map Prod.fst).Nodup) (hF : s.get (resolve file) = some (.file c))
    (hP1 : ∀ c₁, s.get K.dropLast ≠ some (.file c₁)) (hP2 : s.get K ≠ some .dir) :
    ∃ s₄, replaceWalker srcDir targetDir file s = (.ok (), s₄) ∧
      (s₄.files.map Prod.fst).Nodup ∧ s₄.get K = some (.file c) ∧
      (∀ k n, k ≠ K → s.get k = some n → s₄.get k = some n) ∧
      (∀ k n, k ≠ K → s₄.get k = some n →
        s.get k = some n ∨ (n = .dir ∧ k <+: K ∧ k ≠ K)) := by
  obtain ⟨s₂, hm, hnd₂, hkeep₂, hnew₂⟩ := mkdirAll_spec s _ hnd (by rw [hD]; exact hP1)
  rw [hD] at hnew₂
  have hF₂ : s₂.get (resolve file) = some (.file c) := hkeep₂ _ _ hF
  have hcreate : ∃ s₃, s₂.Create (filepathJoin [targetDir, stringsTrimPrefix file srcDir]) =
      (.ok (), s₃) ∧ (s₃.files.map Prod.fst).Nodup ∧
      (∀ k n, k ≠ K → s₂.get k = some n → s₃.get k = some n) ∧
      (∀ k n, k ≠ K → s₃.get k = some n →
        s₂.get k = some n ∨ (n = .dir ∧ k <+: K ∧ k ≠ K)) := by
    cases hget : s₂.get K with
    | none =>
      obtain ⟨s₃, h1, h2, _, h4, h5⟩ := new_spec s₂ K (.file "") hnd₂ hget
      refine ⟨s₃, by simp [Memory.Create, hN, hget, h1], h2, fun k n _ h => h4 k n h, ?_⟩
      intro k n hk h
      rcases h5 k n h with h6 | h6 | h6
      · exact absurd h6 hk
      · exact Or.inl h6
      · exact Or.inr h6
    | some n₀ =>
      cases n₀ with
      | dir =>
        exfalso
        rcases hnew₂ K .dir hget with h | h
        · exact hP2 h
        · exact not_prefix_dropLast K hK h.2
      | file c₁ =>
        refine ⟨s₂.put K (.file ""), by simp [Memory.Create, hN, hget], nodup_put _ _ _ hnd₂,
          ?_, ?_⟩
        · intro k n hk h
          rw [get_put, if_neg (fun h => hk h.symm)]
          exact h
        · intro k n hk h
          rw [get_put, if_neg (fun h => hk h.symm)] at h
          exact Or.inl h
  obtain ⟨s₃, hc, hnd₃, hkeep₃, hnew₃⟩ := hcreate
  refine ⟨s₃.put K (.file c), ?_, nodup_put _ _ _ hnd₃, by rw [get_put, if_pos rfl], ?_, ?_⟩
  · simp only [replaceWalker, hm, Memory.Open, hF₂, hc, Memory.Write, hN]
  · intro k n hk h
    rw [get_put, if_neg (fun h => hk h.symm)]
    exact hkeep₃ k n hk (hkeep₂ k n h)
  · intro k n hk h
    rw [get_put, if_neg (fun h => hk h.symm)] at h
    rcases hnew₃ k n hk h with h6 | h6
    · rcases hnew₂ k n h6 with h7 | h7
      · exact Or.inl h7
      · exact Or.inr ⟨h7.1, h7.2.trans (dropLast_prefix_self K), hk⟩
    · exact Or.inr h6

end filesystem

namespace filesystem

open billy

theorem not_prefix_append (src tgt : Key) (h₁ : ¬ src <+: tgt) (h₂ : ¬ tgt <+: src)
    (r r₂ : List String) : ¬ (src ++ r <+: tgt ++ r₂) := by
  intro h
  have h3 : src <+: tgt ++ r₂ := (List.prefix_append src r).trans h
  have h4 : tgt <+: tgt ++ r₂ := List.prefix_append tgt r₂
  rcases List.prefix_or_prefix_of_prefix h3 h4 with h5 | h5
  · exact h₁ h5
  · exact h₂ h5

theorem dropLast_append_rel (tgt : Key) (rel : List String) (hne : rel ≠ []) :
    (tgt ++ rel).dropLast = tgt ++ rel.dropLast :=
  List.dropLast_append_of_ne_nil _ hne

/-- One step of the copy loop of `Replace` keeps `ReplaceInv`, stores the copy of the file
and keeps the copies made before. -/
theorem replace_step (fs : Memory) (hwf : fs.WellFormed) (srcDir targetDir : String)
    (hdir : fs.get (resolve srcDir) = some .dir)
    (h₁ : ¬ resolve srcDir <+: resolve targetDir) (h₂ : ¬ resolve targetDir <+: resolve srcDir)
    (htrim : ∀ rel, rel ≠ [] → (∀ seg ∈ rel, properSegment seg) →
      stringsTrimPrefix (walkPath srcDir rel) srcDir = joinSlash rel ∨
        stringsTrimPrefix (walkPath srcDir rel) srcDir = "/" ++ joinSlash rel)
    (s : Memory) (hInv : ReplaceInv fs (resolve srcDir) (resolve targetDir) s)
    (rel : List String) (hrel : ∀ seg ∈ rel, properSegment seg) (c : String)
    (hfile : fs.get (resolve srcDir ++ rel) = some (.file c)) :
    ∃ s₁, replaceWalker srcDir targetDir (walkPath srcDir rel) s = (.ok (), s₁) ∧
      ReplaceInv fs (resolve srcDir) (resolve targetDir) s₁ ∧
      s₁.get (resolve targetDir ++ rel) = some (.file c) ∧
      (∀ rel₂ c₂, s.get (resolve targetDir ++ rel₂) = some (.file c₂) →
        s₁.get (resolve targetDir ++ rel₂) = some (.file c₂)) := by
  obtain ⟨hnd, hsrc, hcopy, hout⟩ := hInv
  have hne : rel ≠ [] := by
    intro h0
    rw [h0, List.append_nil, hdir] at hfile
    cases hfile
  have hK : resolve targetDir ++ rel ≠ [] := by simp [hne]
  obtain ⟨hN, hD⟩ := resolve_dir_join_rel targetDir
    (stringsTrimPrefix (walkPath srcDir rel) srcDir) rel hne hrel (htrim rel hne hrel)
  rw [← dropLast_append_rel _ _ hne] at hD
  have hparent : fs.get (resolve srcDir ++ rel.dropLast) = some .dir := by
    have h3 : fs.get ((resolve srcDir ++ rel.dropLast) ++ [rel.getLast hne]) =
        some (.file c) := by
      rw [List.append_assoc, List.dropLast_append_getLast]; exact hfile
    exact wf_ancestor fs hwf _ _ _ h3 (by simp)
  obtain ⟨s₄, hw, hnd₄, hb, hc, hd⟩ := replaceWalker_spec s srcDir targetDir
    (walkPath srcDir rel) (resolve targetDir ++ rel) c hK hN hD hnd
    (by rw [resolve_walkPath srcDir rel hrel, hsrc]; exact hfile)
    (by
      intro c₁ h3
      rw [dropLast_append_rel _ _ hne] at h3
      have := (hcopy rel.dropLast).1 c₁ h3
      rw [hparent] at this
      cases this)
    (by
      intro h3
      have := (hcopy rel).2 h3
      rw [hfile] at this
      cases this)
  have hsrcK : ∀ r, resolve srcDir ++ r ≠ resolve targetDir ++ rel := by
    intro r heq
    exact not_prefix_append _ _ h₁ h₂ r rel (by rw [heq])
  refine ⟨s₄, hw, ⟨hnd₄, ?_, ?_, ?_⟩, hb, ?_⟩
  · intro r
    rw [← hsrc r]
    cases hget : s.get (resolve srcDir ++ r) with
    | some n => exact hc _ n (hsrcK r) hget
    | none =>
      cases hget₄ : s₄.get (resolve srcDir ++ r) with
      | none => rfl
      | some n =>
        rcases hd _ n (hsrcK r) hget₄ with h | h
        · rw [hget] at h; cases h
        · exact absurd h.2.1 (not_prefix_append _ _ h₁ h₂ r rel)
  · intro r
    by_cases hr : r = rel
    · subst hr
      constructor
      · intro c₂ h3
        rw [hb] at h3
        cases h3
        exact hfile
      · intro h3
        rw [hb] at h3
        cases h3
    · have hk : resolve targetDir ++ r ≠ resolve targetDir ++ rel :=
        fun h => hr (List.append_cancel_left h)
      constructor
      · intro c₂ h3
        rcases hd _ _ hk h3 with h | h
        · exact (hcopy r).1 c₂ h
        · cases h.1
      · intro h3
        rcases hd _ _ hk h3 with h | h
        · exact (hcopy r).2 h
        · obtain ⟨t, ht⟩ := (List.prefix_append_right_inj _).1 h.2.1
          have htne : t ≠ [] := by
            intro h0
            rw [h0, List.append_nil] at ht
            exact hr ht
          have h4 : fs.get ((resolve srcDir ++ r) ++ t) = some (.file c) := by
            rw [List.append_assoc, ht]; exact hfile
          exact wf_ancestor fs hwf _ _ _ h4 htne
  · intro k hk c₂
    have hkK : k ≠ resolve targetDir ++ rel := by
      intro heq
      exact hk (by rw [heq]; exact List.prefix_append _ _)
    rw [← hout k hk c₂]
    constructor
    · intro h3
      rcases hd _ _ hkK h3 with h | h
      · exact h
      · cases h.1
    · intro h3
      exact hc _ _ hkK h3
  · intro rel₂ c₂ h3
    by_cases hr : rel₂ = rel
    · subst hr
      have := (hcopy rel₂).1 c₂ h3
      rw [hfile] at this
      cases this
      exact hb
    · exact hc _ _ (fun h => hr (List.append_cancel_left h)) h3

/-- The copy loop of `Replace` over a list of files of the source directory keeps
`ReplaceInv` and leaves a copy of each file of the list below the target directory. -/
theorem replace_fold (fs : Memory) (hwf : fs.WellFormed) (srcDir targetDir : String)
    (hdir : fs.get (resolve srcDir) = some .dir)
    (h₁ : ¬ resolve srcDir <+: resolve targetDir) (h₂ : ¬ resolve targetDir <+: resolve srcDir)
    (htrim : ∀ rel, rel ≠ [] → (∀ seg ∈ rel, properSegment seg) →
      stringsTrimPrefix (walkPath srcDir rel) srcDir = joinSlash rel ∨
        stringsTrimPrefix (walkPath srcDir rel) srcDir = "/" ++ joinSlash rel)
    (rels : List (List String))
    (hrels : ∀ rel ∈ rels, (∀ seg ∈ rel, properSegment seg) ∧
      ∃ c, fs.get (resolve srcDir ++ rel) = some (.file c)) :
    ∀ s, ReplaceInv fs (resolve srcDir) (resolve targetDir) s →
      ReplaceInv fs (resolve srcDir) (resolve targetDir)
          (runWalker (replaceWalker srcDir targetDir) (rels.map (walkPath srcDir)) s) ∧
        (∀ rel ∈ rels, ∀ c, fs.get (resolve srcDir ++ rel) = some (.file c) →
          (runWalker (replaceWalker srcDir targetDir) (rels.map (walkPath srcDir)) s).get
            (resolve targetDir ++ rel) = some (.file c)) ∧
        (∀ rel₂ c₂, s.get (resolve targetDir ++ rel₂) = some (.file c₂) →
          (runWalker (replaceWalker srcDir targetDir) (rels.map (walkPath srcDir)) s).get
            (resolve targetDir ++ rel₂) = some (.file c₂)) := by
  induction rels with
  | nil =>
    intro s hs
    exact ⟨hs, by simp, fun _ _ h => h⟩
  | cons rel rest ih =>
    intro s hs
    obtain ⟨hproper, c, hc⟩ := hrels rel (List.mem_cons_self _ _)
    obtain ⟨s₁, hw, hinv₁, hcopy₁, hmono₁⟩ :=
      replace_step fs hwf srcDir targetDir hdir h₁ h₂ htrim s hs rel hproper c hc
    obtain ⟨hinv, hall, hmono⟩ :=
      ih (fun rel₂ h => hrels rel₂ (List.mem_cons_of_mem _ h)) s₁ hinv₁
    have hs₁ : (replaceWalker srcDir targetDir (walkPath srcDir rel) s).2 = s₁ := by rw [hw]
    simp only [List.map_cons, runWalker, hs₁]
    refine ⟨hinv, ?_, fun rel₂ c₂ h => hmono rel₂ c₂ (hmono₁ rel₂ c₂ h)⟩
    intro rel₂ hmem c₂ hc₂
    rcases List.mem_cons.1 hmem with h | h
    · subst h
      rw [hc] at hc₂
      cases hc₂
      exact hmono _ _ hcopy₁
    · exact hall rel₂ h c₂ hc₂

end filesystem

namespace filesystem

open billy

theorem removeAll_inv (fs : Memory) (hwf : fs.WellFormed) (src tgt : Key)
    (h₁ : ¬ src <+: tgt) (h₂ : ¬ tgt <+: src) :
    ReplaceInv fs src tgt { files := fs.files.filter (fun e => !tgt.isPrefixOf e.1) } := by
  have hget : ∀ k, Memory.get { files := fs.files.filter (fun e => !tgt.isPrefixOf e.1) } k =
      if tgt <+: k then none else fs.get k := by
    intro k
    have := lookupEntry_filter fs.files (fun k => !tgt.isPrefixOf k) k
    unfold Memory.get
    rw [this]
    by_cases hk : tgt <+: k
    · have : tgt.isPrefixOf k = true := (List.isPrefixOf_iff_prefix).2 hk
      simp [hk, this]
    · have : tgt.isPrefixOf k = false := by
        cases h : tgt.isPrefixOf k with
        | false => rfl
        | true => exact absurd ((List.isPrefixOf_iff_prefix).1 h) hk
      simp [hk, this]
  refine ⟨nodup_filter _ _ hwf.nodup, ?_, ?_, ?_⟩
  · intro rel
    rw [hget, if_neg]
    intro h
    have h3 : src <+: src ++ rel := List.prefix_append _ _
    rcases List.prefix_or_prefix_of_prefix h3 h with h5 | h5
    · exact h₁ h5
    · exact h₂ h5
  · intro rel
    rw [hget, if_pos (List.prefix_append _ _)]
    constructor
    · intro c h
      cases h
    · intro h
      cases h
  · intro k hk c
    rw [hget, if_neg hk]

/-- C13, evaluated where the claim fails: the source directory `./src` is a directory that
holds the regular file `file`, and it does not overlap the target directory `/target`;
`Replace` succeeds but puts the copy of `src/file` at `target/src/file`, and there is no
`target/file`. -/
theorem replace_unclean_source :
    exampleFS.get (resolve "./src") = some .dir ∧
      exampleFS.get (resolve "./src" ++ ["file"]) = some (.file "content") ∧
      ¬ resolve "./src" <+: resolve "/target" ∧ ¬ resolve "/target" <+: resolve "./src" ∧
      (Replace 4 exampleFS "./src" "/target").1 = .ok () ∧
      (Replace 4 exampleFS "./src" "/target").2.get (resolve "/target" ++ ["file"]) = none ∧
      (Replace 4 exampleFS "./src" "/target").2.get (resolve "/target" ++ ["src", "file"]) =
        some (.file "content") := by
  decide

/-- `Replace` on a source directory whose prefix is found in the paths of its files: let the
source directory be given by a clean path other than `.` without a `..` segment, or by such
a path followed by a slash, and the target directory by a path that does not lead out of the
root. In a well-formed storage in which the source is a directory with a regular file at
some depth and neither it nor the target directory lies within the other, `Replace`
succeeds (with enough fuel for the depth of the storage);
afterwards the files below the target directory are the files below the source directory, at
the same relative paths and with the same contents, every file outside the target directory
is as before, and so is every entry below the source directory. -/
theorem replace_spec (fuel : Nat) (fs : Memory) (srcDir targetDir C : String)
    (hwf : fs.WellFormed) (hclean : filepathClean C = C) (hdot : C ≠ ".")
    (hdd : ".." ∉ splitSlash C)
    (hform : srcDir = C ∨ (srcDir = C ++ "/" ∧ resolve C ≠ []))
    (_hin : isCrossBoundaries targetDir = false)
    (hdir : fs.get (resolve srcDir) = some .dir)
    (hfile : ∃ rel c, fs.get (resolve srcDir ++ rel) = some (.file c))
    (h₁ : ¬ resolve srcDir <+: resolve targetDir) (h₂ : ¬ resolve targetDir <+: resolve srcDir)
    (hfuel : ∀ e ∈ fs.files, e.1.length < fuel) :
    ∃ fs₁, Replace fuel fs srcDir targetDir = (.ok (), fs₁) ∧
      (∀ rel c, fs₁.get (resolve targetDir ++ rel) = some (.file c) ↔
        fs.get (resolve srcDir ++ rel) = some (.file c)) ∧
      (∀ k, ¬ resolve targetDir <+: k → ∀ c,
        fs₁.get k = some (.file c) ↔ fs.get k = some (.file c)) ∧
      (∀ rel, fs₁.get (resolve srcDir ++ rel) = fs.get (resolve srcDir ++ rel)) := by
  have htrim : ∀ rel, rel ≠ [] → (∀ seg ∈ rel, properSegment seg) →
      stringsTrimPrefix (walkPath srcDir rel) srcDir = joinSlash rel ∨
        stringsTrimPrefix (walkPath srcDir rel) srcDir = "/" ++ joinSlash rel := by
    intro rel hne hrel
    rcases hform with h | ⟨h, hroot⟩
    · rw [h, trimPrefix_walkPath_clean C hclean hdot hdd rel hne hrel]
      by_cases h0 : resolve C = []
      · rw [if_pos h0]; exact Or.inl rfl
      · rw [if_neg h0]; exact Or.inr rfl
    · rw [h, trimPrefix_walkPath_trailing C hclean hdot hdd hroot rel hne hrel]
      exact Or.inl rfl
  obtain ⟨rels₀, hlist, _, _, hmem₀⟩ := recursiveFilesInDir_spec fs hwf srcDir hdir fuel hfuel
  have hne₀ : (rels₀.map (walkPath srcDir)).length ≠ 0 := by
    obtain ⟨rel, c, hc⟩ := hfile
    have := (hmem₀ rel).2 ⟨c, hc⟩
    rw [List.length_map]
    exact fun h => List.not_mem_nil rel (by rw [List.length_eq_zero.1 h] at this; exact this)
  have hinv₁ := removeAll_inv fs hwf (resolve srcDir) (resolve targetDir) h₁ h₂
  obtain ⟨rels, hwalk, _, _, hproper, hmem⟩ := walkFiles_spec (fun s : Memory => s)
    (replaceWalker srcDir targetDir) (ReplaceInv fs (resolve srcDir) (resolve targetDir)) fs hwf
    srcDir (fun s hs => ⟨hs.1, hs.2.1⟩)
    (fun s rel c hs hrel hc => by
      obtain ⟨s₁, hw, hinv, _, _⟩ :=
        replace_step fs hwf srcDir targetDir hdir h₁ h₂ htrim s hs rel hrel c hc
      exact ⟨s₁, hw, hinv⟩)
    fuel [] _ hinv₁ (by simp) (by rw [List.append_nil]; exact hdir)
    (fun e he => Nat.lt_of_lt_of_le (hfuel e he) (Nat.le_add_right _ _))
  simp only [List.nil_append, List.append_nil] at hwalk hmem
  have hwalk' : WalkFiles (fun (s : Memory) path => s.ReadDir path)
      (replaceWalker srcDir targetDir) fuel srcDir
      { files := fs.files.filter (fun e => !(resolve targetDir).isPrefixOf e.1) } =
      (.ok (), runWalker (replaceWalker srcDir targetDir) (rels.map (walkPath srcDir))
        { files := fs.files.filter (fun e => !(resolve targetDir).isPrefixOf e.1) }) := by
    have := hwalk
    simp only [walkPath, List.foldl_nil] at this
    exact this
  obtain ⟨hinv, hall, _⟩ := replace_fold fs hwf srcDir targetDir hdir h₁ h₂ htrim rels
    (fun rel h => ⟨hproper rel h, (hmem rel).1 h⟩) _ hinv₁
  refine ⟨_, ?_, ?_, hinv.2.2.2, hinv.2.1⟩
  · simp only [Replace, Memory.Stat, hdir, Node.IsDir, Bool.not_true, Bool.false_eq_true,
      if_false, hlist, hne₀, Memory.RemoveAll, hwalk']
  · intro rel c
    constructor
    · exact (hinv.2.2.1 rel).1 c
    · intro hc
      exact hall rel ((hmem rel).2 ⟨c, hc⟩) c hc

theorem replace_spec_witness :
    ∃ fs₁, Replace 4 exampleFS "/src/" "/target/" = (.ok (), fs₁) ∧
      (∀ rel c, fs₁.get (resolve "/target/" ++ rel) = some (.file c) ↔
        exampleFS.get (resolve "/src/" ++ rel) = some (.file c)) ∧
      (∀ k, ¬ resolve "/target/" <+: k → ∀ c,
        fs₁.get k = some (.file c) ↔ exampleFS.get k = some (.file c)) ∧
      (∀ rel, fs₁.get (resolve "/src/" ++ rel) = exampleFS.get (resolve "/src/" ++ rel)) :=
  replace_spec 4 exampleFS "/src/" "/target/" "/src" exampleFS_wellFormed (by decide)
    (by decide) (by decide) (Or.inr ⟨by decide, by decide⟩) (by decide) (by decide)
    ⟨["file"], "content", by decide⟩ (by decide) (by decide) (by decide)

end filesystem

namespace filesystem

open billy

/-! ## `DirHash` depends on the relative paths and the contents only -/

theorem hashLoop_congr (sha256hex : String → String)
    (open₁ open₂ : String → Except FsError String) (l : List String)
    (h : ∀ name ∈ l, open₁ name = open₂ name) (acc : String) :
    hashLoop sha256hex open₁ acc l = hashLoop sha256hex open₂ acc l := by
  induction l generalizing acc with
  | nil => rfl
  | cons file rest ih =>
    have hrest : ∀ name ∈ rest, open₁ name = open₂ name :=
      fun name hn => h name (List.mem_cons_of_mem _ hn)
    simp only [hashLoop, h file (List.mem_cons_self _ _)]
    split
    · rfl
    · cases open₂ file with
      | error e => rfl
      | ok content => exact ih hrest _

theorem hashLoop_ok (sha256hex : String → String) (open_ : String → Except FsError String)
    (l : List String) (h : ∀ name ∈ l, '\n' ∉ name.toList ∧ ∃ c, open_ name = .ok c)
    (acc : String) : ∃ out, hashLoop sha256hex open_ acc l = .ok out := by
  induction l generalizing acc with
  | nil => exact ⟨acc, rfl⟩
  | cons file rest ih =>
    obtain ⟨hnl, c, hc⟩ := h file (List.mem_cons_self _ _)
    simp only [hashLoop, hnl, if_false, hc]
    exact ih (fun name hn => h name (List.mem_cons_of_mem _ hn)) _

theorem mem_joinSlash (rel : List String) (ch : Char) (h : ch ∈ (joinSlash rel).toList) :
    ch = '/' ∨ ∃ seg ∈ rel, ch ∈ seg.toList := by
  induction rel with
  | nil => simp [joinSlash, String.toList] at h
  | cons a rest ih =>
    cases rest with
    | nil => exact Or.inr ⟨a, List.mem_cons_self _ _, h⟩
    | cons b rest =>
      rw [show joinSlash (a :: b :: rest) = a ++ "/" ++ joinSlash (b :: rest) from rfl,
        toList_append, toList_append, List.mem_append, List.mem_append] at h
      rcases h with (h | h) | h
      · exact Or.inr ⟨a, List.mem_cons_self _ _, h⟩
      · left
        simpa [String.toList] using h
      · rcases ih h with h | ⟨seg, hseg, hch⟩
        · exact Or.inl h
        · exact Or.inr ⟨seg, List.mem_cons_of_mem _ hseg, hch⟩

/-- What `DirHash` computes for a directory given by a clean path: `Hash1` over the relative
positions of the files below it, written with a leading slash except below the root `/`. -/
theorem dirHash_eq (sha256hex sha256base64 : String → String) (fuel : Nat) (fs : Memory)
    (hwf : fs.WellFormed) (dir : String) (hclean : filepathClean dir = dir) (hdot : dir ≠ ".")
    (hdd : ".." ∉ splitSlash dir) (hdir : fs.get (resolve dir) = some .dir)
    (hfuel : ∀ e ∈ fs.files, e.1.length < fuel) :
    ∃ rels : List (List String),
      rels.Nodup ∧ (∀ rel ∈ rels, rel ≠ [] ∧ ∀ seg ∈ rel, properSegment seg) ∧
      (∀ rel, rel ∈ rels ↔ ∃ c, fs.get (resolve dir ++ rel) = some (.file c)) ∧
      DirHash sha256hex sha256base64 fuel fs dir =
        Hash1 sha256hex sha256base64
          (rels.map (fun rel =>
            if resolve dir = [] then joinSlash rel else "/" ++ joinSlash rel))
          (fun s => fs.Open (filepathJoin [dir, s])) := by
  obtain ⟨rels, h1, h2, h3, h4⟩ := recursiveFilesInDir_spec fs hwf dir hdir fuel hfuel
  have hne : ∀ rel ∈ rels, rel ≠ [] := by
    intro rel hrel h0
    obtain ⟨c, hc⟩ := (h4 rel).1 hrel
    rw [h0, List.append_nil, hdir] at hc
    cases hc
  refine ⟨rels, h2, fun rel hrel => ⟨hne rel hrel, h3 rel hrel⟩, h4, ?_⟩
  have hmap : (rels.map (walkPath dir)).map (fun file => stringsTrimPrefix file dir) =
      rels.map (fun rel => if resolve dir = [] then joinSlash rel else "/" ++ joinSlash rel) := by
    rw [List.map_map]
    apply List.map_congr_left
    intro rel hrel
    exact trimPrefix_walkPath_clean dir hclean hdot hdd rel (hne rel hrel) (h3 rel hrel)
  simp only [DirHash, h1, hmap]

theorem open_join_rel (fs : Memory) (dir : String) (rel : List String) (hne : rel ≠ [])
    (hrel : ∀ seg ∈ rel, properSegment seg) (c : String)
    (hc : fs.get (resolve dir ++ rel) = some (.file c)) :
    fs.Open (filepathJoin [dir, joinSlash rel]) = .ok c ∧
      fs.Open (filepathJoin [dir, "/" ++ joinSlash rel]) = .ok c := by
  obtain ⟨h1, h2⟩ := resolve_join_rel dir rel hne hrel
  constructor
  · simp only [Memory.Open, h1, hc]
  · simp only [Memory.Open, h2, hc]

/-- Two directories of which one is the root and the other is not, with the same files at
the same relative positions, hold no file at all. -/
theorem no_file_of_root (fs : Memory) (fuel : Nat) (hfuel : ∀ e ∈ fs.files, e.1.length < fuel)
    (k : Key) (hk : k ≠ [])
    (hsame : ∀ rel c, fs.get rel = some (.file c) → fs.get (k ++ rel) = some (.file c)) :
    ∀ rel c, fs.get rel ≠ some (.file c) := by
  intro rel c hc
  have hgrow : ∀ n : Nat, ∃ key, n ≤ key.length ∧ fs.get key = some (.file c) := by
    intro n
    induction n with
    | zero => exact ⟨rel, Nat.zero_le _, hc⟩
    | succ n ih =>
      obtain ⟨key, hlen, hkey⟩ := ih
      refine ⟨k ++ key, ?_, hsame key c hkey⟩
      have := List.length_pos.2 hk
      rw [List.length_append]
      omega
  obtain ⟨key, hlen, hkey⟩ := hgrow fuel
  have := hfuel _ (get_some_mem fs key _ hkey)
  simp only at this
  omega

end filesystem

namespace filesystem

open billy

theorem hash1_congr (sha256hex sha256base64 : String → String) (names₁ names₂ : List String)
    (open₁ open₂ : String → Except FsError String) (hperm : names₁.Perm names₂)
    (hopen : ∀ name ∈ names₁, open₁ name = open₂ name) :
    Hash1 sha256hex sha256base64 names₁ open₁ = Hash1 sha256hex sha256base64 names₂ open₂ := by
  unfold Hash1
  rw [← sortStrings_eq_of_perm hperm,
    hashLoop_congr sha256hex open₁ open₂ (sortStrings names₁)
      (fun name hn => hopen name ((sortStrings_mem _ _).1 hn))]

/-- C16, evaluated where the claim fails: the root of a worktree that holds the file
`.keep`, given by the clean paths `.` and `/`, which name the same directory: `DirHash` fails
for the first and returns a hash for the second. -/
theorem dirHash_dot_differs :
    filepathClean "." = "." ∧ filepathClean "/" = "/" ∧ resolve "." = resolve "/" ∧
      exampleDotfileFS.get (resolve ".") = some .dir ∧
      DirHash id id 2 exampleDotfileFS "." = .error .errNotExist ∧
      DirHash id id 2 exampleDotfileFS "/" = .ok "h1:x  .keep\n" := by
  decide

/-- `DirHash` on directories whose prefix is found in the paths of their files: let two
directories of well-formed storages be given by clean paths other than `.` without a `..`
segment, in the same storage or else both the root or both not the
root, and let them hold the same files, by relative path and content. Then `DirHash` (with
enough fuel for the depth of the storages) returns the same result for both, whatever the
order of the entries in the storage is; and the result is a hash when no segment of a
relative path of a file contains a line break. -/
theorem dirHash_same (sha256hex sha256base64 : String → String) (fuel : Nat)
    (fs₁ fs₂ : Memory) (d₁ d₂ : String) (hwf₁ : fs₁.WellFormed) (hwf₂ : fs₂.WellFormed)
    (hc₁ : filepathClean d₁ = d₁) (hdot₁ : d₁ ≠ ".") (hdd₁ : ".." ∉ splitSlash d₁)
    (hc₂ : filepathClean d₂ = d₂) (hdot₂ : d₂ ≠ ".") (hdd₂ : ".." ∉ splitSlash d₂)
    (hdir₁ : fs₁.get (resolve d₁) = some .dir) (hdir₂ : fs₂.get (resolve d₂) = some .dir)
    (hfuel₁ : ∀ e ∈ fs₁.files, e.1.length < fuel) (hfuel₂ : ∀ e ∈ fs₂.files, e.1.length < fuel)
    (hroot : fs₁ = fs₂ ∨ (resolve d₁ = [] ↔ resolve d₂ = []))
    (hsame : ∀ rel c, fs₁.get (resolve d₁ ++ rel) = some (.file c) ↔
      fs₂.get (resolve d₂ ++ rel) = some (.file c)) :
    DirHash sha256hex sha256base64 fuel fs₁ d₁ = DirHash sha256hex sha256base64 fuel fs₂ d₂ ∧
      ((∀ rel c, fs₁.get (resolve d₁ ++ rel) = some (.file c) →
          ∀ seg ∈ rel, '\n' ∉ seg.toList) →
        ∃ h, DirHash sha256hex sha256base64 fuel fs₁ d₁ = .ok h) := by
  obtain ⟨rels₁, hnd₁, hp₁, hm₁, he₁⟩ :=
    dirHash_eq sha256hex sha256base64 fuel fs₁ hwf₁ d₁ hc₁ hdot₁ hdd₁ hdir₁ hfuel₁
  obtain ⟨rels₂, hnd₂, hp₂, hm₂, he₂⟩ :=
    dirHash_eq sha256hex sha256base64 fuel fs₂ hwf₂ d₂ hc₂ hdot₂ hdd₂ hdir₂ hfuel₂
  have hperm : rels₁.Perm rels₂ :=
    (List.perm_ext_iff_of_nodup hnd₁ hnd₂).2 (fun rel => by
      rw [hm₁, hm₂]
      exact ⟨fun ⟨c, hc⟩ => ⟨c, (hsame rel c).1 hc⟩, fun ⟨c, hc⟩ => ⟨c, (hsame rel c).2 hc⟩⟩)
  have hopen₁ : ∀ rel ∈ rels₁, ∃ c,
      fs₁.Open (filepathJoin [d₁,
        if resolve d₁ = [] then joinSlash rel else "/" ++ joinSlash rel]) = .ok c ∧
      fs₂.get (resolve d₂ ++ rel) = some (.file c) := by
    intro rel hrel
    obtain ⟨c, hc⟩ := (hm₁ rel).1 hrel
    obtain ⟨h1, h2⟩ := open_join_rel fs₁ d₁ rel (hp₁ rel hrel).1 (hp₁ rel hrel).2 c hc
    refine ⟨c, ?_, (hsame rel c).1 hc⟩
    split
    · exact h1
    · exact h2
  constructor
  · rw [he₁, he₂]
    by_cases hr : resolve d₁ = [] ↔ resolve d₂ = []
    · have hT : ∀ rel : List String,
          (if resolve d₁ = [] then joinSlash rel else "/" ++ joinSlash rel) =
            (if resolve d₂ = [] then joinSlash rel else "/" ++ joinSlash rel) := by
        intro rel
        by_cases h0 : resolve d₁ = []
        · rw [if_pos h0, if_pos (hr.1 h0)]
        · rw [if_neg h0, if_neg (fun h => h0 (hr.2 h))]
      apply hash1_congr
      · simp only [hT]
        exact hperm.map _
      · intro name hname
        obtain ⟨rel, hrel, hn⟩ := List.mem_map.1 hname
        obtain ⟨c, ho, hc₂'⟩ := hopen₁ rel hrel
        rw [← hn, ho]
        obtain ⟨h1, h2⟩ := open_join_rel fs₂ d₂ rel (hp₁ rel hrel).1 (hp₁ rel hrel).2 c hc₂'
        rw [hT rel]
        split
        · exact h1.symm
        · exact h2.symm
    · have hfs : fs₁ = fs₂ := by
        rcases hroot with h | h
        · exact h
        · exact absurd h hr
      subst hfs
      have hnone : ∀ rel c, fs₁.get (resolve d₁ ++ rel) ≠ some (.file c) := by
        by_cases h0 : resolve d₁ = []
        · have hk₂ : resolve d₂ ≠ [] := fun h => hr ⟨fun _ => h, fun _ => h0⟩
          intro rel c
          rw [h0, List.nil_append]
          exact no_file_of_root fs₁ fuel hfuel₁ (resolve d₂) hk₂ (fun rel c h => by
            have := (hsame rel c).1 (by rw [h0, List.nil_append]; exact h)
            exact this) rel c
        · have hk₂ : resolve d₂ = [] := by
            by_contra h2
            exact hr ⟨fun h => absurd h h0, fun h => absurd h h2⟩
          intro rel c hc
          have h3 := (hsame rel c).1 hc
          rw [hk₂, List.nil_append] at h3
          exact no_file_of_root fs₁ fuel hfuel₁ (resolve d₁) h0 (fun rel c h => by
            have := (hsame rel c).2 (by rw [hk₂, List.nil_append]; exact h)
            exact this) rel c h3
      have hr₁ : rels₁ = [] := by
        cases rels₁ with
        | nil => rfl
        | cons rel rest =>
          obtain ⟨c, hc⟩ := (hm₁ rel).1 (List.mem_cons_self _ _)
          exact absurd hc (hnone rel c)
      have hr₂ : rels₂ = [] := by
        rw [hr₁] at hperm
        exact List.Perm.eq_nil hperm.symm
      rw [hr₁, hr₂]
      rfl
  · intro hnl
    rw [he₁]
    unfold Hash1
    obtain ⟨out, hout⟩ := hashLoop_ok sha256hex (fun s => fs₁.Open (filepathJoin [d₁, s]))
      (sortStrings (rels₁.map (fun rel =>
        if resolve d₁ = [] then joinSlash rel else "/" ++ joinSlash rel)))
      (by
        intro name hname
        rw [sortStrings_mem] at hname
        obtain ⟨rel, hrel, hn⟩ := List.mem_map.1 hname
        obtain ⟨c, ho, _⟩ := hopen₁ rel hrel
        obtain ⟨c₁, hc₁'⟩ := (hm₁ rel).1 hrel
        have hseg := hnl rel c₁ hc₁'
        have hjoin : '\n' ∉ (joinSlash rel).toList := by
          intro hmem
          rcases mem_joinSlash rel _ hmem with h | ⟨seg, hs, hch⟩
          · exact absurd h (by decide)
          · exact hseg seg hs hch
        refine ⟨?_, c, by rw [← hn]; exact ho⟩
        rw [← hn]
        split
        · exact hjoin
        · rw [toList_append]
          intro hmem
          rcases List.mem_append.1 hmem with h | h
          · simp [String.toList] at h
          · exact hjoin h) ""
    rw [hout]
    exact ⟨_, rfl⟩

theorem exampleCopyFS_wellFormed : exampleCopyFS.WellFormed := by
  refine ⟨by decide, ?_, ?_⟩
  · intro k n h
    simp only [exampleCopyFS, List.mem_cons, Prod.mk.injEq, List.mem_nil_iff, or_false] at h
    rcases h with h | h | h | h | h | h | h | h | h <;> rw [h.1] <;> decide
  · intro k n h
    simp only [exampleCopyFS, List.mem_cons, Prod.mk.injEq, List.mem_nil_iff, or_false] at h
    rcases h with h | h | h | h | h | h | h | h | h <;> rw [h.1] <;> decide

theorem exampleCopyFS_same (rel : List String) (c : String) :
    exampleCopyFS.get (["src"] ++ rel) = some (.file c) ↔
      exampleCopyFS.get (["copy"] ++ rel) = some (.file c) := by
  constructor
  · intro h
    have hmem := get_some_mem _ _ _ h
    simp only [exampleCopyFS, List.mem_cons, Prod.mk.injEq, List.mem_nil_iff, or_false,
      List.singleton_append, List.cons.injEq, reduceCtorEq, and_false, false_and, false_or,
      or_false, String.reduceEq, Node.file.injEq, true_and] at hmem
    rcases hmem with ⟨h1, h2⟩ | ⟨h1, h2⟩
    · subst h1; subst h2; decide
    · subst h1; subst h2; decide
  · intro h
    have hmem := get_some_mem _ _ _ h
    simp only [exampleCopyFS, List.mem_cons, Prod.mk.injEq, List.mem_nil_iff, or_false,
      List.singleton_append, List.cons.injEq, reduceCtorEq, and_false, false_and, false_or,
      or_false, String.reduceEq, Node.file.injEq, true_and] at hmem
    rcases hmem with ⟨h1, h2⟩ | ⟨h1, h2⟩
    · subst h1; subst h2; decide
    · subst h1; subst h2; decide

theorem dirHash_same_witness :
    DirHash id id 4 exampleCopyFS "/src" = DirHash id id 4 exampleCopyFS "copy" ∧
      ∃ h, DirHash id id 4 exampleCopyFS "/src" = .ok h := by
  have hsrc : resolve "/src" = ["src"] := by decide
  have hcopy : resolve "copy" = ["copy"] := by decide
  have h := dirHash_same id id 4 exampleCopyFS exampleCopyFS "/src" "copy"
    exampleCopyFS_wellFormed exampleCopyFS_wellFormed (by decide) (by decide) (by decide)
    (by decide) (by decide) (by decide) (by decide) (by decide) (by decide) (by decide)
    (Or.inl rfl) (by
      intro rel c
      rw [hsrc, hcopy]
      exact exampleCopyFS_same rel c)
  refine ⟨h.1, h.2 ?_⟩
  intro rel c hc
  rw [hsrc] at hc
  have hmem := get_some_mem _ _ _ hc
  simp only [exampleCopyFS, List.mem_cons, Prod.mk.injEq, List.mem_nil_iff, or_false,
      List.singleton_append, List.cons.injEq, reduceCtorEq, and_false, false_and, false_or,
      or_false, String.reduceEq, Node.file.injEq, true_and] at hmem
  rcases hmem with ⟨h1, _⟩ | ⟨h1, _⟩
  · subst h1; decide
  · subst h1; decide

end filesystem

/-! ## The backtracking search of `regexp` -/

namespace regexp

theorem matchK_seq {α : Type} (a b : Regex) (s : List Char) (caps : Captures)
    (k : List Char → Captures → Option α) :
    (Regex.seq a b).matchK s caps k =
      a.matchK s caps (fun s₁ caps₁ => b.matchK s₁ caps₁ k) := rfl

theorem matchK_literal {α : Type} (m s : List Char) (caps : Captures)
    (k : List Char → Captures → Option α) :
    (literal m).matchK (m ++ s) caps k = k s caps := by
  induction m with
  | nil => rfl
  | cons c rest ih => simp only [literal, Regex.matchK, List.cons_append, if_true, ih]

theorem matchK_literal_none {α : Type} (m s : List Char) (caps : Captures)
    (k : List Char → Captures → Option α) (h : ¬ m <+: s) :
    (literal m).matchK s caps k = none := by
  induction m generalizing s with
  | nil => exact absurd List.nil_prefix h
  | cons c rest ih =>
    cases s with
    | nil => simp only [literal, Regex.matchK]
    | cons x t =>
      by_cases hx : x = c
      · subst hx
        simp only [literal, Regex.matchK, if_true]
        apply ih
        intro hp
        exact h ((List.prefix_cons_inj x).2 hp)
      · simp only [literal, Regex.matchK, hx, if_false]

/-- A greedy `*` over a character class, one step: a character of the class is consumed and
the rest of the repetition is tried before the continuation. -/
theorem starLoop_cls {α : Type} (p : Char → Bool) (n : Nat) (x : Char) (t : List Char)
    (caps : Captures) (k : List Char → Captures → Option α) :
    starLoop (fun s₁ caps₁ k₁ => (Regex.cls p).matchK s₁ caps₁ k₁) (n + 1) (x :: t) caps k =
      if p x = true then
        match starLoop (fun s₁ caps₁ k₁ => (Regex.cls p).matchK s₁ caps₁ k₁) n t caps k with
        | some r => some r
        | none => k (x :: t) caps
      else k (x :: t) caps := by
  by_cases hp : p x = true
  · simp only [starLoop, Regex.matchK, hp, if_true, List.length_cons, Nat.lt_succ_self]
  · simp only [starLoop, Regex.matchK, hp, if_false, Bool.false_eq_true]

theorem starLoop_cls_nil {α : Type} (p : Char → Bool) (n : Nat)
    (caps : Captures) (k : List Char → Captures → Option α) :
    starLoop (fun s₁ caps₁ k₁ => (Regex.cls p).matchK s₁ caps₁ k₁) n [] caps k = k [] caps := by
  cases n with
  | zero => rfl
  | succ n => simp only [starLoop, Regex.matchK]

/-- A greedy `*` over a character class whose continuation fails behind every longer
repetition gives what the continuation gives behind none. -/
theorem starLoop_cls_all_fail {α : Type} (p : Char → Bool) (v : List Char) (n : Nat)
    (hn : v.length ≤ n) (caps : Captures) (k : List Char → Captures → Option α)
    (hfail : ∀ u₁ v₁, u₁ ≠ [] → v = u₁ ++ v₁ → (∀ ch ∈ u₁, p ch = true) → k v₁ caps = none) :
    starLoop (fun s₁ caps₁ k₁ => (Regex.cls p).matchK s₁ caps₁ k₁) n v caps k = k v caps := by
  induction v generalizing n with
  | nil => exact starLoop_cls_nil p n caps k
  | cons x t ih =>
    cases n with
    | zero => simp at hn
    | succ n =>
      rw [starLoop_cls]
      by_cases hp : p x = true
      · rw [if_pos hp]
        have h1 : starLoop (fun s₁ caps₁ k₁ => (Regex.cls p).matchK s₁ caps₁ k₁) n t caps k =
            k t caps := by
          apply ih n (by simpa using hn)
          intro u₁ v₁ hu hv hall
          apply hfail (x :: u₁) v₁ (by simp) (by rw [hv]; rfl)
          intro ch hch
          rcases List.mem_cons.1 hch with h | h
          · rw [h]; exact hp
          · exact hall ch h
        have h2 : k t caps = none :=
          hfail [x] t (by simp) rfl (by
            intro ch hch
            rw [List.mem_singleton] at hch
            rw [hch]; exact hp)
        rw [h1, h2]
      · rw [if_neg hp]

/-- A greedy `*` over a character class stops behind the repetition `u` when the
continuation succeeds there and fails behind every longer repetition. -/
theorem starLoop_cls_first {α : Type} (p : Char → Bool) (u v : List Char) (n : Nat)
    (hn : (u ++ v).length ≤ n) (hu : ∀ ch ∈ u, p ch = true) (caps : Captures)
    (k : List Char → Captures → Option α) (r : α) (hk : k v caps = some r)
    (hfail : ∀ u₁ v₁, u₁ ≠ [] → v = u₁ ++ v₁ → (∀ ch ∈ u₁, p ch = true) → k v₁ caps = none) :
    starLoop (fun s₁ caps₁ k₁ => (Regex.cls p).matchK s₁ caps₁ k₁) n (u ++ v) caps k =
      some r := by
  induction u generalizing n with
  | nil =>
    rw [List.nil_append, starLoop_cls_all_fail p v n (by simpa using hn) caps k hfail, hk]
  | cons x t ih =>
    cases n with
    | zero => simp at hn
    | succ n =>
      rw [List.cons_append, starLoop_cls, if_pos (hu x (List.mem_cons_self _ _)),
        ih n (by simpa using hn) (fun ch hch => hu ch (List.mem_cons_of_mem _ hch))]

/-- A capturing group around a greedy `*` over a character class: the group captures the
repetition `u` behind which the continuation succeeds first. -/
theorem matchK_group_star_cls {α : Type} (i : Nat) (p : Char → Bool) (u v : List Char)
    (hu : ∀ ch ∈ u, p ch = true) (caps : Captures) (k : List Char → Captures → Option α) (r : α)
    (hk : k v (caps.set i u) = some r)
    (hfail : ∀ u₁ v₁, u₁ ≠ [] → v = u₁ ++ v₁ → (∀ ch ∈ u₁, p ch = true) →
      k v₁ (caps.set i (u ++ u₁)) = none) :
    (Regex.group i (.star (.cls p))).matchK (u ++ v) caps k = some r := by
  simp only [Regex.matchK]
  apply starLoop_cls_first p u v _ (Nat.le_refl _) hu caps _ r
  · simp only [List.length_append, Nat.add_sub_cancel, List.take_left']
    exact hk
  · intro u₁ v₁ hne hv hall
    have : (u ++ v).take ((u ++ v).length - v₁.length) = u ++ u₁ := by
      rw [hv, ← List.append_assoc]
      simp only [List.length_append, Nat.add_sub_cancel]
      exact List.take_left' (List.length_append u u₁)
    simp only [this]
    exact hfail u₁ v₁ hne hv hall

theorem findAllLoop_skip (re : Regex) (fuel : Nat) (x : Char) (t : List Char)
    (h : re.matchK (x :: t) [] (fun rest caps => some (rest, caps)) = none) :
    findAllLoop re (fuel + 1) (x :: t) = findAllLoop re fuel t := by
  simp only [findAllLoop, h]

theorem findAllLoop_match (re : Regex) (fuel : Nat) (s rest : List Char) (caps : Captures)
    (h : re.matchK s [] (fun rest caps => some (rest, caps)) = some (rest, caps))
    (hlen : rest.length < s.length) :
    findAllLoop re (fuel + 1) s = caps :: findAllLoop re fuel rest := by
  simp only [findAllLoop, h, hlen, if_true]

theorem findAllLoop_nil (re : Regex) (fuel : Nat)
    (h : re.matchK [] [] (fun rest caps => some (rest, caps)) = none) :
    findAllLoop re fuel [] = [] := by
  cases fuel with
  | zero => rfl
  | succ n => simp only [findAllLoop, h]

end regexp

/-! ## The trailer pattern on a trailer line -/

namespace detect

open regexp

/-- What follows a trailer line in a commit message: nothing, a line feed, or a carriage
return and a line feed. Behind any part of it without line feed, the next character is a
line feed or a carriage return. -/
theorem tail_head (R u v₁ : List Char)
    (hR : R = [] ∨ (∃ t, R = '\n' :: t) ∨ (∃ t, R = '\r' :: '\n' :: t))
    (h : R = u ++ v₁) (hu : ∀ ch ∈ u, ch ≠ '\n') :
    ∀ x rest, v₁ = x :: rest → x = '\n' ∨ x = '\r' := by
  intro x rest hv
  subst hv
  rcases hR with h0 | ⟨t, h0⟩ | ⟨t, h0⟩
  · rw [h0] at h
    have := congrArg List.length h
    simp at this
    omega
  · rw [h0] at h
    cases u with
    | nil =>
      simp only [List.nil_append, List.cons.injEq] at h
      exact Or.inl h.1.symm
    | cons y u₂ =>
      simp only [List.cons_append, List.cons.injEq] at h
      exact absurd h.1.symm (hu y (List.mem_cons_self _ _))
  · rw [h0] at h
    cases u with
    | nil =>
      simp only [List.nil_append, List.cons.injEq] at h
      exact Or.inr h.1.symm
    | cons y u₂ =>
      simp only [List.cons_append, List.cons.injEq] at h
      cases u₂ with
      | nil =>
        simp only [List.nil_append, List.cons.injEq] at h
        exact Or.inl h.2.1.symm
      | cons z u₃ =>
        simp only [List.cons_append, List.cons.injEq] at h
        exact absurd h.2.1.symm (hu z (by simp))

theorem split_behind_word (w t u v₁ : List Char) (hw : ∀ ch ∈ w, ch ≠ ' ')
    (h : w ++ t = u ++ v₁) (rest : List Char) (hv : v₁ = ' ' :: rest) :
    ∃ u₂, t = u₂ ++ v₁ ∧ u = w ++ u₂ := by
  rcases List.append_eq_append_iff.1 h with ⟨a₁, h1, h2⟩ | ⟨c₁, h1, h2⟩
  · exact ⟨a₁, h2, h1⟩
  · cases c₁ with
    | nil =>
      simp only [List.append_nil, List.nil_append] at h1 h2
      exact ⟨[], by simp [h2], by simp [h1]⟩
    | cons y c₂ =>
      rw [hv] at h2
      simp only [List.cons_append, List.cons.injEq] at h2
      have hy : y ∈ w := by rw [h1]; simp
      exact absurd h2.1.symm (hw y hy)

theorem no_later_space (w R u v₁ : List Char) (hw : ∀ ch ∈ w, ch ≠ ' ')
    (hR : R = [] ∨ (∃ t, R = '\n' :: t) ∨ (∃ t, R = '\r' :: '\n' :: t))
    (h : w ++ R = u ++ v₁) (hu : ∀ ch ∈ u, ch ≠ '\n') : ∀ rest, v₁ ≠ ' ' :: rest := by
  intro rest hv
  obtain ⟨u₂, h1, h2⟩ := split_behind_word w R u v₁ hw h rest hv
  have := tail_head R u₂ v₁ hR h1 (fun ch hch => hu ch (by rw [h2]; simp [hch])) ' ' rest hv
  rcases this with h3 | h3 <;> exact absurd h3 (by decide)

theorem prefix_head {m v₁ : List Char} {x : Char} (h : (x :: m) <+: v₁) :
    ∃ rest, v₁ = x :: rest ∧ m <+: rest := by
  obtain ⟨t, ht⟩ := h
  exact ⟨m ++ t, by rw [← ht]; rfl, List.prefix_append _ _⟩

theorem dot_ne_newline {u : List Char} (h : ∀ ch ∈ u, (ch != '\n') = true) :
    ∀ ch ∈ u, ch ≠ '\n' := by
  intro ch hch
  simpa using h ch hch

/-- The pattern matches a trailer line at its start: the groups capture the hash, the author
login and the committer login, and the match ends with the line. -/
theorem matchK_trailer (h a c R : List Char)
    (hh : ∀ ch ∈ h, ch ≠ '\n') (ha : ∀ ch ∈ a, ch ≠ ' ' ∧ ch ≠ '\n')
    (hc : ∀ ch ∈ c, ch ≠ ' ' ∧ ch ≠ '\n' ∧ ch ≠ '\r')
    (hR : R = [] ∨ (∃ t, R = '\n' :: t) ∨ (∃ t, R = '\r' :: '\n' :: t)) :
    sourceCommitRegex.matchK
        ("Source-commit: ".toList ++ (h ++ (" A:".toList ++ (a ++ (" C:".toList ++ (c ++ R))))))
        [] (fun rest caps => some (rest, caps)) =
      some (R, [(1, h), (2, a), (3, c)]) := by
  have hw₁ : ∀ ch ∈ 'A' :: ':' :: a, ch ≠ ' ' := by
    intro ch hch
    rcases List.mem_cons.1 hch with h1 | h1
    · rw [h1]; decide
    · rcases List.mem_cons.1 h1 with h2 | h2
      · rw [h2]; decide
      · exact (ha ch h2).1
  have hw₂ : ∀ ch ∈ 'C' :: ':' :: c, ch ≠ ' ' := by
    intro ch hch
    rcases List.mem_cons.1 hch with h1 | h1
    · rw [h1]; decide
    · rcases List.mem_cons.1 h1 with h2 | h2
      · rw [h2]; decide
      · exact (hc ch h2).1
  unfold sourceCommitRegex dot notLineEnd
  rw [matchK_seq, matchK_literal, matchK_seq]
  apply matchK_group_star_cls 1 _ h _ (fun ch hch => by simpa using hh ch hch)
  · -- the continuation behind the hash
    beta_reduce
    rw [matchK_seq, matchK_literal, matchK_seq]
    apply matchK_group_star_cls 2 _ a _ (fun ch hch => by simpa using (ha ch hch).2)
    · beta_reduce
      rw [matchK_seq, matchK_literal]
      apply matchK_group_star_cls 3 _ c R
        (fun ch hch => by simpa using ⟨(hc ch hch).2.2, (hc ch hch).2.1⟩)
      · rfl
      · intro u₁ v₁ hne hv hall
        exfalso
        cases u₁ with
        | nil => exact hne rfl
        | cons y u₂ =>
          have hy := hall y (List.mem_cons_self _ _)
          simp only [Bool.and_eq_true, bne_iff_ne, ne_eq] at hy
          rcases hR with h0 | ⟨t, h0⟩ | ⟨t, h0⟩
          · rw [h0] at hv; cases hv
          · rw [h0] at hv
            simp only [List.cons_append, List.cons.injEq] at hv
            exact hy.2 hv.1.symm
          · rw [h0] at hv
            simp only [List.cons_append, List.cons.injEq] at hv
            exact hy.1 hv.1.symm
    · intro u₁ v₁ hne hv hall
      beta_reduce
      rw [matchK_seq]
      apply matchK_literal_none
      intro hpre
      obtain ⟨rest, hrest, _⟩ := prefix_head hpre
      cases u₁ with
      | nil => exact hne rfl
      | cons y u₂ =>
        have hv' : 'C' :: ':' :: c ++ R = u₂ ++ v₁ := by
          have := hv
          simp only [String.toList, List.cons_append, List.cons.injEq] at this
          exact this.2
        exact no_later_space _ R u₂ v₁ hw₂ hR hv'
          (dot_ne_newline (fun ch hch => hall ch (List.mem_cons_of_mem _ hch))) rest hrest
  · intro u₁ v₁ hne hv hall
    beta_reduce
    rw [matchK_seq]
    apply matchK_literal_none
    intro hpre
    obtain ⟨rest, hrest, hpre₂⟩ := prefix_head hpre
    cases u₁ with
    | nil => exact hne rfl
    | cons y u₂ =>
      have hu₂ := dot_ne_newline (fun ch hch => hall ch (List.mem_cons_of_mem _ hch))
      have hv' : ('A' :: ':' :: a) ++ (' ' :: ('C' :: ':' :: c ++ R)) = u₂ ++ v₁ := by
        have := hv
        simp only [String.toList, List.cons_append, List.cons.injEq, List.nil_append] at this
        simp only [List.cons_append]
        exact this.2
      obtain ⟨u₃, h1, h2⟩ := split_behind_word _ _ u₂ v₁ hw₁ hv' rest hrest
      cases u₃ with
      | nil =>
        simp only [List.nil_append] at h1
        rw [← h1] at hrest
        simp only [List.cons.injEq, true_and] at hrest
        rw [← hrest] at hpre₂
        obtain ⟨rest₂, hrest₂, _⟩ := prefix_head hpre₂
        simp only [List.cons_append, List.cons.injEq] at hrest₂
        exact absurd hrest₂.1 (by decide)
      | cons z u₄ =>
        simp only [List.cons_append, List.cons.injEq] at h1
        exact no_later_space _ R u₄ v₁ hw₂ hR h1.2
          (fun ch hch => hu₂ ch (by rw [h2]; simp [hch])) rest hrest

end detect

/-! ## The source commits of a commit message written by the pull request builder -/

namespace detect

open regexp

theorem marker_chars : ∀ ch ∈ "Source-commit: ".toList, ch ≠ '\r' ∧ ch ≠ '\n' := by decide

theorem matchK_no_marker (s : List Char) (h : ¬ "Source-commit: ".toList <+: s) :
    sourceCommitRegex.matchK s [] (fun rest caps => some (rest, caps)) = none := by
  unfold sourceCommitRegex
  rw [matchK_seq]
  exact matchK_literal_none _ _ _ _ h

theorem marker_not_before_line_end (x : Char) (t : List Char) (hx : x = '\n' ∨ x = '\r') :
    ¬ "Source-commit: ".toList <+: x :: t := by
  intro h
  obtain ⟨rest, hrest, _⟩ := prefix_head h
  simp only [List.cons.injEq] at hrest
  rcases hx with h1 | h1 <;> rw [h1] at hrest <;> exact absurd hrest.1 (by decide)

theorem marker_not_before_nil : ¬ "Source-commit: ".toList <+: [] := by decide

/-- The search skips the characters of a line end. -/
theorem findAllLoop_skip_sep (sep : List Char) (hsep : sep = ['\n'] ∨ sep = ['\r', '\n'])
    (s : List Char) (fuel : Nat) (hfuel : (sep ++ s).length < fuel) :
    ∃ fuel₂, s.length < fuel₂ ∧
      findAllLoop sourceCommitRegex fuel (sep ++ s) = findAllLoop sourceCommitRegex fuel₂ s := by
  rcases hsep with h | h
  · subst h
    obtain ⟨n, rfl⟩ : ∃ n, fuel = n + 1 := ⟨fuel - 1, by omega⟩
    refine ⟨n, by simpa using hfuel, ?_⟩
    exact findAllLoop_skip _ n _ _ (matchK_no_marker _ (marker_not_before_line_end _ _ (Or.inl rfl)))
  · subst h
    obtain ⟨n, rfl⟩ : ∃ n, fuel = n + 2 := ⟨fuel - 2, by simp at hfuel; omega⟩
    refine ⟨n, by simp at hfuel; omega, ?_⟩
    rw [show ['\r', '\n'] ++ s = '\r' :: ('\n' :: s) from rfl,
      findAllLoop_skip _ (n + 1) _ _ (matchK_no_marker _ (marker_not_before_line_end _ _ (Or.inr rfl))),
      findAllLoop_skip _ n _ _ (matchK_no_marker _ (marker_not_before_line_end _ _ (Or.inl rfl)))]

theorem trailers_tail (sep : List Char) (hsep : sep = ['\n'] ∨ sep = ['\r', '\n'])
    (cs : List github.Commit) :
    cs.flatMap (fun c => sep ++ trailerChars c) = [] ∨
      (∃ t, cs.flatMap (fun c => sep ++ trailerChars c) = '\n' :: t) ∨
      (∃ t, cs.flatMap (fun c => sep ++ trailerChars c) = '\r' :: '\n' :: t) := by
  cases cs with
  | nil => exact Or.inl rfl
  | cons c rest =>
    right
    rcases hsep with h | h
    · left; subst h; exact ⟨_, rfl⟩
    · right; subst h; exact ⟨_, rfl⟩

/-- In the trailer lines of source commits whose fields hold no space, line feed or carriage
return, each line preceded by a line end, the pattern finds one match per commit, with the
fields of the commit as its groups. -/
theorem findAllLoop_trailers (sep : List Char) (hsep : sep = ['\n'] ∨ sep = ['\r', '\n'])
    (cs : List github.Commit)
    (hfields : ∀ c ∈ cs,
      (∀ ch ∈ c.Hash.toList, ch ≠ ' ' ∧ ch ≠ '\n' ∧ ch ≠ '\r') ∧
      (∀ ch ∈ c.AuthorLogin.toList, ch ≠ ' ' ∧ ch ≠ '\n' ∧ ch ≠ '\r') ∧
      (∀ ch ∈ c.CommitterLogin.toList, ch ≠ ' ' ∧ ch ≠ '\n' ∧ ch ≠ '\r')) :
    ∀ fuel, (cs.flatMap (fun c => sep ++ trailerChars c)).length < fuel →
      findAllLoop sourceCommitRegex fuel (cs.flatMap (fun c => sep ++ trailerChars c)) =
        cs.map (fun c =>
          [(1, c.Hash.toList), (2, c.AuthorLogin.toList), (3, c.CommitterLogin.toList)]) := by
  induction cs with
  | nil =>
    intro fuel _
    exact findAllLoop_nil _ fuel (matchK_no_marker _ marker_not_before_nil)
  | cons c rest ih =>
    intro fuel hfuel
    obtain ⟨hh, ha, hc⟩ := hfields c (List.mem_cons_self _ _)
    have hrest := ih (fun c₂ h₂ => hfields c₂ (List.mem_cons_of_mem _ h₂))
    have hs : (c :: rest).flatMap (fun c => sep ++ trailerChars c) =
        sep ++ (trailerChars c ++ rest.flatMap (fun c => sep ++ trailerChars c)) := by
      simp only [List.flatMap_cons, List.append_assoc]
    rw [hs] at hfuel ⊢
    obtain ⟨fuel₂, hfuel₂, hskip⟩ := findAllLoop_skip_sep sep hsep _ fuel hfuel
    rw [hskip]
    obtain ⟨n, rfl⟩ : ∃ n, fuel₂ = n + 1 := ⟨fuel₂ - 1, by omega⟩
    have hline : trailerChars c ++ rest.flatMap (fun c => sep ++ trailerChars c) =
        "Source-commit: ".toList ++ (c.Hash.toList ++ (" A:".toList ++ (c.AuthorLogin.toList ++
          (" C:".toList ++ (c.CommitterLogin.toList ++
            rest.flatMap (fun c => sep ++ trailerChars c)))))) := by
      simp only [trailerChars, List.append_assoc]
    have hmatch := matchK_trailer c.Hash.toList c.AuthorLogin.toList c.CommitterLogin.toList
      (rest.flatMap (fun c => sep ++ trailerChars c))
      (fun ch hch => (hh ch hch).2.1) (fun ch hch => ⟨(ha ch hch).1, (ha ch hch).2.1⟩) hc
      (trailers_tail sep hsep rest)
    rw [← hline] at hmatch
    have hpos : 0 < (trailerChars c).length := by
      simp [trailerChars, String.toList]
    have hlen : (rest.flatMap (fun c => sep ++ trailerChars c)).length <
        (trailerChars c ++ rest.flatMap (fun c => sep ++ trailerChars c)).length := by
      rw [List.length_append]
      omega
    rw [findAllLoop_match _ n _ _ _ hmatch hlen, List.map_cons]
    congr 1
    apply hrest
    rw [List.length_append] at hfuel₂
    omega

theorem prefix_append_cases (m A X : List Char) (h : m <+: A ++ X) :
    m <+: A ∨ ∃ x t, X = x :: t ∧ x ∈ m := by
  obtain ⟨t, ht⟩ := h
  rcases List.append_eq_append_iff.1 ht with ⟨a₁, h1, _⟩ | ⟨c₁, h1, h2⟩
  · exact Or.inl ⟨a₁, h1.symm⟩
  · cases c₁ with
    | nil =>
      left
      rw [List.append_nil] at h1
      rw [h1]
    | cons y c₂ =>
      right
      exact ⟨y, c₂ ++ t, h2, by rw [h1]; simp⟩

/-- The search finds nothing in a text without `Source-commit: ` that is followed by a line
end or by nothing. -/
theorem findAllLoop_skip_title (T X : List Char) (hT : ¬ "Source-commit: ".toList <:+: T)
    (hX : X = [] ∨ ∃ x t, X = x :: t ∧ (x = '\n' ∨ x = '\r')) :
    ∀ fuel, (T ++ X).length < fuel →
      ∃ fuel₂, X.length < fuel₂ ∧
        findAllLoop sourceCommitRegex fuel (T ++ X) = findAllLoop sourceCommitRegex fuel₂ X := by
  induction T with
  | nil =>
    intro fuel hfuel
    exact ⟨fuel, by simpa using hfuel, rfl⟩
  | cons x T₂ ih =>
    intro fuel hfuel
    obtain ⟨n, rfl⟩ : ∃ n, fuel = n + 1 := ⟨fuel - 1, by omega⟩
    have hno : ¬ "Source-commit: ".toList <+: (x :: T₂) ++ X := by
      intro h
      rcases prefix_append_cases _ _ _ h with h1 | ⟨y, t, h1, h2⟩
      · exact hT h1.isInfix
      · rcases hX with h0 | ⟨y₂, t₂, h3, h4⟩
        · rw [h0] at h1; cases h1
        · rw [h3] at h1
          cases h1
          have := marker_chars y h2
          rcases h4 with h5 | h5
          · exact this.2 h5
          · exact this.1 h5
    have hT₂ : ¬ "Source-commit: ".toList <:+: T₂ :=
      fun h => hT (h.trans (List.suffix_cons x T₂).isInfix)
    rw [List.cons_append] at hno ⊢
    rw [findAllLoop_skip _ n _ _ (matchK_no_marker _ hno)]
    exact ih hT₂ n (by simpa using hfuel)

end detect

namespace detect

open regexp promoter

theorem not_whitespace {ch : Char} (h : ch.isWhitespace = false) :
    ch ≠ ' ' ∧ ch ≠ '\n' ∧ ch ≠ '\r' := by
  refine ⟨?_, ?_, ?_⟩ <;> intro h0 <;> rw [h0] at h <;> exact absurd h (by decide)

theorem mk_toList (s : String) : String.mk s.toList = s := rfl

theorem commitMessageLoop_toList (cs : List github.Commit) (msg : String) :
    (commitMessageLoop msg cs).toList =
      msg.toList ++ cs.flatMap (fun c => ['\n'] ++ trailerChars c) := by
  induction cs generalizing msg with
  | nil => simp [commitMessageLoop]
  | cons c rest ih =>
    simp only [commitMessageLoop, ih, List.flatMap_cons, toList_append, trailerChars,
      List.append_assoc]
    rfl

theorem buildCommitMessage_toList (p : PullRequestBuilder) (promotions : promotion.Results)
    (cs : List github.Commit) :
    (p.buildCommitMessage promotions cs).toList =
      (p.buildTitle promotions).toList ++
        (if cs = [] then []
        else ['\n'] ++ cs.flatMap (fun c => ['\n'] ++ trailerChars c)) := by
  cases cs with
  | nil => simp [PullRequestBuilder.buildCommitMessage]
  | cons c rest =>
    simp only [PullRequestBuilder.buildCommitMessage, List.length_cons, gt_iff_lt,
      Nat.zero_lt_succ, if_true, commitMessageLoop_toList, toList_append, reduceCtorEq,
      if_false, List.append_assoc]
    rfl

/-- In a message that consists of a text without `Source-commit: ` and, when there are source
commits, an empty line and their trailer lines, with either line end, the pattern finds the
source commits. -/
theorem findAllLoop_message (sep : List Char) (hsep : sep = ['\n'] ∨ sep = ['\r', '\n'])
    (T : List Char) (hT : ¬ "Source-commit: ".toList <:+: T) (cs : List github.Commit)
    (hfields : ∀ c ∈ cs,
      (∀ ch ∈ c.Hash.toList, ch ≠ ' ' ∧ ch ≠ '\n' ∧ ch ≠ '\r') ∧
      (∀ ch ∈ c.AuthorLogin.toList, ch ≠ ' ' ∧ ch ≠ '\n' ∧ ch ≠ '\r') ∧
      (∀ ch ∈ c.CommitterLogin.toList, ch ≠ ' ' ∧ ch ≠ '\n' ∧ ch ≠ '\r'))
    (fuel : Nat)
    (hfuel : (T ++ (if cs = [] then []
      else sep ++ cs.flatMap (fun c => sep ++ trailerChars c))).length < fuel) :
    (findAllLoop sourceCommitRegex fuel
        (T ++ (if cs = [] then []
          else sep ++ cs.flatMap (fun c => sep ++ trailerChars c)))).map
      (fun match_ =>
        ({ Hash := String.mk (match_.get 1)
           AuthorLogin := String.mk (match_.get 2)
           CommitterLogin := String.mk (match_.get 3) } : github.Commit)) = cs := by
  have hX : (if cs = [] then []
      else sep ++ cs.flatMap (fun c => sep ++ trailerChars c)) = [] ∨
      ∃ x t, (if cs = [] then []
        else sep ++ cs.flatMap (fun c => sep ++ trailerChars c)) = x :: t ∧
        (x = '\n' ∨ x = '\r') := by
    by_cases h0 : cs = []
    · left; rw [if_pos h0]
    · right
      rw [if_neg h0]
      rcases hsep with h | h
      · subst h; exact ⟨'\n', _, rfl, Or.inl rfl⟩
      · subst h; exact ⟨'\r', _, rfl, Or.inr rfl⟩
  obtain ⟨fuel₂, hfuel₂, hskip⟩ := findAllLoop_skip_title T _ hT hX fuel hfuel
  rw [hskip]
  by_cases h0 : cs = []
  · rw [if_pos h0, findAllLoop_nil _ fuel₂ (matchK_no_marker _ marker_not_before_nil), h0]
    rfl
  · rw [if_neg h0] at hfuel₂ ⊢
    obtain ⟨fuel₃, hfuel₃, hskip₂⟩ := findAllLoop_skip_sep sep hsep _ fuel₂ hfuel₂
    rw [hskip₂, findAllLoop_trailers sep hsep cs hfields fuel₃ hfuel₃, List.map_map]
    conv_rhs => rw [← List.map_id cs]
    apply List.map_congr_left
    intro c _
    simp only [Function.comp, Captures.get, if_true, mk_toList, id]
    rfl

theorem flatMap_no_newline (l : List Char) (h : ∀ ch ∈ l, ch ≠ '\n') :
    l.flatMap (fun c => if c = '\n' then ['\r', '\n'] else [c]) = l := by
  induction l with
  | nil => rfl
  | cons x t ih =>
    have hx := h x (List.mem_cons_self _ _)
    simp only [List.flatMap_cons, hx, if_false, List.singleton_append,
      ih (fun ch hch => h ch (List.mem_cons_of_mem _ hch))]

theorem prefix_flatMap (m S : List Char) (hm : ∀ ch ∈ m, ch ≠ '\r' ∧ ch ≠ '\n')
    (h : m <+: S.flatMap (fun c => if c = '\n' then ['\r', '\n'] else [c])) : m <+: S := by
  induction m generalizing S with
  | nil => exact List.nil_prefix
  | cons x m₂ ih =>
    cases S with
    | nil =>
      obtain ⟨t, ht⟩ := h
      cases ht
    | cons c S₂ =>
      obtain ⟨rest, hrest, hpre⟩ := prefix_head h
      by_cases hc : c = '\n'
      · simp only [List.flatMap_cons, hc, if_true, List.cons_append, List.cons.injEq] at hrest
        exact absurd hrest.1.symm (hm x (List.mem_cons_self _ _)).1
      · simp only [List.flatMap_cons, hc, if_false, List.singleton_append,
          List.cons.injEq] at hrest
        rw [← hrest.2] at hpre
        rw [hrest.1]
        exact (List.prefix_cons_inj x).2
          (ih S₂ (fun ch hch => hm ch (List.mem_cons_of_mem _ hch)) hpre)

theorem infix_flatMap (m T : List Char) (hne : m ≠ [])
    (hm : ∀ ch ∈ m, ch ≠ '\r' ∧ ch ≠ '\n')
    (h : m <:+: T.flatMap (fun c => if c = '\n' then ['\r', '\n'] else [c])) : m <:+: T := by
  induction T with
  | nil =>
    simp only [List.flatMap_nil] at h
    exact absurd (List.infix_nil.1 h) hne
  | cons c T₂ ih =>
    have hhead : ∀ x t, m <+: x :: t → x ≠ '\r' ∧ x ≠ '\n' := by
      intro x t hp
      cases m with
      | nil => exact absurd rfl hne
      | cons y m₂ =>
        obtain ⟨rest, hrest, _⟩ := prefix_head hp
        simp only [List.cons.injEq] at hrest
        rw [hrest.1]
        exact hm y (List.mem_cons_self _ _)
    by_cases hc : c = '\n'
    · simp only [List.flatMap_cons, hc, if_true, List.cons_append, List.nil_append] at h
      rcases List.infix_cons_iff.1 h with h1 | h1
      · exact absurd rfl (hhead _ _ h1).1
      · rcases List.infix_cons_iff.1 h1 with h2 | h2
        · exact absurd rfl (hhead _ _ h2).2
        · exact (ih h2).trans (List.suffix_cons c T₂).isInfix
    · rcases List.infix_cons_iff.1 (by
        simpa only [List.flatMap_cons, hc, if_false, List.singleton_append] using h) with h1 | h1
      · have : m <+: (c :: T₂).flatMap (fun c => if c = '\n' then ['\r', '\n'] else [c]) := by
          simpa only [List.flatMap_cons, hc, if_false, List.singleton_append] using h1
        exact (prefix_flatMap m (c :: T₂) hm this).isInfix
      · exact (ih h1).trans (List.suffix_cons c T₂).isInfix

theorem trailerChars_no_newline (c : github.Commit)
    (hh : ∀ ch ∈ c.Hash.toList, ch ≠ '\n') (ha : ∀ ch ∈ c.AuthorLogin.toList, ch ≠ '\n')
    (hc : ∀ ch ∈ c.CommitterLogin.toList, ch ≠ '\n') : ∀ ch ∈ trailerChars c, ch ≠ '\n' := by
  intro ch hch
  simp only [trailerChars, List.mem_append] at hch
  rcases hch with h | h | h | h | h | h
  · exact (marker_chars ch h).2
  · exact hh ch h
  · intro h0; rw [h0] at h; exact absurd h (by decide)
  · exact ha ch h
  · intro h0; rw [h0] at h; exact absurd h (by decide)
  · exact hc ch h

theorem withCRLF_trailers (cs : List github.Commit)
    (hfields : ∀ c ∈ cs, ∀ ch ∈ trailerChars c, ch ≠ '\n') :
    (cs.flatMap (fun c => ['\n'] ++ trailerChars c)).flatMap
        (fun c => if c = '\n' then ['\r', '\n'] else [c]) =
      cs.flatMap (fun c => ['\r', '\n'] ++ trailerChars c) := by
  induction cs with
  | nil => rfl
  | cons c rest ih =>
    simp only [List.flatMap_cons, List.flatMap_append, List.flatMap_nil, List.append_nil, if_true,
      ih (fun c₂ h₂ => hfields c₂ (List.mem_cons_of_mem _ h₂)),
      flatMap_no_newline _ (hfields c (List.mem_cons_self _ _))]

/-- C17: for source commits whose hash, author login and committer login contain no
whitespace and a title that does not contain `Source-commit: `, the trailer pattern of
`GetSourceCommits` finds in the commit message that `buildCommitMessage` writes exactly the
source commits, in their order; and so it does when every line feed of the message is
replaced by a carriage return and a line feed. -/
theorem sourceCommits_of_commitMessage (p : PullRequestBuilder)
    (promotions : promotion.Results) (commits : List github.Commit)
    (hfields : ∀ c ∈ commits,
      (∀ ch ∈ c.Hash.toList, ch.isWhitespace = false) ∧
      (∀ ch ∈ c.AuthorLogin.toList, ch.isWhitespace = false) ∧
      (∀ ch ∈ c.CommitterLogin.toList, ch.isWhitespace = false))
    (htitle : ¬ "Source-commit: ".toList <:+: (p.buildTitle promotions).toList) :
    sourceCommitsOfMessage (p.buildCommitMessage promotions commits) = commits ∧
      sourceCommitsOfMessage (withCRLF (p.buildCommitMessage promotions commits)) =
        commits := by
  have hf : ∀ c ∈ commits,
      (∀ ch ∈ c.Hash.toList, ch ≠ ' ' ∧ ch ≠ '\n' ∧ ch ≠ '\r') ∧
      (∀ ch ∈ c.AuthorLogin.toList, ch ≠ ' ' ∧ ch ≠ '\n' ∧ ch ≠ '\r') ∧
      (∀ ch ∈ c.CommitterLogin.toList, ch ≠ ' ' ∧ ch ≠ '\n' ∧ ch ≠ '\r') := by
    intro c hc
    obtain ⟨h1, h2, h3⟩ := hfields c hc
    exact ⟨fun ch hch => not_whitespace (h1 ch hch), fun ch hch => not_whitespace (h2 ch hch),
      fun ch hch => not_whitespace (h3 ch hch)⟩
  have hnl : ∀ c ∈ commits, ∀ ch ∈ trailerChars c, ch ≠ '\n' := by
    intro c hc
    obtain ⟨h1, h2, h3⟩ := hf c hc
    exact trailerChars_no_newline c (fun ch hch => (h1 ch hch).2.1)
      (fun ch hch => (h2 ch hch).2.1) (fun ch hch => (h3 ch hch).2.1)
  constructor
  · unfold sourceCommitsOfMessage FindAllStringSubmatch
    have hlen : (p.buildCommitMessage promotions commits).length =
        (p.buildCommitMessage promotions commits).toList.length := rfl
    rw [hlen, buildCommitMessage_toList]
    exact findAllLoop_message ['\n'] (Or.inl rfl) _ htitle commits hf _ (Nat.lt_succ_self _)
  · unfold sourceCommitsOfMessage FindAllStringSubmatch
    have hlen : (withCRLF (p.buildCommitMessage promotions commits)).length =
        (withCRLF (p.buildCommitMessage promotions commits)).toList.length := rfl
    have hlist : (withCRLF (p.buildCommitMessage promotions commits)).toList =
        (p.buildTitle promotions).toList.flatMap
            (fun c => if c = '\n' then ['\r', '\n'] else [c]) ++
          (if commits = [] then []
          else ['\r', '\n'] ++ commits.flatMap (fun c => ['\r', '\n'] ++ trailerChars c)) := by
      show ((p.buildCommitMessage promotions commits).toList.flatMap _) = _
      rw [buildCommitMessage_toList, List.flatMap_append]
      by_cases h0 : commits = []
      · simp only [h0, if_true, List.flatMap_nil]
      · simp only [h0, if_false, List.flatMap_append, withCRLF_trailers commits hnl]
        rfl
    rw [hlen, hlist]
    exact findAllLoop_message ['\r', '\n'] (Or.inr rfl) _
      (fun h => htitle (infix_flatMap _ _ (by decide) marker_chars h)) commits hf _
      (Nat.lt_succ_self _)

theorem sourceCommits_of_commitMessage_witness :
    sourceCommitsOfMessage (exampleBuilder.buildCommitMessage promotion.exampleResults
        exampleCommits) = exampleCommits ∧
      sourceCommitsOfMessage (withCRLF (exampleBuilder.buildCommitMessage
        promotion.exampleResults exampleCommits)) = exampleCommits :=
  sourceCommits_of_commitMessage exampleBuilder promotion.exampleResults exampleCommits
    (by decide) (by decide)

end detect

/-! ## `strings.Split` and the commit range -/

theorem stringsSplitLoop_skip (sep : List Char) (l₁ l₂ cur : List Char) :
    stringsSplitLoop sep l₁.length cur (l₁ ++ l₂) = stringsSplitLoop sep 0 cur l₂ := by
  induction l₁ with
  | nil => rfl
  | cons a l₁ ih =>
    show stringsSplitLoop sep (l₁.length + 1) cur (a :: (l₁ ++ l₂)) = _
    rw [stringsSplitLoop, ih]

theorem stringsSplitLoop_no_sep (sep : List Char) (r : List Char) (h : ¬ sep <:+: r)
    (cur : List Char) : stringsSplitLoop sep 0 cur r = [cur ++ r] := by
  induction r generalizing cur with
  | nil => simp [stringsSplitLoop]
  | cons c rest ih =>
    have hpre : sep.isPrefixOf (c :: rest) = false := by
      cases hp : sep.isPrefixOf (c :: rest) with
      | false => rfl
      | true => exact absurd ((List.isPrefixOf_iff_prefix).1 hp).isInfix h
    have hrest : ¬ sep <:+: rest := fun hi => h (hi.trans (List.suffix_cons c rest).isInfix)
    rw [stringsSplitLoop, hpre]
    simp [ih hrest]

theorem stringsSplitLoop_first (s₀ : Char) (sep₁ a rest : List Char) (ha : s₀ ∉ a)
    (cur : List Char) :
    stringsSplitLoop (s₀ :: sep₁) 0 cur (a ++ ((s₀ :: sep₁) ++ rest)) =
      (cur ++ a) :: stringsSplitLoop (s₀ :: sep₁) 0 [] rest := by
  induction a generalizing cur with
  | nil =>
    have hpre : (s₀ :: sep₁).isPrefixOf (s₀ :: (sep₁ ++ rest)) = true :=
      (List.isPrefixOf_iff_prefix).2 ⟨rest, rfl⟩
    show stringsSplitLoop (s₀ :: sep₁) 0 cur (s₀ :: (sep₁ ++ rest)) = _
    rw [stringsSplitLoop, hpre]
    simp only [if_true, List.length_cons, Nat.add_sub_cancel, List.append_nil]
    rw [stringsSplitLoop_skip]
  | cons c a ih =>
    have hc : c ≠ s₀ := fun h => ha (by simp [h])
    have ha₁ : s₀ ∉ a := fun h => ha (List.mem_cons_of_mem c h)
    have hpre : (s₀ :: sep₁).isPrefixOf (c :: (a ++ ((s₀ :: sep₁) ++ rest))) = false := by
      cases hp : (s₀ :: sep₁).isPrefixOf (c :: (a ++ ((s₀ :: sep₁) ++ rest))) with
      | false => rfl
      | true =>
        obtain ⟨t, ht⟩ := (List.isPrefixOf_iff_prefix).1 hp
        exact absurd (List.cons.inj ht).1.symm hc
    show stringsSplitLoop (s₀ :: sep₁) 0 cur (c :: (a ++ ((s₀ :: sep₁) ++ rest))) = _
    rw [stringsSplitLoop, hpre]
    simp only [Bool.false_eq_true, if_false]
    rw [ih ha₁]
    simp

theorem infix_dots_mem (r : List Char) (h : git.sep.toList <:+: r) : '.' ∈ r := by
  obtain ⟨s, t, hst⟩ := h
  rw [← hst]
  simp [git.sep]

namespace git

theorem stringsSplit_no_dots (r : String) (h : ¬ sep.toList <:+: r.toList) :
    stringsSplit r sep = [r] := by
  have hsep : sep ≠ "" := by decide
  unfold stringsSplit
  rw [if_neg hsep, stringsSplitLoop_no_sep _ _ h]
  rfl

theorem stringsSplit_range (from_ to_ : String) (hfrom : '.' ∉ from_.toList)
    (hto : '.' ∉ to_.toList) : stringsSplit (from_ ++ "..." ++ to_) sep = [from_, to_] := by
  have hsep : sep ≠ "" := by decide
  have hl : (from_ ++ "..." ++ to_).toList =
      from_.toList ++ (('.' :: ['.', '.']) ++ to_.toList) := by
    rw [toList_append, toList_append]; simp
  have hto₁ : ¬ sep.toList <:+: to_.toList := fun hi => hto (infix_dots_mem _ hi)
  have h3 : sep.toList = '.' :: ['.', '.'] := rfl
  unfold stringsSplit
  rw [if_neg hsep, hl, h3, stringsSplitLoop_first '.' ['.', '.'] _ _ hfrom, ← h3,
    stringsSplitLoop_no_sep _ _ hto₁]
  rfl

/-- C24: `NewCommitRange(r)` succeeds exactly when `strings.Split(r, "...")` has two parts,
and then returns them as `FromPrefix` and `ToPrefix`; otherwise it fails with an error that
wraps `ErrCommitRangeIncorrect`, without a result. For dot-free `from` and `to` the range
`from...to` gives `(from, to)`, and every `r` without three consecutive dots (a single hash, a
range written with two dots) fails. -/
theorem newCommitRange_spec :
    (∀ r cr, NewCommitRange r = .ok cr ↔ stringsSplit r sep = [cr.FromPrefix, cr.ToPrefix]) ∧
    (∀ r, (stringsSplit r sep).length ≠ 2 →
      NewCommitRange r = .error (.errCommitRangeIncorrect (stringsSplit r sep))) ∧
    (∀ from_ to_ : String, '.' ∉ from_.toList → '.' ∉ to_.toList →
      NewCommitRange (from_ ++ "..." ++ to_) = .ok { FromPrefix := from_, ToPrefix := to_ }) ∧
    (∀ r : String, ¬ "...".toList <:+: r.toList →
      NewCommitRange r = .error (.errCommitRangeIncorrect [r])) := by
  refine ⟨?_, ?_, ?_, ?_⟩
  · intro r cr
    unfold NewCommitRange
    constructor
    · intro h
      by_cases hlen : (stringsSplit r sep).length ≠ 2
      · simp [hlen] at h
      · simp only [hlen, if_false] at h
        have hcr := (Except.ok.inj h).symm
        match hs : stringsSplit r sep, hlen with
        | [a, b], _ => rw [hs] at hcr; rw [hcr]; rfl
        | [], hl => simp at hl
        | [_], hl => simp at hl
        | _ :: _ :: _ :: _, hl => simp at hl
    · intro h
      rw [h]
      rfl
  · intro r hlen
    unfold NewCommitRange
    simp [hlen]
  · intro from_ to_ hfrom hto
    unfold NewCommitRange
    rw [stringsSplit_range from_ to_ hfrom hto]
    rfl
  · intro r h
    unfold NewCommitRange
    rw [stringsSplit_no_dots r h]
    rfl

theorem newCommitRange_spec_witness :
    NewCommitRange ("0a1b2c" ++ "..." ++ "3d4e5f") =
      .ok { FromPrefix := "0a1b2c", ToPrefix := "3d4e5f" } ∧
    NewCommitRange "0a1b2c..3d4e5f" = .error (.errCommitRangeIncorrect ["0a1b2c..3d4e5f"]) ∧
    NewCommitRange "0a1b2c" = .error (.errCommitRangeIncorrect ["0a1b2c"]) :=
  ⟨newCommitRange_spec.2.2.1 "0a1b2c" "3d4e5f" (by decide) (by decide),
   newCommitRange_spec.2.2.2 "0a1b2c..3d4e5f" (by decide),
   newCommitRange_spec.2.2.2 "0a1b2c" (by decide)⟩

end git

/-! ## `Distinct` on lists with the same set of changes -/

namespace detect

theorem map_eq_of_injOn {α β : Type} (f : α → β) (l₁ l₂ : List α)
    (h : l₁.map f = l₂.map f) (hinj : ∀ a ∈ l₁, ∀ b ∈ l₂, f a = f b → a = b) : l₁ = l₂ := by
  induction l₁ generalizing l₂ with
  | nil =>
    cases l₂ with
    | nil => rfl
    | cons b l₂ => simp at h
  | cons a l₁ ih =>
    cases l₂ with
    | nil => simp at h
    | cons b l₂ =>
      simp only [List.map_cons, List.cons.injEq] at h
      have hab : a = b := hinj a (List.mem_cons_self a l₁) b (List.mem_cons_self b l₂) h.1
      rw [hab, ih l₂ h.2 (fun x hx y hy hxy =>
        hinj x (List.mem_cons_of_mem a hx) y (List.mem_cons_of_mem b hy) hxy)]

theorem Distinct_spec (sortSort : List WorkloadChange → List WorkloadChange)
    (hsort : IsSortSort sortSort) (changes : List WorkloadChange) :
    (Distinct sortSort changes).Nodup ∧
    (∀ c, c ∈ Distinct sortSort changes ↔ c ∈ changes) ∧
    ((Distinct sortSort changes).map (fun c => c.W.Name)).Sorted (fun a b => a ≤ b) := by
  obtain ⟨h1, h2⟩ := distinctLoop_spec changes [] [] (fun c => Iff.rfl) List.nodup_nil
  have hperm := hsort.perm (distinctLoop [] [] changes)
  refine ⟨hperm.nodup_iff.2 h1, fun c => ?_, ?_⟩
  · unfold Distinct
    rw [hperm.mem_iff, h2 c]
    simp
  · unfold Distinct List.Sorted
    rw [List.pairwise_map]
    exact (hsort.sorted (distinctLoop [] [] changes)).imp
      (fun {a b} h => workloadChangeLess_eq_false.1 h)

theorem insertionSort_pair (a b : WorkloadChange) (h : a.W.Name = b.W.Name) :
    insertionSort [a, b] = [a, b] := by
  simp [insertionSort, insertLeft, workloadChangeLess, h]

/-- C28, as stated, fails when two different changes bear the same workload name: `Less`
compares the names alone, so the insertion sort that `sort.Sort` runs on a short slice leaves
such changes in the order of their first occurrence in the argument list. -/
theorem Distinct_depends_on_order :
    (∀ c : WorkloadChange,
      c ∈ [{ Op := OperationCopy, W := { SourceEnv := "manifests", Name := "foo" } },
           { Op := OperationCopy, W := { SourceEnv := "development", Name := "foo" } }] ↔
      c ∈ [{ Op := OperationCopy, W := { SourceEnv := "development", Name := "foo" } },
           ({ Op := OperationCopy, W := { SourceEnv := "manifests", Name := "foo" } } :
             WorkloadChange)]) ∧
    Distinct insertionSort
      [{ Op := OperationCopy, W := { SourceEnv := "manifests", Name := "foo" } },
       { Op := OperationCopy, W := { SourceEnv := "development", Name := "foo" } }] =
      [{ Op := OperationCopy, W := { SourceEnv := "manifests", Name := "foo" } },
       { Op := OperationCopy, W := { SourceEnv := "development", Name := "foo" } }] ∧
    Distinct insertionSort
      [{ Op := OperationCopy, W := { SourceEnv := "development", Name := "foo" } },
       { Op := OperationCopy, W := { SourceEnv := "manifests", Name := "foo" } }] =
      [{ Op := OperationCopy, W := { SourceEnv := "development", Name := "foo" } },
       { Op := OperationCopy, W := { SourceEnv := "manifests", Name := "foo" } }] ∧
    Distinct insertionSort
      [{ Op := OperationCopy, W := { SourceEnv := "manifests", Name := "foo" } },
       { Op := OperationCopy, W := { SourceEnv := "development", Name := "foo" } }] ≠
    Distinct insertionSort
      [{ Op := OperationCopy, W := { SourceEnv := "development", Name := "foo" } },
       { Op := OperationCopy, W := { SourceEnv := "manifests", Name := "foo" } }] := by
  have h1 : distinctLoop [] []
      [{ Op := OperationCopy, W := { SourceEnv := "manifests", Name := "foo" } },
       { Op := OperationCopy, W := { SourceEnv := "development", Name := "foo" } }] =
      [{ Op := OperationCopy, W := { SourceEnv := "manifests", Name := "foo" } },
       { Op := OperationCopy, W := { SourceEnv := "development", Name := "foo" } }] := by
    decide
  have h2 : distinctLoop [] []
      [{ Op := OperationCopy, W := { SourceEnv := "development", Name := "foo" } },
       { Op := OperationCopy, W := { SourceEnv := "manifests", Name := "foo" } }] =
      [{ Op := OperationCopy, W := { SourceEnv := "development", Name := "foo" } },
       { Op := OperationCopy, W := { SourceEnv := "manifests", Name := "foo" } }] := by
    decide
  have e1 : Distinct insertionSort
      [{ Op := OperationCopy, W := { SourceEnv := "manifests", Name := "foo" } },
       { Op := OperationCopy, W := { SourceEnv := "development", Name := "foo" } }] =
      [{ Op := OperationCopy, W := { SourceEnv := "manifests", Name := "foo" } },
       { Op := OperationCopy, W := { SourceEnv := "development", Name := "foo" } }] := by
    unfold Distinct
    rw [h1]
    exact insertionSort_pair _ _ rfl
  have e2 : Distinct insertionSort
      [{ Op := OperationCopy, W := { SourceEnv := "development", Name := "foo" } },
       { Op := OperationCopy, W := { SourceEnv := "manifests", Name := "foo" } }] =
      [{ Op := OperationCopy, W := { SourceEnv := "development", Name := "foo" } },
       { Op := OperationCopy, W := { SourceEnv := "manifests", Name := "foo" } }] := by
    unfold Distinct
    rw [h2]
    exact insertionSort_pair _ _ rfl
  refine ⟨fun c => ?_, e1, e2, ?_⟩
  · simp only [List.mem_cons, List.mem_singleton, List.not_mem_nil, or_false]
    exact or_comm
  · rw [e1, e2]
    decide

/-- C28, amended: for two argument lists with the same set of changes, the results of
`Distinct` (with any `sort.Sort` that meets its contract) hold the same changes, each once,
and list the same workload names in the same order; they are the same list when no two
different changes of the set bear the same workload name. -/
theorem Distinct_of_same_set (sortSort : List WorkloadChange → List WorkloadChange)
    (hsort : IsSortSort sortSort) (l₁ l₂ : List WorkloadChange)
    (hset : ∀ c, c ∈ l₁ ↔ c ∈ l₂) :
    (Distinct sortSort l₁).Perm (Distinct sortSort l₂) ∧
    (Distinct sortSort l₁).map (fun c => c.W.Name) =
      (Distinct sortSort l₂).map (fun c => c.W.Name) ∧
    ((∀ a ∈ l₁, ∀ b ∈ l₁, a.W.Name = b.W.Name → a = b) →
      Distinct sortSort l₁ = Distinct sortSort l₂) := by
  obtain ⟨hn₁, hm₁, hs₁⟩ := Distinct_spec sortSort hsort l₁
  obtain ⟨hn₂, hm₂, hs₂⟩ := Distinct_spec sortSort hsort l₂
  have hperm : (Distinct sortSort l₁).Perm (Distinct sortSort l₂) :=
    (List.perm_ext_iff_of_nodup hn₁ hn₂).2 (fun c => by rw [hm₁ c, hm₂ c, hset c])
  have hnames := List.eq_of_perm_of_sorted (hperm.map (fun c => c.W.Name)) hs₁ hs₂
  refine ⟨hperm, hnames, fun hinj => ?_⟩
  exact map_eq_of_injOn _ _ _ hnames (fun a ha b hb hab =>
    hinj a ((hm₁ a).1 ha) b ((hset b).2 ((hm₂ b).1 hb)) hab)

/-- C28, amended, with Go's insertion sort on two lists that hold the same two changes. -/
theorem Distinct_of_same_set_witness :
    Distinct insertionSort
      [{ Op := OperationCopy, W := { SourceEnv := "manifests", Name := "workload2" } },
       { Op := OperationRemove, W := { SourceEnv := "manifests", Name := "workload1" } },
       { Op := OperationCopy, W := { SourceEnv := "manifests", Name := "workload2" } }] =
    Distinct insertionSort
      [{ Op := OperationRemove, W := { SourceEnv := "manifests", Name := "workload1" } },
       { Op := OperationCopy, W := { SourceEnv := "manifests", Name := "workload2" } }] :=
  (Distinct_of_same_set insertionSort insertionSort_isSortSort _ _
    (fun c => by
      simp only [List.mem_cons, List.mem_singleton, List.not_mem_nil, or_false]
      tauto)).2.2 (by decide)

end detect
/-! ## Renames with one workload path -/

namespace detect

theorem workload_manifests_long (path : String) (hpre : hasPrefix path "flux/manifests/" = true)
    (hlen : 4 ≤ (splitSlash path).length) : ∃ wl, workload path = .ok wl := by
  have hp := hasPrefix_manifests_of_dir path hpre
  have hlt : ¬ (splitSlash path).length < sourceManifestDirLevel := by
    simp only [sourceManifestDirLevel]; omega
  exact ⟨{ SourceEnv := (splitSlash path).getD 1 "", Name := (splitSlash path).getD 2 "" },
    by simp only [workload, join_flux_manifests, hp, if_true, inferSourceManifestWorkload, hlt,
      if_false]⟩

theorem workload_promoted_long (path : String) (hpre : hasPrefix path "flux/promoted/" = true)
    (hlen : 7 ≤ (splitSlash path).length) : ∃ wl, workload path = .ok wl := by
  obtain ⟨hp, hm⟩ := hasPrefix_promoted_of_dir path hpre
  have hlt : ¬ (splitSlash path).length < promotedDirLevel := by
    simp only [promotedDirLevel]; omega
  exact ⟨{ SourceEnv := (splitSlash path).getD 2 "", Name := (splitSlash path).getD 5 "" },
    by simp only [workload, join_flux_manifests, join_flux_promoted, hp, hm, if_true,
      inferPromotedWorkload, hlt, if_false]; rfl⟩

theorem workloadChanges_rename_one_ok (inf : Inferer) (x y : String) (wl : Workload)
    (hx : x ≠ "") (hy : y ≠ "") (hxy : x ≠ y)
    (h : (workload x = .ok wl ∧ workload y = .error (.notWorkloadManifest y)) ∨
      (workload x = .error (.notWorkloadManifest x) ∧ workload y = .ok wl)) :
    inf.WorkloadChanges { From := x, To := y } = .ok [] := by
  rcases h with ⟨h1, h2⟩ | ⟨h1, h2⟩
  · simp [Inferer.WorkloadChanges, Inferer.additions, Inferer.deletions, Inferer.modifications,
      Inferer.renames, isAddition, isDeletion, isModification, h1, h2, hx, hy, hxy]
  · simp [Inferer.WorkloadChanges, Inferer.additions, Inferer.deletions, Inferer.modifications,
      Inferer.renames, isAddition, isDeletion, isModification, h1, h2, hx, hy, hxy]

theorem workloadChanges_rename_to_error (inf : Inferer) (x y : String) (wl : Workload)
    (hx : x ≠ "") (hy : y ≠ "") (hxy : x ≠ y) (h1 : workload x = .ok wl)
    (h2 : workload y = .error (.unknownPathConvention y)) :
    inf.WorkloadChanges { From := x, To := y } = .error (.unknownPathConvention y) := by
  simp [Inferer.WorkloadChanges, Inferer.additions, Inferer.deletions, Inferer.modifications,
    Inferer.renames, isAddition, isDeletion, isModification, h1, h2, hx, hy, hxy]

/-- C29, as stated, fails: the rename of `flux/manifests/foo/a.yaml`, a workload path, to
`flux/manifests/a.yaml`, from which no workload is derived, is a rename entry with exactly
one workload path, and `Inferer.WorkloadChanges` returns an error wrapping
`ErrUnknownPathConvention` for it. -/
theorem workloadChanges_rename_to_short_manifests_path :
    isRename { From := "flux/manifests/foo/a.yaml", To := "flux/manifests/a.yaml" } = true ∧
    workload "flux/manifests/foo/a.yaml" = .ok { SourceEnv := "manifests", Name := "foo" } ∧
    workload "flux/manifests/a.yaml" = .error (.unknownPathConvention "flux/manifests/a.yaml") ∧
    exampleInferer.WorkloadChanges
      { From := "flux/manifests/foo/a.yaml", To := "flux/manifests/a.yaml" } =
        .error (.unknownPathConvention "flux/manifests/a.yaml") := by
  decide

/-- C29, amended: take a rename entry (both paths non-empty and different) in which one path
`x` is a workload path, that is, begins with `flux/manifests/` and has at least four segments
or begins with `flux/promoted/` and has at least seven, and `y` is the other path. When `y`
begins with neither `flux/manifests` nor `flux/promoted`, or begins with `flux/promoted/` and
has fewer than seven segments, `Inferer.WorkloadChanges` returns no change and no error,
whatever the repository answers: the workload of `x` is neither copied nor removed. When `y`
begins with `flux/manifests/` and has fewer than four segments, it returns the error wrapping
`ErrUnknownPathConvention` that carries `y`. -/
theorem workloadChanges_one_sided_rename (inf : Inferer) (c : Change) (x y : String)
    (hfrom : c.From ≠ "") (hto : c.To ≠ "") (hne : c.From ≠ c.To)
    (hxy : (x = c.From ∧ y = c.To) ∨ (x = c.To ∧ y = c.From))
    (hx : (hasPrefix x "flux/manifests/" = true ∧ 4 ≤ (splitSlash x).length) ∨
      (hasPrefix x "flux/promoted/" = true ∧ 7 ≤ (splitSlash x).length)) :
    (((hasPrefix y "flux/manifests" = false ∧ hasPrefix y "flux/promoted" = false) ∨
        (hasPrefix y "flux/promoted/" = true ∧ (splitSlash y).length < 7)) →
      inf.WorkloadChanges c = .ok []) ∧
    ((hasPrefix y "flux/manifests/" = true ∧ (splitSlash y).length < 4) →
      inf.WorkloadChanges c = .error (.unknownPathConvention y)) := by
  obtain ⟨a, b⟩ := c
  simp only at hfrom hto hne hxy
  obtain ⟨wl, hwl⟩ : ∃ wl, workload x = .ok wl := by
    rcases hx with ⟨h1, h2⟩ | ⟨h1, h2⟩
    · exact workload_manifests_long x h1 h2
    · exact workload_promoted_long x h1 h2
  constructor
  · intro hy
    have hyw : workload y = .error (.notWorkloadManifest y) := by
      rcases hy with ⟨h1, h2⟩ | ⟨h1, h2⟩
      · simp [workload, join_flux_manifests, join_flux_promoted, h1, h2]
      · exact workload_promoted_short y h1 h2
    rcases hxy with ⟨rfl, rfl⟩ | ⟨rfl, rfl⟩
    · exact workloadChanges_rename_one_ok inf x y wl hfrom hto hne (Or.inl ⟨hwl, hyw⟩)
    · exact workloadChanges_rename_one_ok inf y x wl hfrom hto hne (Or.inr ⟨hyw, hwl⟩)
  · rintro ⟨h1, h2⟩
    have hyw : workload y = .error (.unknownPathConvention y) :=
      workload_manifests_short y (hasPrefix_manifests_of_dir y h1) h2
    rcases hxy with ⟨rfl, rfl⟩ | ⟨rfl, rfl⟩
    · exact workloadChanges_rename_to_error inf x y wl hfrom hto hne hwl hyw
    · exact workloadChanges_from_error inf y x hfrom hyw

/-- C29, amended, on a file moved from the top of the repository into the workload `foo`
with an inferer whose repository cannot be read, on a file moved out of the workload `foo`
of the cluster `dev1`, and on a file moved from the workload `foo` to the top of
`flux/manifests`. -/
theorem workloadChanges_one_sided_rename_witness :
    Inferer.WorkloadChanges
      { repo :=
          { ResolveRevision := fun _ => .error "unreadable"
            CommitObject := fun _ => .error "unreadable"
            CommitTree := fun _ => .error "unreadable"
            TreeTree := fun _ _ => .failed "unreadable" }
        commitPrefix := "HEAD" }
      { From := "README.md", To := "flux/manifests/foo/README.md" } = .ok [] ∧
    exampleInferer.WorkloadChanges
      { From := "flux/promoted/development/dev1/cloud1/foo/deploy.yaml",
        To := "docs/deploy.yaml" } = .ok [] ∧
    exampleInferer.WorkloadChanges
      { From := "flux/manifests/foo/a.yaml", To := "flux/manifests/a.yaml" } =
        .error (.unknownPathConvention "flux/manifests/a.yaml") :=
  ⟨(workloadChanges_one_sided_rename _ { From := "README.md", To := "flux/manifests/foo/README.md" }
      "flux/manifests/foo/README.md" "README.md" (by decide) (by decide) (by decide)
      (Or.inr ⟨rfl, rfl⟩) (Or.inl ⟨by decide, by decide⟩)).1 (Or.inl ⟨by decide, by decide⟩),
   (workloadChanges_one_sided_rename _
      { From := "flux/promoted/development/dev1/cloud1/foo/deploy.yaml", To := "docs/deploy.yaml" }
      "flux/promoted/development/dev1/cloud1/foo/deploy.yaml" "docs/deploy.yaml"
      (by decide) (by decide) (by decide)
      (Or.inl ⟨rfl, rfl⟩) (Or.inr ⟨by decide, by decide⟩)).1 (Or.inl ⟨by decide, by decide⟩),
   (workloadChanges_one_sided_rename _
      { From := "flux/manifests/foo/a.yaml", To := "flux/manifests/a.yaml" }
      "flux/manifests/foo/a.yaml" "flux/manifests/a.yaml" (by decide) (by decide) (by decide)
      (Or.inl ⟨rfl, rfl⟩) (Or.inl ⟨by decide, by decide⟩)).2 ⟨by decide, by decide⟩⟩

end detect

/-! ## `ConfigKust.Write` -/

namespace billy

theorem extendedWithin_refl (A : Key → Prop) (fs : Memory) (h : (fs.files.map Prod.fst).Nodup) :
    fs.ExtendedWithin A fs :=
  ⟨h, fun _ _ h => h, fun _ _ h => Or.inl h⟩

theorem extendedWithin_trans {A : Key → Prop} {fs fs₁ fs₂ : Memory}
    (h₁ : fs.ExtendedWithin A fs₁) (h₂ : fs₁.ExtendedWithin A fs₂) : fs.ExtendedWithin A fs₂ := by
  refine ⟨h₂.1, fun key n h => h₂.2.1 key n (h₁.2.1 key n h), fun key c h => ?_⟩
  rcases h₂.2.2 key c h with h3 | h3
  · exact h₁.2.2 key c h3
  · exact Or.inr h3

theorem extendedWithin_mono {A B : Key → Prop} {fs fs₁ : Memory} (hAB : ∀ k, A k → B k)
    (h : fs.ExtendedWithin A fs₁) : fs.ExtendedWithin B fs₁ :=
  ⟨h.1, h.2.1, fun key c hc => (h.2.2 key c hc).imp id (hAB key)⟩

theorem stat_error_iff (fs : Memory) (path : String) :
    (∃ e, fs.Stat path = .error e) ↔ fs.get (resolve path) = none := by
  unfold Memory.Stat
  cases fs.get (resolve path) <;> simp

end billy

namespace kustomization

open billy clusterconf

/-- The effect of `ConfigKust.save` on a path without entry: the file is created with the
content, together with its missing parent directories, and nothing else changes. -/
theorem save_spec (fs : Memory) (path content : String) (h : (fs.files.map Prod.fst).Nodup)
    (hp : fs.get (resolve path) = none) :
    ∃ fs₁, ConfigKust.save fs path content = (.ok (), fs₁) ∧
      fs₁.get (resolve path) = some (.file content) ∧
      fs.ExtendedWithin (fun key => key = resolve path) fs₁ := by
  obtain ⟨fs₀, h0, h1, _, h3, h4⟩ := new_spec fs (resolve path) (.file "") h hp
  refine ⟨fs₀.put (resolve path) (.file content), ?_, ?_, ?_, ?_, ?_⟩
  · simp only [ConfigKust.save, Memory.Create, hp, h0, Memory.Write]
  · rw [get_put, if_pos rfl]
  · exact nodup_put _ _ _ h1
  · intro key n hkey
    have hne : resolve path ≠ key := by
      intro heq
      rw [← heq, hp] at hkey
      cases hkey
    rw [get_put, if_neg hne]
    exact h3 key n hkey
  · intro key c hkey
    by_cases heq : resolve path = key
    · exact Or.inr heq.symm
    · rw [get_put, if_neg heq] at hkey
      rcases h4 key _ hkey with h5 | h5 | h5
      · exact Or.inr h5
      · exact Or.inl h5
      · cases h5.1

theorem properSegment_config (w : String) (hw : '/' ∉ w.toList) :
    properSegment (w ++ "-config.yaml") := by
  have hlen : (w ++ "-config.yaml").length = w.length + 12 := by
    rw [String.length_append]; rfl
  refine ⟨?_, ?_, ?_, ?_⟩
  · intro h
    rw [h] at hlen
    simp at hlen
  · intro h
    rw [h] at hlen
    have : (".").length = 1 := rfl
    omega
  · intro h
    rw [h] at hlen
    have : ("..").length = 2 := rfl
    omega
  · rw [toList_append]
    intro h
    rcases List.mem_append.1 h with h1 | h1
    · exact hw h1
    · revert h1
      decide

theorem writeWorkloadConfig_spec (A : Key → Prop) (cluster : Cluster) (workloads : List String)
    (fs : Memory) (h : (fs.files.map Prod.fst).Nodup)
    (hA : ∀ w ∈ workloads,
      A (resolve (filepathJoin [cluster.ConfigFolder, w ++ "-config.yaml"]))) :
    fs.ExtendedWithin A (ConfigKust.writeWorkloadConfig cluster workloads fs).2 := by
  induction workloads generalizing fs with
  | nil => exact extendedWithin_refl _ fs h
  | cons workload rest ih =>
    cases hs : fs.Stat (filepathJoin [cluster.ConfigFolder, workload ++ "-config.yaml"]) with
    | ok _ =>
      have hstep : ConfigKust.writeWorkloadConfig cluster (workload :: rest) fs = (.ok (), fs) := by
        simp only [ConfigKust.writeWorkloadConfig, hs]
      rw [hstep]
      exact extendedWithin_refl _ fs h
    | error e =>
      have hnone := (stat_error_iff fs _).1 ⟨e, hs⟩
      obtain ⟨fs₁, h1, _, h3⟩ := save_spec fs _ ConfigContent h hnone
      have hstep : ConfigKust.writeWorkloadConfig cluster (workload :: rest) fs =
          ConfigKust.writeWorkloadConfig cluster rest fs₁ := by
        simp only [ConfigKust.writeWorkloadConfig, hs, h1]
      rw [hstep]
      refine extendedWithin_trans (extendedWithin_mono ?_ h3)
        (ih fs₁ h3.1 (fun w hw₁ => hA w (List.mem_cons_of_mem _ hw₁)))
      intro key hk
      rw [hk]
      exact hA workload (List.mem_cons_self _ _)

theorem writeKustomization_spec (A : Key → Prop) (fs : Memory) (kustomizationPath : String)
    (h : (fs.files.map Prod.fst).Nodup) (hA : A (resolve kustomizationPath)) :
    fs.ExtendedWithin A (ConfigKust.writeKustomization fs kustomizationPath).2 := by
  cases hs : fs.Stat kustomizationPath with
  | ok _ =>
    simp only [ConfigKust.writeKustomization, hs]
    exact extendedWithin_refl _ fs h
  | error e =>
    have hnone := (stat_error_iff fs _).1 ⟨e, hs⟩
    obtain ⟨fs₁, h1, _, h3⟩ := save_spec fs _ ClusterKustomization h hnone
    simp only [ConfigKust.writeKustomization, hs, h1]
    refine extendedWithin_mono ?_ h3
    intro key hk
    rw [hk]
    exact hA

theorem writeLoop_spec (A : Key → Prop) (perCluster : GoMap (List String))
    (clusters : List Cluster) (fs : Memory) (h : (fs.files.map Prod.fst).Nodup)
    (hA : ∀ c ∈ clusters, ∀ ws, perCluster.get? c.Name = some ws →
      (∀ w ∈ ws, A (resolve (filepathJoin [c.ConfigFolder, w ++ "-config.yaml"]))) ∧
      A (resolve (filepathJoin [c.ConfigFolder, KustomizationFile]))) :
    fs.ExtendedWithin A (ConfigKust.writeLoop perCluster clusters fs).2 := by
  induction clusters generalizing fs with
  | nil => exact extendedWithin_refl _ fs h
  | cons cluster rest ih =>
    have hrest := fun fs₁ h₁ => ih fs₁ h₁ (fun c hc => hA c (List.mem_cons_of_mem _ hc))
    cases hg : perCluster.get? cluster.Name with
    | none =>
      simp only [ConfigKust.writeLoop, hg]
      exact hrest fs h
    | some workloads =>
      obtain ⟨hA₁, hA₂⟩ := hA cluster (List.mem_cons_self _ _) workloads hg
      have h1 := writeWorkloadConfig_spec A cluster workloads fs h hA₁
      rcases hr : ConfigKust.writeWorkloadConfig cluster workloads fs with ⟨r₁, fs₁⟩
      rw [hr] at h1
      cases r₁ with
      | error e =>
        simp only [ConfigKust.writeLoop, hg, hr]
        exact h1
      | ok u =>
        have h2 := writeKustomization_spec A fs₁
          (filepathJoin [cluster.ConfigFolder, KustomizationFile]) h1.1 hA₂
        rcases hr₂ : ConfigKust.writeKustomization fs₁
          (filepathJoin [cluster.ConfigFolder, KustomizationFile]) with ⟨r₂, fs₂⟩
        rw [hr₂] at h2
        cases r₂ with
        | error e =>
          simp only [ConfigKust.writeLoop, hg, hr, hr₂]
          exact extendedWithin_trans h1 h2
        | ok u₂ =>
          simp only [ConfigKust.writeLoop, hg, hr, hr₂]
          exact extendedWithin_trans (extendedWithin_trans h1 h2) (hrest fs₂ h2.1)

theorem mem_of_get? {β : Type} (m : GoMap β) (k : String) (v : β) (h : m.get? k = some v) :
    (k, v) ∈ m := by
  induction m with
  | nil => simp [GoMap.get?] at h
  | cons e rest ih =>
    obtain ⟨k₁, v₁⟩ := e
    unfold GoMap.get? at h
    by_cases hk : k₁ = k
    · rw [if_pos hk] at h
      cases h
      rw [hk]
      exact List.mem_cons_self _ _
    · rw [if_neg hk] at h
      exact List.mem_cons_of_mem _ (ih h)

/-- C22 at a failing input, the mixed case that `TestNewConfigKust` leaves out: the config
folder holds `foo-config.yaml` and the cluster is listed with `foo` and `bar`. `Write` returns
without error and creates `kustomization.yaml`, but `writeWorkloadConfig` has returned at
`foo`, so `bar-config.yaml` does not exist. -/
theorem configKust_write_stops_at_existing :
    (ConfigKust.Write ⟨[exampleConfigCluster]⟩ exampleConfigFS [("dev1", ["foo", "bar"])]).1 =
      .ok () ∧
    (ConfigKust.Write ⟨[exampleConfigCluster]⟩ exampleConfigFS [("dev1", ["foo", "bar"])]).2.Stat
      (filepathJoin [exampleConfigCluster.ConfigFolder, "bar" ++ "-config.yaml"]) =
      .error .errNotExist ∧
    (ConfigKust.Write ⟨[exampleConfigCluster]⟩ exampleConfigFS [("dev1", ["foo", "bar"])]).2.Open
      (filepathJoin [exampleConfigCluster.ConfigFolder, "foo" ++ "-config.yaml"]) =
      .ok "don't change me" ∧
    (ConfigKust.Write ⟨[exampleConfigCluster]⟩ exampleConfigFS [("dev1", ["foo", "bar"])]).2.Open
      (filepathJoin [exampleConfigCluster.ConfigFolder, KustomizationFile]) =
      .ok ClusterKustomization ∧
    (ConfigKust.Write ⟨[exampleConfigCluster]⟩ exampleConfigFS [("dev1", ["bar", "foo"])]).2.Open
      (filepathJoin [exampleConfigCluster.ConfigFolder, "bar" ++ "-config.yaml"]) =
      .ok ConfigContent := by
  decide

/-- C23, as stated, fails for a workload name with a path separator: the configuration of
`../escape` is created next to the config folder of the cluster, not in it. -/
theorem configKust_write_outside_config_folder :
    (ConfigKust.Write ⟨[exampleConfigCluster]⟩ exampleConfigFS [("dev1", ["../escape"])]).1 =
      .ok () ∧
    exampleConfigFS.get ["config", "development", "dev1", "escape-config.yaml"] = none ∧
    (ConfigKust.Write ⟨[exampleConfigCluster]⟩ exampleConfigFS [("dev1", ["../escape"])]).2.get
      ["config", "development", "dev1", "escape-config.yaml"] = some (.file ConfigContent) ∧
    resolve exampleConfigCluster.ConfigFolder = ["config", "development", "dev1", "cloud1"] ∧
    ¬ resolve exampleConfigCluster.ConfigFolder <+:
      ["config", "development", "dev1", "escape-config.yaml"] := by
  decide

/-- C23, amended: `ConfigKust.Write`, whether it returns an error or not, leaves every entry
of the filesystem as it was, so no file that exists before the call is changed; every file
that it creates is the `<workload>-config.yaml` of a listed workload or the
`kustomization.yaml`, joined to the config folder of a cluster of the group that has an entry
in `perCluster`; and when no listed workload name contains a path separator, every file that
it creates lies directly in the config folder of such a cluster. -/
theorem configKust_write_frame (k : ConfigKust) (fs : Memory)
    (perCluster : GoMap (List String)) (hnd : (fs.files.map Prod.fst).Nodup) :
    (∀ key n, fs.get key = some n → (k.Write fs perCluster).2.get key = some n) ∧
    (∀ key content, (k.Write fs perCluster).2.get key = some (.file content) →
      fs.get key = some (.file content) ∨
      ∃ c ∈ k.clusters, ∃ ws, perCluster.get? c.Name = some ws ∧
        (key = resolve (filepathJoin [c.ConfigFolder, KustomizationFile]) ∨
          ∃ w ∈ ws, key = resolve (filepathJoin [c.ConfigFolder, w ++ "-config.yaml"]))) ∧
    ((∀ e ∈ perCluster, ∀ w ∈ e.2, '/' ∉ w.toList) →
      ∀ key content, (k.Write fs perCluster).2.get key = some (.file content) →
        fs.get key = some (.file content) ∨
        ∃ c ∈ k.clusters, (∃ ws, perCluster.get? c.Name = some ws) ∧
          ∃ name, key = resolve c.ConfigFolder ++ [name]) := by
  have h1 := writeLoop_spec
    (fun key => ∃ c ∈ k.clusters, ∃ ws, perCluster.get? c.Name = some ws ∧
      (key = resolve (filepathJoin [c.ConfigFolder, KustomizationFile]) ∨
        ∃ w ∈ ws, key = resolve (filepathJoin [c.ConfigFolder, w ++ "-config.yaml"])))
    perCluster k.clusters fs hnd
    (fun c hc ws hws =>
      ⟨fun w hw => ⟨c, hc, ws, hws, Or.inr ⟨w, hw, rfl⟩⟩, ⟨c, hc, ws, hws, Or.inl rfl⟩⟩)
  refine ⟨h1.2.1, h1.2.2, fun hnames key content hkey => ?_⟩
  rcases h1.2.2 key content hkey with h2 | ⟨c, hc, ws, hws, h3⟩
  · exact Or.inl h2
  · right
    refine ⟨c, hc, ⟨ws, hws⟩, ?_⟩
    rcases h3 with h3 | ⟨w, hw, h3⟩
    · exact ⟨KustomizationFile, h3.trans
        (resolve_join_name c.ConfigFolder KustomizationFile (by decide))⟩
    · exact ⟨w ++ "-config.yaml", h3.trans (resolve_join_name c.ConfigFolder _
        (properSegment_config w (hnames _ (mem_of_get? _ _ _ hws) w hw)))⟩

/-- C23, amended, on the cluster of `TestNewConfigKust` with the configuration of `foo` in
place: the file keeps its content, and the files created lie in the config folder. -/
theorem configKust_write_frame_witness :
    (∀ key n, exampleConfigFS.get key = some n →
      (ConfigKust.Write ⟨[exampleConfigCluster]⟩ exampleConfigFS
        [("dev1", ["bar", "foo"])]).2.get key = some n) ∧
    (∀ key content,
      (ConfigKust.Write ⟨[exampleConfigCluster]⟩ exampleConfigFS
        [("dev1", ["bar", "foo"])]).2.get key = some (.file content) →
      exampleConfigFS.get key = some (.file content) ∨
      ∃ c ∈ [exampleConfigCluster],
        (∃ ws, GoMap.get? [("dev1", ["bar", "foo"])] c.Name = some ws) ∧
          ∃ name, key = resolve c.ConfigFolder ++ [name]) :=
  ⟨(configKust_write_frame ⟨[exampleConfigCluster]⟩ exampleConfigFS [("dev1", ["bar", "foo"])]
      (by decide)).1,
   (configKust_write_frame ⟨[exampleConfigCluster]⟩ exampleConfigFS [("dev1", ["bar", "foo"])]
      (by decide)).2.2 (by decide)⟩

end kustomization

/-! ## The keys of the promotion results -/

namespace promoter

open clusterconf

/-- C30 at a failing input: the `workload.yaml` in the directory of `foo` declares the name
`bar`. The registry returns the configuration under the name `bar`, `performChanges` copies
the directory of `foo` and stores the change under the key `bar`, so the key differs from the
`W.Name` of the change: `WorkloadNames` lists `foo`, `WorkloadsPerCluster` lists `bar`, and
the table has no check mark for the workload that was promoted. -/
theorem performChanges_key_differs_from_name :
    exampleRenamedRegistry.Get exampleRenamedFS "foo" =
      .ok { Version := "v0.1", ConfigType := "Workload",
            Metadata := { Name := "bar", Description := "" }, Spec := { Exclusions := [] } } ∧
    performChanges exampleRenamedPromoter [exampleCopyFoo]
      [exampleCluster "development" "dev2" "cloud1"] "development" [] =
      (.ok [("dev2-cloud1", [("bar", exampleCopyFoo)])],
        [("Replace", "/flux/promoted/development/dev2/cloud1/foo", "/flux/manifests/foo"),
         ("Kust.Write", "/flux/promoted/development/dev2/cloud1/kustomization.yaml", "")]) ∧
    exampleCopyFoo.W.Name = "foo" ∧
    promotion.Results.WorkloadNames [("dev2-cloud1", [("bar", exampleCopyFoo)])] = ["foo"] ∧
    promotion.Results.WorkloadsPerCluster [("dev2-cloud1", [("bar", exampleCopyFoo)])] =
      [("dev2-cloud1", ["bar"])] ∧
    buildTableView [("dev2-cloud1", [("bar", exampleCopyFoo)])] promotion.ManifestUpdate =
      [["", "foo"], ["-", "-"], ["dev2-cloud1", "-"]] := by
  decide

end promoter

/-! ## The assignees of a pull request -/

namespace github

/-- The logins that the checks of `isAssignee` accept. -/
theorem isAssigneeLoop_eq_true (r : ManifestRepository) (assignee : String)
    (users : List String) :
    r.isAssigneeLoop assignee users = .ok true ↔
      assignee ∉ users ∧ r.IssuesIsAssignee assignee = .ok true := by
  induction users with
  | nil => simp [ManifestRepository.isAssigneeLoop]
  | cons u rest ih =>
    unfold ManifestRepository.isAssigneeLoop
    by_cases h : assignee = u
    · simp [h]
    · rw [if_neg h, ih]
      simp [h]

theorem isAssignee_eq_true (r : ManifestRepository) (assignee : String) :
    r.isAssignee assignee = .ok true ↔
      assignee ≠ webFlowUser ∧ assignee ∉ r.noIssueUsers ∧
        r.IssuesIsAssignee assignee = .ok true := by
  unfold ManifestRepository.isAssignee
  by_cases h : assignee = webFlowUser
  · simp [h]
  · rw [if_neg h, isAssigneeLoop_eq_true]
    simp [h]

theorem isAssigneeLoop_answers (r : ManifestRepository) (assignee : String)
    (h : ∃ b, r.IssuesIsAssignee assignee = .ok b) (users : List String) :
    ∃ b, r.isAssigneeLoop assignee users = .ok b := by
  induction users with
  | nil => exact h
  | cons u rest ih =>
    unfold ManifestRepository.isAssigneeLoop
    by_cases hu : assignee = u
    · exact ⟨false, by rw [if_pos hu]⟩
    · rw [if_neg hu]
      exact ih

theorem isAssignee_answers (r : ManifestRepository) (assignee : String)
    (h : ∃ b, r.IssuesIsAssignee assignee = .ok b) : ∃ b, r.isAssignee assignee = .ok b := by
  unfold ManifestRepository.isAssignee
  by_cases hw : assignee = webFlowUser
  · exact ⟨false, by rw [if_pos hw]⟩
  · rw [if_neg hw]
    exact isAssigneeLoop_answers r assignee h _

theorem assigneeMapLoop_keys (sourceCommits : List Commit) (m : GoMap Bool)
    (hm : (m.map Prod.fst).Nodup) :
    ((assigneeMapLoop m sourceCommits).map Prod.fst).Nodup ∧
    ∀ a, a ∈ (assigneeMapLoop m sourceCommits).map Prod.fst ↔
      a ∈ m.map Prod.fst ∨ ∃ c ∈ sourceCommits, a = c.AuthorLogin ∨ a = c.CommitterLogin := by
  induction sourceCommits generalizing m with
  | nil => simp [assigneeMapLoop, hm]
  | cons sc rest ih =>
    obtain ⟨h1, h2⟩ := ih ((m.set sc.AuthorLogin true).set sc.CommitterLogin true)
      (GoMap.keys_set_nodup _ _ _ (GoMap.keys_set_nodup _ _ _ hm))
    refine ⟨h1, fun a => ?_⟩
    unfold assigneeMapLoop
    rw [h2 a, GoMap.mem_keys_set, GoMap.mem_keys_set]
    simp only [List.mem_cons, exists_eq_or_imp]
    generalize (∃ c ∈ rest, a = c.AuthorLogin ∨ a = c.CommitterLogin) = P
    tauto

/-- The result of the second loop: the accepted keys in the order of the visit, up to the
cap. -/
theorem assigneesLoop_eq (r : ManifestRepository) (keys assignees l : List String)
    (hlen : assignees.length ≤ maxAssignees)
    (h : r.assigneesLoop assignees keys = .ok l) :
    l = assignees ++
      (keys.filter (fun a => decide (r.isAssignee a = .ok true))).take
        (maxAssignees - assignees.length) := by
  induction keys generalizing assignees with
  | nil =>
    simp only [ManifestRepository.assigneesLoop] at h
    simp [(Except.ok.inj h).symm]
  | cons a rest ih =>
    unfold ManifestRepository.assigneesLoop at h
    cases ha : r.isAssignee a with
    | error e => simp [ha] at h
    | ok b =>
      rw [ha] at h
      cases b with
      | false =>
        simp only [Bool.false_eq_true, if_false] at h
        rw [ih assignees hlen h]
        simp [ha]
      | true =>
        simp only [if_true] at h
        by_cases hcap : assignees.length = maxAssignees
        · rw [if_pos hcap] at h
          rw [← Except.ok.inj h, hcap]
          simp
        · rw [if_neg hcap] at h
          have hlt : assignees.length < maxAssignees := lt_of_le_of_ne hlen hcap
          rw [ih (assignees ++ [a]) (by simpa using hlt) h]
          have hsub : maxAssignees - assignees.length =
              (maxAssignees - (assignees ++ [a]).length) + 1 := by
            simp only [List.length_append, List.length_singleton]
            omega
          rw [hsub]
          simp [ha]

theorem assigneesLoop_answers (r : ManifestRepository) (keys assignees : List String)
    (h : ∀ a ∈ keys, ∃ b, r.isAssignee a = .ok b) :
    ∃ l, r.assigneesLoop assignees keys = .ok l := by
  induction keys generalizing assignees with
  | nil => exact ⟨assignees, rfl⟩
  | cons a rest ih =>
    obtain ⟨b, hb⟩ := h a (List.mem_cons_self _ _)
    have hrest : ∀ x ∈ rest, ∃ b, r.isAssignee x = .ok b :=
      fun x hx => h x (List.mem_cons_of_mem _ hx)
    unfold ManifestRepository.assigneesLoop
    rw [hb]
    cases b with
    | false => simpa using ih assignees hrest
    | true =>
      simp only [if_true]
      by_cases hcap : assignees.length = maxAssignees
      · exact ⟨assignees, by rw [if_pos hcap]⟩
      · rw [if_neg hcap]
        exact ih _ hrest

theorem getPullRequestAssignees_answers (r : ManifestRepository)
    (h : ∀ a, ∃ b, r.IssuesIsAssignee a = .ok b) (sourceCommits : List Commit) :
    ∃ assignees, r.GetPullRequestAssignees sourceCommits = .ok assignees := by
  obtain ⟨l, hl⟩ := assigneesLoop_answers r
    (r.rangeOrder ((assigneeMapLoop [] sourceCommits).map Prod.fst)) []
    (fun a _ => isAssignee_answers r a (h a))
  exact ⟨sortStrings l, by simp only [ManifestRepository.GetPullRequestAssignees, hl]⟩

/-- C21: when the hosted check answers for every login, `GetPullRequestAssignees` returns a
list; and whatever list it returns, for every list of source commits, every `noIssueUsers`
and every order of the `range` over the map, is duplicate-free, in ascending order and of at
most 10 logins, each of which is the author or committer login of a source commit, was
accepted by the hosted check, is not `web-flow` and is not among the `noIssueUsers`; and when
at most 10 logins satisfy these conditions, the list holds all of them. -/
theorem getPullRequestAssignees_spec (r : ManifestRepository)
    (hrange : ∀ l, (r.rangeOrder l).Perm l) (sourceCommits : List Commit) :
    ((∀ a, ∃ b, r.IssuesIsAssignee a = .ok b) →
      ∃ assignees, r.GetPullRequestAssignees sourceCommits = .ok assignees) ∧
    ∀ assignees, r.GetPullRequestAssignees sourceCommits = .ok assignees →
      assignees.Nodup ∧ assignees.Sorted (fun a b => a < b) ∧ assignees.length ≤ 10 ∧
      (∀ a ∈ assignees,
        (∃ c ∈ sourceCommits, a = c.AuthorLogin ∨ a = c.CommitterLogin) ∧
        r.IssuesIsAssignee a = .ok true ∧ a ≠ "web-flow" ∧ a ∉ r.noIssueUsers) ∧
      ((∀ L : List String, L.Nodup →
          (∀ a ∈ L, (∃ c ∈ sourceCommits, a = c.AuthorLogin ∨ a = c.CommitterLogin) ∧
            r.IssuesIsAssignee a = .ok true ∧ a ≠ "web-flow" ∧ a ∉ r.noIssueUsers) →
          L.length ≤ 10) →
        ∀ a, (∃ c ∈ sourceCommits, a = c.AuthorLogin ∨ a = c.CommitterLogin) →
          r.IssuesIsAssignee a = .ok true → a ≠ "web-flow" → a ∉ r.noIssueUsers →
          a ∈ assignees) := by
  obtain ⟨hnd, hmem⟩ := assigneeMapLoop_keys sourceCommits [] List.nodup_nil
  have hperm := hrange ((assigneeMapLoop [] sourceCommits).map Prod.fst)
  have hkeys : ∀ a, a ∈ r.rangeOrder ((assigneeMapLoop [] sourceCommits).map Prod.fst) ↔
      ∃ c ∈ sourceCommits, a = c.AuthorLogin ∨ a = c.CommitterLogin := by
    intro a
    rw [hperm.mem_iff, hmem a]
    simp
  have hkeysnd := hperm.nodup_iff.2 hnd
  constructor
  · intro hanswers
    exact getPullRequestAssignees_answers r hanswers sourceCommits
  · intro assignees h
    unfold ManifestRepository.GetPullRequestAssignees at h
    simp only at h
    cases hl : r.assigneesLoop []
        (r.rangeOrder ((assigneeMapLoop [] sourceCommits).map Prod.fst)) with
    | error e => simp [hl] at h
    | ok l =>
      rw [hl] at h
      have hres : assignees = sortStrings l := (Except.ok.inj h).symm
      have hleq := assigneesLoop_eq r _ [] l (by simp) hl
      simp only [List.nil_append, List.length_nil, Nat.sub_zero, maxAssignees] at hleq
      have hsub : l.Sublist ((r.rangeOrder ((assigneeMapLoop [] sourceCommits).map
          Prod.fst)).filter (fun a => decide (r.isAssignee a = .ok true))) := by
        rw [hleq]
        exact List.take_sublist _ _
      have hlnd : l.Nodup := (hkeysnd.sublist (List.filter_sublist _)).sublist hsub
      have hlmem : ∀ a ∈ l, (∃ c ∈ sourceCommits, a = c.AuthorLogin ∨ a = c.CommitterLogin) ∧
          r.IssuesIsAssignee a = .ok true ∧ a ≠ "web-flow" ∧ a ∉ r.noIssueUsers := by
        intro a ha
        have h1 := List.mem_filter.1 (hsub.subset ha)
        have h2 := (isAssignee_eq_true r a).1 (of_decide_eq_true h1.2)
        exact ⟨(hkeys a).1 h1.1, h2.2.2, h2.1, h2.2.1⟩
      rw [hres]
      refine ⟨(sortStrings_perm l).nodup_iff.2 hlnd, sortStrings_sorted_lt l hlnd, ?_, ?_, ?_⟩
      · rw [sortStrings_length, hleq, List.length_take]
        exact min_le_left _ _
      · intro a ha
        exact hlmem a ((sortStrings_mem l a).1 ha)
      · intro hfew a hc hok hweb hno
        rw [sortStrings_mem, hleq]
        have hfilter : ((r.rangeOrder ((assigneeMapLoop [] sourceCommits).map
            Prod.fst)).filter (fun a => decide (r.isAssignee a = .ok true))).length ≤ 10 := by
          apply hfew _ (hkeysnd.sublist (List.filter_sublist _))
          intro x hx
          have h1 := List.mem_filter.1 hx
          have h2 := (isAssignee_eq_true r x).1 (of_decide_eq_true h1.2)
          exact ⟨(hkeys x).1 h1.1, h2.2.2, h2.1, h2.2.1⟩
        rw [List.take_of_length_le hfilter, List.mem_filter]
        exact ⟨(hkeys a).2 hc,
          decide_eq_true ((isAssignee_eq_true r a).2 ⟨hweb, hno, hok⟩)⟩

/-- C21 on the example repository: the result is `user1`, `user2`. -/
theorem getPullRequestAssignees_spec_witness :
    (exampleManifestRepository.GetPullRequestAssignees exampleSourceCommits = .ok
      ["user1", "user2"]) ∧
    ["user1", "user2"].Nodup ∧ ["user1", "user2"].Sorted (fun a b => a < b) ∧
    ["user1", "user2"].length ≤ 10 ∧
    (∀ a ∈ ["user1", "user2"],
      (∃ c ∈ exampleSourceCommits, a = c.AuthorLogin ∨ a = c.CommitterLogin) ∧
      exampleManifestRepository.IssuesIsAssignee a = .ok true ∧ a ≠ "web-flow" ∧
      a ∉ exampleManifestRepository.noIssueUsers) :=
  ⟨by decide,
   ((getPullRequestAssignees_spec exampleManifestRepository (fun l => List.reverse_perm l)
      exampleSourceCommits).2 ["user1", "user2"] (by decide)).1,
   ((getPullRequestAssignees_spec exampleManifestRepository (fun l => List.reverse_perm l)
      exampleSourceCommits).2 ["user1", "user2"] (by decide)).2.1,
   ((getPullRequestAssignees_spec exampleManifestRepository (fun l => List.reverse_perm l)
      exampleSourceCommits).2 ["user1", "user2"] (by decide)).2.2.1,
   ((getPullRequestAssignees_spec exampleManifestRepository (fun l => List.reverse_perm l)
      exampleSourceCommits).2 ["user1", "user2"] (by decide)).2.2.2.1⟩

end github

/-! ## What the trailer pattern can capture -/

namespace regexp

theorem matchK_literal_some {α : Type} (m s : List Char) (caps : Captures)
    (k : List Char → Captures → Option α) (r : α) (h : (literal m).matchK s caps k = some r) :
    ∃ t, s = m ++ t ∧ k t caps = some r := by
  by_cases hp : m <+: s
  · obtain ⟨t, ht⟩ := hp
    rw [← ht, matchK_literal] at h
    exact ⟨t, ht.symm, h⟩
  · rw [matchK_literal_none m s caps k hp] at h
    cases h

/-- A greedy `*` over a character class consumes characters of the class only. -/
theorem starLoop_cls_some {α : Type} (p : Char → Bool) (n : Nat) (s : List Char)
    (caps : Captures) (k : List Char → Captures → Option α) (r : α)
    (h : starLoop (fun s₁ caps₁ k₁ => (Regex.cls p).matchK s₁ caps₁ k₁) n s caps k = some r) :
    ∃ u v, s = u ++ v ∧ (∀ ch ∈ u, p ch = true) ∧ k v caps = some r := by
  induction n generalizing s with
  | zero => exact ⟨[], s, rfl, by simp, h⟩
  | succ n ih =>
    cases s with
    | nil =>
      rw [starLoop_cls_nil] at h
      exact ⟨[], [], rfl, by simp, h⟩
    | cons x t =>
      rw [starLoop_cls] at h
      by_cases hp : p x = true
      · rw [if_pos hp] at h
        cases hs : starLoop (fun s₁ caps₁ k₁ => (Regex.cls p).matchK s₁ caps₁ k₁) n t caps k with
        | some r₁ =>
          rw [hs] at h
          have hr : r₁ = r := Option.some.inj h
          rw [hr] at hs
          obtain ⟨u, v, h1, h2, h3⟩ := ih t hs
          refine ⟨x :: u, v, by rw [h1]; rfl, ?_, h3⟩
          intro ch hch
          rcases List.mem_cons.1 hch with h4 | h4
          · rw [h4]; exact hp
          · exact h2 ch h4
        | none =>
          rw [hs] at h
          exact ⟨[], x :: t, rfl, by simp, h⟩
      · rw [if_neg hp] at h
        exact ⟨[], x :: t, rfl, by simp, h⟩

/-- A capturing group around a greedy `*` over a character class captures characters of the
class only. -/
theorem matchK_group_star_cls_some {α : Type} (i : Nat) (p : Char → Bool) (s : List Char)
    (caps : Captures) (k : List Char → Captures → Option α) (r : α)
    (h : (Regex.group i (.star (.cls p))).matchK s caps k = some r) :
    ∃ u v, s = u ++ v ∧ (∀ ch ∈ u, p ch = true) ∧ k v (caps.set i u) = some r := by
  simp only [Regex.matchK] at h
  obtain ⟨u, v, h1, h2, h3⟩ := starLoop_cls_some p _ s caps _ r h
  refine ⟨u, v, h1, h2, ?_⟩
  have ht : s.take (s.length - v.length) = u := by
    rw [h1]
    simp only [List.length_append, Nat.add_sub_cancel]
    exact List.take_left' rfl
  rw [← ht]
  exact h3

/-- Every match that `FindAllStringSubmatch` reports is a match of the expression at some
position of the text. -/
theorem findAllLoop_mem (re : Regex) (fuel : Nat) (s : List Char) (caps : Captures)
    (h : caps ∈ findAllLoop re fuel s) :
    ∃ s₁ rest, re.matchK s₁ [] (fun rest caps => some (rest, caps)) = some (rest, caps) := by
  induction fuel generalizing s with
  | zero => simp [findAllLoop] at h
  | succ n ih =>
    cases hm : re.matchK s [] (fun rest caps => some (rest, caps)) with
    | none =>
      cases s with
      | nil =>
        rw [findAllLoop_nil re _ hm] at h
        simp at h
      | cons x t =>
        rw [findAllLoop_skip re n x t hm] at h
        exact ih t h
    | some r =>
      obtain ⟨rest, caps₁⟩ := r
      by_cases hlen : rest.length < s.length
      · rw [findAllLoop_match re n s rest caps₁ hm hlen] at h
        rcases List.mem_cons.1 h with h1 | h1
        · exact ⟨s, rest, by rw [hm, h1]⟩
        · exact ih rest h1
      · cases s with
        | nil =>
          have hstep : findAllLoop re (n + 1) [] = [caps₁] := by
            simp only [findAllLoop, hm, hlen, if_false]
          rw [hstep, List.mem_singleton] at h
          exact ⟨[], rest, by rw [hm, h]⟩
        | cons x t =>
          have hstep : findAllLoop re (n + 1) (x :: t) = caps₁ :: findAllLoop re n t := by
            simp only [findAllLoop, hm, hlen, if_false]
          rw [hstep] at h
          rcases List.mem_cons.1 h with h1 | h1
          · exact ⟨x :: t, rest, by rw [hm, h1]⟩
          · exact ih t h1

end regexp

namespace detect

open regexp

/-- What a match of the pattern of the code captures: a hash and an author login without line
feed, and a committer login without carriage return and line feed. -/
theorem matchK_sourceCommitRegex_some (s rest : List Char) (caps : Captures)
    (h : sourceCommitRegex.matchK s [] (fun rest caps => some (rest, caps)) =
      some (rest, caps)) :
    ∃ hash author committer : List Char,
      caps = [(1, hash), (2, author), (3, committer)] ∧
      (∀ ch ∈ hash, ch ≠ '\n') ∧ (∀ ch ∈ author, ch ≠ '\n') ∧
      (∀ ch ∈ committer, ch ≠ '\r' ∧ ch ≠ '\n') := by
  unfold sourceCommitRegex dot notLineEnd at h
  rw [matchK_seq] at h
  obtain ⟨t₁, _, h⟩ := matchK_literal_some _ _ _ _ _ h
  rw [matchK_seq] at h
  obtain ⟨hash, t₂, _, hhash, h⟩ := matchK_group_star_cls_some _ _ _ _ _ _ h
  rw [matchK_seq] at h
  obtain ⟨t₃, _, h⟩ := matchK_literal_some _ _ _ _ _ h
  rw [matchK_seq] at h
  obtain ⟨author, t₄, _, hauthor, h⟩ := matchK_group_star_cls_some _ _ _ _ _ _ h
  rw [matchK_seq] at h
  obtain ⟨t₅, _, h⟩ := matchK_literal_some _ _ _ _ _ h
  obtain ⟨committer, t₆, _, hcommitter, h⟩ := matchK_group_star_cls_some _ _ _ _ _ _ h
  refine ⟨hash, author, committer, ?_, ?_, ?_, ?_⟩
  · have h1 := (Prod.mk.inj (Option.some.inj h)).2
    rw [← h1]
    rfl
  · intro ch hch
    simpa using hhash ch hch
  · intro ch hch
    simpa using hauthor ch hch
  · intro ch hch
    simpa using hcommitter ch hch

/-- C27, as stated, fails: the pattern of the code is `Source-commit: (.*) A:(.*) C:([^\r\n]*)`,
so a trailer with empty fields, which the pattern of the specification does not match, is
emitted with an empty hash and empty logins, and a text with a blank is emitted as a hash. -/
theorem sourceCommits_with_empty_fields :
    sourceCommitsOfMessage "Source-commit:  A: C:" =
      [{ Hash := "", AuthorLogin := "", CommitterLogin := "" }] ∧
    FindAllStringSubmatch specSourceCommitRegex "Source-commit:  A: C:" = [] ∧
    sourceCommitsOfMessage "Source-commit: see above A:x C:y" =
      [{ Hash := "see above", AuthorLogin := "x", CommitterLogin := "y" }] := by
  set_option maxRecDepth 100000 in decide

/-- C27, amended: for every commit message, `GetSourceCommits` emits one tuple per match of
the pattern `Source-commit: (.*) A:(.*) C:([^\r\n]*)`, made of the three groups of the match,
so that every emitted hash and author login is free of line feeds and every emitted committer
login contains neither a carriage return nor a line feed. -/
theorem sourceCommits_fields (message : String) :
    sourceCommitsOfMessage message =
      (FindAllStringSubmatch sourceCommitRegex message).map (fun m =>
        { Hash := String.mk (m.get 1), AuthorLogin := String.mk (m.get 2),
          CommitterLogin := String.mk (m.get 3) }) ∧
    ∀ c ∈ sourceCommitsOfMessage message,
      '\n' ∉ c.Hash.toList ∧ '\n' ∉ c.AuthorLogin.toList ∧
      '\r' ∉ c.CommitterLogin.toList ∧ '\n' ∉ c.CommitterLogin.toList := by
  refine ⟨rfl, ?_⟩
  intro c hc
  unfold sourceCommitsOfMessage at hc
  obtain ⟨caps, hcaps, hc⟩ := List.mem_map.1 hc
  obtain ⟨s₁, rest, hm⟩ := findAllLoop_mem _ _ _ _ hcaps
  obtain ⟨hash, author, committer, h0, h1, h2, h3⟩ := matchK_sourceCommitRegex_some _ _ _ hm
  rw [← hc, h0]
  refine ⟨fun h => h1 _ h rfl, fun h => h2 _ h rfl, fun h => (h3 _ h).1 rfl,
    fun h => (h3 _ h).2 rfl⟩

/-- C27, amended, on a trailer whose hash holds a blank and whose line ends with a carriage
return and a line feed. -/
theorem sourceCommits_fields_witness :
    sourceCommitsOfMessage "Source-commit: see above A:x C:y\r\n" =
      [{ Hash := "see above", AuthorLogin := "x", CommitterLogin := "y" }] ∧
    ('\n' ∉ "see above".toList ∧ '\n' ∉ "x".toList ∧ '\r' ∉ "y".toList ∧ '\n' ∉ "y".toList) :=
  ⟨by set_option maxRecDepth 100000 in decide,
   (sourceCommits_fields "Source-commit: see above A:x C:y\r\n").2
     { Hash := "see above", AuthorLogin := "x", CommitterLogin := "y" }
     (by set_option maxRecDepth 100000 in decide)⟩

end detect

/-! ## The pull requests of a run -/

namespace promoter

open clusterconf

theorem raisePullRequest_count {σ : Type} (p : Engine σ) (branchName : String)
    (pr : github.PromotionPullRequest) (assignees : List String) (s : σ) (trace : List Effect) :
    (p.raisePullRequest branchName pr assignees s trace).2.2.countP Effect.isCreatePullRequest =
      trace.countP Effect.isCreatePullRequest + 1 := by
  unfold Engine.raisePullRequest
  rcases p.PullRequestsCreate s branchName pr with ⟨r₁, s₁⟩
  cases r₁ with
  | error e => simp [List.countP_append, Effect.isCreatePullRequest]
  | ok number =>
    simp only
    rcases p.AddLabelsToIssue s₁ number [github.prLabel] with ⟨r₂, s₂⟩
    cases r₂ with
    | error e => simp [List.countP_append, Effect.isCreatePullRequest]
    | ok u =>
      simp only
      rcases p.AddAssignees s₂ number assignees with ⟨r₃, s₃⟩
      cases r₃ <;> simp [List.countP_append, Effect.isCreatePullRequest]

theorem raisePromotion_count {σ : Type} (p : Engine σ) (branchName : String)
    (pr : github.PromotionPullRequest) (assignees : List String) (s : σ) (trace : List Effect) :
    (p.RaisePromotion branchName pr assignees s trace).2.2.countP Effect.isCreatePullRequest ≤
      trace.countP Effect.isCreatePullRequest + 1 := by
  rcases hpush : p.Push s branchName with ⟨r₁, s₁⟩
  cases r₁ with
  | error e =>
    simp [Engine.RaisePromotion, hpush, List.countP_append, Effect.isCreatePullRequest]
  | ok u =>
    have h := raisePullRequest_count p branchName pr assignees s₁ (trace ++ [.push branchName])
    rcases hr : p.raisePullRequest branchName pr assignees s₁ (trace ++ [.push branchName]) with
      ⟨r₂, s₂, trace₂⟩
    rw [hr] at h
    have h2 : trace₂.countP Effect.isCreatePullRequest =
        trace.countP Effect.isCreatePullRequest + 1 := by
      simpa [List.countP_append, Effect.isCreatePullRequest] using h
    cases r₂ <;> simp [Engine.RaisePromotion, hpush, hr, h2]

/-- The loop of `promote` opens at most one pull request per cluster group. -/
theorem promoteLoop_count {σ : Type} (p : Engine σ) (promotion : Promotion σ)
    (changes : List detect.WorkloadChange) (targetEnv : environment.Env)
    (groups : List Clusters) (s : σ) (trace : List Effect) :
    (p.promoteLoop promotion changes targetEnv groups s trace).2.2.countP
        Effect.isCreatePullRequest ≤
      trace.countP Effect.isCreatePullRequest + groups.length := by
  induction groups generalizing s trace with
  | nil => simp [Engine.promoteLoop]
  | cons clustersGroup rest ih =>
    have hbranch : (trace ++ [Effect.newPromoteBranch]).countP Effect.isCreatePullRequest =
        trace.countP Effect.isCreatePullRequest := by
      simp [List.countP_append, Effect.isCreatePullRequest]
    have hcommit : ∀ msg, (trace ++ [Effect.newPromoteBranch] ++
        [Effect.commit msg]).countP Effect.isCreatePullRequest =
        trace.countP Effect.isCreatePullRequest := by
      intro msg
      simp [List.countP_append, Effect.isCreatePullRequest]
    simp only [List.length_cons]
    rcases hb : p.NewPromoteBranch s with ⟨r₁, s₁⟩
    cases r₁ with
    | error e =>
      simp only [Engine.promoteLoop, hb, hbranch]
      omega
    | ok branchName =>
      rcases hp : performChanges p.promoter changes clustersGroup targetEnv s₁ with ⟨r₂, s₂⟩
      cases r₂ with
      | error e =>
        simp only [Engine.promoteLoop, hb, hp, hbranch]
        omega
      | ok results =>
        by_cases hres : results.length = 0
        · have h := ih s₂ (trace ++ [Effect.newPromoteBranch])
          rw [hbranch] at h
          simp only [Engine.promoteLoop, hb, hp, hres, if_true]
          omega
        · rcases ha : promotion.AfterChanges results clustersGroup s₂ with ⟨r₃, s₃⟩
          cases r₃ with
          | error e =>
            simp only [Engine.promoteLoop, hb, hp, hres, if_false, ha, hbranch]
            omega
          | ok u =>
            rcases hc : p.Commit s₃
              (p.prBuilder.Build results promotion.SourceCommits promotion.Kind).CommitMessage with
              ⟨r₄, s₄⟩
            cases r₄ with
            | error e =>
              simp only [Engine.promoteLoop, hb, hp, hres, if_false, ha, hc, hcommit]
              omega
            | ok u₄ =>
              have hraise := raisePromotion_count p branchName
                (p.prBuilder.Build results promotion.SourceCommits promotion.Kind)
                promotion.Assignes s₄
                (trace ++ [Effect.newPromoteBranch] ++ [Effect.commit
                  (p.prBuilder.Build results promotion.SourceCommits
                    promotion.Kind).CommitMessage])
              rw [hcommit] at hraise
              rcases hr : p.RaisePromotion branchName
                (p.prBuilder.Build results promotion.SourceCommits promotion.Kind)
                promotion.Assignes s₄
                (trace ++ [Effect.newPromoteBranch] ++ [Effect.commit
                  (p.prBuilder.Build results promotion.SourceCommits
                    promotion.Kind).CommitMessage]) with ⟨r₅, s₅, trace₅⟩
              rw [hr] at hraise
              simp only at hraise
              cases r₅ with
              | error e =>
                simp only [Engine.promoteLoop, hb, hp, hres, if_false, ha, hc, hr]
                omega
              | ok u₅ =>
                have h := ih s₅ trace₅
                simp only [Engine.promoteLoop, hb, hp, hres, if_false, ha, hc, hr]
                omega

theorem group_development (clusters : Clusters) :
    clusters.Group environment.Development = [clusters] := by
  simp [Clusters.Group]

/-- One promotion to development opens at most one pull request. -/
theorem promote_count_development {σ : Type} (p : Engine σ) (promotion : Promotion σ) (s : σ)
    (trace : List Effect) :
    (p.promote promotion environment.Development s trace).2.2.countP
        Effect.isCreatePullRequest ≤
      trace.countP Effect.isCreatePullRequest + 1 := by
  unfold Engine.promote
  cases promotion.Changes s with
  | error e => simp
  | ok r =>
    obtain ⟨changes, clusters⟩ := r
    simp only
    by_cases hlen : clusters.length = 0
    · simp [hlen]
    · rw [if_neg hlen, group_development]
      exact promoteLoop_count p promotion changes environment.Development [clusters] s trace

/-- C25, as stated, fails: the run of `Test_PromotionOfNewDevClusterWithManualManifestsChanges`,
with a changed source manifest of `bar`, three existing development clusters and the new
cluster `dev1`, returns without error and opens two pull requests, one for the existing
clusters and one for the new cluster. -/
theorem promote_development_two_pull_requests :
    (exampleDevEngine.Promote "development" []).1 = .ok () ∧
    (exampleDevEngine.Promote "development" []).2.2.countP Effect.isCreatePullRequest = 2 ∧
    (exampleDevEngine.Promote "development" []).2.2.filter Effect.isCreatePullRequest =
      [.createPullRequest "k8s-promoter-1"
          { Title := "Promote bar to development", Description := "update",
            CommitMessage := "Promote bar to development" },
       .createPullRequest "k8s-promoter-2"
          { Title := "Promote bar to development", Description := "new",
            CommitMessage := "Promote bar to development" }] := by
  decide

/-- C25, amended: a run of `Promoter.Promote` with target environment development opens at
most two pull requests, whatever the commit range and the cluster configuration are: each of
its two promotions, that of the changed manifests to the existing clusters and that of all
workloads to the new clusters, opens at most one. -/
theorem promote_development_pull_requests {σ : Type} (p : Engine σ) (s : σ) :
    (∀ (promotion : Promotion σ) (s₁ : σ) (trace : List Effect),
      (p.promote promotion environment.Development s₁ trace).2.2.countP
          Effect.isCreatePullRequest ≤
        trace.countP Effect.isCreatePullRequest + 1) ∧
    (p.Promote "development" s).2.2.countP Effect.isCreatePullRequest ≤ 2 := by
  refine ⟨promote_count_development p, ?_⟩
  have hv : environment.Validate "development" = .ok () := by decide
  cases hpm : promotion.NewPromotionManifestUpdate "development" p.manifestRepo p.detect
      p.promoter.clusters with
  | error e => simp [Engine.Promote, hv, hpm]
  | ok pm =>
    have h1 := promote_count_development p (manifestUpdatePromotion pm) s []
    rcases hp₁ : p.promote (manifestUpdatePromotion pm) environment.Development s [] with
      ⟨r₁, s₁, trace₁⟩
    rw [hp₁] at h1
    simp only [List.countP_nil, Nat.zero_add] at h1
    have hp₁' : p.promote (manifestUpdatePromotion pm) "development" s [] = (r₁, s₁, trace₁) :=
      hp₁
    cases r₁ with
    | error e =>
      simp only [Engine.Promote, hv, hpm, hp₁']
      omega
    | ok u₁ =>
      have h2 := promote_count_development p
        (newClusterPromotion
          { env := "development", clusters := p.promoter.clusters,
            kind := promotion.NewCluster, assignees := [], sourceCommits := [],
            detect := p.detect, WorkingTreeFS := p.promoter.WorkingTreeFS,
            ConfigKustWrite := p.ConfigKustWrite }) s₁ trace₁
      rcases hp₂ : p.promote
        (newClusterPromotion
          { env := "development", clusters := p.promoter.clusters,
            kind := promotion.NewCluster, assignees := [], sourceCommits := [],
            detect := p.detect, WorkingTreeFS := p.promoter.WorkingTreeFS,
            ConfigKustWrite := p.ConfigKustWrite }) environment.Development s₁ trace₁ with
        ⟨r₂, s₂, trace₂⟩
      rw [hp₂] at h2
      simp only at h2
      have hp₂' : p.promote
        (newClusterPromotion
          { env := "development", clusters := p.promoter.clusters,
            kind := promotion.NewCluster, assignees := [], sourceCommits := [],
            detect := p.detect, WorkingTreeFS := p.promoter.WorkingTreeFS,
            ConfigKustWrite := p.ConfigKustWrite }) "development" s₁ trace₁ =
          (r₂, s₂, trace₂) := hp₂
      cases r₂ with
      | error e =>
        simp only [Engine.Promote, hv, hpm, hp₁', promotion.NewPromotionToNewCluster, hp₂']
        omega
      | ok u₂ =>
        simp only [Engine.Promote, hv, hpm, hp₁', promotion.NewPromotionToNewCluster, hp₂']
        omega

end promoter

/-! ## A run on an empty commit range without new clusters -/

namespace detect

theorem sortSort_nil (sortSort : List WorkloadChange → List WorkloadChange)
    (hsort : IsSortSort sortSort) : sortSort [] = [] :=
  List.perm_nil.1 (hsort.perm [])

/-- On a range whose two ends resolve to one commit, the detector reports `ErrNoChange`. -/
theorem workloadChange_empty_range {σ : Type} (d : Detect σ) (h c t : Nat)
    (hsort : IsSortSort d.sortSort)
    (hfrom : d.Repo.ResolveRevision d.CR.FromPrefix = .ok h)
    (hto : d.Repo.ResolveRevision d.CR.ToPrefix = .ok h)
    (hcommit : d.Repo.CommitObject h = .ok c) (htree : d.Repo.CommitTree c = .ok t)
    (hdiff : d.TreeDiff t t = .ok []) :
    d.WorkloadChange = .error .noChange := by
  have h1 : tree d.Repo h = .ok t := by simp only [tree, hcommit, htree]
  have h2 : d.diffTree h h = .ok [] := by simp only [Detect.diffTree, h1, hdiff]
  have h3 : processDiffs d.sortSort d.Inferer [] = .ok [] := by
    simp only [processDiffs, processDiffsLoop, Distinct, distinctLoop, sortSort_nil _ hsort]
  simp only [Detect.WorkloadChange, hfrom, hto, h2, h3, List.length_nil, if_true]

theorem getSourceCommits_answers {σ : Type} (d : Detect σ) (h c : Nat)
    (hfrom : d.Repo.ResolveRevision d.CR.FromPrefix = .ok h)
    (hto : d.Repo.ResolveRevision d.CR.ToPrefix = .ok h)
    (hcommit : d.Repo.CommitObject h = .ok c)
    (hiter : ∃ messages, d.FilterCommitIter c c = .ok messages) :
    ∃ sourceCommits, d.GetSourceCommits = .ok sourceCommits := by
  obtain ⟨messages, hm⟩ := hiter
  exact ⟨messages.flatMap sourceCommitsOfMessage,
    by simp only [Detect.GetSourceCommits, hfrom, hto, hcommit, hm]⟩

end detect

namespace promoter

open clusterconf

theorem changesFromPreviousEnvLoop_nil (manifestSource : environment.Env)
    (selected : List detect.WorkloadChange) :
    promotion.changesFromPreviousEnvLoop manifestSource selected [] = selected := rfl

/-- C26: when the two ends of the commit range resolve to one commit, whose tree can be read
and has no difference to itself, and no cluster of the target environment is new,
`Promoter.Promote` leaves the worktree state as it was and makes no call on the repository or
the hosting service: no promotion branch, no write, no commit, no push, no pull request, in
either phase. It returns without error when the target environment is valid and the reads
that precede the two phases succeed: the list of the commits of the range (from GitHub for
development, from the commit messages otherwise) and the hosted checks of the assignees. -/
theorem promote_empty_range {σ : Type} (p : Engine σ) (env : String) (s : σ) (h c t : Nat)
    (hsort : detect.IsSortSort p.detect.sortSort)
    (hfrom : p.detect.Repo.ResolveRevision p.detect.CR.FromPrefix = .ok h)
    (hto : p.detect.Repo.ResolveRevision p.detect.CR.ToPrefix = .ok h)
    (hcommit : p.detect.Repo.CommitObject h = .ok c)
    (htree : p.detect.Repo.CommitTree c = .ok t)
    (hdiff : p.detect.TreeDiff t t = .ok [])
    (hnew : p.promoter.clusters.New = []) :
    (p.Promote env s).2 = (s, []) ∧
    (env = "development" ∨ env = "test" ∨ env = "production" →
      (env = "development" →
        ∃ commits, p.manifestRepo.CompareCommits p.detect.CR.FromPrefix
          p.detect.CR.ToPrefix = .ok commits) →
      (env ≠ "development" → ∃ messages, p.detect.FilterCommitIter c c = .ok messages) →
      (∀ login, ∃ b, p.manifestRepo.IssuesIsAssignee login = .ok b) →
      (p.Promote env s).1 = .ok ()) := by
  have hwc := detect.workloadChange_empty_range p.detect h c t hsort hfrom hto hcommit htree hdiff
  have key : ∀ pm, promotion.NewPromotionManifestUpdate env p.manifestRepo p.detect
      p.promoter.clusters = .ok pm → environment.Validate env = .ok () →
      p.Promote env s = (.ok (), s, []) := by
    intro pm hpm hv
    have hsrc : ∃ src, environment.ManifestSource env = some src := by
      unfold environment.Validate at hv
      by_cases hval : env ≠ environment.Development ∧ env ≠ environment.Test ∧
          env ≠ environment.Production
      · rw [if_pos hval] at hv
        cases hv
      · have h3 : env = environment.Development ∨ env = environment.Test ∨
            env = environment.Production := by
          by_contra hcon
          push_neg at hcon
          exact hval hcon
        rcases h3 with h3 | h3 | h3
        · exact ⟨environment.SourceManifest, by rw [h3]; decide⟩
        · exact ⟨environment.Development, by rw [h3]; decide⟩
        · exact ⟨environment.Test, by rw [h3]; decide⟩
    obtain ⟨src, hsrc⟩ := hsrc
    have hpmenv : pm.env = env ∧ pm.detect = p.detect := by
      unfold promotion.NewPromotionManifestUpdate at hpm
      simp only at hpm
      split at hpm
      · cases hpm
      · split at hpm
        · cases hpm
        · cases hpm
          exact ⟨rfl, rfl⟩
    have hchanges : pm.Changes = .ok ([], []) := by
      simp only [promotion.PromotionManifestUpdate.Changes, hpmenv.2, hwc,
        promotion.PromotionManifestUpdate.changesFromPreviousEnv, hpmenv.1, hsrc,
        changesFromPreviousEnvLoop_nil, List.length_nil, if_true]
    have hp₁ : p.promote (manifestUpdatePromotion pm) env s [] = (.ok (), s, []) := by
      simp only [Engine.promote, manifestUpdatePromotion, hchanges, List.length_nil, if_true]
    have hp₂ : ∀ pn, promotion.NewPromotionToNewCluster env p.promoter.WorkingTreeFS
        p.ConfigKustWrite p.detect p.promoter.clusters = .ok pn →
        p.promote (newClusterPromotion pn) env s [] = (.ok (), s, []) := by
      intro pn hpn
      have hc : pn.clusters = p.promoter.clusters := by
        unfold promotion.NewPromotionToNewCluster at hpn
        cases hpn
        rfl
      simp only [Engine.promote, newClusterPromotion, promotion.PromotionToNewCluster.Changes,
        hc, hnew, List.length_nil, if_true]
    simp only [Engine.Promote, hv, hpm, hp₁]
    simp only [promotion.NewPromotionToNewCluster] at hp₂ ⊢
    rw [hp₂ _ rfl]
  constructor
  · cases hv : environment.Validate env with
    | error e => simp only [Engine.Promote, hv]
    | ok u =>
      cases hpm : promotion.NewPromotionManifestUpdate env p.manifestRepo p.detect
          p.promoter.clusters with
      | error e => simp only [Engine.Promote, hv, hpm]
      | ok pm => rw [key pm hpm hv]
  · intro henv hcompare hiter hcheck
    have hv : environment.Validate env = .ok () := by
      rcases henv with h3 | h3 | h3 <;> rw [h3] <;> decide
    have hreads : ∃ pm, promotion.NewPromotionManifestUpdate env p.manifestRepo p.detect
        p.promoter.clusters = .ok pm := by
      have hcommits : ∃ sourceCommits,
          (if env = environment.Development then
            p.manifestRepo.GetCommits p.detect.CR.FromPrefix p.detect.CR.ToPrefix
          else p.detect.GetSourceCommits) = .ok sourceCommits := by
        by_cases hdev : env = environment.Development
        · obtain ⟨commits, hcm⟩ := hcompare hdev
          rw [if_pos hdev]
          exact ⟨commits, by simp only [github.ManifestRepository.GetCommits, hcm]⟩
        · rw [if_neg hdev]
          exact detect.getSourceCommits_answers p.detect h c hfrom hto hcommit (hiter hdev)
      obtain ⟨sourceCommits, hsc⟩ := hcommits
      obtain ⟨assignees, has⟩ :=
        github.getPullRequestAssignees_answers p.manifestRepo hcheck sourceCommits
      exact ⟨{ env := env, kind := promotion.ManifestUpdate, sourceCommits := sourceCommits,
               assignees := assignees, clusters := p.promoter.clusters, detect := p.detect },
        by simp only [promotion.NewPromotionManifestUpdate, hsc, has]⟩
    obtain ⟨pm, hpm⟩ := hreads
    rw [key pm hpm hv]

/-- C26 on the engine of the examples, for the range `to...to` and no new cluster. -/
theorem promote_empty_range_witness :
    (exampleIdleEngine.Promote "development" []).2 = ([], []) ∧
    (exampleIdleEngine.Promote "development" []).1 = .ok () :=
  ⟨(promote_empty_range exampleIdleEngine "development" [] 2 2 2
      detect.insertionSort_isSortSort (by decide) (by decide) (by decide) (by decide)
      (by decide) rfl).1,
   (promote_empty_range exampleIdleEngine "development" [] 2 2 2
      detect.insertionSort_isSortSort (by decide) (by decide) (by decide) (by decide)
      (by decide) rfl).2 (Or.inl rfl) (fun _ => ⟨[], by decide⟩)
      (fun hne => absurd rfl hne) (fun login => ⟨login != "stranger", rfl⟩)⟩

end promoter

end K8sPromoter
